import Mathlib

/-!
# ObjectAllocator: a fixed-size object allocator

A shallow embedding of `ObjectAllocator.cpp` (pages carved into blocks, an
intrusive free list threaded through the object regions, pad bytes and block
headers) over a byte-addressed memory, followed by the proofs of its
properties.

Conventions of the embedding:

* addresses are natural numbers, `0` is `nullptr`, a pointer occupies
  `pointer_size = 8` bytes, stored little-endian;
* `unsigned` values wrap modulo `2^32`, `size_t` values modulo `2^64`;
* the host's `operator new` is an input of each call (`HostAlloc`): the
  address it hands out, or `none` for `std::bad_alloc`;
* a member function returns a `Result`: normal return, a thrown exception
  (both with the allocator as it is at that point), or `undefined` for a null
  dereference, a division by zero or a list walk that never ends.
-/

namespace OA

/-! ## Memory -/

/-- Byte-addressed process memory: the byte stored at each address. -/
abbrev Memory := Nat → Nat

/-- The C library's `memset(ptr, value, num)`. -/
def memset (m : Memory) (ptr value num : Nat) : Memory :=
  fun x => if ptr ≤ x ∧ x < ptr + num then value % 256 else m x

/-- Read an `n`-byte little-endian unsigned value at address `a`. -/
def readLE (m : Memory) : Nat → Nat → Nat
  | _, 0 => 0
  | a, n + 1 => m a % 256 + 256 * readLE m (a + 1) n

/-- Store `v` as an `n`-byte little-endian value at address `a`. -/
def writeLE (m : Memory) (a n v : Nat) : Memory :=
  fun x => if a ≤ x ∧ x < a + n then (v / 256 ^ (x - a)) % 256 else m x

/-- The platform's `sizeof(void*)`, also `sizeof(GenericObject*)`. -/
def pointer_size : Nat := 8

/-- Load a pointer, e.g. `reinterpret_cast<GenericObject*>(a)->Next`: `Next`
is the only member of `GenericObject`, at offset 0. -/
def readPtr (m : Memory) (a : Nat) : Nat := readLE m a pointer_size

/-- Store a pointer, e.g. `reinterpret_cast<GenericObject*>(a)->Next = v`. -/
def writePtr (m : Memory) (a v : Nat) : Memory := writeLE m a pointer_size v

/-- Increment of an `unsigned` value. -/
def incU32 (x : Nat) : Nat := (x + 1) % 4294967296

/-- Subtraction of `unsigned` values: it wraps around below zero. -/
def subU32 (x y : Nat) : Nat :=
  if y ≤ x then (x - y) % 4294967296 else (x + 4294967296 - y) % 4294967296

/-- Decrement of an `unsigned` value. -/
def decU32 (x : Nat) : Nat := subU32 x 1

/-- Number of steps after which a walk along a pointer chain is known to be in
a cycle: a null-terminated chain of distinct 64-bit addresses has fewer nodes
than this, so the C++ loop that has not finished by then never does. -/
def walkFuel : Nat := 2 ^ 64

/-! ## Declarations of `ObjectAllocator.h` -/

/-- Modelled from the spec: the sentinel byte constants are declared in
`ObjectAllocator.h`, which is not among the sources; the spec asks only for
pairwise distinct byte values. Object region never handed out. -/
def UNALLOCATED_PATTERN : Nat := 0xAA

/-- Modelled from the spec: sentinel of an object region handed to the client
(see `UNALLOCATED_PATTERN`). -/
def ALLOCATED_PATTERN : Nat := 0xBB

/-- Modelled from the spec: sentinel of an object region returned by the
client (see `UNALLOCATED_PATTERN`). -/
def FREED_PATTERN : Nat := 0xCC

/-- Modelled from the spec: sentinel of the pad bytes on both sides of an
object (see `UNALLOCATED_PATTERN`). -/
def PAD_PATTERN : Nat := 0xDD

/-- Modelled from the spec: sentinel of the alignment gaps (see
`UNALLOCATED_PATTERN`). -/
def ALIGN_PATTERN : Nat := 0xEE

/-- The header kinds `OAConfig::HBLOCK_TYPE`. -/
inductive HBLOCK_TYPE where
  | hbNone
  | hbBasic
  | hbExtended
  | hbExternal
  deriving DecidableEq, Repr

/-- The member `OAConfig::HBlockInfo_`: header kind, header size in bytes and
the size of the caller's prefix of an extended header. -/
structure HeaderBlockInfo where
  type_ : HBLOCK_TYPE
  size_ : Nat
  additional_ : Nat
  deriving DecidableEq, Repr

/-- The configuration `OAConfig`, with the members the allocator uses. -/
structure OAConfig where
  UseCPPMemManager_ : Bool
  ObjectsPerPage_ : Nat
  MaxPages_ : Nat
  DebugOn_ : Bool
  PadBytes_ : Nat
  HBlockInfo_ : HeaderBlockInfo
  Alignment_ : Nat
  LeftAlignSize_ : Nat
  InterAlignSize_ : Nat
  deriving DecidableEq, Repr

/-- The statistics `OAStats`: two `size_t` sizes and six `unsigned` counters. -/
structure OAStats where
  ObjectSize_ : Nat
  PageSize_ : Nat
  FreeObjects_ : Nat
  ObjectsInUse_ : Nat
  PagesInUse_ : Nat
  MostObjects_ : Nat
  Allocations_ : Nat
  Deallocations_ : Nat
  deriving DecidableEq, Repr

/-- The side record `MemBlockInfo` of an external header. -/
structure MemBlockInfo where
  in_use : Bool
  alloc_num : Nat
  label : Option String
  deriving DecidableEq, Repr

/-- Modelled from the spec: the constructor of `HeaderBlockInfo` is in
`ObjectAllocator.h`, which is not among the sources. Header sizes of the spec's
table: basic is a 4-byte allocation number and a 1-byte flag, extended adds the
caller's prefix and a 2-byte use counter, external is one pointer. -/
def HeaderBlockInfo.ofType (type : HBLOCK_TYPE) (additional : Nat) : HeaderBlockInfo :=
  match type with
  | .hbNone => ⟨.hbNone, 0, additional⟩
  | .hbBasic => ⟨.hbBasic, 5, additional⟩
  | .hbExtended => ⟨.hbExtended, 7 + additional, additional⟩
  | .hbExternal => ⟨.hbExternal, 8, additional⟩

/-- The error codes of `OAException` used by the allocator. -/
inductive OAException where
  | E_NO_MEMORY
  | E_NO_PAGES
  | E_BAD_BOUNDARY
  | E_MULTIPLE_FREE
  | E_CORRUPTED_BLOCK
  deriving DecidableEq, Repr

/-- What a member function can throw: an `OAException`, or the host's
`std::bad_alloc` where the code does not catch it. -/
inductive Thrown where
  | oa (code : OAException)
  | bad_alloc
  deriving DecidableEq, Repr

/-- Answers of the host's `operator new` during one call: `storage` for raw
bytes (a page, or the object itself in bypass mode), `info` for a
`MemBlockInfo` record (the address, `none` when the host is out of memory),
`label` for the copy of the label (whether it succeeds). -/
structure HostAlloc where
  storage : Option Nat
  info : Option Nat
  label : Bool
  deriving DecidableEq, Repr

/-! ## The allocator -/

/-- The data members of `ObjectAllocator` together with the memory they point
into: `mem` holds the pages, `infos` the live `MemBlockInfo` records on the
host heap, by address. -/
structure ObjectAllocator where
  PageList_ : Nat
  FreeList_ : Nat
  Config_ : OAConfig
  Stats_ : OAStats
  mem : Memory
  infos : List (Nat × MemBlockInfo)

/-- Outcome of a member function. -/
inductive Result (α : Type) where
  | ok (value : α) (s : ObjectAllocator)
  | throw (e : Thrown) (s : ObjectAllocator)
  | undefined

/-- The allocator after a call that returned or threw. -/
def Result.state? {α : Type} : Result α → Option ObjectAllocator
  | .ok _ s => some s
  | .throw _ s => some s
  | .undefined => none

/-- The value of a call that returned normally. -/
def Result.value? {α : Type} : Result α → Option α
  | .ok v _ => some v
  | _ => none

/-- The exception of a call that threw. -/
def Result.thrown? {α : Type} : Result α → Option Thrown
  | .throw e _ => some e
  | _ => none

/-- `ObjectAllocator::CalculateTotalPageSize`, in `size_t` arithmetic. -/
def CalculateTotalPageSize (pointerSize leftAlignSize block_size objectsPerPage
    interAlignSize : Nat) : Nat :=
  let pageSize := (pointerSize + leftAlignSize) % 2 ^ 64
  let pageSize := (pageSize + (block_size * objectsPerPage) % 2 ^ 64) % 2 ^ 64
  if objectsPerPage > 1 then
    -- subtract the inter-object alignment of the last object; `size_t` wraps around
    if interAlignSize ≤ pageSize then pageSize - interAlignSize
    else pageSize + 2 ^ 64 - interAlignSize
  else
    pageSize

/-- `ObjectAllocator::CalculatePadding`; `size % alignment` is undefined for
`alignment = 0`. -/
def CalculatePadding (size alignment : Nat) : Option Nat :=
  if alignment = 0 then none
  else
    let padding := alignment - size % alignment
    some (if padding = alignment then 0 else padding)

/-- One iteration `i` of the loop of `ObjectAllocator::AllocateNewPage` that
builds the free list of the new page; `currentBlock` is the cursor. -/
def AllocateNewPage.block (s : ObjectAllocator) (currentBlock i : Nat) :
    ObjectAllocator × Nat :=
  let cfg := s.Config_
  -- header info: skipped, the header is filled in at allocation time
  let cur := if cfg.HBlockInfo_.size_ > 0 then currentBlock + cfg.HBlockInfo_.size_
    else currentBlock
  -- padding before the object
  let m := if cfg.PadBytes_ > 0 then memset s.mem cur PAD_PATTERN cfg.PadBytes_ else s.mem
  let cur := if cfg.PadBytes_ > 0 then cur + cfg.PadBytes_ else cur
  -- mark the object area with the unallocated pattern
  let m := memset m cur UNALLOCATED_PATTERN s.Stats_.ObjectSize_
  -- link this block into the free list
  let newObject := cur
  let m := writePtr m newObject s.FreeList_
  let cur := cur + s.Stats_.ObjectSize_
  -- padding after the object
  let m := if cfg.PadBytes_ > 0 then memset m cur PAD_PATTERN cfg.PadBytes_ else m
  let cur := if cfg.PadBytes_ > 0 then cur + cfg.PadBytes_ else cur
  -- inter-object alignment, not after the last object
  let gap : Bool := decide (cfg.InterAlignSize_ > 0 ∧ i < decU32 cfg.ObjectsPerPage_)
  let m := if gap then memset m cur ALIGN_PATTERN cfg.InterAlignSize_ else m
  let cur := if gap then cur + cfg.InterAlignSize_ else cur
  ({ s with mem := m, FreeList_ := newObject,
            Stats_ := { s.Stats_ with FreeObjects_ := incU32 s.Stats_.FreeObjects_ } }, cur)

/-- The loop `for (size_t i = 0; i < Config_.ObjectsPerPage_; ++i)` of
`ObjectAllocator::AllocateNewPage`, with `k` iterations left. -/
def AllocateNewPage.loop : Nat → Nat → ObjectAllocator → Nat → ObjectAllocator
  | 0, _, s, _ => s
  | k + 1, i, s, currentBlock =>
    let r := AllocateNewPage.block s currentBlock i
    AllocateNewPage.loop k (i + 1) r.1 r.2

/-- `ObjectAllocator::AllocateNewPage`: `host` is the answer of
`new char[Stats_.PageSize_] {}`. -/
def AllocateNewPage (s : ObjectAllocator) (host : Option Nat) : Result Unit :=
  match host with
  | none => .throw (.oa .E_NO_MEMORY) s
  | some newPage =>
    -- the `{}` zero-initialises the page
    let m := memset s.mem newPage 0 s.Stats_.PageSize_
    -- skip the page list link pointer
    let currentBlock := newPage + pointer_size
    -- left alignment pattern
    let m := if s.Config_.LeftAlignSize_ > 0 then
        memset m currentBlock ALIGN_PATTERN s.Config_.LeftAlignSize_ else m
    let currentBlock := if s.Config_.LeftAlignSize_ > 0 then
        currentBlock + s.Config_.LeftAlignSize_ else currentBlock
    -- construct the free list of the page
    let s1 := AllocateNewPage.loop s.Config_.ObjectsPerPage_ 0 { s with mem := m } currentBlock
    -- link the new page into the page list
    .ok () { s1 with mem := writePtr s1.mem newPage s1.PageList_, PageList_ := newPage,
                     Stats_ := { s1.Stats_ with PagesInUse_ := incU32 s1.Stats_.PagesInUse_ } }

/-- The constructor `ObjectAllocator::ObjectAllocator(ObjectSize, config)`,
run on the memory `m`; `host` answers the request for the first page. -/
def ObjectAllocator.construct (ObjectSize : Nat) (config : OAConfig) (m : Memory)
    (host : HostAlloc) : Result Unit :=
  -- members start as `nullptr`, `nullptr`, `config` and zeroed statistics
  let midBlock := (config.HBlockInfo_.size_ + (2 * config.PadBytes_) % 2 ^ 32 + ObjectSize) % 2 ^ 64
  let aligned : Option (OAConfig × Nat) :=
    if config.Alignment_ > 0 then
      match CalculatePadding ((pointer_size + config.HBlockInfo_.size_ + config.PadBytes_) % 2 ^ 64)
          config.Alignment_,
        CalculatePadding midBlock config.Alignment_ with
      | some lfAlight, some lfAlight2 =>
        some ({ config with LeftAlignSize_ := lfAlight % 2 ^ 32,
                            InterAlignSize_ := lfAlight2 % 2 ^ 32 },
              (midBlock + lfAlight2 % 2 ^ 32) % 2 ^ 64)
      | _, _ => none
    else some (config, midBlock)
  match aligned with
  | none => .undefined
  | some (cfg, midBlock) =>
    let pageSize := CalculateTotalPageSize pointer_size cfg.LeftAlignSize_ midBlock
      cfg.ObjectsPerPage_ cfg.InterAlignSize_
    let s : ObjectAllocator :=
      { PageList_ := 0, FreeList_ := 0, Config_ := cfg,
        Stats_ := { ObjectSize_ := ObjectSize, PageSize_ := pageSize, FreeObjects_ := 0,
                    ObjectsInUse_ := 0, PagesInUse_ := 0, MostObjects_ := 0, Allocations_ := 0,
                    Deallocations_ := 0 },
        mem := m, infos := [] }
    if ¬ cfg.UseCPPMemManager_ then AllocateNewPage s host.storage else .ok () s

/-- `ObjectAllocator::BlockHeaderCheck`: fills in the header of a block that
is being handed out. -/
def BlockHeaderCheck (s : ObjectAllocator) (allocatedBlock : Nat) (label : Option String)
    (host : HostAlloc) : Result Unit :=
  if s.Config_.HBlockInfo_.type_ = .hbNone then .ok () s
  else
    let headerBlock := allocatedBlock - s.Config_.PadBytes_ - s.Config_.HBlockInfo_.size_
    match s.Config_.HBlockInfo_.type_ with
    | .hbBasic =>
      let m := writeLE s.mem headerBlock 4 s.Stats_.Allocations_
      let m := writeLE m (headerBlock + 4) 1 1
      .ok () { s with mem := m }
    | .hbExtended =>
      let headerBlock := headerBlock + s.Config_.HBlockInfo_.additional_
      -- `++(*useCount)` on a `short`
      let m := writeLE s.mem headerBlock 2 (readLE s.mem headerBlock 2 + 1)
      let headerBlock := headerBlock + 2
      let m := writeLE m headerBlock 4 s.Stats_.Allocations_
      let m := writeLE m (headerBlock + 4) 1 1
      .ok () { s with mem := m }
    | .hbExternal =>
      match host.info with
      | none => .throw (.oa .E_NO_MEMORY) s
      | some record =>
        -- `(*externalHeader) = new MemBlockInfo{}`
        let m := writePtr s.mem headerBlock record
        if label.isSome ∧ host.label = false then
          .throw (.oa .E_NO_MEMORY) { s with mem := m, infos := (record, ⟨false, 0, none⟩) :: s.infos }
        else
          .ok () { s with mem := m,
                          infos := (record, ⟨true, s.Stats_.Allocations_, label⟩) :: s.infos }
    | .hbNone => .ok () s

/-- `ObjectAllocator::BlockHeaderCheckFree`: resets the header of a block that
is being returned. -/
def BlockHeaderCheckFree (s : ObjectAllocator) (allocatedBlock : Nat) (host : HostAlloc) :
    Result Unit :=
  if s.Config_.HBlockInfo_.type_ = .hbNone then .ok () s
  else
    let headerBlock := allocatedBlock - s.Config_.PadBytes_ - s.Config_.HBlockInfo_.size_
    match s.Config_.HBlockInfo_.type_ with
    | .hbBasic =>
      let m := writeLE s.mem headerBlock 4 0
      let m := writeLE m (headerBlock + 4) 1 0
      .ok () { s with mem := m }
    | .hbExtended =>
      let headerBlock := headerBlock + s.Config_.HBlockInfo_.additional_
      let headerBlock := headerBlock + 2
      let m := writeLE s.mem headerBlock 4 0
      let m := writeLE m (headerBlock + 4) 1 0
      .ok () { s with mem := m }
    | .hbExternal =>
      match host.info with
      | none => .throw .bad_alloc s
      | some record =>
        -- `(*externalHeader) = new MemBlockInfo{}`: the fresh record has no label
        let m := writePtr s.mem headerBlock record
        let infos := (record, (⟨false, 0, none⟩ : MemBlockInfo)) :: s.infos
        if headerBlock ≠ 0 then
          -- `delete (*externalHeader); (*externalHeader) = nullptr;`
          .ok () { s with mem := writePtr m headerBlock 0,
                          infos := infos.eraseP (fun r => r.1 = record) }
        else .ok () { s with mem := m, infos := infos }
    | .hbNone => .ok () s

/-- The loop of `ObjectAllocator::CheckErrorFree` (and of `IsBlockFree`):
walks the free list from `current` looking for `block`. -/
def CheckErrorFree.loop (m : Memory) (block : Nat) : Nat → Nat → Option Bool
  | 0, _ => none
  | fuel + 1, current =>
    if current = 0 then some false
    else if current = block then some true
    else CheckErrorFree.loop m block fuel (readPtr m current)

/-- `ObjectAllocator::CheckErrorFree`: is `block` on the free list. -/
def CheckErrorFree (s : ObjectAllocator) (block : Nat) : Option Bool :=
  CheckErrorFree.loop s.mem block walkFuel s.FreeList_

/-- `ObjectAllocator::IsBlockFree`: the same walk as `CheckErrorFree`. -/
def IsBlockFree (s : ObjectAllocator) (block : Nat) : Option Bool :=
  CheckErrorFree.loop s.mem block walkFuel s.FreeList_

/-- `ObjectAllocator::CorruptedCheck`: does a pad byte on either side of the
object differ from the pad pattern. -/
def CorruptedCheck (s : ObjectAllocator) (block : Nat) : Bool :=
  if s.Config_.PadBytes_ = 0 then false
  else
    let leftPadding := block - s.Config_.PadBytes_
    let rightPadding := block + s.Stats_.ObjectSize_
    if (List.range s.Config_.PadBytes_).any (fun i => s.mem (leftPadding + i) != PAD_PATTERN) then
      true
    else if (List.range s.Config_.PadBytes_).any
        (fun i => s.mem (rightPadding + i) != PAD_PATTERN) then
      true
    else false

/-- The loop of `ObjectAllocator::CheckBlockBoundary` over the page list. -/
def CheckBlockBoundary.loop (m : Memory) (PageSize_ block : Nat) : Nat → Nat → Option Bool
  | 0, _ => none
  | fuel + 1, currentPage =>
    if currentPage = 0 then some true
    else
      let pageStart := currentPage
      let pageEnd := pageStart + PageSize_
      if block ≥ pageStart ∧ block < pageEnd then some false
      else CheckBlockBoundary.loop m PageSize_ block fuel (readPtr m currentPage)

/-- `ObjectAllocator::CheckBlockBoundary`: `true` when `block` lies in no
page. -/
def CheckBlockBoundary (s : ObjectAllocator) (block : Nat) : Option Bool :=
  CheckBlockBoundary.loop s.mem s.Stats_.PageSize_ block walkFuel s.PageList_

/-- `ObjectAllocator::Free`; `host` answers the `new MemBlockInfo{}` of the
header reset. -/
def Free (s : ObjectAllocator) (Object : Nat) (host : HostAlloc) : Result Unit :=
  if Object = 0 then .ok () s
  else if s.Config_.UseCPPMemManager_ then
    -- `delete[]`, then the statistics
    .ok () { s with Stats_ := { s.Stats_ with
      Deallocations_ := incU32 s.Stats_.Deallocations_,
      FreeObjects_ := incU32 s.Stats_.FreeObjects_,
      ObjectsInUse_ := decU32 s.Stats_.ObjectsInUse_ } }
  else
    match CheckErrorFree s Object with
    | none => .undefined
    | some true => .throw (.oa .E_MULTIPLE_FREE) s
    | some false =>
      match CheckBlockBoundary s Object with
      | none => .undefined
      | some true => .throw (.oa .E_BAD_BOUNDARY) s
      | some false =>
        if CorruptedCheck s Object then .throw (.oa .E_CORRUPTED_BLOCK) s
        else
          -- set object bytes to the freed pattern
          let m := memset s.mem Object FREED_PATTERN s.Stats_.ObjectSize_
          -- add the object back to the free list
          let m := writePtr m Object s.FreeList_
          let stats : OAStats := { s.Stats_ with
            Deallocations_ := incU32 s.Stats_.Deallocations_,
            FreeObjects_ := incU32 s.Stats_.FreeObjects_,
            ObjectsInUse_ := decU32 s.Stats_.ObjectsInUse_ }
          let s1 : ObjectAllocator := { s with mem := m, FreeList_ := Object, Stats_ := stats }
          BlockHeaderCheckFree s1 Object host

/-- `ObjectAllocator::Allocate`; `host` answers the requests for storage made
during the call. -/
def Allocate (s : ObjectAllocator) (label : Option String) (host : HostAlloc) : Result Nat :=
  if s.Config_.UseCPPMemManager_ then
    match host.storage with
    | none => .throw (.oa .E_NO_MEMORY) s
    | some newBlock =>
      .ok newBlock { s with Stats_ := { s.Stats_ with
        ObjectsInUse_ := incU32 s.Stats_.ObjectsInUse_,
        Allocations_ := incU32 s.Stats_.Allocations_,
        MostObjects_ := incU32 s.Stats_.MostObjects_,
        FreeObjects_ := decU32 s.Stats_.FreeObjects_ } }
  else
    let paged : Result Unit :=
      if s.Stats_.FreeObjects_ ≤ 0 then
        if s.Config_.MaxPages_ > 0 ∧ s.Stats_.PagesInUse_ ≥ s.Config_.MaxPages_ then
          .throw (.oa .E_NO_PAGES) s
        else AllocateNewPage s host.storage
      else .ok () s
    match paged with
    | .undefined => .undefined
    | .throw e s1 => .throw e s1
    | .ok _ s1 =>
      -- give the current free block to the client
      let allocatedPtr := s1.FreeList_
      if allocatedPtr = 0 then .undefined
      else
        let next := readPtr s1.mem allocatedPtr
        let m := memset s1.mem allocatedPtr ALLOCATED_PATTERN s1.Stats_.ObjectSize_
        let ObjectsInUse := incU32 s1.Stats_.ObjectsInUse_
        let stats : OAStats := { s1.Stats_ with
          Allocations_ := incU32 s1.Stats_.Allocations_,
          ObjectsInUse_ := ObjectsInUse,
          FreeObjects_ := decU32 s1.Stats_.FreeObjects_,
          MostObjects_ := if ObjectsInUse > s1.Stats_.MostObjects_ then ObjectsInUse
            else s1.Stats_.MostObjects_ }
        let s2 : ObjectAllocator := { s1 with mem := m, FreeList_ := next, Stats_ := stats }
        match BlockHeaderCheck s2 allocatedPtr label host with
        | .ok _ s3 => .ok allocatedPtr s3
        | .throw e s3 => .throw e s3
        | .undefined => .undefined

/-- The loop of `ObjectAllocator::PageIsEmpty` over the blocks of a page, with
`k` iterations left. -/
def PageIsEmpty.loop (s : ObjectAllocator) : Nat → Nat → Nat → Option Bool
  | 0, _, _ => some true
  | k + 1, i, blockPtr =>
    match IsBlockFree s blockPtr with
    | none => none
    | some false => some false
    | some true =>
      let blockPtr := blockPtr + (s.Config_.HBlockInfo_.size_ + (2 * s.Config_.PadBytes_) % 2 ^ 32
        + s.Stats_.ObjectSize_)
      let blockPtr := if i < decU32 s.Config_.ObjectsPerPage_ then
        blockPtr + s.Config_.InterAlignSize_ else blockPtr
      PageIsEmpty.loop s k (i + 1) blockPtr

/-- `ObjectAllocator::PageIsEmpty`: are all blocks of `page` on the free
list. -/
def PageIsEmpty (s : ObjectAllocator) (page : Nat) : Option Bool :=
  let blockPtr := page + pointer_size + s.Config_.LeftAlignSize_ + s.Config_.HBlockInfo_.size_
    + s.Config_.PadBytes_
  PageIsEmpty.loop s s.Config_.ObjectsPerPage_ 0 blockPtr

/-- Reading through the cursor `GenericObject** freePtrRef` of
`ObjectAllocator::freeBlocks`: the cursor is `none` for `&FreeList_` and
`some a` for the address of the `Next` member of the node at `a`. -/
def ObjectAllocator.loadFree (s : ObjectAllocator) (freePtrRef : Option Nat) : Nat :=
  match freePtrRef with
  | none => s.FreeList_
  | some a => readPtr s.mem a

/-- Writing through the cursor of `ObjectAllocator::freeBlocks`:
`*freePtrRef = value`. -/
def ObjectAllocator.storeFree (s : ObjectAllocator) (freePtrRef : Option Nat) (value : Nat) :
    ObjectAllocator :=
  match freePtrRef with
  | none => { s with FreeList_ := value }
  | some a => { s with mem := writePtr s.mem a value }

/-- The loop of `ObjectAllocator::freeBlocks`, with the cursor `freePtrRef`. -/
def freeBlocks.loop (block : Nat) : Nat → ObjectAllocator → Option Nat → Option ObjectAllocator
  | 0, _, _ => none
  | fuel + 1, s, freePtrRef =>
    let current := s.loadFree freePtrRef
    if current = 0 then some s
    else
      let startOfPage := block
      let endOfPage := startOfPage + s.Stats_.PageSize_
      if current ≥ startOfPage ∧ current < endOfPage then
        -- bypass the block in the list
        let toBeRemoved := current
        freeBlocks.loop block fuel (s.storeFree freePtrRef (readPtr s.mem toBeRemoved)) freePtrRef
      else
        -- `&(*freePtrRef)->Next` is the address of the node itself
        freeBlocks.loop block fuel s (some current)

/-- `ObjectAllocator::freeBlocks`: removes from the free list every node that
lies inside the page `block`. -/
def freeBlocks (s : ObjectAllocator) (block : Nat) : Option ObjectAllocator :=
  freeBlocks.loop block walkFuel s none

/-- Reading through the cursor `GenericObject** currentPtrRef` of
`ObjectAllocator::FreeEmptyPages`: `none` for `&PageList_` and `some a` for the
address of the `Next` member of the page at `a`. -/
def ObjectAllocator.loadPage (s : ObjectAllocator) (currentPtrRef : Option Nat) : Nat :=
  match currentPtrRef with
  | none => s.PageList_
  | some a => readPtr s.mem a

/-- Writing through the cursor of `ObjectAllocator::FreeEmptyPages`:
`*currentPtrRef = value`. -/
def ObjectAllocator.storePage (s : ObjectAllocator) (currentPtrRef : Option Nat) (value : Nat) :
    ObjectAllocator :=
  match currentPtrRef with
  | none => { s with PageList_ := value }
  | some a => { s with mem := writePtr s.mem a value }

/-- The statistics update of `ObjectAllocator::FreeEmptyPages` for one released
page. -/
def ObjectAllocator.pageReleased (s : ObjectAllocator) : ObjectAllocator :=
  { s with Stats_ := { s.Stats_ with
      PagesInUse_ := decU32 s.Stats_.PagesInUse_,
      FreeObjects_ := subU32 s.Stats_.FreeObjects_ s.Config_.ObjectsPerPage_ } }

/-- The loop of `ObjectAllocator::FreeEmptyPages`, with the cursor
`currentPtrRef`. -/
def FreeEmptyPages.loop : Nat → ObjectAllocator → Option Nat → Nat → Option (Nat × ObjectAllocator)
  | 0, _, _, _ => none
  | fuel + 1, s, currentPtrRef, freedPageCount =>
    let currentPage := s.loadPage currentPtrRef
    if currentPage = 0 then some (freedPageCount, s)
    else
      match PageIsEmpty s currentPage with
      | none => none
      | some true =>
        let nextPage := readPtr s.mem currentPage
        match freeBlocks s currentPage with
        | none => none
        | some s1 =>
          -- `delete[]` the page, then bypass it in the page list
          let s2 := s1.storePage currentPtrRef nextPage
          FreeEmptyPages.loop fuel s2.pageReleased currentPtrRef (incU32 freedPageCount)
      | some false => FreeEmptyPages.loop fuel s (some currentPage) freedPageCount

/-- `ObjectAllocator::FreeEmptyPages`: releases every page whose blocks are
all free and returns how many it released. -/
def FreeEmptyPages (s : ObjectAllocator) : Result Nat :=
  match FreeEmptyPages.loop walkFuel s none 0 with
  | none => .undefined
  | some (count, s1) => .ok count s1


/-! ## Notions used to state the properties -/

/-- The nodes of the null-terminated chain that starts at `head`, collected by
following the `Next` pointers in memory; `none` when the walk does not end. -/
def chain (m : Memory) : Nat → Nat → Option (List Nat)
  | 0, _ => none
  | fuel + 1, head =>
    if head = 0 then some []
    else (chain m fuel (readPtr m head)).map (fun l => head :: l)

/-- The pages on the page list, head first. -/
def ObjectAllocator.pageList (s : ObjectAllocator) : List Nat :=
  (chain s.mem walkFuel s.PageList_).getD []

/-- The nodes on the free list, head first. -/
def ObjectAllocator.freeList (s : ObjectAllocator) : List Nat :=
  (chain s.mem walkFuel s.FreeList_).getD []

/-- Distance between the object regions of consecutive blocks of a page, as
the page walks advance: header, both pads, object, inter-block alignment. -/
def ObjectAllocator.stride (s : ObjectAllocator) : Nat :=
  s.Config_.HBlockInfo_.size_ + 2 * s.Config_.PadBytes_ + s.Stats_.ObjectSize_
    + s.Config_.InterAlignSize_

/-- Address of the object region of block `i` of the page at `page`, as the
page walks compute it. -/
def ObjectAllocator.objAddr (s : ObjectAllocator) (page i : Nat) : Nat :=
  page + pointer_size + s.Config_.LeftAlignSize_ + s.Config_.HBlockInfo_.size_
    + s.Config_.PadBytes_ + i * s.stride

/-- The object-region addresses of the blocks of a page, first block first. -/
def ObjectAllocator.pageBlocks (s : ObjectAllocator) (page : Nat) : List Nat :=
  (List.range s.Config_.ObjectsPerPage_).map (s.objAddr page)

/-- The address lies inside `[page, page + PageSize)`. -/
def ObjectAllocator.inPage (s : ObjectAllocator) (page p : Nat) : Prop :=
  page ≤ p ∧ p < page + s.Stats_.PageSize_

instance (s : ObjectAllocator) (page p : Nat) : Decidable (s.inPage page p) := by
  unfold ObjectAllocator.inPage; infer_instance

/-- The address lies inside one of the pages on the page list. -/
def ObjectAllocator.owns (s : ObjectAllocator) (p : Nat) : Prop :=
  ∃ page ∈ s.pageList, s.inPage page p

instance (s : ObjectAllocator) (p : Nat) : Decidable (s.owns p) := by
  unfold ObjectAllocator.owns; infer_instance

/-- All pad bytes on both sides of the object at `p` hold the pad pattern. -/
def ObjectAllocator.padsIntact (s : ObjectAllocator) (p : Nat) : Prop :=
  ∀ k, k < s.Config_.PadBytes_ →
    s.mem (p - s.Config_.PadBytes_ + k) = PAD_PATTERN ∧
    s.mem (p + s.Stats_.ObjectSize_ + k) = PAD_PATTERN

instance (s : ObjectAllocator) (p : Nat) : Decidable (s.padsIntact p) := by
  unfold ObjectAllocator.padsIntact; infer_instance

/-- The page is empty: every one of its blocks is on the free list. -/
def ObjectAllocator.pageEmpty (s : ObjectAllocator) (page : Nat) : Prop :=
  ∀ b ∈ s.pageBlocks page, b ∈ s.freeList

instance (s : ObjectAllocator) (page : Nat) : Decidable (s.pageEmpty page) := by
  unfold ObjectAllocator.pageEmpty; infer_instance

/-- The configurations the allocator is built for: the object region can hold
the free-list pointer, the `unsigned` members are in range, the header size is
the one of the header kind, the derived alignment members start at zero when no
alignment is asked for, and a block and a page fit the address space. -/
def ValidConfig (ObjectSize : Nat) (config : OAConfig) : Prop :=
  pointer_size ≤ ObjectSize ∧
  config.ObjectsPerPage_ < 2 ^ 32 ∧
  config.MaxPages_ < 2 ^ 32 ∧
  2 * config.PadBytes_ < 2 ^ 32 ∧
  config.Alignment_ < 2 ^ 32 ∧
  config.HBlockInfo_
    = HeaderBlockInfo.ofType config.HBlockInfo_.type_ config.HBlockInfo_.additional_ ∧
  (config.Alignment_ = 0 → config.LeftAlignSize_ = 0 ∧ config.InterAlignSize_ = 0) ∧
  config.HBlockInfo_.size_ + 2 * config.PadBytes_ + ObjectSize + config.Alignment_ < 2 ^ 64 ∧
  pointer_size + config.Alignment_
    + (config.HBlockInfo_.size_ + 2 * config.PadBytes_ + ObjectSize + config.Alignment_)
      * config.ObjectsPerPage_ < 2 ^ 64

instance (ObjectSize : Nat) (config : OAConfig) : Decidable (ValidConfig ObjectSize config) := by
  unfold ValidConfig; infer_instance

/-- What the host's `operator new` guarantees about the storage it hands out
for a page: it is not null, fits the address space and overlaps no live
page. -/
def FreshStorage (s : ObjectAllocator) (host : HostAlloc) : Prop :=
  ∀ newPage, host.storage = some newPage →
    newPage ≠ 0 ∧ newPage + s.Stats_.PageSize_ ≤ 2 ^ 64 ∧
    ∀ page ∈ s.pageList,
      newPage + s.Stats_.PageSize_ ≤ page ∨ page + s.Stats_.PageSize_ ≤ newPage

instance (s : ObjectAllocator) (host : HostAlloc) : Decidable (FreshStorage s host) := by
  unfold FreshStorage
  cases host.storage with
  | none => exact isTrue (fun _ h => by cases h)
  | some a =>
    exact decidable_of_iff
      (a ≠ 0 ∧ a + s.Stats_.PageSize_ ≤ 2 ^ 64 ∧
        ∀ page ∈ s.pageList, a + s.Stats_.PageSize_ ≤ page ∨ page + s.Stats_.PageSize_ ≤ a)
      ⟨fun h _ e => by cases e; exact h, fun h => h a rfl⟩

/-- A client's store of one byte. -/
def ObjectAllocator.poke (s : ObjectAllocator) (a v : Nat) : ObjectAllocator :=
  { s with mem := fun x => if x = a then v % 256 else s.mem x }

/-- The allocator states of non-bypass mode that a client can reach, each with
the pointers `Allocate` has returned so far that still lie in a page: the
constructor, then `Allocate`, `Free` (of null, of a pointer returned by
`Allocate`, or of an address outside every page), `FreeEmptyPages`, and
client stores into the object region or the pad bytes of a block in use. Calls
may return or throw. -/
inductive Reachable : ObjectAllocator → List Nat → Prop where
  | construct (ObjectSize : Nat) (config : OAConfig) (m : Memory) (host : HostAlloc)
      (s : ObjectAllocator) :
      ValidConfig ObjectSize config → config.UseCPPMemManager_ = false →
      ObjectAllocator.construct ObjectSize config m host = .ok () s →
      (∀ newPage, host.storage = some newPage →
        newPage ≠ 0 ∧ newPage + s.Stats_.PageSize_ ≤ 2 ^ 64) →
      Reachable s []
  | allocate (s : ObjectAllocator) (R : List Nat) (label : Option String) (host : HostAlloc)
      (s' : ObjectAllocator) :
      Reachable s R → FreshStorage s host →
      (Allocate s label host).state? = some s' →
      Reachable s' ((Allocate s label host).value?.toList ++ R)
  | free (s : ObjectAllocator) (R : List Nat) (p : Nat) (host : HostAlloc)
      (s' : ObjectAllocator) :
      Reachable s R → (p = 0 ∨ p ∈ R ∨ ¬ s.owns p) →
      (Free s p host).state? = some s' →
      Reachable s' R
  | freeEmptyPages (s : ObjectAllocator) (R : List Nat) (s' : ObjectAllocator) :
      Reachable s R → (FreeEmptyPages s).state? = some s' →
      Reachable s' (R.filter (fun p => decide (s'.owns p)))
  | clientWrite (s : ObjectAllocator) (R : List Nat) (p a v : Nat) :
      Reachable s R → p ∈ R → p ∉ s.freeList →
      p - s.Config_.PadBytes_ ≤ a → a < p + s.Stats_.ObjectSize_ + s.Config_.PadBytes_ →
      Reachable (s.poke a v) R

/-! ## Invariant of the reachable states -/

/-- The chain that starts at `head` consists of the nodes `l`, each linked to
the next through its `Next` pointer in memory, the last one to null. -/
def ListRep (m : Memory) : Nat → List Nat → Prop
  | head, [] => head = 0
  | head, x :: xs => head = x ∧ x ≠ 0 ∧ ListRep m (readPtr m x) xs

/-- The sizes of the allocator are consistent: the object region holds a
pointer, the header is large enough for what its kind stores, and the blocks of
a page fit into `PageSize_` bytes. -/
structure WellFormed (s : ObjectAllocator) : Prop where
  objectSize : pointer_size ≤ s.Stats_.ObjectSize_
  objectsPerPage : s.Config_.ObjectsPerPage_ < 2 ^ 32
  maxPages : s.Config_.MaxPages_ < 2 ^ 32
  padBytes : 2 * s.Config_.PadBytes_ < 2 ^ 32
  basic : s.Config_.HBlockInfo_.type_ = .hbBasic → 5 ≤ s.Config_.HBlockInfo_.size_
  extended : s.Config_.HBlockInfo_.type_ = .hbExtended →
    s.Config_.HBlockInfo_.additional_ + 7 ≤ s.Config_.HBlockInfo_.size_
  external : s.Config_.HBlockInfo_.type_ = .hbExternal → 8 ≤ s.Config_.HBlockInfo_.size_
  pageLink : pointer_size + s.Config_.LeftAlignSize_ ≤ s.Stats_.PageSize_
  pageFit : 1 ≤ s.Config_.ObjectsPerPage_ →
    pointer_size + s.Config_.LeftAlignSize_ + s.Config_.ObjectsPerPage_ * s.stride
      ≤ s.Stats_.PageSize_ + s.Config_.InterAlignSize_
  bypass : s.Config_.UseCPPMemManager_ = false

/-- The invariant: `pages` and `free` are the page list and the free list as
linked in memory, the pages do not overlap, the free nodes are distinct blocks
of the pages with intact pads, and the counters count them. -/
structure Inv (s : ObjectAllocator) (pages free : List Nat) : Prop where
  wf : WellFormed s
  pageRep : ListRep s.mem s.PageList_ pages
  freeRep : ListRep s.mem s.FreeList_ free
  pageBound : ∀ P ∈ pages, P + s.Stats_.PageSize_ ≤ 2 ^ 64
  pageNodup : pages.Nodup
  pageDisjoint : ∀ P ∈ pages, ∀ Q ∈ pages, P ≠ Q →
    P + s.Stats_.PageSize_ ≤ Q ∨ Q + s.Stats_.PageSize_ ≤ P
  freeNodup : free.Nodup
  freeBlock : ∀ f ∈ free, ∃ P ∈ pages, f ∈ s.pageBlocks P
  freePads : ∀ f ∈ free, s.padsIntact f
  cntFree : s.Stats_.FreeObjects_ = free.length % 2 ^ 32
  cntPages : s.Stats_.PagesInUse_ = pages.length % 2 ^ 32
  cntUse : s.Stats_.ObjectsInUse_
    = (pages.length * s.Config_.ObjectsPerPage_ - free.length) % 2 ^ 32

/-- Two allocator states have the same configuration, object size and page
size. -/
def SameLayout (s s' : ObjectAllocator) : Prop :=
  s'.Config_ = s.Config_ ∧ s'.Stats_.ObjectSize_ = s.Stats_.ObjectSize_ ∧
    s'.Stats_.PageSize_ = s.Stats_.PageSize_

/-- The gap after block `i`: the inter-block alignment, not after the last
block. -/
def gapAfter (s : ObjectAllocator) (i : Nat) : Nat :=
  if s.Config_.InterAlignSize_ > 0 ∧ i < decU32 s.Config_.ObjectsPerPage_
    then s.Config_.InterAlignSize_ else 0

/-- Loop invariant of the page-building loop at the start of iteration `i`:
`s0` is the allocator when the loop starts, `N` the new page and `free0` the
free list at that point. -/
structure BuildInv (s0 : ObjectAllocator) (N : Nat) (free0 : List Nat) (i : Nat)
    (s : ObjectAllocator) (cur : Nat) : Prop where
  layout : SameLayout s0 s
  pageList : s.PageList_ = s0.PageList_
  infos : s.infos = s0.infos
  stats : s.Stats_ = { s0.Stats_ with FreeObjects_ := (s0.Stats_.FreeObjects_ + i) % 2 ^ 32 }
  cursor : i < s0.Config_.ObjectsPerPage_ →
    cur = N + pointer_size + s0.Config_.LeftAlignSize_ + i * s0.stride
  freeRep : ListRep s.mem s.FreeList_ (((List.range i).map (s0.objAddr N)).reverse ++ free0)
  pads : ∀ j, j < i → s.padsIntact (s0.objAddr N j)
  frame : ∀ x, (x < N + pointer_size + s0.Config_.LeftAlignSize_ ∨
      N + pointer_size + s0.Config_.LeftAlignSize_ + i * s0.stride ≤ x ∨
      N + s0.Stats_.PageSize_ ≤ x) → s.mem x = s0.mem x

/-- The last step of `ObjectAllocator::AllocateNewPage`: link the page built in
`s1` into the page list. -/
def AllocateNewPage.link (s1 : ObjectAllocator) (newPage : Nat) : ObjectAllocator :=
  { s1 with mem := writePtr s1.mem newPage s1.PageList_, PageList_ := newPage,
            Stats_ := { s1.Stats_ with PagesInUse_ := incU32 s1.Stats_.PagesInUse_ } }

/-- The first step of `ObjectAllocator::AllocateNewPage`: the zeroed page with
its left alignment bytes. -/
def AllocateNewPage.fresh (s : ObjectAllocator) (newPage : Nat) : ObjectAllocator :=
  let m := memset s.mem newPage 0 s.Stats_.PageSize_
  { s with mem := memset m (newPage + pointer_size) ALIGN_PATTERN s.Config_.LeftAlignSize_ }

/-- The blocks of all the pages of a list. -/
def ObjectAllocator.allBlocks (s : ObjectAllocator) : List Nat → List Nat
  | [] => []
  | P :: Ps => s.pageBlocks P ++ s.allBlocks Ps

/-- The part of `ObjectAllocator::Allocate` that makes sure a free block
exists: the page limit check and the page build. -/
def Allocate.paged (s : ObjectAllocator) (host : HostAlloc) : Result Unit :=
  if s.Stats_.FreeObjects_ ≤ 0 then
    if s.Config_.MaxPages_ > 0 ∧ s.Stats_.PagesInUse_ ≥ s.Config_.MaxPages_ then
      .throw (.oa .E_NO_PAGES) s
    else AllocateNewPage s host.storage
  else .ok () s

/-- The part of `ObjectAllocator::Allocate` that takes the head of the free
list: the allocator after the pop, the allocated pattern and the statistics,
before the header is filled in. -/
def Allocate.take (s1 : ObjectAllocator) : ObjectAllocator :=
  let ObjectsInUse := incU32 s1.Stats_.ObjectsInUse_
  let stats : OAStats := { s1.Stats_ with
    Allocations_ := incU32 s1.Stats_.Allocations_,
    ObjectsInUse_ := ObjectsInUse,
    FreeObjects_ := decU32 s1.Stats_.FreeObjects_,
    MostObjects_ := if ObjectsInUse > s1.Stats_.MostObjects_ then ObjectsInUse
      else s1.Stats_.MostObjects_ }
  { s1 with mem := memset s1.mem s1.FreeList_ ALLOCATED_PATTERN s1.Stats_.ObjectSize_,
            FreeList_ := readPtr s1.mem s1.FreeList_, Stats_ := stats }

/-- The part of `ObjectAllocator::Free` after the three checks, before the
header is reset: freed pattern, push onto the free list, statistics. -/
def Free.push (s : ObjectAllocator) (Object : Nat) : ObjectAllocator :=
  let stats : OAStats := { s.Stats_ with
    Deallocations_ := incU32 s.Stats_.Deallocations_,
    FreeObjects_ := incU32 s.Stats_.FreeObjects_,
    ObjectsInUse_ := decU32 s.Stats_.ObjectsInUse_ }
  { s with mem := writePtr (memset s.mem Object FREED_PATTERN s.Stats_.ObjectSize_) Object
             s.FreeList_,
           FreeList_ := Object, Stats_ := stats }

/-- The host can supply what a header of the configured kind needs: for an
external header, the `MemBlockInfo` record and the copy of the label. -/
def HostServes (s : ObjectAllocator) (label : Option String) (host : HostAlloc) : Prop :=
  s.Config_.HBlockInfo_.type_ = .hbExternal →
    host.info.isSome = true ∧ (label.isSome = true → host.label = true)

instance (s : ObjectAllocator) (label : Option String) (host : HostAlloc) :
    Decidable (HostServes s label host) := by
  unfold HostServes; infer_instance

/-- The part of `ObjectAllocator::Allocate` after a free block is known to
exist: take the head of the free list and fill in its header. -/
def Allocate.finish (s1 : ObjectAllocator) (label : Option String) (host : HostAlloc) :
    Result Nat :=
  if s1.FreeList_ = 0 then .undefined
  else
    match BlockHeaderCheck (Allocate.take s1) s1.FreeList_ label host with
    | .ok _ s3 => .ok s1.FreeList_ s3
    | .throw e s3 => .throw e s3
    | .undefined => .undefined

/-- The storage the host hands out for a page is not null, fits the address
space and overlaps none of the pages `pages`. -/
def Fresh (s : ObjectAllocator) (pages : List Nat) (host : HostAlloc) : Prop :=
  ∀ N, host.storage = some N →
    N ≠ 0 ∧ N + s.Stats_.PageSize_ ≤ 2 ^ 64 ∧
    ∀ P ∈ pages, N + s.Stats_.PageSize_ ≤ P ∨ P + s.Stats_.PageSize_ ≤ N

/-- Every block of the page is among the nodes `free`. -/
def ObjectAllocator.emptyIn (s : ObjectAllocator) (free : List Nat) (P : Nat) : Prop :=
  ∀ b ∈ s.pageBlocks P, b ∈ free

instance (s : ObjectAllocator) (free : List Nat) (P : Nat) : Decidable (s.emptyIn free P) := by
  unfold ObjectAllocator.emptyIn; infer_instance


/-! ## Runs of calls -/

/-- The allocator a call leaves behind when it returns or throws; `d` stands
in after undefined behaviour. -/
def Result.stateD {α : Type} (r : Result α) (d : ObjectAllocator) : ObjectAllocator :=
  r.state?.getD d

/-- A client that calls `Allocate` once per entry of `calls` (the label and the
host's answers of that call), with no other call in between: the pointers
returned, first call first, and the allocator after the last call; `none` as
soon as a call does not return. -/
def allocateAll (s : ObjectAllocator) :
    List (Option String × HostAlloc) → Option (List Nat × ObjectAllocator)
  | [] => some ([], s)
  | call :: rest =>
    match Allocate s call.1 call.2 with
    | .ok p s' => (allocateAll s' rest).map (fun r => (p :: r.1, r.2))
    | _ => none

/-- Two 8-byte objects per page, one page at most, two pad bytes, basic
headers. -/
def exConfig : OAConfig :=
  { UseCPPMemManager_ := false, ObjectsPerPage_ := 2, MaxPages_ := 1, DebugOn_ := false,
    PadBytes_ := 2, HBlockInfo_ := HeaderBlockInfo.ofType .hbBasic 0, Alignment_ := 0,
    LeftAlignSize_ := 0, InterAlignSize_ := 0 }

/-- A host that hands out the page at address 4096. -/
def exHost : HostAlloc := { storage := some 4096, info := none, label := false }

/-- A host that hands out the page at address 8192. -/
def exHostB : HostAlloc := { storage := some 8192, info := none, label := false }

/-- A host that is out of memory. -/
def exHostNone : HostAlloc := { storage := none, info := none, label := false }

/-- The state a `Result` falls back to in the examples: no page, no block. -/
def exNull : ObjectAllocator :=
  { PageList_ := 0, FreeList_ := 0, Config_ := exConfig,
    Stats_ := ⟨0, 0, 0, 0, 0, 0, 0, 0⟩, mem := fun _ => 0, infos := [] }

/-- The allocator for 8-byte objects with `exConfig`, just constructed: one
page at 4096 of 42 bytes, its blocks at 4111 and 4128. -/
def exStart : ObjectAllocator :=
  (ObjectAllocator.construct 8 exConfig (fun _ => 0) exHost).stateD exNull

/-- Two calls of `Allocate` without a label, the host out of memory. -/
def exCalls : List (Option String × HostAlloc) := [(none, exHostNone), (none, exHostNone)]

/-- After one `Allocate` on `exStart`, which returned 4128. -/
def exOne : ObjectAllocator := (Allocate exStart none exHostNone).stateD exNull

/-- After a second `Allocate`, which returned 4111. -/
def exTwo : ObjectAllocator := (Allocate exOne none exHostNone).stateD exNull

/-- After `Free(4128)` on `exOne`. -/
def exFreed : ObjectAllocator := (Free exOne 4128 exHostNone).stateD exNull

/-- After the client overwrote the pad byte at 4126, left of the object at
4128, in `exOne`. -/
def exCorrupt : ObjectAllocator := exOne.poke 4126 0

/-- One 8-byte object per page, any number of pages, no pads, no headers. -/
def exConfigB : OAConfig :=
  { UseCPPMemManager_ := false, ObjectsPerPage_ := 1, MaxPages_ := 0, DebugOn_ := false,
    PadBytes_ := 0, HBlockInfo_ := HeaderBlockInfo.ofType .hbNone 0, Alignment_ := 0,
    LeftAlignSize_ := 0, InterAlignSize_ := 0 }

/-- The allocator for 8-byte objects with `exConfigB`, just constructed: one
page at 4096 of 16 bytes, its block at 4104. -/
def exStartB : ObjectAllocator :=
  (ObjectAllocator.construct 8 exConfigB (fun _ => 0) exHost).stateD exNull

/-- After one `Allocate` on `exStartB`, which returned 4104: no block is
free. -/
def exFullB : ObjectAllocator := (Allocate exStartB none exHostNone).stateD exNull

/-- After a second `Allocate`, which built the page at 8192 and returned
8200. -/
def exGrownB : ObjectAllocator := (Allocate exFullB none exHostB).stateD exNull

/-- After `Free(8200)` on `exGrownB`. -/
def exBackB : ObjectAllocator := (Free exGrownB 8200 exHostNone).stateD exNull

/-! ## The page walk of `DumpMemoryInUse` -/

/-- The loop over the blocks of one page in `ObjectAllocator::DumpMemoryInUse`,
with `k` iterations left: `count` is the counter and `calls` the calls of the
callback `fn` made so far, each with its two arguments. -/
def DumpMemoryInUse.blocks (s : ObjectAllocator) :
    Nat → Nat → Nat → Nat → List (Nat × Nat) → Option (Nat × List (Nat × Nat))
  | 0, _, _, count, calls => some (count, calls)
  | k + 1, i, currentBlockPtr, count, calls =>
    match CheckErrorFree s currentBlockPtr with
    | none => none
    | some onFreeList =>
      -- `if (!CheckErrorFree(currentBlock)) { count++; fn(currentBlockPtr, ObjectSize_); }`
      let count := if onFreeList then count else incU32 count
      let calls := if onFreeList then calls
        else calls ++ [(currentBlockPtr, s.Stats_.ObjectSize_)]
      -- move to the next block
      let currentBlockPtr := currentBlockPtr + (s.Config_.HBlockInfo_.size_
        + (2 * s.Config_.PadBytes_) % 2 ^ 32 + s.Stats_.ObjectSize_)
      let currentBlockPtr := if i < decU32 s.Config_.ObjectsPerPage_ then
        currentBlockPtr + s.Config_.InterAlignSize_ else currentBlockPtr
      DumpMemoryInUse.blocks s k (i + 1) currentBlockPtr count calls

/-- The loop over the page list in `ObjectAllocator::DumpMemoryInUse`. -/
def DumpMemoryInUse.pages (s : ObjectAllocator) :
    Nat → Nat → Nat → List (Nat × Nat) → Option (Nat × List (Nat × Nat))
  | 0, _, _, _ => none
  | fuel + 1, currentPage, count, calls =>
    if currentPage = 0 then some (count, calls)
    else
      let currentBlockPtr := currentPage + pointer_size + s.Config_.LeftAlignSize_
        + s.Config_.HBlockInfo_.size_ + s.Config_.PadBytes_
      match DumpMemoryInUse.blocks s s.Config_.ObjectsPerPage_ 0 currentBlockPtr count calls with
      | none => none
      | some r => DumpMemoryInUse.pages s fuel (readPtr s.mem currentPage) r.1 r.2

/-- `ObjectAllocator::DumpMemoryInUse`, a `const` member function: the count it
returns and the calls of the callback it makes, in order, each with the block
address and the size it is given; `none` when a walk does not end. -/
def DumpMemoryInUse (s : ObjectAllocator) : Option (Nat × List (Nat × Nat)) :=
  DumpMemoryInUse.pages s walkFuel s.PageList_ 0 []

/-- The blocks in use: the blocks of the pages on the page list that are not on
the free list, page by page from the head of the page list, each page's blocks
by increasing address. -/
def ObjectAllocator.inUseBlocks (s : ObjectAllocator) : List Nat :=
  (s.allBlocks s.pageList).filter (fun b => decide (b ∉ s.freeList))

/-! ## Runs with their history -/

/-- A run of the client in non-bypass mode, as in `Reachable` but made of the
constructor, `Allocate` and `Free` only, together with the values the
statistic `ObjectsInUse` has had: after the constructor and after each call,
latest first. -/
inductive UseHistory : ObjectAllocator → List Nat → List Nat → Prop where
  | construct (ObjectSize : Nat) (config : OAConfig) (m : Memory) (host : HostAlloc)
      (s : ObjectAllocator) :
      ValidConfig ObjectSize config → config.UseCPPMemManager_ = false →
      ObjectAllocator.construct ObjectSize config m host = .ok () s →
      (∀ newPage, host.storage = some newPage →
        newPage ≠ 0 ∧ newPage + s.Stats_.PageSize_ ≤ 2 ^ 64) →
      UseHistory s [] [s.Stats_.ObjectsInUse_]
  | allocate (s : ObjectAllocator) (R h : List Nat) (label : Option String) (host : HostAlloc)
      (s' : ObjectAllocator) :
      UseHistory s R h → FreshStorage s host →
      (Allocate s label host).state? = some s' →
      UseHistory s' ((Allocate s label host).value?.toList ++ R) (s'.Stats_.ObjectsInUse_ :: h)
  | free (s : ObjectAllocator) (R h : List Nat) (p : Nat) (host : HostAlloc)
      (s' : ObjectAllocator) :
      UseHistory s R h → (p = 0 ∨ p ∈ R ∨ ¬ s.owns p) →
      (Free s p host).state? = some s' →
      UseHistory s' R (s'.Stats_.ObjectsInUse_ :: h)

/-! ## Example allocators, continued -/

/-- Bypass mode: every object comes from the host. -/
def exConfigC : OAConfig :=
  { UseCPPMemManager_ := true, ObjectsPerPage_ := 2, MaxPages_ := 1, DebugOn_ := false,
    PadBytes_ := 0, HBlockInfo_ := HeaderBlockInfo.ofType .hbNone 0, Alignment_ := 0,
    LeftAlignSize_ := 0, InterAlignSize_ := 0 }

/-- A host that hands out the storage at address 4096 for an object. -/
def exHostC : HostAlloc := { storage := some 4096, info := none, label := false }

/-- The bypass allocator for 8-byte objects, just constructed. -/
def exBypass : ObjectAllocator :=
  (ObjectAllocator.construct 8 exConfigC (fun _ => 0) exHostNone).stateD exNull

/-- After `Allocate` on `exBypass`, which returned 4096. -/
def exBypassA : ObjectAllocator := (Allocate exBypass none exHostC).stateD exNull

/-- After `Free(4096)` on `exBypassA`. -/
def exBypassAF : ObjectAllocator := (Free exBypassA 4096 exHostNone).stateD exNull

/-- After a second `Allocate`, on `exBypassAF`, which returned 4096 again. -/
def exBypassAFA : ObjectAllocator := (Allocate exBypassAF none exHostC).stateD exNull

/-! ## The page walk of `ValidatePages` -/

/-- The loop over the blocks of one page in `ObjectAllocator::ValidatePages`,
with `k` iterations left: `corruptedCount` is the counter and `calls` the calls
of the callback `fn` made so far, each with its two arguments. -/
def ValidatePages.blocks (s : ObjectAllocator) :
    Nat → Nat → Nat → Nat → List (Nat × Nat) → Nat × List (Nat × Nat)
  | 0, _, _, corruptedCount, calls => (corruptedCount, calls)
  | k + 1, i, currentBlockPtr, corruptedCount, calls =>
    -- `if (CorruptedCheck(currentBlock)) { ++corruptedCount; fn(currentBlockPtr, ObjectSize_); }`
    let corrupted := CorruptedCheck s currentBlockPtr
    let corruptedCount := if corrupted then incU32 corruptedCount else corruptedCount
    let calls := if corrupted then calls ++ [(currentBlockPtr, s.Stats_.ObjectSize_)]
      else calls
    -- move to the next block in the page
    let currentBlockPtr := currentBlockPtr + (s.Config_.HBlockInfo_.size_
      + (2 * s.Config_.PadBytes_) % 2 ^ 32 + s.Stats_.ObjectSize_)
    let currentBlockPtr := if i < decU32 s.Config_.ObjectsPerPage_ then
      currentBlockPtr + s.Config_.InterAlignSize_ else currentBlockPtr
    ValidatePages.blocks s k (i + 1) currentBlockPtr corruptedCount calls

/-- The loop over the page list in `ObjectAllocator::ValidatePages`. -/
def ValidatePages.pages (s : ObjectAllocator) :
    Nat → Nat → Nat → List (Nat × Nat) → Option (Nat × List (Nat × Nat))
  | 0, _, _, _ => none
  | fuel + 1, currentPage, corruptedCount, calls =>
    if currentPage = 0 then some (corruptedCount, calls)
    else
      let currentBlockPtr := currentPage + pointer_size + s.Config_.LeftAlignSize_
        + s.Config_.HBlockInfo_.size_ + s.Config_.PadBytes_
      let r := ValidatePages.blocks s s.Config_.ObjectsPerPage_ 0 currentBlockPtr
        corruptedCount calls
      ValidatePages.pages s fuel (readPtr s.mem currentPage) r.1 r.2

/-- `ObjectAllocator::ValidatePages`, a `const` member function: the count it
returns and the calls of the callback it makes, in order, each with the block
address and the size it is given; `none` when the walk over the page list does
not end. -/
def ValidatePages (s : ObjectAllocator) : Option (Nat × List (Nat × Nat)) :=
  ValidatePages.pages s walkFuel s.PageList_ 0 []

/-- The blocks with a damaged pad: the blocks of the pages on the page list
that have a pad byte different from the pad pattern, page by page from the head
of the page list, each page's blocks by increasing address. -/
def ObjectAllocator.corruptedBlocks (s : ObjectAllocator) : List Nat :=
  (s.allBlocks s.pageList).filter (fun b => decide (¬ s.padsIntact b))

/-! ## Reading the headers -/

/-- The address of the header of the block whose object region is at `p`, as
`BlockHeaderCheck` computes it. -/
def ObjectAllocator.headerAddr (s : ObjectAllocator) (p : Nat) : Nat :=
  p - s.Config_.PadBytes_ - s.Config_.HBlockInfo_.size_

/-- The allocation number in the basic header of the block at `p`: the
`unsigned` at the start of the header. -/
def ObjectAllocator.basicAllocNum (s : ObjectAllocator) (p : Nat) : Nat :=
  readLE s.mem (s.headerAddr p) 4

/-- The in-use flag in the basic header of the block at `p`: the byte after
the allocation number. -/
def ObjectAllocator.basicFlag (s : ObjectAllocator) (p : Nat) : Nat :=
  s.mem (s.headerAddr p + 4)

/-- The use counter in the extended header of the block at `p`: the `short`
after the caller's prefix. -/
def ObjectAllocator.useCount (s : ObjectAllocator) (p : Nat) : Nat :=
  readLE s.mem (s.headerAddr p + s.Config_.HBlockInfo_.additional_) 2

/-- The pointer in the external header of the block at `p`. -/
def ObjectAllocator.externalHeader (s : ObjectAllocator) (p : Nat) : Nat :=
  readPtr s.mem (s.headerAddr p)

/-! ## Example allocators, continued -/

/-- The allocator `exStart` after a client overwrote the pad byte at 4126, left
of the object at 4128, a block on the free list. -/
def exFreeCorrupt : ObjectAllocator := exStart.poke 4126 0

/-- What the headers of the blocks of the pages `pages` hold, given the nodes
`free` of the free list and the pointers `R` that `Allocate` has returned: a
basic header has its flag set exactly for the blocks not on the free list and
allocation number 0 for those on it; the use counter of an extended header is
the number of times the block has been returned, as a `short`. -/
def HeaderInv (s : ObjectAllocator) (pages free R : List Nat) : Prop :=
  ∀ P ∈ pages, ∀ b ∈ s.pageBlocks P,
    (s.Config_.HBlockInfo_.type_ = .hbBasic →
      (b ∈ free → s.basicAllocNum b = 0 ∧ s.basicFlag b = 0) ∧
      (b ∉ free → s.basicFlag b = 1)) ∧
    (s.Config_.HBlockInfo_.type_ = .hbExtended → s.useCount b = R.count b % 65536)

/-- Two 8-byte objects per page, one page at most, no pad bytes, external
headers. -/
def exConfigX : OAConfig :=
  { UseCPPMemManager_ := false, ObjectsPerPage_ := 2, MaxPages_ := 1, DebugOn_ := false,
    PadBytes_ := 0, HBlockInfo_ := HeaderBlockInfo.ofType .hbExternal 0, Alignment_ := 0,
    LeftAlignSize_ := 0, InterAlignSize_ := 0 }

/-- A host that has no storage for a page, hands out the record at address
20000 and has room for the copy of a label. -/
def exHostX : HostAlloc := { storage := none, info := some 20000, label := true }

/-- A host that has no storage for a page and hands out the record at address
30000. -/
def exHostY : HostAlloc := { storage := none, info := some 30000, label := true }

/-- The allocator for 8-byte objects with `exConfigX`, just constructed: one
page at 4096 of 40 bytes, its blocks at 4112 and 4128. -/
def exX : ObjectAllocator :=
  (ObjectAllocator.construct 8 exConfigX (fun _ => 0) exHost).stateD exNull

/-- After `Allocate("x")` on `exX`, which returned 4128; the host supplied the
record at 20000. -/
def exXA : ObjectAllocator := (Allocate exX (some "x") exHostX).stateD exNull

/-- After `Free(4128)` on `exXA`; the host supplied the record at 30000. -/
def exXAF : ObjectAllocator := (Free exXA 4128 exHostY).stateD exNull

/-! ## Runs without stores into the pad bytes -/

/-- The runs of `Reachable` in which the client stores into the object
regions of the blocks it holds only, never into their pad bytes. -/
inductive CleanRun : ObjectAllocator → List Nat → Prop where
  | construct (ObjectSize : Nat) (config : OAConfig) (m : Memory) (host : HostAlloc)
      (s : ObjectAllocator) :
      ValidConfig ObjectSize config → config.UseCPPMemManager_ = false →
      ObjectAllocator.construct ObjectSize config m host = .ok () s →
      (∀ newPage, host.storage = some newPage →
        newPage ≠ 0 ∧ newPage + s.Stats_.PageSize_ ≤ 2 ^ 64) →
      CleanRun s []
  | allocate (s : ObjectAllocator) (R : List Nat) (label : Option String) (host : HostAlloc)
      (s' : ObjectAllocator) :
      CleanRun s R → FreshStorage s host →
      (Allocate s label host).state? = some s' →
      CleanRun s' ((Allocate s label host).value?.toList ++ R)
  | free (s : ObjectAllocator) (R : List Nat) (p : Nat) (host : HostAlloc)
      (s' : ObjectAllocator) :
      CleanRun s R → (p = 0 ∨ p ∈ R ∨ ¬ s.owns p) →
      (Free s p host).state? = some s' →
      CleanRun s' R
  | freeEmptyPages (s : ObjectAllocator) (R : List Nat) (s' : ObjectAllocator) :
      CleanRun s R → (FreeEmptyPages s).state? = some s' →
      CleanRun s' (R.filter (fun p => decide (s'.owns p)))
  | clientWrite (s : ObjectAllocator) (R : List Nat) (p a v : Nat) :
      CleanRun s R → p ∈ R → p ∉ s.freeList →
      p ≤ a → a < p + s.Stats_.ObjectSize_ →
      CleanRun (s.poke a v) R

/-- The pad bytes of every block of the pages `pages` hold the pad pattern. -/
def PadsInv (s : ObjectAllocator) (pages : List Nat) : Prop :=
  ∀ P ∈ pages, ∀ b ∈ s.pageBlocks P, s.padsIntact b

/-- The alignment of the layout: when an alignment is asked for, the offset of
the first object region in a page and the distance between consecutive object
regions are multiples of it. -/
def Aligned (config : OAConfig) (ObjectSize : Nat) : Prop :=
  0 < config.Alignment_ →
    (pointer_size + config.LeftAlignSize_ + config.HBlockInfo_.size_ + config.PadBytes_)
      % config.Alignment_ = 0 ∧
    (config.HBlockInfo_.size_ + 2 * config.PadBytes_ + ObjectSize + config.InterAlignSize_)
      % config.Alignment_ = 0

/-- The page size as `CalculateTotalPageSize` computes it from the layout:
link pointer, left alignment and the blocks, less the inter-block alignment
of the last block when there is more than one block. -/
def pageSizeOf (config : OAConfig) (ObjectSize : Nat) : Nat :=
  let blockSize := config.HBlockInfo_.size_ + 2 * config.PadBytes_ + ObjectSize
    + config.InterAlignSize_
  if config.ObjectsPerPage_ > 1 then
    pointer_size + config.LeftAlignSize_ + blockSize * config.ObjectsPerPage_
      - config.InterAlignSize_
  else pointer_size + config.LeftAlignSize_ + blockSize * config.ObjectsPerPage_

/-! ## Example allocators, continued -/

/-- Two objects per page, one page at most, two pad bytes, basic headers,
objects aligned to 8 bytes. -/
def exConfigA : OAConfig :=
  { UseCPPMemManager_ := false, ObjectsPerPage_ := 2, MaxPages_ := 1, DebugOn_ := false,
    PadBytes_ := 2, HBlockInfo_ := HeaderBlockInfo.ofType .hbBasic 0, Alignment_ := 8,
    LeftAlignSize_ := 0, InterAlignSize_ := 0 }

/-- The allocator for 12-byte objects with `exConfigA`, just constructed: one
left alignment byte, three alignment bytes between the blocks, one page at 4096
of 54 bytes, its blocks at 4112 and 4136. -/
def exAligned : ObjectAllocator :=
  (ObjectAllocator.construct 12 exConfigA (fun _ => 0) exHost).stateD exNull

/-- After one `Allocate` on `exAligned`, which returned 4136. -/
def exAlignedA : ObjectAllocator := (Allocate exAligned none exHostNone).stateD exNull

/-- As `exConfigA`, with one object per page. -/
def exConfigA1 : OAConfig := { exConfigA with ObjectsPerPage_ := 1 }

/-- The allocator for 12-byte objects with `exConfigA1`, just constructed: one
page at 4096 of 33 bytes, its block at 4112. -/
def exAlignedOne : ObjectAllocator :=
  (ObjectAllocator.construct 12 exConfigA1 (fun _ => 0) exHost).stateD exNull

/-- After `Free(4096)` on `exStartB`: the address of the page itself, which is
not the object region of a block. -/
def exBadFree : ObjectAllocator := (Free exStartB 4096 exHostNone).stateD exNull

/-- The storage a call of `Allocate` in non-bypass mode obtains from the host
for a new page: `Allocate` asks for a page when no object is free and the page
limit, if there is one, is not reached. -/
def Allocate.newPage (s : ObjectAllocator) (host : HostAlloc) : Option Nat :=
  if s.Stats_.FreeObjects_ ≤ 0 then
    if s.Config_.MaxPages_ > 0 ∧ s.Stats_.PagesInUse_ ≥ s.Config_.MaxPages_ then none
    else host.storage
  else none

/-- The pages the loop of `ObjectAllocator::FreeEmptyPages` passes to
`delete[]`, first one first: the loop of `FreeEmptyPages.loop`, collecting the
page at each release. -/
def FreeEmptyPages.released : Nat → ObjectAllocator → Option Nat → List Nat
  | 0, _, _ => []
  | fuel + 1, s, currentPtrRef =>
    let currentPage := s.loadPage currentPtrRef
    if currentPage = 0 then []
    else
      match PageIsEmpty s currentPage with
      | none => []
      | some true =>
        let nextPage := readPtr s.mem currentPage
        match freeBlocks s currentPage with
        | none => []
        | some s1 =>
          let s2 := s1.storePage currentPtrRef nextPage
          currentPage :: FreeEmptyPages.released fuel s2.pageReleased currentPtrRef
      | some false => FreeEmptyPages.released fuel s (some currentPage)

/-- The pages a call of `FreeEmptyPages` passes to `delete[]`. -/
def ObjectAllocator.released (s : ObjectAllocator) : List Nat :=
  FreeEmptyPages.released walkFuel s none

/-- The allocator states of non-bypass mode after any sequence of calls, each
with the storage the host has handed out for pages and that has not been
passed to `delete[]` since: the constructor with any configuration (`MaxPages`
is an `unsigned`), or a state of `Reachable`; then `Allocate` with any answers
of the host, `Free` with any address, stores of the client anywhere, and
`FreeEmptyPages` where each `delete[]` it executes is passed storage that the
host handed out and that was not deleted before. -/
inductive AnyRun : ObjectAllocator → List Nat → Prop where
  | construct (ObjectSize : Nat) (config : OAConfig) (m : Memory) (host : HostAlloc)
      (s : ObjectAllocator) :
      config.UseCPPMemManager_ = false → config.MaxPages_ < 2 ^ 32 →
      (ObjectAllocator.construct ObjectSize config m host).state? = some s →
      AnyRun s host.storage.toList
  | reachable (s : ObjectAllocator) (R : List Nat) :
      Reachable s R → AnyRun s s.pageList
  | allocate (s : ObjectAllocator) (live : List Nat) (label : Option String) (host : HostAlloc)
      (s' : ObjectAllocator) :
      AnyRun s live → (Allocate s label host).state? = some s' →
      AnyRun s' ((Allocate.newPage s host).toList ++ live)
  | free (s : ObjectAllocator) (live : List Nat) (p : Nat) (host : HostAlloc)
      (s' : ObjectAllocator) :
      AnyRun s live → (Free s p host).state? = some s' →
      AnyRun s' live
  | freeEmptyPages (s : ObjectAllocator) (live : List Nat) (s' : ObjectAllocator) :
      AnyRun s live → (FreeEmptyPages s).state? = some s' →
      List.Subperm s.released live →
      AnyRun s' (live.diff s.released)
  | clientWrite (s : ObjectAllocator) (live : List Nat) (a v : Nat) :
      AnyRun s live → AnyRun (s.poke a v) live

/-! ## Example allocators, continued -/

/-- Two objects per page, one page at most, four pad bytes, no headers. -/
def exConfigS : OAConfig :=
  { UseCPPMemManager_ := false, ObjectsPerPage_ := 2, MaxPages_ := 1, DebugOn_ := false,
    PadBytes_ := 4, HBlockInfo_ := HeaderBlockInfo.ofType .hbNone 0, Alignment_ := 0,
    LeftAlignSize_ := 0, InterAlignSize_ := 0 }

/-- The allocator for 4-byte objects with `exConfigS`, just constructed: one
page at 4096 of 32 bytes, its blocks at 4108 and 4120. The object region is
smaller than a pointer: the eight bytes of the link stored at 4120 reach into
the right pad, which the build fills with the pad pattern afterwards. -/
def exSmall : ObjectAllocator :=
  (ObjectAllocator.construct 4 exConfigS (fun _ => 0) exHost).stateD exNull

/-- After one `Allocate` on `exSmall`, which returned 4120. -/
def exSmallA : ObjectAllocator := (Allocate exSmall none exHostNone).stateD exNull

/-- After a second `Allocate`. -/
def exSmallAA : ObjectAllocator := (Allocate exSmallA none exHostNone).stateD exNull

/-- One object per page, one page at most, no pad bytes, no headers. -/
def exConfigT : OAConfig :=
  { UseCPPMemManager_ := false, ObjectsPerPage_ := 1, MaxPages_ := 1, DebugOn_ := false,
    PadBytes_ := 0, HBlockInfo_ := HeaderBlockInfo.ofType .hbNone 0, Alignment_ := 0,
    LeftAlignSize_ := 0, InterAlignSize_ := 0 }

/-- The allocator for 4-byte objects with `exConfigT`, just constructed on a
memory whose bytes all hold 255: one page at 4096 of 12 bytes, its block at
4104. -/
def exTiny : ObjectAllocator :=
  (ObjectAllocator.construct 4 exConfigT (fun _ => 255) exHost).stateD exNull

/-- Two objects per page, one page at most, no pad bytes, no headers, objects
aligned to 16 bytes. -/
def exConfigG : OAConfig :=
  { UseCPPMemManager_ := false, ObjectsPerPage_ := 2, MaxPages_ := 1, DebugOn_ := false,
    PadBytes_ := 0, HBlockInfo_ := HeaderBlockInfo.ofType .hbNone 0, Alignment_ := 16,
    LeftAlignSize_ := 0, InterAlignSize_ := 0 }

/-- The allocator for 8-byte objects with `exConfigG`, just constructed: eight
left alignment bytes from 4104, eight alignment bytes between the blocks, one
page at 4096 of 40 bytes, its blocks at 4112 and 4128. -/
def exGap : ObjectAllocator :=
  (ObjectAllocator.construct 8 exConfigG (fun _ => 0) exHost).stateD exNull

/-- After `Free(4104)` on `exGap`: the address of the left alignment bytes of
the page, which is not the object region of a block. -/
def exGapF : ObjectAllocator := (Free exGap 4104 exHostNone).stateD exNull

/-- After `FreeEmptyPages` on `exGapF`, which released the page at 4096. -/
def exGapEnd : ObjectAllocator := (FreeEmptyPages exGapF).stateD exNull

/-- The allocator for 4-byte objects with `exConfigA`, just constructed: one
left alignment byte, three alignment bytes between the blocks, one page at 4096
of 38 bytes, its blocks at 4112 and 4128. -/
def exAlignedS : ObjectAllocator :=
  (ObjectAllocator.construct 4 exConfigA (fun _ => 0) exHost).stateD exNull

/-- After one `Allocate` on `exAlignedS`, which returned 4128. -/
def exAlignedSA : ObjectAllocator := (Allocate exAlignedS none exHostNone).stateD exNull

end OA

/-!
# BList: an unrolled doubly linked list

A shallow embedding of `BList.cpp`. A `BList<T, Size>` is a chain of nodes, each
with an array of `Size` items of which the first `count` are in use.

Conventions of the embedding:

* the chain of nodes from `head_` to `tail_` is the list `nodes`: the `next` and
  `prev` links are the order of that list, `head_` is its first node and
  `tail_` its last one (`tail_` is only read while the chain is not empty);
* the array `values` of a node is the function from its indices to its items;
* `int` and `unsigned` values are numbers: a `count`, an index into an array
  and `ArraySize` are natural numbers, the counters `NodeCount` and
  `ItemCount` and the index a caller passes are integers; signed overflow,
  which is undefined behaviour, is not modelled;
* the host's `new` is an input of each call that may create a node: whether
  it succeeds.
-/

namespace BL

/-- The codes `BListException::BLIST_EXCEPTION`. -/
inductive BLIST_EXCEPTION where
  | E_NO_MEMORY
  | E_BAD_INDEX
  | E_DATA_ERROR
  deriving DecidableEq, Repr

/-- The class `BListException`: the code and the description it is thrown
with. -/
structure BListException where
  code : BLIST_EXCEPTION
  description : String
  deriving DecidableEq, Repr

/-- The statistics `BListStats`. -/
structure BListStats where
  NodeSize : Nat
  NodeCount : Int
  ArraySize : Nat
  ItemCount : Int
  deriving DecidableEq, Repr

/-- A node `BList<T, Size>::BNode`, without its links: the number of items in
use and the array of items. -/
structure BNode (T : Type) where
  count : Nat
  values : Nat → T

/-- The data members of `BList<T, Size>`: the chain of nodes from `head_` to
`tail_` and the statistics. -/
structure BList (T : Type) where
  nodes : List (BNode T)
  stats : BListStats

/-- The constructor `BList<T, Size>::BList()`: no node, zeroed statistics,
then the size of a node (`nodeSize` stands for `sizeof(BNode)`) and `Size`. -/
def BList.empty (T : Type) (Size nodeSize : Nat) : BList T :=
  { nodes := [],
    stats := { NodeSize := nodeSize, NodeCount := 0, ArraySize := Size, ItemCount := 0 } }

/-- `BList::CreateNewNode`: a value-initialised node, and the list with its
node counter incremented; `host` tells whether `new BNode{}` succeeds, and the
description of the exception is the text of the host's exception. -/
def CreateNewNode {T : Type} [Inhabited T] (b : BList T) (host : Bool) :
    Except BListException (BNode T × BList T) :=
  if host then
    .ok ({ count := 0, values := fun _ => default },
      { b with stats := { b.stats with NodeCount := b.stats.NodeCount + 1 } })
  else .error { code := .E_NO_MEMORY, description := "std::bad_alloc" }

/-- `BList::Increament`: store the value in the first slot of the node and
count it. -/
def Increament {T : Type} (node : BNode T) (value : T) : BNode T :=
  { count := node.count + 1, values := Function.update node.values 0 value }

/-- The loop `for (int i = hi; i > lo; --i) values[i] = values[i - 1];` that
makes room at index `lo`, as a function of `hi`. -/
def shiftRight {T : Type} (values : Nat → T) (lo : Nat) : Nat → Nat → T
  | 0 => values
  | i + 1 =>
    if i + 1 > lo then shiftRight (Function.update values (i + 1) (values i)) lo i
    else values

/-- The list after `++stats.ItemCount`. -/
def BList.countItem {T : Type} (b : BList T) (nodes : List (BNode T)) : BList T :=
  { nodes := nodes, stats := { b.stats with ItemCount := b.stats.ItemCount + 1 } }

/-- `BList::push_front`. -/
def push_front {T : Type} [Inhabited T] (b : BList T) (value : T) (host : Bool) :
    Except BListException (BList T) :=
  match b.nodes with
  | [] =>
    -- the list is empty: the new node is head and tail
    match CreateNewNode b host with
    | .error e => .error e
    | .ok (newNode, b1) => .ok (b1.countItem [Increament newNode value])
  | head :: rest =>
    if head.count < b.stats.ArraySize then
      -- room in the head node: shift its items and put the value in front
      let shifted : BNode T := { head with values := shiftRight head.values 0 head.count }
      .ok (b.countItem (Increament shifted value :: rest))
    else
      -- a new head node
      match CreateNewNode b host with
      | .error e => .error e
      | .ok (newNode, b1) => .ok (b1.countItem (Increament newNode value :: head :: rest))

/-- `BList::push_back`. -/
def push_back {T : Type} [Inhabited T] (b : BList T) (value : T) (host : Bool) :
    Except BListException (BList T) :=
  match b.nodes.getLast? with
  | none =>
    -- the list is empty: the new node is head and tail
    match CreateNewNode b host with
    | .error e => .error e
    | .ok (newNode, b1) => .ok (b1.countItem [Increament newNode value])
  | some tail =>
    if tail.count < b.stats.ArraySize then
      -- room in the tail node
      let tail1 : BNode T :=
        { count := tail.count + 1, values := Function.update tail.values tail.count value }
      .ok (b.countItem (b.nodes.dropLast ++ [tail1]))
    else
      -- a new tail node
      match CreateNewNode b host with
      | .error e => .error e
      | .ok (newNode, b1) => .ok (b1.countItem (b.nodes ++ [Increament newNode value]))

/-- The loop `for (; index < node->count; ++index) if (value < node->values[index]) break;`
of `insert` and `Split`, with `k` iterations left: the index it stops at. -/
def insertIndex {T : Type} [LinearOrder T] (value : T) (node : BNode T) : Nat → Nat → Nat
  | 0, index => index
  | k + 1, index =>
    if value < node.values index then index else insertIndex value node k (index + 1)

/-- The sorted insertion into a node that has room, as `insert` and `Split`
do it: find the index, shift the items from there on, store the value,
count it. -/
def insertInNode {T : Type} [LinearOrder T] (node : BNode T) (value : T) : BNode T :=
  let index := insertIndex value node node.count 0
  { count := node.count + 1,
    values := Function.update (shiftRight node.values index node.count) index value }

/-- The loop of `Split` that moves the upper half of the items of `node` to
`tempNode`, with `k` iterations left: `i` is the index in `node` and
`rightCount` the index in `tempNode`. -/
def Split.move {T : Type} : Nat → Nat → Nat → BNode T → BNode T → BNode T × BNode T
  | 0, _, _, node, tempNode => (node, tempNode)
  | k + 1, i, rightCount, node, tempNode =>
    Split.move k (i + 1) (rightCount + 1) { node with count := node.count - 1 }
      { count := tempNode.count + 1,
        values := Function.update tempNode.values rightCount (node.values i) }

/-- `BList::Split(node, value)`, for the node `node` between the nodes `before`
and the nodes `after` of the chain: the new node is linked in right after
`node`. -/
def Split {T : Type} [LinearOrder T] [Inhabited T] (b : BList T)
    (before : List (BNode T)) (node : BNode T) (after : List (BNode T)) (value : T)
    (host : Bool) : Except BListException (BList T) :=
  match CreateNewNode b host with
  | .error e => .error e
  | .ok (tempNode, b1) =>
    if b1.stats.ArraySize = 1 then
      if node.values 0 < value then
        .ok (b1.countItem (before ++ node :: Increament tempNode value :: after))
      else
        let tempNode1 : BNode T :=
          { count := tempNode.count + 1,
            values := Function.update tempNode.values 0 (node.values 0) }
        let node1 : BNode T := { node with values := Function.update node.values 0 value }
        .ok (b1.countItem (before ++ node1 :: tempNode1 :: after))
    else
      -- the array is bigger than 1: move the upper half to the new node
      let halves := Split.move (b1.stats.ArraySize - b1.stats.ArraySize / 2)
        (b1.stats.ArraySize / 2) 0 node tempNode
      if value < halves.2.values 0 then
        .ok (b1.countItem (before ++ insertInNode halves.1 value :: halves.2 :: after))
      else
        .ok (b1.countItem (before ++ halves.1 :: insertInNode halves.2 value :: after))

/-- The `for` loop of `insert` over the items of the node `ptrHead`, with `k`
iterations left: whether it sets `inserted`; `next` is the node after
`ptrHead`, if there is one. -/
def insert.scan {T : Type} [LinearOrder T] (value : T) (ptrHead : BNode T)
    (next : Option (BNode T)) : Nat → Nat → Bool
  | 0, _ => false
  | k + 1, i =>
    if value < ptrHead.values i then true
    else if i = ptrHead.count - 1 ∧ next.any (fun n => decide (value < n.values 0)) = true then
      true
    else insert.scan value ptrHead next k (i + 1)

/-- The `while` loop of `insert` over the nodes: the node `ptrHead` it stops at
with `inserted` set, between the nodes before it (`before`, last one first)
and the nodes after it; `none` when it runs off the chain. -/
def insert.search {T : Type} [LinearOrder T] (value : T) :
    List (BNode T) → List (BNode T) → Option (List (BNode T) × BNode T × List (BNode T))
  | _, [] => none
  | before, ptrHead :: rest =>
    if insert.scan value ptrHead rest.head? ptrHead.count 0 then
      some (before.reverse, ptrHead, rest)
    else insert.search value (ptrHead :: before) rest

/-- `BList::insert`. -/
def insert {T : Type} [LinearOrder T] [Inhabited T] (b : BList T) (value : T)
    (host : Bool) : Except BListException (BList T) :=
  match b.nodes with
  | [] => push_front b value host
  | head :: rest =>
    match insert.search value [] (head :: rest) with
    | none =>
      -- no position found: the value goes to the end
      let tail := (head :: rest).getLast (List.cons_ne_nil head rest)
      if tail.count < b.stats.ArraySize then push_back b value host
      else Split b (head :: rest).dropLast tail [] value host
    | some (before, ptrHead, after) =>
      if ptrHead.count ≥ b.stats.ArraySize then
        match after with
        | nextNode :: rest =>
          if ptrHead.values (ptrHead.count - 1) < value ∧ nextNode.count < b.stats.ArraySize then
            -- the value goes to the front of the next node
            let shifted : BNode T :=
              { nextNode with values := shiftRight nextNode.values 0 nextNode.count }
            .ok (b.countItem (before ++ ptrHead :: Increament shifted value :: rest))
          else Split b before ptrHead after value host
        | [] => Split b before ptrHead after value host
      else
        -- there is room in the node
        .ok (b.countItem (before ++ insertInNode ptrHead value :: after))

/-- The `for` loop of `find` over the items of a node, with `k` iterations
left: the index of the first item equal to the value. -/
def find.scan {T : Type} [DecidableEq T] (value : T) (node : BNode T) : Nat → Nat → Option Nat
  | 0, _ => none
  | k + 1, i => if node.values i = value then some i else find.scan value node k (i + 1)

/-- The `while` loop of `find` over the nodes; `index` counts the items of the
nodes passed. -/
def find.walk {T : Type} [DecidableEq T] (value : T) : List (BNode T) → Int → Int
  | [], _ => -1
  | ptrHead :: rest, index =>
    match find.scan value ptrHead ptrHead.count 0 with
    | some i => index + i
    | none => find.walk value rest (index + ptrHead.count)

/-- `BList::find`. -/
def find {T : Type} [DecidableEq T] (b : BList T) (value : T) : Int :=
  find.walk value b.nodes 0

/-- The `while` loop of `operator[]` over the nodes; running off the chain
throws the second exception of the function. -/
def subscript.walk {T : Type} (index : Int) : List (BNode T) → Int → Except BListException T
  | [], _ => .error { code := .E_BAD_INDEX, description := "Index computation failed" }
  | current :: rest, currentIndex =>
    if index < currentIndex + current.count then
      .ok (current.values (index - currentIndex).toNat)
    else subscript.walk index rest (currentIndex + current.count)

/-- `BList::operator[]`, the same code for l-values and for r-values: the item
the returned reference refers to. -/
def subscript {T : Type} (b : BList T) (index : Int) : Except BListException T :=
  if index < 0 ∨ index ≥ b.stats.ItemCount then
    .error { code := .E_BAD_INDEX, description := "Index out of range" }
  else subscript.walk index b.nodes 0

/-- `BList::size`. -/
def size {T : Type} (b : BList T) : Int := b.stats.ItemCount

/-- The loop `for (int j = i; j < count - 1; ++j) values[j] = values[j + 1];`
of `remove`, with `k` iterations left: it closes the gap at index `j`. -/
def shiftLeft {T : Type} (values : Nat → T) : Nat → Nat → Nat → T
  | 0, _ => values
  | k + 1, j => shiftLeft (Function.update values j (values (j + 1))) k (j + 1)

/-- The node after the item at index `i` has been taken out: the items behind
it move down by one and the count drops. -/
def removeAt {T : Type} (node : BNode T) (i : Nat) : BNode T :=
  { count := node.count - 1, values := shiftLeft node.values (node.count - 1 - i) i }

/-- The `for` loop of `remove` over the items of a node, with `k` iterations
left: the index in the node at which `tempIndex == index`, or `tempIndex` after
the last item. -/
def remove.scan (index : Int) : Nat → Nat → Int → Nat ⊕ Int
  | 0, _, tempIndex => .inr tempIndex
  | k + 1, i, tempIndex =>
    if tempIndex = index then .inl i else remove.scan index k (i + 1) (tempIndex + 1)

/-- The `while` loop of `remove` over the nodes, `before` being the nodes
passed (last one first): the chain after the removal and whether a node was
unlinked and deleted; `none` when the loop runs off the chain. -/
def remove.walk {T : Type} (index : Int) :
    List (BNode T) → List (BNode T) → Int → Option (List (BNode T) × Bool)
  | _, [], _ => none
  | before, ptrHead :: rest, tempIndex =>
    match remove.scan index ptrHead.count 0 tempIndex with
    | .inl i =>
      let node := removeAt ptrHead i
      -- a node left without items is unlinked: as head, as tail or in the middle
      if node.count = 0 then some (before.reverse ++ rest, true)
      else some (before.reverse ++ node :: rest, false)
    | .inr tempIndex => remove.walk index (ptrHead :: before) rest tempIndex

/-- `BList::remove(int index)`. -/
def remove {T : Type} (b : BList T) (index : Int) : BList T :=
  match remove.walk index [] b.nodes 0 with
  | none => b
  | some (nodes, deleted) =>
    { nodes := nodes,
      stats := { b.stats with
        ItemCount := b.stats.ItemCount - 1,
        NodeCount := if deleted then b.stats.NodeCount - 1 else b.stats.NodeCount } }

/-- The `for` loop of `remove_by_value` over the items of a node, with `k`
iterations left: the index of the first item equal to the value. -/
def remove_by_value.scan {T : Type} [DecidableEq T] (value : T) (node : BNode T) :
    Nat → Nat → Option Nat
  | 0, _ => none
  | k + 1, i =>
    if node.values i = value then some i else remove_by_value.scan value node k (i + 1)

/-- The `while` loop of `remove_by_value` over the nodes, `before` being the
nodes passed (last one first): the chain after the removal and whether a node
was unlinked and deleted; `none` when the loop runs off the chain. -/
def remove_by_value.walk {T : Type} [DecidableEq T] (value : T) :
    List (BNode T) → List (BNode T) → Option (List (BNode T) × Bool)
  | _, [] => none
  | before, ptrHead :: rest =>
    match remove_by_value.scan value ptrHead ptrHead.count 0 with
    | some i =>
      let node := removeAt ptrHead i
      -- a node left without items is unlinked: as head, as tail or in the middle
      if node.count = 0 then some (before.reverse ++ rest, true)
      else some (before.reverse ++ node :: rest, false)
    | none => remove_by_value.walk value (ptrHead :: before) rest

/-- `BList::remove_by_value`. -/
def remove_by_value {T : Type} [DecidableEq T] (b : BList T) (value : T) : BList T :=
  match remove_by_value.walk value [] b.nodes with
  | none => b
  | some (nodes, deleted) =>
    { nodes := nodes,
      stats := { b.stats with
        ItemCount := b.stats.ItemCount - 1,
        NodeCount := if deleted then b.stats.NodeCount - 1 else b.stats.NodeCount } }

/-! ## Notions used to state the properties -/

/-- The items in the slots `i`, ..., `i + k - 1` of an array. -/
def segment {T : Type} (values : Nat → T) (i k : Nat) : List T :=
  (List.range' i k).map values

/-- The items of a node: the first `count` slots of its array. -/
def BNode.items {T : Type} (node : BNode T) : List T :=
  (List.range node.count).map node.values

/-- The items of a chain of nodes, from the first node to the last. -/
def flattenNodes {T : Type} : List (BNode T) → List T
  | [] => []
  | node :: rest => node.items ++ flattenNodes rest

/-- The flattened contents of a list: the items of its nodes from head to
tail. -/
def BList.flatten {T : Type} (b : BList T) : List T := flattenNodes b.nodes

/-- Every node holds between 1 and `Size` items. -/
def BList.Filled {T : Type} (b : BList T) : Prop :=
  ∀ node ∈ b.nodes, 1 ≤ node.count ∧ node.count ≤ b.stats.ArraySize

/-- A client that calls `insert` once for each of the values, in order, the
host never out of memory. -/
def insertAll {T : Type} [LinearOrder T] [Inhabited T] (b : BList T) :
    List T → Except BListException (BList T)
  | [] => .ok b
  | value :: rest =>
    match insert b value true with
    | .error e => .error e
    | .ok b1 => insertAll b1 rest

/-- The flattened contents after a call that returned; nothing after a call
that threw. -/
def contents {T : Type} (r : Except BListException (BList T)) : List T :=
  match r with
  | .ok b => b.flatten
  | .error _ => []

/-- A list of natural numbers with two items per node, built by `insert`
calls. -/
def exList : Except BListException (BList Nat) :=
  insertAll (BList.empty Nat 2 32) [5, 1, 4, 1, 3, 9, 2]

/-- The list `exList` as a list, empty had a call thrown. -/
def exBList : BList Nat :=
  match exList with
  | .ok b => b
  | .error _ => BList.empty Nat 2 32

/-- The lists a client can build with `Size` items per node: the constructor,
then calls of `push_back`, `push_front`, `insert`, `remove` and
`remove_by_value` in any order. A call that throws has not changed the list,
as the only exception is the one of `CreateNewNode`, which is thrown before
anything is stored. -/
inductive Built {T : Type} [LinearOrder T] [Inhabited T] (Size nodeSize : Nat) :
    BList T → Prop where
  | empty : Built Size nodeSize (BList.empty T Size nodeSize)
  | push_back (b b' : BList T) (value : T) (host : Bool) :
      Built Size nodeSize b → push_back b value host = .ok b' → Built Size nodeSize b'
  | push_front (b b' : BList T) (value : T) (host : Bool) :
      Built Size nodeSize b → push_front b value host = .ok b' → Built Size nodeSize b'
  | insert (b b' : BList T) (value : T) (host : Bool) :
      Built Size nodeSize b → insert b value host = .ok b' → Built Size nodeSize b'
  | remove (b : BList T) (index : Int) :
      Built Size nodeSize b → Built Size nodeSize (remove b index)
  | remove_by_value (b : BList T) (value : T) :
      Built Size nodeSize b → Built Size nodeSize (remove_by_value b value)

/-- The statistics count what the chain holds: every node has between 1 and
`ArraySize` items, `ItemCount` is the sum of the counts of the nodes and
`NodeCount` the number of nodes. -/
def BList.Counted {T : Type} (b : BList T) : Prop :=
  b.Filled ∧ b.stats.ItemCount = ((b.nodes.map (fun node => node.count)).sum : Nat) ∧
    b.stats.NodeCount = (b.nodes.length : Nat)

/-- The list after a call that returned, the list `b` after one that threw. -/
def listAfter {T : Type} (r : Except BListException (BList T)) (b : BList T) : BList T :=
  match r with
  | .ok b1 => b1
  | .error _ => b

/-- The empty list of natural numbers with two items per node. -/
def exEmpty : BList Nat := BList.empty Nat 2 32

/-- After `push_back(3)` and `push_back(4)` on `exEmpty`: one node, full. -/
def exPair : BList Nat :=
  listAfter (push_back (listAfter (push_back exEmpty 3 true) exEmpty) 4 true) exEmpty

/-- After `push_back(5)` on `exPair`: the nodes hold 3, 4 and 5. -/
def exPushed : BList Nat := listAfter (push_back exPair 5 true) exEmpty

/-- After `push_front(9)` on `exPushed`: the nodes hold 9, then 3, 4, then 5. -/
def exFront : BList Nat := listAfter (push_front exPushed 9 true) exEmpty

/-- After `insert(1)` on `exFront`: the nodes hold 1, 9, then 3, 4, then 5. -/
def exMixed : BList Nat := listAfter (insert exFront 1 true) exEmpty

/-- After `remove(0)` and `remove_by_value(5)` on `exMixed`: the nodes hold 9,
then 3, 4. -/
def exShrunk : BList Nat := remove_by_value (remove exMixed 0) 5

end BL

/-!
# ALGraph: a weighted graph as adjacency lists, and Dijkstra's algorithm

A shallow embedding of `ALGraph.cpp`.

Conventions of the embedding:

* a `std::vector` is a list; nodes are numbered from 1, and the adjacency list
  of node `i` is the entry `i - 1` of `AdjacentList`;
* `unsigned` values are natural numbers below `2^32` and their arithmetic
  wraps modulo `2^32`; the conversion of an index to `int` wraps modulo `2^32`
  into the range from `-2^31`;
* `vector::at` outside the vector throws `std::out_of_range`;
  `vector::operator[]` outside the vector is undefined behaviour, for which
  `Dijkstra` returns `none`.
-/

namespace ALG

/-- The struct `DijkstraInfo`: the cost of reaching a node and the path to
it. -/
structure DijkstraInfo where
  cost : Nat
  path : List Nat
  deriving DecidableEq, Repr

/-- The struct `AdjacencyInfo`: the destination and the weight of an edge. -/
structure AdjacencyInfo where
  id : Nat
  weight : Nat
  deriving DecidableEq, Repr

/-- The type `ALIST`. -/
abbrev ALIST := List (List AdjacencyInfo)

/-- The data member of `ALGraph`. -/
structure ALGraph where
  AdjacentList : ALIST
  deriving DecidableEq, Repr

/-- The constant `ALGraph::INFINITY_ALGRAPH`, `static_cast<unsigned>(-1)`. -/
def INFINITY_ALGRAPH : Nat := 4294967295

/-- The constructor `ALGraph::ALGraph(size)`: `size` empty adjacency lists. -/
def ALGraph.create (size : Nat) : ALGraph := { AdjacentList := List.replicate size [] }

/-- Outcome of a member function that changes the graph: it returns, or
`vector::at` throws `std::out_of_range`; either way with the graph as it is at
that point. -/
inductive Result where
  | ok (g : ALGraph)
  | out_of_range (g : ALGraph)
  deriving DecidableEq, Repr

/-- The graph a call leaves behind. -/
def Result.graph : Result → ALGraph
  | .ok g => g
  | .out_of_range g => g

/-- The loop of `ALGraph::AddDEdge` over the adjacency list: the entry goes in
front of the first entry that has a larger weight, or the same weight and a
larger id, and to the end when there is none. -/
def AddDEdge.insert (info : AdjacencyInfo) : List AdjacencyInfo → List AdjacencyInfo
  | [] => [info]
  | it :: rest =>
    if info.weight < it.weight ∨ (info.weight = it.weight ∧ info.id < it.id) then
      info :: it :: rest
    else it :: AddDEdge.insert info rest

/-- `ALGraph::AddDEdge`. -/
def AddDEdge (g : ALGraph) (source destination weight : Nat) : Result :=
  -- `unsigned id = --source;`
  let id := (source + 4294967295) % 4294967296
  match g.AdjacentList[id]? with
  | none => .out_of_range g
  | some adj_list =>
    let info : AdjacencyInfo := { id := destination, weight := weight }
    .ok { AdjacentList := g.AdjacentList.set id (AddDEdge.insert info adj_list) }

/-- `ALGraph::AddUEdge`: the edge in both directions. -/
def AddUEdge (g : ALGraph) (node1 node2 weight : Nat) : Result :=
  match AddDEdge g node1 node2 weight with
  | .ok g1 => AddDEdge g1 node2 node1 weight
  | .out_of_range g1 => .out_of_range g1

/-- `ALGraph::GetAList`. -/
def GetAList (g : ALGraph) : ALIST := g.AdjacentList

/-- The members of the class `GNode` that `Dijkstra` uses. -/
structure GNode where
  nodeID : Nat
  isExplored : Bool
  deriving DecidableEq, Repr

/-- The conversion `static_cast<int>(j)` of an index. -/
def toInt (j : Nat) : Int :=
  if j % 4294967296 < 2147483648 then (j % 4294967296 : Nat) else (j % 4294967296 : Nat) - 4294967296

/-- The access `info[k]` with an `int` index: a negative index is outside the
vector. -/
def atInt {α : Type} (v : List α) (k : Int) : Option α :=
  if k < 0 then none else v[k.toNat]?

/-- The inner loop of `ALGraph::Dijkstra` that looks for the unexplored node of
least cost, with `k` iterations left: the value of `min_cost_node` after it. -/
def Dijkstra.findMin (info : List DijkstraInfo) (graphNodes : List GNode) :
    Nat → Nat → Int → Option Int
  | 0, _, min_cost_node => some min_cost_node
  | k + 1, j, min_cost_node =>
    match graphNodes[j]? with
    | none => none
    | some node =>
      if node.isExplored then Dijkstra.findMin info graphNodes k (j + 1) min_cost_node
      else if min_cost_node = -1 then Dijkstra.findMin info graphNodes k (j + 1) (toInt j)
      else
        match info[j]?, atInt info min_cost_node with
        | some a, some b =>
          if a.cost < b.cost then Dijkstra.findMin info graphNodes k (j + 1) (toInt j)
          else Dijkstra.findMin info graphNodes k (j + 1) min_cost_node
        | _, _ => none

/-- The loop of `ALGraph::Dijkstra` over the neighbours of the node at index
`min_cost_node`: the costs and paths after it. -/
def Dijkstra.relax (min_cost_node : Nat) :
    List AdjacencyInfo → List DijkstraInfo → Option (List DijkstraInfo)
  | [], info => some info
  | neighbor :: rest, info =>
    match info[min_cost_node]? with
    | none => none
    | some current =>
      let alt_cost := (current.cost + neighbor.weight) % 4294967296
      -- the index `neighbor.id - 1`
      let target := (neighbor.id + 4294967295) % 4294967296
      match info[target]? with
      | none => none
      | some old =>
        if alt_cost < old.cost then
          Dijkstra.relax min_cost_node rest
            (info.set target { cost := alt_cost, path := current.path ++ [neighbor.id] })
        else Dijkstra.relax min_cost_node rest info

/-- The outer loop of `ALGraph::Dijkstra`, with `k` iterations left. -/
def Dijkstra.loop (g : ALGraph) :
    Nat → List DijkstraInfo → List GNode → Option (List DijkstraInfo)
  | 0, info, _ => some info
  | k + 1, info, graphNodes =>
    match Dijkstra.findMin info graphNodes g.AdjacentList.length 0 (-1) with
    | none => none
    | some min_cost_node =>
      -- no unexplored node is left: break
      if min_cost_node = -1 then some info
      else
        match atInt graphNodes min_cost_node, atInt g.AdjacentList min_cost_node with
        | some node, some neighbors =>
          -- mark the node as explored
          let graphNodes := graphNodes.set min_cost_node.toNat { node with isExplored := true }
          match Dijkstra.relax min_cost_node.toNat neighbors info with
          | none => none
          | some info => Dijkstra.loop g k info graphNodes
        | _, _ => none

/-- `ALGraph::Dijkstra`. -/
def Dijkstra (g : ALGraph) (start_node : Nat) : Option (List DijkstraInfo) :=
  let size := g.AdjacentList.length
  let info : List DijkstraInfo := List.replicate size { cost := INFINITY_ALGRAPH, path := [] }
  let graphNodes : List GNode :=
    (List.range size).map (fun i => { nodeID := (i + 1) % 4294967296, isExplored := false })
  -- the index `start_node - 1`
  let start := (start_node + 4294967295) % 4294967296
  match info[start]? with
  | none => none
  | some _ =>
    Dijkstra.loop g size (info.set start { cost := 0, path := [start_node] }) graphNodes

/-! ## Notions used to state the properties -/

/-- The number of nodes of the graph. -/
def ALGraph.size (g : ALGraph) : Nat := g.AdjacentList.length

/-- The adjacency list of the node with id `u`. -/
def ALGraph.edges (g : ALGraph) (u : Nat) : List AdjacencyInfo :=
  if u = 0 then [] else g.AdjacentList.getD (u - 1) []

/-- The order of an adjacency list: by weight, and by id among entries of the
same weight. -/
def AdjacencyInfo.le (a b : AdjacencyInfo) : Prop :=
  a.weight ≤ b.weight ∧ (a.weight = b.weight → a.id ≤ b.id)

instance (a b : AdjacencyInfo) : Decidable (a.le b) := by
  unfold AdjacencyInfo.le; infer_instance

/-- A call of `AddDEdge` or `AddUEdge`, with its arguments. -/
inductive Call where
  | AddDEdge (source destination weight : Nat)
  | AddUEdge (node1 node2 weight : Nat)
  deriving DecidableEq, Repr

/-- The directed edges a call adds: source, destination, weight. -/
def Call.added : Call → List (Nat × Nat × Nat)
  | .AddDEdge source destination weight => [(source, destination, weight)]
  | .AddUEdge node1 node2 weight => [(node2, node1, weight), (node1, node2, weight)]

/-- The ids a call uses as the source of an edge lie in `1..size`. -/
def Call.sourcesIn (size : Nat) : Call → Prop
  | .AddDEdge source _ _ => 1 ≤ source ∧ source ≤ size
  | .AddUEdge node1 node2 _ => (1 ≤ node1 ∧ node1 ≤ size) ∧ 1 ≤ node2 ∧ node2 ≤ size

instance (size : Nat) (c : Call) : Decidable (c.sourcesIn size) := by
  cases c <;> (unfold Call.sourcesIn; infer_instance)

/-- A client that makes the calls one after the other, first call first; the
graph after the last call, `none` as soon as a call throws. -/
def run (g : ALGraph) : List Call → Option ALGraph
  | [] => some g
  | .AddDEdge source destination weight :: rest =>
    match AddDEdge g source destination weight with
    | .ok g1 => run g1 rest
    | .out_of_range _ => none
  | .AddUEdge node1 node2 weight :: rest =>
    match AddUEdge g node1 node2 weight with
    | .ok g1 => run g1 rest
    | .out_of_range _ => none

/-- The directed edges the calls add from the node `source`, as entries of an
adjacency list. -/
def addedFrom (source : Nat) : List Call → List AdjacencyInfo
  | [] => []
  | c :: rest =>
    (c.added.filter (fun e => e.1 = source)).map (fun e => { id := e.2.1, weight := e.2.2 })
      ++ addedFrom source rest

/-- A directed walk of the graph from the node `s`: the node it ends in, the
ids of its nodes in order, and the sum of the weights of its edges. -/
inductive Walk (g : ALGraph) (s : Nat) : Nat → List Nat → Nat → Prop where
  | start : 1 ≤ s → s ≤ g.size → Walk g s s [s] 0
  | step {v : Nat} {p : List Nat} {c : Nat} (e : AdjacencyInfo) :
      Walk g s v p c → e ∈ g.edges v → Walk g s e.id (p ++ [e.id]) (c + e.weight)

/-- Every edge of the graph leads to a node of the graph. -/
def ALGraph.Closed (g : ALGraph) : Prop :=
  ∀ l ∈ g.AdjacentList, ∀ e ∈ l, 1 ≤ e.id ∧ e.id ≤ g.size

instance (g : ALGraph) : Decidable g.Closed := by
  unfold ALGraph.Closed; infer_instance

/-- The node at index `i` is marked as explored. -/
def Explored (graphNodes : List GNode) (i : Nat) : Prop :=
  ∃ node, graphNodes[i]? = some node ∧ node.isExplored = true

/-- What the run of `Dijkstra` from the node `s` assumes of the graph: fewer
than `2^31` nodes, every edge leads to a node, and a walk that repeats no node
before its last one weighs less than the infinity value. -/
structure Sound (g : ALGraph) (s : Nat) : Prop where
  size : g.size < 2147483648
  closed : g.Closed
  light : ∀ v p c, Walk g s v p c → p.dropLast.Nodup → c < INFINITY_ALGRAPH

/-- Loop invariant of `Dijkstra`, first part: the entry of the start node;
every entry of finite cost holds a walk to its node of that weight, which
repeats no node and passes through explored nodes only; and the entry of an
explored node is finite and no walk to the node is lighter. -/
structure Core (g : ALGraph) (s : Nat) (info : List DijkstraInfo) (graphNodes : List GNode) :
    Prop where
  lenInfo : info.length = g.size
  lenNodes : graphNodes.length = g.size
  start : info[s - 1]? = some { cost := 0, path := [s] }
  bounded : ∀ (i : Nat) (e : DijkstraInfo), info[i]? = some e → e.cost ≤ INFINITY_ALGRAPH
  sound : ∀ (i : Nat) (e : DijkstraInfo), info[i]? = some e → e.cost < INFINITY_ALGRAPH →
    Walk g s (i + 1) e.path e.cost ∧ e.path.Nodup ∧
      ∀ x ∈ e.path.dropLast, 1 ≤ x ∧ Explored graphNodes (x - 1)
  exact : ∀ (i : Nat) (e : DijkstraInfo), info[i]? = some e → Explored graphNodes i →
    e.cost < INFINITY_ALGRAPH ∧ ∀ p c, Walk g s (i + 1) p c → e.cost ≤ c

/-- Loop invariant of `Dijkstra`, second part: the edge `a` that leaves the
node at index `i` has been relaxed. -/
def RelaxedEdge (info : List DijkstraInfo) (i : Nat) (a : AdjacencyInfo) : Prop :=
  ∀ e e' : DijkstraInfo, info[i]? = some e → info[a.id - 1]? = some e' →
    e'.cost ≤ e.cost + a.weight

/-- What the loop over the neighbours of an explored node does to the entries:
the invariant is kept, the entries of the explored nodes stay, and no cost
rises. -/
structure Lowered (g : ALGraph) (s : Nat) (graphNodes : List GNode)
    (info info' : List DijkstraInfo) : Prop where
  core : Core g s info' graphNodes
  kept : ∀ (j : Nat) (e : DijkstraInfo), Explored graphNodes j → info[j]? = some e →
    info'[j]? = some e
  lower : ∀ (j : Nat) (e : DijkstraInfo), info[j]? = some e →
    ∃ e' : DijkstraInfo, info'[j]? = some e' ∧ e'.cost ≤ e.cost

/-- The number of nodes not yet explored. -/
def unexplored (graphNodes : List GNode) : Nat :=
  (graphNodes.filter (fun node => !node.isExplored)).length

/-- Three nodes with the edges 1 -> 2 of weight 7, 1 -> 3 of weight 2,
3 -> 2 of weight 3 and 2 -> 1 of weight 1. -/
def exGraph : ALGraph :=
  (run (ALGraph.create 3) [.AddDEdge 1 2 7, .AddDEdge 1 3 2, .AddDEdge 3 2 3,
    .AddDEdge 2 1 1]).getD (ALGraph.create 3)

/-- Three nodes with the edges 1 -> 2 of weight 5 and 3 -> 2 of weight 3: the
node 3 cannot be reached from the node 1. -/
def exUnreach : ALGraph :=
  (run (ALGraph.create 3) [.AddDEdge 1 2 5, .AddDEdge 3 2 3]).getD (ALGraph.create 3)

/-- The graph `exUnreach` without the edge that leaves the node 3. -/
def exUnreachBare : ALGraph :=
  (run (ALGraph.create 3) [.AddDEdge 1 2 5]).getD (ALGraph.create 3)

/-- Three nodes with the edge 2 -> 3 of weight 3 only: neither the node 2 nor
the node 3 can be reached from the node 1. -/
def exIsolated : ALGraph :=
  (run (ALGraph.create 3) [.AddDEdge 2 3 3]).getD (ALGraph.create 3)

/-- Three nodes with the edges 1 -> 2 of weight 1, 2 -> 3 of weight
4294967293 and 3 -> 2 of weight 2: the sequence 1, 2, 3, 2 weighs `2^32`. -/
def exWrap : ALGraph :=
  (run (ALGraph.create 3) [.AddDEdge 1 2 1, .AddDEdge 2 3 4294967293, .AddDEdge 3 2 2]).getD
    (ALGraph.create 3)

end ALG

namespace OA

theorem memset_out (m : Memory) (p v n x : Nat) (h : x < p ∨ p + n ≤ x) :
    memset m p v n x = m x := by
  unfold memset
  rw [if_neg]
  omega

theorem memset_in (m : Memory) (p v n x : Nat) (h1 : p ≤ x) (h2 : x < p + n) :
    memset m p v n x = v % 256 := by
  unfold memset
  rw [if_pos ⟨h1, h2⟩]

theorem writeLE_out (m : Memory) (a n v x : Nat) (h : x < a ∨ a + n ≤ x) :
    writeLE m a n v x = m x := by
  unfold writeLE
  rw [if_neg]
  omega

theorem writeLE_in (m : Memory) (a n v x : Nat) (h1 : a ≤ x) (h2 : x < a + n) :
    writeLE m a n v x = (v / 256 ^ (x - a)) % 256 := by
  unfold writeLE
  rw [if_pos ⟨h1, h2⟩]

theorem readLE_congr (m m' : Memory) (n : Nat) :
    ∀ a : Nat, (∀ k, k < n → m' (a + k) = m (a + k)) → readLE m' a n = readLE m a n := by
  induction n with
  | zero => intro a _; rfl
  | succ n ih =>
    intro a h
    simp only [readLE]
    have h0 := h 0 (Nat.succ_pos n)
    rw [Nat.add_zero] at h0
    rw [h0, ih (a + 1)]
    intro k hk
    have := h (k + 1) (Nat.succ_lt_succ hk)
    rw [show a + 1 + k = a + (k + 1) by omega]
    exact this

theorem readLE_lt (m : Memory) (n : Nat) : ∀ a : Nat, readLE m a n < 256 ^ n := by
  induction n with
  | zero => intro a; simp [readLE]
  | succ n ih =>
    intro a
    simp only [readLE]
    have := ih (a + 1)
    have h2 : m a % 256 < 256 := Nat.mod_lt _ (by norm_num)
    rw [pow_succ]
    omega

theorem readLE_writeLE_same (n : Nat) :
    ∀ (m : Memory) (a v : Nat), v < 256 ^ n → readLE (writeLE m a n v) a n = v := by
  induction n with
  | zero => intro m a v h; simp at h; simp [readLE, h]
  | succ n ih =>
    intro m a v h
    simp only [readLE]
    have e1 : writeLE m a (n + 1) v a = v % 256 := by
      rw [writeLE_in m a (n + 1) v a (le_refl a) (by omega)]
      simp
    have e2 : readLE (writeLE m a (n + 1) v) (a + 1) n
        = readLE (writeLE m (a + 1) n (v / 256)) (a + 1) n := by
      apply readLE_congr
      intro k hk
      rw [writeLE_in m a (n + 1) v (a + 1 + k) (by omega) (by omega),
        writeLE_in m (a + 1) n (v / 256) (a + 1 + k) (by omega) (by omega)]
      rw [show a + 1 + k - a = k + 1 by omega, show a + 1 + k - (a + 1) = k by omega]
      rw [Nat.div_div_eq_div_mul, pow_succ, Nat.mul_comm]
    rw [e1, e2, ih _ _ _ (by rw [pow_succ] at h; omega)]
    omega

theorem readPtr_lt (m : Memory) (a : Nat) : readPtr m a < 2 ^ 64 := by
  have := readLE_lt m 8 a
  unfold readPtr pointer_size
  norm_num at this ⊢
  exact this

theorem readPtr_writePtr_same (m : Memory) (a v : Nat) (h : v < 2 ^ 64) :
    readPtr (writePtr m a v) a = v := by
  unfold readPtr writePtr pointer_size
  exact readLE_writeLE_same 8 m a v (by norm_num at h ⊢; exact h)

theorem readPtr_congr (m m' : Memory) (a : Nat) (h : ∀ k, k < 8 → m' (a + k) = m (a + k)) :
    readPtr m' a = readPtr m a :=
  readLE_congr m m' 8 a h


/-! ### Chains in memory -/

theorem ListRep.congr {m m' : Memory} : ∀ {l : List Nat} {h : Nat}, ListRep m h l →
    (∀ x ∈ l, ∀ k, k < 8 → m' (x + k) = m (x + k)) → ListRep m' h l := by
  intro l
  induction l with
  | nil => intro h hr _; exact hr
  | cons x xs ih =>
    intro h hr hm
    obtain ⟨h1, h2, h3⟩ := hr
    refine ⟨h1, h2, ?_⟩
    rw [readPtr_congr m m' x (hm x (List.mem_cons_self _ _))]
    exact ih h3 (fun y hy => hm y (List.mem_cons_of_mem _ hy))

theorem ListRep.ne_zero {m : Memory} : ∀ {l : List Nat} {h : Nat}, ListRep m h l →
    ∀ x ∈ l, x ≠ 0 := by
  intro l
  induction l with
  | nil => intro h _ x hx; cases hx
  | cons y ys ih =>
    intro h hr x hx
    obtain ⟨_, h2, h3⟩ := hr
    rcases List.mem_cons.1 hx with e | e
    · rw [e]; exact h2
    · exact ih h3 x e

theorem ListRep.head_eq {m : Memory} {x : Nat} {xs : List Nat} {h : Nat}
    (hr : ListRep m h (x :: xs)) : h = x := hr.1

theorem ListRep.nil_iff {m : Memory} {h : Nat} : ListRep m h [] ↔ h = 0 := Iff.rfl

theorem ListRep.eq_nil_of_zero {m : Memory} {l : List Nat} (hr : ListRep m 0 l) : l = [] := by
  cases l with
  | nil => rfl
  | cons x xs => exact absurd hr.1.symm hr.2.1

theorem ListRep.unique {m : Memory} : ∀ {l l' : List Nat} {h : Nat}, ListRep m h l →
    ListRep m h l' → l = l' := by
  intro l
  induction l with
  | nil =>
    intro l' h hr hr'
    have : h = 0 := hr
    subst this
    exact (ListRep.eq_nil_of_zero hr').symm
  | cons x xs ih =>
    intro l' h hr hr'
    cases l' with
    | nil =>
      have : h = 0 := hr'
      exact absurd (hr.1.symm.trans this) hr.2.1
    | cons y ys =>
      have e : x = y := hr.1.symm.trans hr'.1
      subst e
      rw [ih hr.2.2 hr'.2.2]

theorem chain_of_listRep {m : Memory} : ∀ {l : List Nat} {h fuel : Nat}, ListRep m h l →
    l.length < fuel → chain m fuel h = some l := by
  intro l
  induction l with
  | nil =>
    intro h fuel hr hf
    have : h = 0 := hr
    subst this
    cases fuel with
    | zero => cases hf
    | succ f => simp [chain]
  | cons x xs ih =>
    intro h fuel hr hf
    obtain ⟨h1, h2, h3⟩ := hr
    subst h1
    cases fuel with
    | zero => cases hf
    | succ f =>
      simp only [chain, if_neg h2]
      rw [ih h3 (by simpa using hf)]
      rfl

theorem listRep_of_chain {m : Memory} : ∀ {fuel : Nat} {h : Nat} {l : List Nat},
    chain m fuel h = some l → ListRep m h l := by
  intro fuel
  induction fuel with
  | zero => intro h l hc; simp [chain] at hc
  | succ f ih =>
    intro h l hc
    simp only [chain] at hc
    by_cases hz : h = 0
    · rw [if_pos hz] at hc
      cases hc
      exact hz
    · rw [if_neg hz] at hc
      cases hcf : chain m f (readPtr m h) with
      | none => rw [hcf] at hc; cases hc
      | some t =>
        rw [hcf] at hc
        cases hc
        exact ⟨rfl, hz, ih hcf⟩

/-- A list of distinct non-null addresses below `N` has fewer than `N` nodes. -/
theorem length_lt_of_nodup_bounded {l : List Nat} {N : Nat} (hN : 0 < N) (hn : l.Nodup)
    (hb : ∀ x ∈ l, x ≠ 0 ∧ x < N) : l.length < N := by
  have h0 : (0 :: l).Nodup := List.nodup_cons.2 ⟨fun h => (hb 0 h).1 rfl, hn⟩
  have hs : (0 :: l) ⊆ List.range N := by
    intro x hx
    rcases List.mem_cons.1 hx with e | e
    · subst e
      exact List.mem_range.2 hN
    · exact List.mem_range.2 (hb x e).2
  have := (List.subperm_of_subset h0 hs).length_le
  simp at this
  omega

theorem checkErrorFree_loop {m : Memory} {block : Nat} : ∀ {l : List Nat} {h fuel : Nat},
    ListRep m h l → l.length < fuel →
    CheckErrorFree.loop m block fuel h = some (decide (block ∈ l)) := by
  intro l
  induction l with
  | nil =>
    intro h fuel hr hf
    have : h = 0 := hr
    subst this
    cases fuel with
    | zero => cases hf
    | succ f => simp [CheckErrorFree.loop]
  | cons x xs ih =>
    intro h fuel hr hf
    obtain ⟨h1, h2, h3⟩ := hr
    subst h1
    cases fuel with
    | zero => cases hf
    | succ f =>
      simp only [CheckErrorFree.loop, if_neg h2]
      by_cases e : h = block
      · rw [if_pos e]; simp [e]
      · rw [if_neg e, ih h3 (by simpa using hf)]
        have : block ≠ h := fun c => e c.symm
        simp [this]

theorem checkBlockBoundary_loop {m : Memory} {sz block : Nat} : ∀ {l : List Nat} {h fuel : Nat},
    ListRep m h l → l.length < fuel →
    CheckBlockBoundary.loop m sz block fuel h
      = some (decide (∀ P ∈ l, ¬ (P ≤ block ∧ block < P + sz))) := by
  intro l
  induction l with
  | nil =>
    intro h fuel hr hf
    have : h = 0 := hr
    subst this
    cases fuel with
    | zero => cases hf
    | succ f => simp [CheckBlockBoundary.loop]
  | cons x xs ih =>
    intro h fuel hr hf
    obtain ⟨h1, h2, h3⟩ := hr
    subst h1
    cases fuel with
    | zero => cases hf
    | succ f =>
      simp only [CheckBlockBoundary.loop, if_neg h2]
      by_cases e : block ≥ h ∧ block < h + sz
      · rw [if_pos e]
        simp
        intro h'
        omega
      · rw [if_neg e, ih h3 (by simpa using hf)]
        congr 1
        simp only [List.mem_cons, forall_eq_or_imp, decide_eq_decide]
        constructor
        · intro hh; exact ⟨by omega, hh⟩
        · intro hh; exact hh.2

/-! ### Geometry of a page -/

theorem mem_pageBlocks {s : ObjectAllocator} {P o : Nat} :
    o ∈ s.pageBlocks P ↔ ∃ i, i < s.Config_.ObjectsPerPage_ ∧ o = s.objAddr P i := by
  unfold ObjectAllocator.pageBlocks
  simp only [List.mem_map, List.mem_range]
  constructor
  · rintro ⟨i, hi, e⟩; exact ⟨i, hi, e.symm⟩
  · rintro ⟨i, hi, e⟩; exact ⟨i, hi, e.symm⟩

/-- A block lies inside its page, after the page link and the left alignment. -/
theorem zone_in_page {s : ObjectAllocator} (hw : WellFormed s) {P o : Nat}
    (hb : o ∈ s.pageBlocks P) :
    P + pointer_size + s.Config_.LeftAlignSize_ + s.Config_.HBlockInfo_.size_
        + s.Config_.PadBytes_ ≤ o ∧
    o + s.Stats_.ObjectSize_ + s.Config_.PadBytes_ ≤ P + s.Stats_.PageSize_ := by
  obtain ⟨i, hi, e⟩ := mem_pageBlocks.1 hb
  have hfit := hw.pageFit (by omega)
  have h1 : (i + 1) * s.stride ≤ s.Config_.ObjectsPerPage_ * s.stride :=
    Nat.mul_le_mul_right _ hi
  rw [Nat.succ_mul] at h1
  have hst : s.stride = s.Config_.HBlockInfo_.size_ + 2 * s.Config_.PadBytes_
      + s.Stats_.ObjectSize_ + s.Config_.InterAlignSize_ := rfl
  subst e
  unfold ObjectAllocator.objAddr
  generalize i * s.stride = a at h1 ⊢
  generalize s.Config_.ObjectsPerPage_ * s.stride = b at h1 hfit
  constructor <;> omega

/-- Two blocks of one page: the zone of the earlier one (header, pads, object)
ends before the zone of the later one starts. -/
theorem zones_same_page {s : ObjectAllocator} {P i j : Nat} (hij : i < j) :
    s.objAddr P i + s.Stats_.ObjectSize_ + s.Config_.PadBytes_ + s.Config_.InterAlignSize_
      + s.Config_.HBlockInfo_.size_ + s.Config_.PadBytes_ ≤ s.objAddr P j := by
  have h1 : (i + 1) * s.stride ≤ j * s.stride := Nat.mul_le_mul_right _ hij
  rw [Nat.succ_mul] at h1
  have hst : s.stride = s.Config_.HBlockInfo_.size_ + 2 * s.Config_.PadBytes_
      + s.Stats_.ObjectSize_ + s.Config_.InterAlignSize_ := rfl
  unfold ObjectAllocator.objAddr
  generalize i * s.stride = a at h1 ⊢
  generalize j * s.stride = b at h1 ⊢
  omega

/-- The zones of two different blocks (of the same page or of two pages that do
not overlap) do not overlap. -/
theorem zones_disjoint {s : ObjectAllocator} (hw : WellFormed s) {P Q o1 o2 : Nat}
    (hPQ : P = Q ∨ P + s.Stats_.PageSize_ ≤ Q ∨ Q + s.Stats_.PageSize_ ≤ P)
    (h1 : o1 ∈ s.pageBlocks P) (h2 : o2 ∈ s.pageBlocks Q) (hne : o1 ≠ o2) :
    o1 + s.Stats_.ObjectSize_ + s.Config_.PadBytes_ + s.Config_.HBlockInfo_.size_
        + s.Config_.PadBytes_ ≤ o2 ∨
    o2 + s.Stats_.ObjectSize_ + s.Config_.PadBytes_ + s.Config_.HBlockInfo_.size_
        + s.Config_.PadBytes_ ≤ o1 := by
  have z1 := zone_in_page hw h1
  have z2 := zone_in_page hw h2
  rcases hPQ with e | hd
  · subst e
    obtain ⟨i, hi, e1⟩ := mem_pageBlocks.1 h1
    obtain ⟨j, hj, e2⟩ := mem_pageBlocks.1 h2
    subst e1 e2
    rcases Nat.lt_trichotomy i j with h | h | h
    · have := zones_same_page (s := s) (P := P) h
      left; omega
    · subst h; exact absurd rfl hne
    · have := zones_same_page (s := s) (P := P) h
      right; omega
  · have hp : pointer_size = 8 := rfl
    rcases hd with h | h
    · left; omega
    · right; omega

/-- The blocks of a page are pairwise distinct. -/
theorem pageBlocks_nodup {s : ObjectAllocator} (hw : WellFormed s) (P : Nat) :
    (s.pageBlocks P).Nodup := by
  unfold ObjectAllocator.pageBlocks
  refine List.Nodup.map_on ?_ (List.nodup_range _)
  intro i _ j _ e
  have hp : pointer_size = 8 := rfl
  have ho := hw.objectSize
  rcases Nat.lt_trichotomy i j with h | h | h
  · have := zones_same_page (s := s) (P := P) h
    omega
  · exact h
  · have := zones_same_page (s := s) (P := P) h
    omega

theorem length_pageBlocks (s : ObjectAllocator) (P : Nat) :
    (s.pageBlocks P).length = s.Config_.ObjectsPerPage_ := by
  simp [ObjectAllocator.pageBlocks]

/-- A block lies in the address range of its page. -/
theorem inPage_of_block {s : ObjectAllocator} (hw : WellFormed s) {P o : Nat}
    (hb : o ∈ s.pageBlocks P) : s.inPage P o := by
  have z := zone_in_page hw hb
  have hp : pointer_size = 8 := rfl
  have ho := hw.objectSize
  unfold ObjectAllocator.inPage
  omega

/-! ### States with the same layout -/

theorem SameLayout.refl (s : ObjectAllocator) : SameLayout s s := ⟨rfl, rfl, rfl⟩

theorem SameLayout.trans {s s' s'' : ObjectAllocator} (h1 : SameLayout s s')
    (h2 : SameLayout s' s'') : SameLayout s s'' :=
  ⟨h2.1.trans h1.1, h2.2.1.trans h1.2.1, h2.2.2.trans h1.2.2⟩

theorem SameLayout.symm {s s' : ObjectAllocator} (h : SameLayout s s') : SameLayout s' s :=
  ⟨h.1.symm, h.2.1.symm, h.2.2.symm⟩

theorem SameLayout.stride {s s' : ObjectAllocator} (h : SameLayout s s') :
    s'.stride = s.stride := by
  unfold ObjectAllocator.stride
  rw [h.1, h.2.1]

theorem SameLayout.objAddr {s s' : ObjectAllocator} (h : SameLayout s s') (P i : Nat) :
    s'.objAddr P i = s.objAddr P i := by
  unfold ObjectAllocator.objAddr
  rw [h.stride, h.1]

theorem SameLayout.pageBlocks {s s' : ObjectAllocator} (h : SameLayout s s') (P : Nat) :
    s'.pageBlocks P = s.pageBlocks P := by
  unfold ObjectAllocator.pageBlocks
  rw [h.1]
  exact List.map_congr_left (fun i _ => h.objAddr P i)

theorem SameLayout.wellFormed {s s' : ObjectAllocator} (h : SameLayout s s')
    (hw : WellFormed s) : WellFormed s' := by
  obtain ⟨h1, h2, h3⟩ := h
  have hs : s'.stride = s.stride := SameLayout.stride ⟨h1, h2, h3⟩
  constructor
  · rw [h2]; exact hw.objectSize
  · rw [h1]; exact hw.objectsPerPage
  · rw [h1]; exact hw.maxPages
  · rw [h1]; exact hw.padBytes
  · rw [h1]; exact hw.basic
  · rw [h1]; exact hw.extended
  · rw [h1]; exact hw.external
  · rw [h1, h3]; exact hw.pageLink
  · rw [h1, h3, hs]; exact hw.pageFit
  · rw [h1]; exact hw.bypass

/-! ### Framing the invariant -/

/-- The pad bytes of a block depend only on the memory of its two pad
regions. -/
theorem padsIntact_of_pads {s s' : ObjectAllocator} (hl : SameLayout s s') {f : Nat}
    (hf : s.Config_.PadBytes_ ≤ f)
    (hm : ∀ x, ((f ≤ x + s.Config_.PadBytes_ ∧ x < f) ∨
        (f + s.Stats_.ObjectSize_ ≤ x ∧ x < f + s.Stats_.ObjectSize_ + s.Config_.PadBytes_)) →
      s'.mem x = s.mem x)
    (h : s.padsIntact f) : s'.padsIntact f := by
  unfold ObjectAllocator.padsIntact at h ⊢
  rw [hl.1, hl.2.1]
  intro k hk
  obtain ⟨a, b⟩ := h k hk
  rw [hm _ (by omega), hm _ (by omega)]
  exact ⟨a, b⟩

/-- The pad bytes of a block depend only on the memory of its zone. -/
theorem padsIntact_congr {s s' : ObjectAllocator} (hl : SameLayout s s') {f : Nat}
    (hf : s.Config_.PadBytes_ ≤ f)
    (hm : ∀ x, f ≤ x + s.Config_.PadBytes_ → x < f + s.Stats_.ObjectSize_ + s.Config_.PadBytes_ →
      s'.mem x = s.mem x)
    (h : s.padsIntact f) : s'.padsIntact f := by
  unfold ObjectAllocator.padsIntact at h ⊢
  rw [hl.1, hl.2.1]
  intro k hk
  obtain ⟨a, b⟩ := h k hk
  rw [hm _ (by omega) (by omega), hm _ (by omega) (by omega)]
  exact ⟨a, b⟩

/-- The invariant survives a change of memory that leaves alone the links of
the pages and the object regions and pads of the free blocks, together with
any change of the statistics other than the three counters it relates. -/
theorem Inv.frame {s s' : ObjectAllocator} {pages free : List Nat} (h : Inv s pages free)
    (hl : SameLayout s s') (hP : s'.PageList_ = s.PageList_) (hF : s'.FreeList_ = s.FreeList_)
    (c1 : s'.Stats_.FreeObjects_ = s.Stats_.FreeObjects_)
    (c2 : s'.Stats_.PagesInUse_ = s.Stats_.PagesInUse_)
    (c3 : s'.Stats_.ObjectsInUse_ = s.Stats_.ObjectsInUse_)
    (hmP : ∀ P ∈ pages, ∀ k, k < 8 → s'.mem (P + k) = s.mem (P + k))
    (hmF : ∀ f ∈ free, ∀ x, f ≤ x + s.Config_.PadBytes_ →
      x < f + s.Stats_.ObjectSize_ + s.Config_.PadBytes_ → s'.mem x = s.mem x) :
    Inv s' pages free := by
  have hw := h.wf
  have hp : pointer_size = 8 := rfl
  have ho := hw.objectSize
  constructor
  · exact hl.wellFormed hw
  · rw [hP]; exact h.pageRep.congr hmP
  · rw [hF]
    refine h.freeRep.congr ?_
    intro f hf k hk
    exact hmF f hf _ (by omega) (by omega)
  · rw [hl.2.2]; exact h.pageBound
  · exact h.pageNodup
  · rw [hl.2.2]; exact h.pageDisjoint
  · exact h.freeNodup
  · intro f hf
    obtain ⟨P, hP', hb⟩ := h.freeBlock f hf
    exact ⟨P, hP', by rw [hl.pageBlocks]; exact hb⟩
  · intro f hf
    obtain ⟨P, hP', hb⟩ := h.freeBlock f hf
    have z := zone_in_page hw hb
    exact padsIntact_congr hl (by omega) (hmF f hf) (h.freePads f hf)
  · rw [c1]; exact h.cntFree
  · rw [c2]; exact h.cntPages
  · rw [c3, hl.1]; exact h.cntUse

/-- The invariant survives any change of memory inside the zone (header, pads,
object region) of a block that is not on the free list. -/
theorem Inv.frame_zone {s s' : ObjectAllocator} {pages free : List Nat} (h : Inv s pages free)
    (hl : SameLayout s s') (hP : s'.PageList_ = s.PageList_) (hF : s'.FreeList_ = s.FreeList_)
    (c1 : s'.Stats_.FreeObjects_ = s.Stats_.FreeObjects_)
    (c2 : s'.Stats_.PagesInUse_ = s.Stats_.PagesInUse_)
    (c3 : s'.Stats_.ObjectsInUse_ = s.Stats_.ObjectsInUse_)
    {P o : Nat} (hPm : P ∈ pages) (ho : o ∈ s.pageBlocks P) (hof : o ∉ free)
    (hm : ∀ x, (x + s.Config_.PadBytes_ + s.Config_.HBlockInfo_.size_ < o ∨
      o + s.Stats_.ObjectSize_ + s.Config_.PadBytes_ ≤ x) → s'.mem x = s.mem x) :
    Inv s' pages free := by
  have hw := h.wf
  have hp : pointer_size = 8 := rfl
  have hos := hw.objectSize
  have hpl := hw.pageLink
  have zo := zone_in_page hw ho
  refine h.frame hl hP hF c1 c2 c3 ?_ ?_
  · intro Q hQ k hk
    apply hm
    by_cases e : Q = P
    · subst e; left; omega
    · have hb := h.pageBound Q hQ
      rcases h.pageDisjoint Q hQ P hPm e with d | d
      · left; omega
      · right; omega
  · intro f hf x hx1 hx2
    apply hm
    obtain ⟨Q, hQ, hb⟩ := h.freeBlock f hf
    have hne : f ≠ o := fun e => hof (e ▸ hf)
    have hPQ : Q = P ∨ Q + s.Stats_.PageSize_ ≤ P ∨ P + s.Stats_.PageSize_ ≤ Q := by
      by_cases e : Q = P
      · exact Or.inl e
      · exact Or.inr (h.pageDisjoint Q hQ P hPm e)
    rcases zones_disjoint hw hPQ hb ho hne with d | d
    · left; omega
    · right; omega

/-! ### Building a page -/

theorem memset_zero (m : Memory) (p v : Nat) : memset m p v 0 = m := by
  funext x
  exact memset_out m p v 0 x (by omega)

theorem ite_memset (m : Memory) (p v n : Nat) :
    (if n > 0 then memset m p v n else m) = memset m p v n := by
  by_cases h : n > 0
  · rw [if_pos h]
  · have : n = 0 := by omega
    subst this
    rw [if_neg h, memset_zero]

theorem ite_add (c n : Nat) : (if n > 0 then c + n else c) = c + n := by
  by_cases h : n > 0
  · rw [if_pos h]
  · rw [if_neg h]; omega

theorem subU32_eq (x y : Nat) :
    subU32 x y = (x + 4294967296 - y) % 4294967296 := by
  unfold subU32
  split <;> omega

theorem decU32_eq (x : Nat) : decU32 x = (x + 4294967295) % 4294967296 := by
  unfold decU32
  rw [subU32_eq x 1]
  omega

theorem decU32_of_pos {n : Nat} (h1 : 1 ≤ n) (h2 : n < 2 ^ 32) : decU32 n = n - 1 := by
  rw [decU32_eq]
  norm_num at h2
  omega

theorem block_eq (s : ObjectAllocator) (cur i : Nat) :
    AllocateNewPage.block s cur i =
      ({ s with
          mem := memset (memset (writePtr (memset (memset s.mem
              (cur + s.Config_.HBlockInfo_.size_) PAD_PATTERN s.Config_.PadBytes_)
              (cur + s.Config_.HBlockInfo_.size_ + s.Config_.PadBytes_) UNALLOCATED_PATTERN
                s.Stats_.ObjectSize_)
              (cur + s.Config_.HBlockInfo_.size_ + s.Config_.PadBytes_) s.FreeList_)
              (cur + s.Config_.HBlockInfo_.size_ + s.Config_.PadBytes_ + s.Stats_.ObjectSize_)
                PAD_PATTERN s.Config_.PadBytes_)
              (cur + s.Config_.HBlockInfo_.size_ + s.Config_.PadBytes_ + s.Stats_.ObjectSize_
                + s.Config_.PadBytes_) ALIGN_PATTERN (gapAfter s i),
          FreeList_ := cur + s.Config_.HBlockInfo_.size_ + s.Config_.PadBytes_,
          Stats_ := { s.Stats_ with FreeObjects_ := incU32 s.Stats_.FreeObjects_ } },
       cur + s.Config_.HBlockInfo_.size_ + s.Config_.PadBytes_ + s.Stats_.ObjectSize_
          + s.Config_.PadBytes_ + gapAfter s i) := by
  unfold AllocateNewPage.block gapAfter
  simp only [ite_memset, ite_add]
  by_cases hg : s.Config_.InterAlignSize_ > 0 ∧ i < decU32 s.Config_.ObjectsPerPage_
  · simp only [hg, and_self, decide_True, if_true]
  · simp only [hg, decide_False, if_false, Bool.false_eq_true, memset_zero, Nat.add_zero]

/-- What one iteration of the page-building loop does. -/
theorem block_spec (s : ObjectAllocator) (cur i : Nat)
    (hos : pointer_size ≤ s.Stats_.ObjectSize_) (hfl : s.FreeList_ < 2 ^ 64) :
    (AllocateNewPage.block s cur i).1.FreeList_
      = cur + s.Config_.HBlockInfo_.size_ + s.Config_.PadBytes_ ∧
    (AllocateNewPage.block s cur i).1.PageList_ = s.PageList_ ∧
    (AllocateNewPage.block s cur i).1.Config_ = s.Config_ ∧
    (AllocateNewPage.block s cur i).1.infos = s.infos ∧
    (AllocateNewPage.block s cur i).1.Stats_
      = { s.Stats_ with FreeObjects_ := incU32 s.Stats_.FreeObjects_ } ∧
    (AllocateNewPage.block s cur i).2
      = cur + s.Config_.HBlockInfo_.size_ + s.Config_.PadBytes_ + s.Stats_.ObjectSize_
          + s.Config_.PadBytes_ + gapAfter s i ∧
    readPtr (AllocateNewPage.block s cur i).1.mem
      (cur + s.Config_.HBlockInfo_.size_ + s.Config_.PadBytes_) = s.FreeList_ ∧
    (AllocateNewPage.block s cur i).1.padsIntact
      (cur + s.Config_.HBlockInfo_.size_ + s.Config_.PadBytes_) ∧
    (∀ x, (x < cur + s.Config_.HBlockInfo_.size_ ∨
        cur + s.Config_.HBlockInfo_.size_ + s.Config_.PadBytes_ + s.Stats_.ObjectSize_
          + s.Config_.PadBytes_ + gapAfter s i ≤ x) →
      (AllocateNewPage.block s cur i).1.mem x = s.mem x) := by
  have hp : pointer_size = 8 := rfl
  rw [block_eq]
  refine ⟨rfl, rfl, rfl, rfl, rfl, rfl, ?_, ?_, ?_⟩
  · dsimp only
    rw [← readPtr_writePtr_same (memset (memset s.mem (cur + s.Config_.HBlockInfo_.size_)
        PAD_PATTERN s.Config_.PadBytes_) (cur + s.Config_.HBlockInfo_.size_ + s.Config_.PadBytes_)
        UNALLOCATED_PATTERN s.Stats_.ObjectSize_)
        (cur + s.Config_.HBlockInfo_.size_ + s.Config_.PadBytes_) s.FreeList_ hfl]
    apply readPtr_congr
    intro k hk
    rw [memset_out _ _ _ _ _ (by omega), memset_out _ _ _ _ _ (by omega)]
    rw [readPtr_writePtr_same _ _ _ hfl]
  · unfold ObjectAllocator.padsIntact
    dsimp only
    intro k hk
    constructor
    · rw [memset_out _ _ _ _ _ (by omega), memset_out _ _ _ _ _ (by omega)]
      unfold writePtr
      rw [writeLE_out _ _ _ _ _ (by omega), memset_out _ _ _ _ _ (by omega),
        memset_in _ _ _ _ _ (by omega) (by omega)]
      rfl
    · rw [memset_out _ _ _ _ _ (by omega), memset_in _ _ _ _ _ (by omega) (by omega)]
      rfl
  · intro x hx
    dsimp only
    rw [memset_out _ _ _ _ _ (by omega), memset_out _ _ _ _ _ (by omega)]
    unfold writePtr
    rw [writeLE_out _ _ _ _ _ (by omega), memset_out _ _ _ _ _ (by omega),
      memset_out _ _ _ _ _ (by omega)]

theorem gapAfter_lt {s : ObjectAllocator} (hw : WellFormed s) {i : Nat}
    (hi : i + 1 < s.Config_.ObjectsPerPage_) : gapAfter s i = s.Config_.InterAlignSize_ := by
  unfold gapAfter
  rw [decU32_of_pos (by omega) hw.objectsPerPage]
  by_cases h : s.Config_.InterAlignSize_ > 0
  · rw [if_pos ⟨h, by omega⟩]
  · rw [if_neg (fun c => h c.1)]; omega

theorem gapAfter_last {s : ObjectAllocator} (hw : WellFormed s) {i : Nat}
    (hi : i + 1 = s.Config_.ObjectsPerPage_) : gapAfter s i = 0 := by
  unfold gapAfter
  rw [decU32_of_pos (by omega) hw.objectsPerPage]
  rw [if_neg (fun c => by omega)]

/-- One iteration of the page-building loop keeps the loop invariant. -/
theorem BuildInv.step {s0 : ObjectAllocator} {N : Nat} {free0 : List Nat} {i : Nat}
    {s : ObjectAllocator} {cur : Nat} (hw : WellFormed s0)
    (hN : N + s0.Stats_.PageSize_ ≤ 2 ^ 64)
    (hfree64 : ∀ f ∈ free0, f < 2 ^ 64)
    (hfree : ∀ f ∈ free0, f + 8 ≤ N ∨ N + s0.Stats_.PageSize_ ≤ f)
    (hi : i < s0.Config_.ObjectsPerPage_) (h : BuildInv s0 N free0 i s cur) :
    BuildInv s0 N free0 (i + 1) (AllocateNewPage.block s cur i).1
      (AllocateNewPage.block s cur i).2 := by
  have hp : pointer_size = 8 := rfl
  have hws : WellFormed s := h.layout.wellFormed hw
  have hcfg : s.Config_ = s0.Config_ := h.layout.1
  have hosz : s.Stats_.ObjectSize_ = s0.Stats_.ObjectSize_ := h.layout.2.1
  have hcur := h.cursor hi
  have hstr : s0.stride = s0.Config_.HBlockInfo_.size_ + 2 * s0.Config_.PadBytes_
      + s0.Stats_.ObjectSize_ + s0.Config_.InterAlignSize_ := rfl
  have ho : s0.objAddr N i = cur + s0.Config_.HBlockInfo_.size_ + s0.Config_.PadBytes_ := by
    unfold ObjectAllocator.objAddr
    omega
  have hfit := hw.pageFit (by omega)
  have hmul : (i + 1) * s0.stride ≤ s0.Config_.ObjectsPerPage_ * s0.stride :=
    Nat.mul_le_mul_right _ hi
  have hsucc : (i + 1) * s0.stride = i * s0.stride + s0.stride := Nat.succ_mul _ _
  -- the free list head is a 64-bit value
  have hfl : s.FreeList_ < 2 ^ 64 := by
    have hr := h.freeRep
    cases i with
    | zero =>
      simp only [List.range_zero, List.map_nil, List.reverse_nil, List.nil_append] at hr
      cases free0 with
      | nil =>
        have : s.FreeList_ = 0 := hr
        rw [this]; norm_num
      | cons f fs =>
        have e : s.FreeList_ = f := hr.1
        have hz := hfree64 f (List.mem_cons_self _ _)
        omega
    | succ j =>
      rw [List.range_succ, List.map_append, List.reverse_append] at hr
      simp only [List.map_cons, List.map_nil, List.reverse_cons, List.reverse_nil,
        List.nil_append, List.singleton_append, List.cons_append] at hr
      have e : s.FreeList_ = s0.objAddr N j := hr.1
      have z := zone_in_page hw (mem_pageBlocks.2 ⟨j, by omega, rfl⟩ : s0.objAddr N j ∈ s0.pageBlocks N)
      have := hw.objectSize
      omega
  obtain ⟨b1, b2, b3, b4, b5, b6, b7, b8, b9⟩ := block_spec s cur i hws.objectSize hfl
  simp only [hcfg, hosz] at b1 b6 b7 b8 b9
  have hgap : (i + 1 < s0.Config_.ObjectsPerPage_ ∧ gapAfter s i = s0.Config_.InterAlignSize_ ∧
        (i + 1) * s0.stride + s0.stride ≤ s0.Config_.ObjectsPerPage_ * s0.stride) ∨
      (i + 1 = s0.Config_.ObjectsPerPage_ ∧ gapAfter s i = 0 ∧
        (i + 1) * s0.stride = s0.Config_.ObjectsPerPage_ * s0.stride) := by
    by_cases h' : i + 1 < s0.Config_.ObjectsPerPage_
    · left
      refine ⟨h', ?_, ?_⟩
      · have := gapAfter_lt hws (i := i) (by rw [hcfg]; exact h')
        rw [this, hcfg]
      · have : (i + 1 + 1) * s0.stride ≤ s0.Config_.ObjectsPerPage_ * s0.stride :=
          Nat.mul_le_mul_right _ h'
        rw [Nat.succ_mul] at this
        exact this
    · right
      have e : i + 1 = s0.Config_.ObjectsPerPage_ := by omega
      refine ⟨e, ?_, by rw [e]⟩
      exact gapAfter_last hws (i := i) (by rw [hcfg]; exact e)
  generalize hG : gapAfter s i = G at b6 b9 hgap
  generalize hA : i * s0.stride = A at hcur hmul hsucc
  generalize hB : (i + 1) * s0.stride = B at hmul hsucc hgap
  generalize hC : s0.Config_.ObjectsPerPage_ * s0.stride = C at hfit hmul hgap
  constructor
  · exact ⟨b3.trans hcfg, by rw [b5]; exact hosz, by rw [b5]; exact h.layout.2.2⟩
  · rw [b2]; exact h.pageList
  · rw [b4]; exact h.infos
  · rw [b5, h.stats]
    simp only [incU32]
    congr 1
    norm_num
    omega
  · intro hi'
    rw [b6, hB]
    omega
  · rw [List.range_succ, List.map_append, List.reverse_append]
    simp only [List.map_cons, List.map_nil, List.reverse_cons, List.reverse_nil,
      List.nil_append, List.singleton_append, List.cons_append]
    refine ⟨by rw [b1, ho], ?_, ?_⟩
    · rw [ho]; omega
    · rw [ho, b7]
      refine h.freeRep.congr ?_
      intro f hf k hk
      apply b9
      rcases List.mem_append.1 hf with hf | hf
      · rw [List.mem_reverse, List.mem_map] at hf
        obtain ⟨j, hj, e⟩ := hf
        rw [List.mem_range] at hj
        have := zones_same_page (s := s0) (P := N) hj
        have := hw.objectSize
        left; omega
      · rcases hfree f hf with d | d
        · left; omega
        · right; omega
  · intro j hj
    by_cases e : j = i
    · subst e
      rw [ho]; exact b8
    · have hj' : j < i := by omega
      have hb : s0.objAddr N j ∈ s0.pageBlocks N := mem_pageBlocks.2 ⟨j, by omega, rfl⟩
      have z := zone_in_page hw hb
      have zz := zones_same_page (s := s0) (P := N) hj'
      refine padsIntact_congr (s := s) ⟨b3, by rw [b5], by rw [b5]⟩ (by rw [hcfg]; omega) ?_
        (h.pads j hj')
      intro x hx1 hx2
      rw [hcfg] at hx1 hx2
      rw [hosz] at hx2
      apply b9
      left; omega
  · intro x hx
    rw [b9 x (by omega)]
    apply h.frame
    omega

/-- The page-building loop, run from iteration `i` to the end, keeps the loop
invariant. -/
theorem BuildInv.loop {s0 : ObjectAllocator} {N : Nat} {free0 : List Nat} (hw : WellFormed s0)
    (hN : N + s0.Stats_.PageSize_ ≤ 2 ^ 64)
    (hfree64 : ∀ f ∈ free0, f < 2 ^ 64)
    (hfree : ∀ f ∈ free0, f + 8 ≤ N ∨ N + s0.Stats_.PageSize_ ≤ f) :
    ∀ (k i : Nat) (s : ObjectAllocator) (cur : Nat), i + k = s0.Config_.ObjectsPerPage_ →
      BuildInv s0 N free0 i s cur →
      ∃ cur', BuildInv s0 N free0 s0.Config_.ObjectsPerPage_
        (AllocateNewPage.loop k i s cur) cur' := by
  intro k
  induction k with
  | zero =>
    intro i s cur hik h
    have : i = s0.Config_.ObjectsPerPage_ := by omega
    subst this
    exact ⟨cur, h⟩
  | succ k ih =>
    intro i s cur hik h
    simp only [AllocateNewPage.loop]
    exact ih (i + 1) _ _ (by omega) (h.step hw hN hfree64 hfree (by omega))

/-- Every free node is a 64-bit address whose page is one of `pages`. -/
theorem Inv.free_geom {s : ObjectAllocator} {pages free : List Nat} (h : Inv s pages free)
    {f : Nat} (hf : f ∈ free) :
    ∃ P ∈ pages, f ∈ s.pageBlocks P ∧
      P + pointer_size + s.Config_.LeftAlignSize_ + s.Config_.HBlockInfo_.size_
        + s.Config_.PadBytes_ ≤ f ∧
      f + s.Stats_.ObjectSize_ + s.Config_.PadBytes_ ≤ P + s.Stats_.PageSize_ ∧
      P + s.Stats_.PageSize_ ≤ 2 ^ 64 := by
  obtain ⟨P, hP, hb⟩ := h.freeBlock f hf
  have z := zone_in_page h.wf hb
  exact ⟨P, hP, hb, z.1, z.2, h.pageBound P hP⟩

theorem Inv.pageList_lt {s : ObjectAllocator} {pages free : List Nat} (h : Inv s pages free) :
    s.PageList_ < 2 ^ 64 := by
  have hr := h.pageRep
  cases pages with
  | nil =>
    have : s.PageList_ = 0 := hr
    rw [this]; norm_num
  | cons P Ps =>
    have e : s.PageList_ = P := hr.1
    have := h.pageBound P (List.mem_cons_self _ _)
    have := h.wf.pageLink
    have hp : pointer_size = 8 := rfl
    omega

theorem Inv.freeList_lt {s : ObjectAllocator} {pages free : List Nat} (h : Inv s pages free) :
    s.FreeList_ < 2 ^ 64 := by
  have hr := h.freeRep
  cases free with
  | nil =>
    have : s.FreeList_ = 0 := hr
    rw [this]; norm_num
  | cons f fs =>
    have e : s.FreeList_ = f := hr.1
    obtain ⟨P, _, _, _, h2, h3⟩ := h.free_geom (List.mem_cons_self f fs)
    have := h.wf.objectSize
    have hp : pointer_size = 8 := rfl
    omega

theorem AllocateNewPage_eq (s : ObjectAllocator) (N : Nat) :
    AllocateNewPage s (some N) = .ok ()
      (AllocateNewPage.link (AllocateNewPage.loop s.Config_.ObjectsPerPage_ 0
        (AllocateNewPage.fresh s N) (N + pointer_size + s.Config_.LeftAlignSize_)) N) := by
  unfold AllocateNewPage AllocateNewPage.link AllocateNewPage.fresh
  simp only [ite_add, ite_memset]

theorem loop_layout : ∀ (k i : Nat) (s : ObjectAllocator) (cur : Nat),
    SameLayout s (AllocateNewPage.loop k i s cur) := by
  intro k
  induction k with
  | zero => intro i s cur; exact SameLayout.refl s
  | succ k ih =>
    intro i s cur
    simp only [AllocateNewPage.loop]
    refine SameLayout.trans ?_ (ih (i + 1) _ _)
    rw [block_eq]
    exact ⟨rfl, rfl, rfl⟩

/-- A page build changes neither the configuration nor the sizes. -/
theorem AllocateNewPage_layout {s s' : ObjectAllocator} {N : Nat}
    (h : AllocateNewPage s (some N) = .ok () s') : SameLayout s s' := by
  rw [AllocateNewPage_eq] at h
  have e : AllocateNewPage.link (AllocateNewPage.loop s.Config_.ObjectsPerPage_ 0
      (AllocateNewPage.fresh s N) (N + pointer_size + s.Config_.LeftAlignSize_)) N = s' := by
    injection h
  rw [← e]
  have h1 : SameLayout s (AllocateNewPage.fresh s N) := by
    unfold AllocateNewPage.fresh
    exact ⟨rfl, rfl, rfl⟩
  have h2 := loop_layout s.Config_.ObjectsPerPage_ 0 (AllocateNewPage.fresh s N)
    (N + pointer_size + s.Config_.LeftAlignSize_)
  refine (h1.trans h2).trans ?_
  unfold AllocateNewPage.link
  exact ⟨rfl, rfl, rfl⟩

/-- Building a page: the new page becomes the head of the page list, its
blocks go in front of the free list, last block first, and the memory outside
the new page is untouched. -/
theorem AllocateNewPage_spec {s : ObjectAllocator} {pages free : List Nat}
    (h : Inv s pages free) {N : Nat} (hN0 : N ≠ 0) (hN : N + s.Stats_.PageSize_ ≤ 2 ^ 64)
    (hfresh : ∀ P ∈ pages, N + s.Stats_.PageSize_ ≤ P ∨ P + s.Stats_.PageSize_ ≤ N) :
    ∃ s', AllocateNewPage s (some N) = .ok () s' ∧
      Inv s' (N :: pages) ((s.pageBlocks N).reverse ++ free) ∧
      SameLayout s s' ∧ s'.infos = s.infos ∧ s'.PageList_ = N ∧
      s'.Stats_ = { s.Stats_ with
        FreeObjects_ := (s.Stats_.FreeObjects_ + s.Config_.ObjectsPerPage_) % 2 ^ 32,
        PagesInUse_ := incU32 s.Stats_.PagesInUse_ } ∧
      (∀ x, (x < N ∨ N + s.Stats_.PageSize_ ≤ x) → s'.mem x = s.mem x) := by
  have hp : pointer_size = 8 := rfl
  have hw := h.wf
  have hos := hw.objectSize
  have hpl := hw.pageLink
  -- the state when the loop starts
  obtain ⟨s0, hs0, hs0m⟩ : ∃ s0, s0 = AllocateNewPage.fresh s N ∧
      s0.mem = memset (memset s.mem N 0 s.Stats_.PageSize_) (N + pointer_size)
        ALIGN_PATTERN s.Config_.LeftAlignSize_ := ⟨_, rfl, rfl⟩
  have hl0 : SameLayout s s0 := by rw [hs0]; exact ⟨rfl, rfl, rfl⟩
  have hs0F : s0.FreeList_ = s.FreeList_ := by rw [hs0]; rfl
  have hs0P : s0.PageList_ = s.PageList_ := by rw [hs0]; rfl
  have hs0S : s0.Stats_ = s.Stats_ := by rw [hs0]; rfl
  have hs0I : s0.infos = s.infos := by rw [hs0]; rfl
  have hm0 : ∀ x, (x < N ∨ N + s.Stats_.PageSize_ ≤ x) → s0.mem x = s.mem x := by
    intro x hx
    rw [hs0m, memset_out _ _ _ _ _ (by omega), memset_out _ _ _ _ _ (by omega)]
  have hw0 : WellFormed s0 := hl0.wellFormed hw
  have hfree : ∀ f ∈ free, f + 8 ≤ N ∨ N + s0.Stats_.PageSize_ ≤ f := by
    intro f hf
    obtain ⟨P, hP, _, g1, g2, _⟩ := h.free_geom hf
    rw [hl0.2.2]
    rcases hfresh P hP with d | d
    · right; omega
    · left; omega
  have hfree64 : ∀ f ∈ free, f < 2 ^ 64 := by
    intro f hf
    obtain ⟨P, hP, _, g1, g2, g3⟩ := h.free_geom hf
    omega
  have hb0 : BuildInv s0 N free 0 s0 (N + pointer_size + s.Config_.LeftAlignSize_) := by
    constructor
    · exact SameLayout.refl s0
    · rfl
    · rfl
    · have : (s0.Stats_.FreeObjects_ + 0) % 2 ^ 32 = s0.Stats_.FreeObjects_ := by
        rw [Nat.add_zero, hs0S, h.cntFree, Nat.mod_mod]
      rw [this]
    · intro _
      rw [hl0.1]
      omega
    · simp only [List.range_zero, List.map_nil, List.reverse_nil, List.nil_append]
      rw [hs0F]
      refine h.freeRep.congr ?_
      intro f hf k hk
      apply hm0
      have := hfree f hf
      rw [hl0.2.2] at this
      omega
    · intro j hj; cases hj
    · intro x _; rfl
  obtain ⟨cur', hb⟩ := BuildInv.loop hw0 (by rw [hl0.2.2]; exact hN)
    hfree64 hfree s.Config_.ObjectsPerPage_ 0 s0 _ (by rw [hl0.1]; omega) hb0
  have heq := AllocateNewPage_eq s N
  rw [← hs0] at heq
  generalize AllocateNewPage.loop s.Config_.ObjectsPerPage_ 0 s0
      (N + pointer_size + s.Config_.LeftAlignSize_) = s1 at hb heq
  rw [hl0.1] at hb
  have hl1 : SameLayout s s1 := hl0.trans hb.layout
  have hcfg1 : s1.Config_ = s.Config_ := hl1.1
  have hpl1 : s1.PageList_ = s.PageList_ := hb.pageList.trans hs0P
  have hst1 : s1.Stats_ = { s.Stats_ with
      FreeObjects_ := (s.Stats_.FreeObjects_ + s.Config_.ObjectsPerPage_) % 2 ^ 32 } := by
    rw [hb.stats, hs0S]
  have hfr1 : ∀ x, (x < N + pointer_size ∨ N + s.Stats_.PageSize_ ≤ x) →
      s1.mem x = s0.mem x := by
    intro x hx
    apply hb.frame
    rw [hl0.1, hl0.2.2]
    omega
  -- the final state
  obtain ⟨s', hs', em, eP, eF, eC, eS, eI⟩ : ∃ s', s' = AllocateNewPage.link s1 N ∧
      s'.mem = writePtr s1.mem N s1.PageList_ ∧ s'.PageList_ = N ∧
      s'.FreeList_ = s1.FreeList_ ∧ s'.Config_ = s1.Config_ ∧
      s'.Stats_ = { s1.Stats_ with PagesInUse_ := incU32 s1.Stats_.PagesInUse_ } ∧
      s'.infos = s1.infos := ⟨_, rfl, rfl, rfl, rfl, rfl, rfl, rfl⟩
  rw [← hs'] at heq
  have hl' : SameLayout s s' :=
    ⟨eC.trans hcfg1, by rw [eS]; exact hl1.2.1, by rw [eS]; exact hl1.2.2⟩
  have hmem' : ∀ x, (x < N ∨ N + s.Stats_.PageSize_ ≤ x) → s'.mem x = s.mem x := by
    intro x hx
    rw [em]
    unfold writePtr
    rw [writeLE_out _ _ _ _ _ (by omega), hfr1 _ (by omega), hm0 _ hx]
  have hnew : ∀ b ∈ s.pageBlocks N, N + pointer_size + s.Config_.LeftAlignSize_
        + s.Config_.HBlockInfo_.size_ + s.Config_.PadBytes_ ≤ b ∧
      b + s.Stats_.ObjectSize_ + s.Config_.PadBytes_ ≤ N + s.Stats_.PageSize_ :=
    fun b hb' => zone_in_page hw hb'
  have hrev : ((List.range s.Config_.ObjectsPerPage_).map (s0.objAddr N)).reverse
      = (s.pageBlocks N).reverse := by
    unfold ObjectAllocator.pageBlocks
    congr 1
    exact List.map_congr_left (fun i _ => hl0.objAddr N i)
  refine ⟨s', heq, ?_, hl', eI.trans (hb.infos.trans hs0I), eP, ?_, hmem'⟩
  · -- the invariant
    constructor
    · exact hl'.wellFormed hw
    · rw [eP]
      refine ⟨rfl, hN0, ?_⟩
      have e : readPtr s'.mem N = s.PageList_ := by
        rw [em, readPtr_writePtr_same _ _ _ (by rw [hpl1]; exact h.pageList_lt), hpl1]
      rw [e]
      refine h.pageRep.congr ?_
      intro P hP k hk
      have hd := hfresh P hP
      have hbd := h.pageBound P hP
      exact hmem' _ (by omega)
    · rw [eF]
      have hr := hb.freeRep
      rw [hrev] at hr
      refine hr.congr ?_
      intro f hf k hk
      rw [em]
      unfold writePtr
      apply writeLE_out
      rcases List.mem_append.1 hf with hf | hf
      · have := hnew f (List.mem_reverse.1 hf)
        omega
      · have := hfree f hf
        rw [hl0.2.2] at this
        omega
    · intro P hP
      rw [hl'.2.2]
      rcases List.mem_cons.1 hP with e | e
      · rw [e]; exact hN
      · exact h.pageBound P e
    · refine List.nodup_cons.2 ⟨?_, h.pageNodup⟩
      intro hm
      have := hfresh N hm
      omega
    · intro P hP Q hQ hne
      rw [hl'.2.2]
      rcases List.mem_cons.1 hP with e | e <;> rcases List.mem_cons.1 hQ with e' | e'
      · exact absurd (e.trans e'.symm) hne
      · rw [e]; exact hfresh Q e'
      · rw [e']; exact (hfresh P e).symm
      · exact h.pageDisjoint P e Q e' hne
    · refine List.Nodup.append (List.nodup_reverse.2 (pageBlocks_nodup hw N)) h.freeNodup ?_
      intro f hf1 hf2
      have := hnew f (List.mem_reverse.1 hf1)
      have := hfree f hf2
      rw [hl0.2.2] at this
      omega
    · intro f hf
      rcases List.mem_append.1 hf with hf | hf
      · exact ⟨N, List.mem_cons_self _ _, by rw [hl'.pageBlocks]; exact List.mem_reverse.1 hf⟩
      · obtain ⟨P, hP, hb'⟩ := h.freeBlock f hf
        exact ⟨P, List.mem_cons_of_mem _ hP, by rw [hl'.pageBlocks]; exact hb'⟩
    · intro f hf
      rcases List.mem_append.1 hf with hf | hf
      · obtain ⟨j, hj, e⟩ := mem_pageBlocks.1 (List.mem_reverse.1 hf)
        have hpj := hb.pads j hj
        have e0 : s0.objAddr N j = f := by rw [hl0.objAddr]; exact e.symm
        rw [e0] at hpj
        have := hnew f (List.mem_reverse.1 hf)
        refine padsIntact_congr (s := s1) ⟨eC, by rw [eS], by rw [eS]⟩ (by rw [hcfg1]; omega) ?_ hpj
        intro x hx1 hx2
        rw [hcfg1] at hx1 hx2
        rw [hl1.2.1] at hx2
        rw [em]
        unfold writePtr
        exact writeLE_out _ _ _ _ _ (by omega)
      · obtain ⟨P, hP, _, g1, g2, _⟩ := h.free_geom hf
        have hd := hfresh P hP
        refine padsIntact_congr (s := s) hl' (by omega) ?_ (h.freePads f hf)
        intro x hx1 hx2
        exact hmem' x (by omega)
    · rw [eS, hst1, h.cntFree]
      simp only [List.length_append, List.length_reverse, length_pageBlocks]
      omega
    · rw [eS, hst1, h.cntPages]
      simp only [List.length_cons, incU32]
      omega
    · rw [eS, hst1, hl'.1]
      show s.Stats_.ObjectsInUse_ = _
      rw [h.cntUse]
      simp only [List.length_append, List.length_reverse, length_pageBlocks, List.length_cons]
      congr 1
      rw [Nat.succ_mul]
      omega
  · rw [eS, hst1]

/-! ### The constructor -/

theorem CalculatePadding_spec (size : Nat) {alignment : Nat} (h : 0 < alignment) :
    ∃ p, CalculatePadding size alignment = some p ∧ p < alignment := by
  unfold CalculatePadding
  rw [if_neg (by omega)]
  refine ⟨_, rfl, ?_⟩
  have := Nat.mod_lt size h
  split <;> omega

theorem CalculateTotalPageSize_spec (left block opp inter : Nat)
    (h : pointer_size + left + block * opp < 2 ^ 64) (hi : inter ≤ block) :
    pointer_size + left ≤ CalculateTotalPageSize pointer_size left block opp inter ∧
    (1 ≤ opp → pointer_size + left + opp * block
      ≤ CalculateTotalPageSize pointer_size left block opp inter + inter) := by
  have hp : pointer_size = 8 := rfl
  have hB : 1 ≤ opp → block ≤ block * opp := fun h => Nat.le_mul_of_pos_right _ h
  have hc : opp * block = block * opp := Nat.mul_comm _ _
  unfold CalculateTotalPageSize
  rw [hc]
  generalize block * opp = T at h hB
  norm_num at h ⊢
  by_cases h1 : 1 < opp
  · rw [if_pos h1]
    have := hB (by omega)
    have e3 : (pointer_size + left + T) % 18446744073709551616 = pointer_size + left + T :=
      Nat.mod_eq_of_lt (by omega)
    rw [e3, if_pos (by omega)]
    omega
  · rw [if_neg h1]
    omega

/-- The allocator the constructor sets up before it builds the first page. -/
theorem construct_spec {ObjectSize : Nat} {config : OAConfig} (m : Memory) (host : HostAlloc)
    (hv : ValidConfig ObjectSize config) (hb : config.UseCPPMemManager_ = false) :
    ∃ s0, ObjectAllocator.construct ObjectSize config m host = AllocateNewPage s0 host.storage ∧
      WellFormed s0 ∧ s0.PageList_ = 0 ∧ s0.FreeList_ = 0 ∧ s0.mem = m ∧ s0.infos = [] ∧
      s0.Stats_.FreeObjects_ = 0 ∧ s0.Stats_.PagesInUse_ = 0 ∧ s0.Stats_.ObjectsInUse_ = 0 ∧
      s0.Stats_.MostObjects_ = 0 ∧ s0.Stats_.Allocations_ = 0 ∧ s0.Stats_.Deallocations_ = 0 ∧
      s0.Stats_.ObjectSize_ = ObjectSize ∧
      s0.Config_.ObjectsPerPage_ = config.ObjectsPerPage_ ∧
      s0.Config_.MaxPages_ = config.MaxPages_ ∧
      s0.Config_.PadBytes_ = config.PadBytes_ ∧
      s0.Config_.HBlockInfo_ = config.HBlockInfo_ := by
  obtain ⟨v1, v2, v3, v4, v5, v6, v7, v9, v8⟩ := hv
  have hp : pointer_size = 8 := rfl
  have hhdr : (config.HBlockInfo_.type_ = .hbBasic → 5 ≤ config.HBlockInfo_.size_) ∧
      (config.HBlockInfo_.type_ = .hbExtended →
        config.HBlockInfo_.additional_ + 7 ≤ config.HBlockInfo_.size_) ∧
      (config.HBlockInfo_.type_ = .hbExternal → 8 ≤ config.HBlockInfo_.size_) := by
    generalize config.HBlockInfo_ = hbi at v6
    rw [v6]
    cases hbi.type_ <;> simp [HeaderBlockInfo.ofType]
    omega
  have hmid : (config.HBlockInfo_.size_ + (2 * config.PadBytes_) % 2 ^ 32 + ObjectSize) % 2 ^ 64
      = config.HBlockInfo_.size_ + 2 * config.PadBytes_ + ObjectSize := by
    norm_num at v4 v9 ⊢
    omega
  by_cases ha : config.Alignment_ > 0
  · obtain ⟨p1, e1, l1⟩ := CalculatePadding_spec
      ((pointer_size + config.HBlockInfo_.size_ + config.PadBytes_) % 2 ^ 64) ha
    obtain ⟨p2, e2, l2⟩ := CalculatePadding_spec
      (config.HBlockInfo_.size_ + 2 * config.PadBytes_ + ObjectSize) ha
    have hq1 : p1 % 2 ^ 32 = p1 := Nat.mod_eq_of_lt (by omega)
    have hq2 : p2 % 2 ^ 32 = p2 := Nat.mod_eq_of_lt (by omega)
    have hmid2 : (config.HBlockInfo_.size_ + 2 * config.PadBytes_ + ObjectSize + p2) % 2 ^ 64
        = config.HBlockInfo_.size_ + 2 * config.PadBytes_ + ObjectSize + p2 :=
      Nat.mod_eq_of_lt (by omega)
    have hmulA : (config.HBlockInfo_.size_ + 2 * config.PadBytes_ + ObjectSize + p2)
        * config.ObjectsPerPage_ ≤ (config.HBlockInfo_.size_ + 2 * config.PadBytes_ + ObjectSize
          + config.Alignment_) * config.ObjectsPerPage_ :=
      Nat.mul_le_mul_right _ (by omega)
    have hcp := CalculateTotalPageSize_spec p1
      (config.HBlockInfo_.size_ + 2 * config.PadBytes_ + ObjectSize + p2)
      config.ObjectsPerPage_ p2 (by omega) (by omega)
    unfold ObjectAllocator.construct
    simp only [ha, if_true, e1, e2, hb, hmid, hq1, hq2, hmid2, Bool.false_eq_true, not_false_eq_true]
    refine ⟨_, rfl, ?_, rfl, rfl, rfl, rfl, rfl, rfl, rfl, rfl, rfl, rfl, rfl, rfl, rfl, rfl, rfl⟩
    constructor
    · exact v1
    · exact v2
    · exact v3
    · exact v4
    · exact hhdr.1
    · exact hhdr.2.1
    · exact hhdr.2.2
    · exact hcp.1
    · exact hcp.2
    · rfl
  · have ha0 : config.Alignment_ = 0 := by omega
    obtain ⟨l0, i0⟩ := v7 ha0
    have hcp := CalculateTotalPageSize_spec config.LeftAlignSize_
      (config.HBlockInfo_.size_ + 2 * config.PadBytes_ + ObjectSize)
      config.ObjectsPerPage_ config.InterAlignSize_
      (by rw [l0]; simp only [ha0, Nat.add_zero] at v8; omega) (by rw [i0]; omega)
    unfold ObjectAllocator.construct
    simp only [ha, if_false, hb, hmid, Bool.false_eq_true, not_false_eq_true, if_true]
    refine ⟨_, rfl, ?_, rfl, rfl, rfl, rfl, rfl, rfl, rfl, rfl, rfl, rfl, rfl, rfl, rfl, rfl, rfl⟩
    constructor
    · exact v1
    · exact v2
    · exact v3
    · exact v4
    · exact hhdr.1
    · exact hhdr.2.1
    · exact hhdr.2.2
    · exact hcp.1
    · have := hcp.2
      show 1 ≤ config.ObjectsPerPage_ → pointer_size + config.LeftAlignSize_
        + config.ObjectsPerPage_ * (config.HBlockInfo_.size_ + 2 * config.PadBytes_ + ObjectSize
          + config.InterAlignSize_) ≤ _
      rw [i0] at this ⊢
      exact this
    · exact hb

/-! ### Counting the free blocks -/

theorem length_allBlocks (s : ObjectAllocator) (pages : List Nat) :
    (s.allBlocks pages).length = pages.length * s.Config_.ObjectsPerPage_ := by
  induction pages with
  | nil => simp [ObjectAllocator.allBlocks]
  | cons P Ps ih =>
    simp only [ObjectAllocator.allBlocks, List.length_append, length_pageBlocks, ih,
      List.length_cons, Nat.succ_mul]
    omega

theorem mem_allBlocks {s : ObjectAllocator} {pages : List Nat} {b : Nat} :
    b ∈ s.allBlocks pages ↔ ∃ P ∈ pages, b ∈ s.pageBlocks P := by
  induction pages with
  | nil => simp [ObjectAllocator.allBlocks]
  | cons P Ps ih =>
    simp only [ObjectAllocator.allBlocks, List.mem_append, ih, List.mem_cons, exists_eq_or_imp]

/-- There are at most as many free nodes as blocks. -/
theorem Inv.free_le {s : ObjectAllocator} {pages free : List Nat} (h : Inv s pages free) :
    free.length ≤ pages.length * s.Config_.ObjectsPerPage_ := by
  rw [← length_allBlocks]
  refine (List.subperm_of_subset h.freeNodup ?_).length_le
  intro f hf
  exact mem_allBlocks.2 (h.freeBlock f hf)

/-- With a block that is not free, there are fewer free nodes than blocks. -/
theorem Inv.free_lt {s : ObjectAllocator} {pages free : List Nat} (h : Inv s pages free)
    {P p : Nat} (hP : P ∈ pages) (hp : p ∈ s.pageBlocks P) (hpf : p ∉ free) :
    free.length < pages.length * s.Config_.ObjectsPerPage_ := by
  rw [← length_allBlocks]
  have hn : (p :: free).Nodup := List.nodup_cons.2 ⟨hpf, h.freeNodup⟩
  have hs : (p :: free) ⊆ s.allBlocks pages := by
    intro f hf
    rcases List.mem_cons.1 hf with e | e
    · rw [e]; exact mem_allBlocks.2 ⟨P, hP, hp⟩
    · exact mem_allBlocks.2 (h.freeBlock f e)
  have := (List.subperm_of_subset hn hs).length_le
  simpa using this

/-! ### Headers -/

/-- Filling in a header writes inside the header of the block only, and fails
only when the host cannot supply an external header. -/
theorem BlockHeaderCheck_spec {s : ObjectAllocator} (hw : WellFormed s) (p : Nat)
    (label : Option String) (host : HostAlloc)
    (hge : s.Config_.PadBytes_ + s.Config_.HBlockInfo_.size_ ≤ p) :
    ∃ s', (BlockHeaderCheck s p label host = .ok () s' ∨
        (BlockHeaderCheck s p label host = .throw (.oa .E_NO_MEMORY) s' ∧
          ¬ HostServes s label host)) ∧
      s'.PageList_ = s.PageList_ ∧ s'.FreeList_ = s.FreeList_ ∧ s'.Config_ = s.Config_ ∧
      s'.Stats_ = s.Stats_ ∧
      (∀ x, (x + s.Config_.PadBytes_ + s.Config_.HBlockInfo_.size_ < p ∨
        p ≤ x + s.Config_.PadBytes_) → s'.mem x = s.mem x) := by
  have hp : pointer_size = 8 := rfl
  unfold BlockHeaderCheck HostServes
  cases ht : s.Config_.HBlockInfo_.type_ with
  | hbNone =>
    simp only [if_true]
    exact ⟨s, Or.inl rfl, rfl, rfl, rfl, rfl, fun _ _ => rfl⟩
  | hbBasic =>
    have := hw.basic ht
    simp only [if_false, reduceCtorEq]
    refine ⟨_, Or.inl rfl, rfl, rfl, rfl, rfl, ?_⟩
    intro x hx
    show writeLE (writeLE _ _ _ _) _ _ _ _ = _
    rw [writeLE_out _ _ _ _ _ (by omega), writeLE_out _ _ _ _ _ (by omega)]
  | hbExtended =>
    have := hw.extended ht
    simp only [if_false, reduceCtorEq]
    refine ⟨_, Or.inl rfl, rfl, rfl, rfl, rfl, ?_⟩
    intro x hx
    show writeLE (writeLE (writeLE _ _ _ _) _ _ _) _ _ _ _ = _
    rw [writeLE_out _ _ _ _ _ (by omega), writeLE_out _ _ _ _ _ (by omega),
      writeLE_out _ _ _ _ _ (by omega)]
  | hbExternal =>
    have := hw.external ht
    simp only [if_false, reduceCtorEq]
    cases hi : host.info with
    | none =>
      refine ⟨s, Or.inr ⟨rfl, ?_⟩, rfl, rfl, rfl, rfl, fun _ _ => rfl⟩
      simp
    | some record =>
      dsimp only
      by_cases hl : label.isSome = true ∧ host.label = false
      · rw [if_pos hl]
        refine ⟨_, Or.inr ⟨rfl, ?_⟩, rfl, rfl, rfl, rfl, ?_⟩
        · simp [hl.1, hl.2]
        · intro x hx
          show writePtr _ _ _ _ = _
          unfold writePtr
          rw [writeLE_out _ _ _ _ _ (by omega)]
      · rw [if_neg hl]
        refine ⟨_, Or.inl rfl, rfl, rfl, rfl, rfl, ?_⟩
        intro x hx
        show writePtr _ _ _ _ = _
        unfold writePtr
        rw [writeLE_out _ _ _ _ _ (by omega)]

/-- Resetting a header writes inside the header of the block only, and fails
only when the host cannot supply the temporary record of an external header. -/
theorem BlockHeaderCheckFree_spec {s : ObjectAllocator} (hw : WellFormed s) (p : Nat)
    (host : HostAlloc)
    (hge : s.Config_.PadBytes_ + s.Config_.HBlockInfo_.size_ ≤ p) :
    ∃ s', (BlockHeaderCheckFree s p host = .ok () s' ∨
        (BlockHeaderCheckFree s p host = .throw .bad_alloc s' ∧
          s.Config_.HBlockInfo_.type_ = .hbExternal ∧ host.info = none)) ∧
      s'.PageList_ = s.PageList_ ∧ s'.FreeList_ = s.FreeList_ ∧ s'.Config_ = s.Config_ ∧
      s'.Stats_ = s.Stats_ ∧
      (∀ x, (x + s.Config_.PadBytes_ + s.Config_.HBlockInfo_.size_ < p ∨
        p ≤ x + s.Config_.PadBytes_) → s'.mem x = s.mem x) := by
  have hp : pointer_size = 8 := rfl
  unfold BlockHeaderCheckFree
  cases ht : s.Config_.HBlockInfo_.type_ with
  | hbNone =>
    simp only [if_true]
    exact ⟨s, Or.inl rfl, rfl, rfl, rfl, rfl, fun _ _ => rfl⟩
  | hbBasic =>
    have := hw.basic ht
    simp only [if_false, reduceCtorEq]
    refine ⟨_, Or.inl rfl, rfl, rfl, rfl, rfl, ?_⟩
    intro x hx
    show writeLE (writeLE _ _ _ _) _ _ _ _ = _
    rw [writeLE_out _ _ _ _ _ (by omega), writeLE_out _ _ _ _ _ (by omega)]
  | hbExtended =>
    have := hw.extended ht
    simp only [if_false, reduceCtorEq]
    refine ⟨_, Or.inl rfl, rfl, rfl, rfl, rfl, ?_⟩
    intro x hx
    show writeLE (writeLE _ _ _ _) _ _ _ _ = _
    rw [writeLE_out _ _ _ _ _ (by omega), writeLE_out _ _ _ _ _ (by omega)]
  | hbExternal =>
    have := hw.external ht
    simp only [if_false, reduceCtorEq]
    cases hi : host.info with
    | none =>
      exact ⟨s, Or.inr ⟨rfl, trivial, rfl⟩, rfl, rfl, rfl, rfl, fun _ _ => rfl⟩
    | some record =>
      dsimp only
      by_cases hz : p - s.Config_.PadBytes_ - s.Config_.HBlockInfo_.size_ ≠ 0
      · rw [if_pos hz]
        refine ⟨_, Or.inl rfl, rfl, rfl, rfl, rfl, ?_⟩
        intro x hx
        show writePtr (writePtr _ _ _) _ _ _ = _
        unfold writePtr
        rw [writeLE_out _ _ _ _ _ (by omega), writeLE_out _ _ _ _ _ (by omega)]
      · rw [if_neg hz]
        refine ⟨_, Or.inl rfl, rfl, rfl, rfl, rfl, ?_⟩
        intro x hx
        show writePtr _ _ _ _ = _
        unfold writePtr
        rw [writeLE_out _ _ _ _ _ (by omega)]

/-! ### Allocate -/

theorem Allocate_eq {s : ObjectAllocator} (hb : s.Config_.UseCPPMemManager_ = false)
    (label : Option String) (host : HostAlloc) :
    Allocate s label host =
      match Allocate.paged s host with
      | .undefined => .undefined
      | .throw e s1 => .throw e s1
      | .ok _ s1 => Allocate.finish s1 label host := by
  unfold Allocate
  rw [if_neg (by rw [hb]; simp)]
  rfl

/-- The state the constructor starts from satisfies the invariant, with no
page and no free block. -/
theorem Inv.initial {s0 : ObjectAllocator} (hw : WellFormed s0) (hP : s0.PageList_ = 0)
    (hF : s0.FreeList_ = 0) (c1 : s0.Stats_.FreeObjects_ = 0) (c2 : s0.Stats_.PagesInUse_ = 0)
    (c3 : s0.Stats_.ObjectsInUse_ = 0) : Inv s0 [] [] := by
  constructor
  · exact hw
  · exact hP
  · exact hF
  · intro P hP; cases hP
  · exact List.nodup_nil
  · intro P hP; cases hP
  · exact List.nodup_nil
  · intro f hf; cases hf
  · intro f hf; cases hf
  · rw [c1]; rfl
  · rw [c2]; rfl
  · rw [c3]; simp

theorem take_fields (s1 : ObjectAllocator) :
    (Allocate.take s1).mem
      = memset s1.mem s1.FreeList_ ALLOCATED_PATTERN s1.Stats_.ObjectSize_ ∧
    (Allocate.take s1).PageList_ = s1.PageList_ ∧
    (Allocate.take s1).FreeList_ = readPtr s1.mem s1.FreeList_ ∧
    (Allocate.take s1).Config_ = s1.Config_ ∧
    ((Allocate.take s1).Stats_.ObjectSize_ = s1.Stats_.ObjectSize_ ∧
      (Allocate.take s1).Stats_.PageSize_ = s1.Stats_.PageSize_ ∧
      (Allocate.take s1).Stats_.FreeObjects_ = decU32 s1.Stats_.FreeObjects_ ∧
      (Allocate.take s1).Stats_.PagesInUse_ = s1.Stats_.PagesInUse_ ∧
      (Allocate.take s1).Stats_.ObjectsInUse_ = incU32 s1.Stats_.ObjectsInUse_) ∧
    (Allocate.take s1).infos = s1.infos := by
  unfold Allocate.take
  exact ⟨rfl, rfl, rfl, rfl, ⟨rfl, rfl, rfl, rfl, rfl⟩, rfl⟩

/-- Taking the head of the free list and filling in its header keeps the
invariant, with the head removed from the free list. -/
theorem finish_spec {s1 : ObjectAllocator} {pages tail : List Nat} {p : Nat}
    (h : Inv s1 pages (p :: tail)) (label : Option String) (host : HostAlloc) :
    ∃ s', (Allocate.finish s1 label host = .ok p s' ∨
        (Allocate.finish s1 label host = .throw (.oa .E_NO_MEMORY) s' ∧
          ¬ HostServes s1 label host)) ∧
      Inv s' pages tail ∧ SameLayout s1 s' ∧
      s'.PageList_ = s1.PageList_ ∧ s'.Stats_ = (Allocate.take s1).Stats_ ∧
      (∀ x, (x + s1.Config_.PadBytes_ + s1.Config_.HBlockInfo_.size_ < p ∨
        (p ≤ x + s1.Config_.PadBytes_ ∧ x < p) ∨
        p + s1.Stats_.ObjectSize_ ≤ x) → s'.mem x = s1.mem x) := by
  have hp8 : pointer_size = 8 := rfl
  have hw := h.wf
  have hos := hw.objectSize
  have hhead : s1.FreeList_ = p := h.freeRep.1
  have hp0 : p ≠ 0 := h.freeRep.2.1
  obtain ⟨P, hP, hb, g1, g2, g3⟩ := h.free_geom (List.mem_cons_self p tail)
  have hnd := List.nodup_cons.1 h.freeNodup
  -- the state after the pop, before the allocated pattern is written
  obtain ⟨tm, tP, tF, tC, tS, tI⟩ := take_fields s1
  generalize ht : Allocate.take s1 = t at tm tP tF tC tS tI
  have ht := ht.symm
  obtain ⟨tS1, tS2, tS3, tS4, tS5⟩ := tS
  have hlt : SameLayout s1 t := ⟨tC, tS1, tS2⟩
  have hwt : WellFormed t := hlt.wellFormed hw
  obtain ⟨s', hres, eP, eF, eC, eS, em⟩ := BlockHeaderCheck_spec hwt p label host
    (by rw [tC]; omega)
  rw [tC] at em
  have hl' : SameLayout s1 s' :=
    ⟨eC.trans tC, by rw [eS]; exact tS1, by rw [eS]; exact tS2⟩
  have hmem : ∀ x, (x + s1.Config_.PadBytes_ + s1.Config_.HBlockInfo_.size_ < p ∨
      (p ≤ x + s1.Config_.PadBytes_ ∧ x < p) ∨
      p + s1.Stats_.ObjectSize_ ≤ x) → s'.mem x = s1.mem x := by
    intro x hx
    rw [em x (by omega), tm, hhead, memset_out _ _ _ _ _ (by omega)]
  -- the invariant of the popped list, in the old memory
  obtain ⟨u, um, uP, uF, uC, uS⟩ : ∃ u : ObjectAllocator, u.mem = s1.mem ∧
      u.PageList_ = s1.PageList_ ∧ u.FreeList_ = t.FreeList_ ∧ u.Config_ = s1.Config_ ∧
      u.Stats_ = t.Stats_ :=
    ⟨{ s1 with FreeList_ := t.FreeList_, Stats_ := t.Stats_ }, rfl, rfl, rfl, rfl, rfl⟩
  have hlu : SameLayout s1 u := ⟨uC, by rw [uS]; exact tS1, by rw [uS]; exact tS2⟩
  have hpop : Inv u pages tail := by
    have hfl := h.free_le
    simp only [List.length_cons] at hfl
    constructor
    · exact hlu.wellFormed hw
    · rw [um, uP]; exact h.pageRep
    · rw [um, uF, tF, hhead]
      exact h.freeRep.2.2
    · intro Q hQ
      rw [hlu.2.2]; exact h.pageBound Q hQ
    · exact h.pageNodup
    · intro Q hQ R hR hne
      rw [hlu.2.2]; exact h.pageDisjoint Q hQ R hR hne
    · exact hnd.2
    · intro f hf
      obtain ⟨Q, hQ, hb'⟩ := h.freeBlock f (List.mem_cons_of_mem _ hf)
      exact ⟨Q, hQ, by rw [hlu.pageBlocks]; exact hb'⟩
    · intro f hf
      obtain ⟨Q, hQ, hb', g1', _, _⟩ := h.free_geom (List.mem_cons_of_mem _ hf)
      exact padsIntact_congr hlu (by omega) (fun x _ _ => by rw [um])
        (h.freePads f (List.mem_cons_of_mem _ hf))
    · rw [uS, tS3, h.cntFree]
      simp only [List.length_cons, decU32_eq]
      omega
    · rw [uS, tS4]; exact h.cntPages
    · rw [uS, tS5, h.cntUse, uC]
      simp only [List.length_cons, incU32] at hfl ⊢
      generalize pages.length * s1.Config_.ObjectsPerPage_ = T at hfl ⊢
      omega
  have hlu' : SameLayout u s' :=
    ⟨by rw [eC, tC, uC], by rw [eS, uS], by rw [eS, uS]⟩
  refine ⟨s', ?_, ?_, hl', eP.trans tP, by rw [eS, ht], hmem⟩
  · unfold Allocate.finish
    rw [if_neg (by rw [hhead]; exact hp0), hhead, ← ht]
    rcases hres with hr | ⟨hr, hn⟩
    · left; rw [hr]
    · right
      refine ⟨by rw [hr], ?_⟩
      unfold HostServes at hn ⊢
      rw [tC] at hn
      exact hn
  · refine hpop.frame_zone (P := P) (o := p) hlu' (by rw [eP, tP, uP]) (by rw [eF, uF])
      (by rw [eS, uS]) (by rw [eS, uS]) (by rw [eS, uS]) hP (by rw [hlu.pageBlocks]; exact hb)
      hnd.1 ?_
    intro x hx
    rw [um]
    apply hmem
    rw [uC, hlu.2.1] at hx
    omega

/-! ### The walks of Free -/

theorem Inv.pages_lt {s : ObjectAllocator} {pages free : List Nat} (h : Inv s pages free) :
    pages.length < walkFuel := by
  refine length_lt_of_nodup_bounded (by unfold walkFuel; norm_num) h.pageNodup ?_
  intro P hP
  have := h.pageBound P hP
  have := h.wf.pageLink
  have hp : pointer_size = 8 := rfl
  refine ⟨h.pageRep.ne_zero P hP, ?_⟩
  unfold walkFuel
  omega

theorem Inv.free_lt_fuel {s : ObjectAllocator} {pages free : List Nat} (h : Inv s pages free) :
    free.length < walkFuel := by
  refine length_lt_of_nodup_bounded (by unfold walkFuel; norm_num) h.freeNodup ?_
  intro f hf
  obtain ⟨P, _, _, _, g2, g3⟩ := h.free_geom hf
  have := h.wf.objectSize
  have hp : pointer_size = 8 := rfl
  refine ⟨h.freeRep.ne_zero f hf, ?_⟩
  unfold walkFuel
  omega

theorem Inv.pageList_eq {s : ObjectAllocator} {pages free : List Nat} (h : Inv s pages free) :
    s.pageList = pages := by
  unfold ObjectAllocator.pageList
  rw [chain_of_listRep h.pageRep h.pages_lt]
  rfl

theorem Inv.freeList_eq {s : ObjectAllocator} {pages free : List Nat} (h : Inv s pages free) :
    s.freeList = free := by
  unfold ObjectAllocator.freeList
  rw [chain_of_listRep h.freeRep h.free_lt_fuel]
  rfl

theorem Inv.checkErrorFree {s : ObjectAllocator} {pages free : List Nat} (h : Inv s pages free)
    (b : Nat) : CheckErrorFree s b = some (decide (b ∈ free)) :=
  checkErrorFree_loop h.freeRep h.free_lt_fuel

theorem Inv.isBlockFree {s : ObjectAllocator} {pages free : List Nat} (h : Inv s pages free)
    (b : Nat) : IsBlockFree s b = some (decide (b ∈ free)) :=
  checkErrorFree_loop h.freeRep h.free_lt_fuel

theorem Inv.checkBlockBoundary {s : ObjectAllocator} {pages free : List Nat}
    (h : Inv s pages free) (b : Nat) :
    CheckBlockBoundary s b = some (decide (∀ P ∈ pages, ¬ s.inPage P b)) :=
  checkBlockBoundary_loop h.pageRep h.pages_lt

theorem Inv.owns_iff {s : ObjectAllocator} {pages free : List Nat} (h : Inv s pages free)
    (b : Nat) : s.owns b ↔ ∃ P ∈ pages, s.inPage P b := by
  unfold ObjectAllocator.owns
  rw [h.pageList_eq]

theorem corruptedCheck_iff (s : ObjectAllocator) (b : Nat) :
    CorruptedCheck s b = false ↔ s.padsIntact b := by
  unfold CorruptedCheck ObjectAllocator.padsIntact
  by_cases h0 : s.Config_.PadBytes_ = 0
  · rw [if_pos h0]
    simp [h0]
  · rw [if_neg h0]
    constructor
    · intro hc k hk
      by_cases h1 : (List.range s.Config_.PadBytes_).any
          (fun i => s.mem (b - s.Config_.PadBytes_ + i) != PAD_PATTERN) = true
      · simp [h1] at hc
      · by_cases h2 : (List.range s.Config_.PadBytes_).any
            (fun i => s.mem (b + s.Stats_.ObjectSize_ + i) != PAD_PATTERN) = true
        · simp [h1, h2] at hc
        · simp only [List.any_eq_true, List.mem_range, bne_iff_ne, ne_eq, not_exists, not_and,
            not_not] at h1 h2
          exact ⟨h1 k hk, h2 k hk⟩
    · intro hp
      have h1 : (List.range s.Config_.PadBytes_).any
          (fun i => s.mem (b - s.Config_.PadBytes_ + i) != PAD_PATTERN) = false := by
        rw [List.any_eq_false]
        intro i hi
        simp [(hp i (List.mem_range.1 hi)).1]
      have h2 : (List.range s.Config_.PadBytes_).any
          (fun i => s.mem (b + s.Stats_.ObjectSize_ + i) != PAD_PATTERN) = false := by
        rw [List.any_eq_false]
        intro i hi
        simp [(hp i (List.mem_range.1 hi)).2]
      simp [h1, h2]

theorem Free_eq {s : ObjectAllocator} (hb : s.Config_.UseCPPMemManager_ = false) {p : Nat}
    (hp : p ≠ 0) (host : HostAlloc) :
    Free s p host =
      match CheckErrorFree s p with
      | none => .undefined
      | some true => .throw (.oa .E_MULTIPLE_FREE) s
      | some false =>
        match CheckBlockBoundary s p with
        | none => .undefined
        | some true => .throw (.oa .E_BAD_BOUNDARY) s
        | some false =>
          if CorruptedCheck s p then .throw (.oa .E_CORRUPTED_BLOCK) s
          else BlockHeaderCheckFree (Free.push s p) p host := by
  unfold Free
  rw [if_neg hp, if_neg (by rw [hb]; simp)]
  rfl

/-! ### Free -/

theorem push_fields (s : ObjectAllocator) (p : Nat) :
    (Free.push s p).mem
      = writePtr (memset s.mem p FREED_PATTERN s.Stats_.ObjectSize_) p s.FreeList_ ∧
    (Free.push s p).PageList_ = s.PageList_ ∧
    (Free.push s p).FreeList_ = p ∧
    (Free.push s p).Config_ = s.Config_ ∧
    ((Free.push s p).Stats_.ObjectSize_ = s.Stats_.ObjectSize_ ∧
      (Free.push s p).Stats_.PageSize_ = s.Stats_.PageSize_ ∧
      (Free.push s p).Stats_.FreeObjects_ = incU32 s.Stats_.FreeObjects_ ∧
      (Free.push s p).Stats_.PagesInUse_ = s.Stats_.PagesInUse_ ∧
      (Free.push s p).Stats_.ObjectsInUse_ = decU32 s.Stats_.ObjectsInUse_) ∧
    (Free.push s p).infos = s.infos := by
  unfold Free.push
  exact ⟨rfl, rfl, rfl, rfl, ⟨rfl, rfl, rfl, rfl, rfl⟩, rfl⟩

/-- Putting a block that is not free, with intact pads and its `Next` pointing
to the old head, in front of the free list keeps the invariant. -/
theorem Inv.push {u s' : ObjectAllocator} {pages free : List Nat} (h : Inv u pages free)
    {P p : Nat} (hP : P ∈ pages) (hb : p ∈ u.pageBlocks P) (hpf : p ∉ free)
    (hpads : u.padsIntact p) (hnext : readPtr u.mem p = u.FreeList_)
    (em : s'.mem = u.mem) (eP : s'.PageList_ = u.PageList_) (eF : s'.FreeList_ = p)
    (hl : SameLayout u s')
    (c1 : s'.Stats_.FreeObjects_ = incU32 u.Stats_.FreeObjects_)
    (c2 : s'.Stats_.PagesInUse_ = u.Stats_.PagesInUse_)
    (c3 : s'.Stats_.ObjectsInUse_ = decU32 u.Stats_.ObjectsInUse_) :
    Inv s' pages (p :: free) := by
  have hw := h.wf
  have z := zone_in_page hw hb
  have hp8 : pointer_size = 8 := rfl
  constructor
  · exact hl.wellFormed hw
  · rw [em, eP]; exact h.pageRep
  · rw [em, eF]
    refine ⟨rfl, by omega, ?_⟩
    rw [hnext]; exact h.freeRep
  · intro Q hQ
    rw [hl.2.2]; exact h.pageBound Q hQ
  · exact h.pageNodup
  · intro Q hQ R hR hne
    rw [hl.2.2]; exact h.pageDisjoint Q hQ R hR hne
  · exact List.nodup_cons.2 ⟨hpf, h.freeNodup⟩
  · intro f hf
    rcases List.mem_cons.1 hf with e | e
    · exact ⟨P, hP, by rw [hl.pageBlocks, e]; exact hb⟩
    · obtain ⟨Q, hQ, hb'⟩ := h.freeBlock f e
      exact ⟨Q, hQ, by rw [hl.pageBlocks]; exact hb'⟩
  · intro f hf
    rcases List.mem_cons.1 hf with e | e
    · rw [e]
      exact padsIntact_congr hl (by omega) (fun x _ _ => by rw [em]) hpads
    · obtain ⟨Q, hQ, hb', g1', _, _⟩ := h.free_geom e
      exact padsIntact_congr hl (by omega) (fun x _ _ => by rw [em]) (h.freePads f e)
  · rw [c1, h.cntFree]
    simp only [List.length_cons, incU32]
    omega
  · rw [c2]; exact h.cntPages
  · have hlt := h.free_lt hP hb hpf
    rw [c3, h.cntUse, hl.1]
    simp only [List.length_cons, decU32_eq]
    generalize pages.length * u.Config_.ObjectsPerPage_ = T at hlt ⊢
    omega

/-- The part of `Free` after the checks: the block goes in front of the free
list, the invariant is kept, and only the object region and the header of the
block are written. -/
theorem push_spec {s : ObjectAllocator} {pages free : List Nat} (h : Inv s pages free)
    {P p : Nat} (hP : P ∈ pages) (hb : p ∈ s.pageBlocks P) (hpf : p ∉ free)
    (hpads : s.padsIntact p) (host : HostAlloc) :
    ∃ s', (BlockHeaderCheckFree (Free.push s p) p host = .ok () s' ∨
        (BlockHeaderCheckFree (Free.push s p) p host = .throw .bad_alloc s' ∧
          s.Config_.HBlockInfo_.type_ = .hbExternal ∧ host.info = none)) ∧
      Inv s' pages (p :: free) ∧ SameLayout s s' ∧
      s'.PageList_ = s.PageList_ ∧ s'.FreeList_ = p ∧ s'.Stats_ = (Free.push s p).Stats_ ∧
      (∀ x, (x + s.Config_.PadBytes_ + s.Config_.HBlockInfo_.size_ < p ∨
        (p ≤ x + s.Config_.PadBytes_ ∧ x < p) ∨
        p + s.Stats_.ObjectSize_ ≤ x) → s'.mem x = s.mem x) := by
  have hp8 : pointer_size = 8 := rfl
  have hw := h.wf
  have hos := hw.objectSize
  have z := zone_in_page hw hb
  obtain ⟨tm, tP, tF, tC, ⟨tS1, tS2, tS3, tS4, tS5⟩, tI⟩ := push_fields s p
  generalize ht : Free.push s p = t at tm tP tF tC tS1 tS2 tS3 tS4 tS5 tI
  have hlt : SameLayout s t := ⟨tC, tS1, tS2⟩
  obtain ⟨s', hres, eP, eF, eC, eS, em⟩ := BlockHeaderCheckFree_spec (hlt.wellFormed hw) p host
    (by rw [tC]; omega)
  rw [tC] at em hres
  have hl' : SameLayout s s' := ⟨eC.trans tC, by rw [eS]; exact tS1, by rw [eS]; exact tS2⟩
  have hmem : ∀ x, (x + s.Config_.PadBytes_ + s.Config_.HBlockInfo_.size_ < p ∨
      (p ≤ x + s.Config_.PadBytes_ ∧ x < p) ∨
      p + s.Stats_.ObjectSize_ ≤ x) → s'.mem x = s.mem x := by
    intro x hx
    rw [em x (by omega), tm]
    unfold writePtr
    rw [writeLE_out _ _ _ _ _ (by omega), memset_out _ _ _ _ _ (by omega)]
  -- the old lists in the new memory
  obtain ⟨u, um, uP, uF, uC, uS⟩ : ∃ u : ObjectAllocator, u.mem = s'.mem ∧
      u.PageList_ = s.PageList_ ∧ u.FreeList_ = s.FreeList_ ∧ u.Config_ = s.Config_ ∧
      u.Stats_ = s.Stats_ :=
    ⟨{ s with mem := s'.mem }, rfl, rfl, rfl, rfl, rfl⟩
  have hlu : SameLayout s u := ⟨uC, by rw [uS], by rw [uS]⟩
  have hu : Inv u pages free := by
    refine h.frame_zone hlu uP uF (by rw [uS]) (by rw [uS]) (by rw [uS]) hP hb hpf ?_
    intro x hx
    rw [um]
    exact hmem x (by omega)
  have hfl : s.FreeList_ < 2 ^ 64 := h.freeList_lt
  have hnext : readPtr u.mem p = u.FreeList_ := by
    rw [um, uF, ← readPtr_writePtr_same (memset s.mem p FREED_PATTERN s.Stats_.ObjectSize_) p
      s.FreeList_ hfl]
    apply readPtr_congr
    intro k hk
    rw [em _ (by omega), tm]
  have hpu : u.padsIntact p := by
    refine padsIntact_of_pads hlu (by omega) ?_ hpads
    intro x hx
    rw [um]
    exact hmem x (by omega)
  refine ⟨s', ?_, ?_, hl', eP.trans tP, eF.trans tF, by rw [eS], hmem⟩
  · rcases hres with hr | ⟨hr, hn⟩
    · exact Or.inl hr
    · exact Or.inr ⟨hr, hn⟩
  · exact hu.push hP (by rw [hlu.pageBlocks]; exact hb) hpf hpu hnext um.symm
      (by rw [eP, tP, uP]) (eF.trans tF)
      ⟨by rw [eC, tC, uC], by rw [eS, tS1, uS], by rw [eS, tS2, uS]⟩
      (by rw [eS, tS3, uS]) (by rw [eS, tS4, uS]) (by rw [eS, tS5, uS])

/-! ### The walks of FreeEmptyPages -/

/-- The walk over the blocks of a page finds out whether all of them are
free. -/
theorem pageIsEmpty_loop {s : ObjectAllocator} {pages free : List Nat} (h : Inv s pages free)
    (P : Nat) : ∀ (k i blockPtr : Nat), i + k = s.Config_.ObjectsPerPage_ →
      (i < s.Config_.ObjectsPerPage_ → blockPtr = s.objAddr P i) →
      PageIsEmpty.loop s k i blockPtr
        = some (decide (∀ j, i ≤ j → j < s.Config_.ObjectsPerPage_ → s.objAddr P j ∈ free)) := by
  intro k
  induction k with
  | zero =>
    intro i blockPtr hik _
    simp only [PageIsEmpty.loop]
    congr 1
    symm
    rw [decide_eq_true_iff]
    intro j h1 h2
    omega
  | succ k ih =>
    intro i blockPtr hik hptr
    have hi : i < s.Config_.ObjectsPerPage_ := by omega
    have hb := hptr hi
    simp only [PageIsEmpty.loop, h.isBlockFree]
    by_cases hm : blockPtr ∈ free
    · simp only [hm, decide_True]
      rw [ih (i + 1) _ (by omega)]
      · congr 1
        rw [decide_eq_decide]
        constructor
        · intro hh j h1 h2
          by_cases e : j = i
          · rw [e, ← hb]; exact hm
          · exact hh j (by omega) h2
        · intro hh j h1 h2
          exact hh j (by omega) h2
      · intro hi'
        have hw := h.wf
        have h2p : (2 * s.Config_.PadBytes_) % 2 ^ 32 = 2 * s.Config_.PadBytes_ :=
          Nat.mod_eq_of_lt hw.padBytes
        rw [h2p, if_pos (by rw [decU32_of_pos (by omega) hw.objectsPerPage]; omega), hb]
        have e : (i + 1) * s.stride = i * s.stride + s.stride := Nat.succ_mul _ _
        have hst : s.stride = s.Config_.HBlockInfo_.size_ + 2 * s.Config_.PadBytes_
            + s.Stats_.ObjectSize_ + s.Config_.InterAlignSize_ := rfl
        unfold ObjectAllocator.objAddr
        rw [e]
        generalize i * s.stride = A
        omega
    · simp only [hm, decide_False]
      congr 1
      symm
      rw [decide_eq_false_iff_not]
      intro hh
      exact hm (hb ▸ hh i (le_refl i) hi)

theorem Inv.pageIsEmpty {s : ObjectAllocator} {pages free : List Nat} (h : Inv s pages free)
    (P : Nat) : PageIsEmpty s P = some (decide (s.emptyIn free P)) := by
  unfold PageIsEmpty
  rw [pageIsEmpty_loop h P _ 0 _ (by omega)]
  · congr 1
    rw [decide_eq_decide]
    unfold ObjectAllocator.emptyIn
    constructor
    · intro hh b hb
      obtain ⟨i, hi, e⟩ := mem_pageBlocks.1 hb
      rw [e]; exact hh i (Nat.zero_le i) hi
    · intro hh j _ hj
      exact hh _ (mem_pageBlocks.2 ⟨j, hj, rfl⟩)
  · intro _
    unfold ObjectAllocator.objAddr
    omega

theorem storeFree_none (s : ObjectAllocator) (v : Nat) :
    (s.storeFree none v).mem = s.mem ∧ (s.storeFree none v).FreeList_ = v ∧
    (s.storeFree none v).PageList_ = s.PageList_ ∧ (s.storeFree none v).Config_ = s.Config_ ∧
    (s.storeFree none v).Stats_ = s.Stats_ ∧ (s.storeFree none v).infos = s.infos := by
  unfold ObjectAllocator.storeFree
  exact ⟨rfl, rfl, rfl, rfl, rfl, rfl⟩

theorem storeFree_some (s : ObjectAllocator) (r v : Nat) :
    (s.storeFree (some r) v).mem = writePtr s.mem r v ∧
    (s.storeFree (some r) v).FreeList_ = s.FreeList_ ∧
    (s.storeFree (some r) v).PageList_ = s.PageList_ ∧
    (s.storeFree (some r) v).Config_ = s.Config_ ∧
    (s.storeFree (some r) v).Stats_ = s.Stats_ ∧ (s.storeFree (some r) v).infos = s.infos := by
  unfold ObjectAllocator.storeFree
  exact ⟨rfl, rfl, rfl, rfl, rfl, rfl⟩

theorem loadFree_none (s : ObjectAllocator) : s.loadFree none = s.FreeList_ := rfl

theorem loadFree_some (s : ObjectAllocator) (r : Nat) : s.loadFree (some r) = readPtr s.mem r :=
  rfl

/-- The loop of `freeBlocks`, started at a cursor that points at the chain `l`:
it ends, the cursor then points at the nodes of `l` outside the page, in their
old order, and it writes only into the cursor cell and the `Next` members of
the nodes of `l`. -/
theorem freeBlocks_loop (B sz : Nat) : ∀ (l : List Nat) (fuel : Nat) (s : ObjectAllocator)
    (ref : Option Nat), s.Stats_.PageSize_ = sz →
    ListRep s.mem (s.loadFree ref) l →
    l.Pairwise (fun x y => x + 8 ≤ y ∨ y + 8 ≤ x) →
    (∀ r, ref = some r → ∀ x ∈ l, r + 8 ≤ x ∨ x + 8 ≤ r) →
    l.length < fuel →
    ∃ s', freeBlocks.loop B fuel s ref = some s' ∧
      ListRep s'.mem (s'.loadFree ref) (l.filter (fun x => decide (¬ (B ≤ x ∧ x < B + sz)))) ∧
      s'.PageList_ = s.PageList_ ∧ s'.Config_ = s.Config_ ∧ s'.Stats_ = s.Stats_ ∧
      s'.infos = s.infos ∧
      (ref ≠ none → s'.FreeList_ = s.FreeList_) ∧
      (∀ y, (∀ r, ref = some r → (y < r ∨ r + 8 ≤ y)) → (∀ x ∈ l, y < x ∨ x + 8 ≤ y) →
        s'.mem y = s.mem y) := by
  intro l
  induction l with
  | nil =>
    intro fuel s ref _ hr _ _ hf
    have h0 : s.loadFree ref = 0 := hr
    cases fuel with
    | zero => cases hf
    | succ f =>
      refine ⟨s, ?_, hr, rfl, rfl, rfl, rfl, fun _ => rfl, fun _ _ _ => rfl⟩
      unfold freeBlocks.loop
      simp only [h0, if_true]
  | cons x xs ih =>
    intro fuel s ref hsz hr hpw href hf
    obtain ⟨h1, h2, h3⟩ := hr
    have hpw' := List.pairwise_cons.1 hpw
    cases fuel with
    | zero => cases hf
    | succ f =>
      have hf' : xs.length < f := by simpa using hf
      unfold freeBlocks.loop
      simp only [h1, if_neg h2, hsz]
      by_cases hin : x ≥ B ∧ x < B + sz
      · -- the node lies in the page: bypass it
        rw [if_pos hin]
        have hfilter : (x :: xs).filter (fun x => decide (¬ (B ≤ x ∧ x < B + sz)))
            = xs.filter (fun x => decide (¬ (B ≤ x ∧ x < B + sz))) := by
          rw [List.filter_cons_of_neg]
          simp only [decide_not, Bool.not_eq_true', decide_eq_false_iff_not, not_not]
          exact hin
        rw [hfilter]
        cases ref with
        | none =>
          obtain ⟨tm, tF, tP, tC, tS, tI⟩ := storeFree_none s (readPtr s.mem x)
          generalize s.storeFree none (readPtr s.mem x) = t at tm tF tP tC tS tI ⊢
          obtain ⟨s', e1, e2, e3, e4, e5, e6, _, e8⟩ := ih f t none (by rw [tS]; exact hsz)
            (by rw [loadFree_none, tF, tm]; exact h3) hpw'.2 (fun r hr => by cases hr) hf'
          refine ⟨s', e1, e2, e3.trans tP, e4.trans tC, e5.trans tS, e6.trans tI,
            fun hc => absurd rfl hc, ?_⟩
          intro y hy1 hy2
          rw [e8 y (fun r hr => by cases hr) (fun z hz => hy2 z (List.mem_cons_of_mem _ hz)), tm]
        | some r =>
          have hrx := href r rfl
          have hnext : readPtr (writePtr s.mem r (readPtr s.mem x)) r = readPtr s.mem x :=
            readPtr_writePtr_same _ _ _ (readPtr_lt _ _)
          have hrep : ListRep (writePtr s.mem r (readPtr s.mem x)) (readPtr s.mem x) xs := by
            refine h3.congr ?_
            intro z hz k hk
            have := hrx z (List.mem_cons_of_mem _ hz)
            unfold writePtr
            exact writeLE_out _ _ _ _ _ (by have : pointer_size = 8 := rfl; omega)
          obtain ⟨tm, tF, tP, tC, tS, tI⟩ := storeFree_some s r (readPtr s.mem x)
          generalize s.storeFree (some r) (readPtr s.mem x) = t at tm tF tP tC tS tI ⊢
          obtain ⟨s', e1, e2, e3, e4, e5, e6, e7, e8⟩ := ih f t (some r) (by rw [tS]; exact hsz)
            (by rw [loadFree_some, tm, hnext]; exact hrep) hpw'.2
            (fun r' hr' z hz => href r' hr' z (List.mem_cons_of_mem _ hz)) hf'
          refine ⟨s', e1, e2, e3.trans tP, e4.trans tC, e5.trans tS, e6.trans tI,
            fun _ => (e7 (by simp)).trans tF, ?_⟩
          intro y hy1 hy2
          rw [e8 y hy1 (fun z hz => hy2 z (List.mem_cons_of_mem _ hz)), tm]
          unfold writePtr
          have := hy1 r rfl
          exact writeLE_out _ _ _ _ _ (by have : pointer_size = 8 := rfl; omega)
      · -- the node stays: move the cursor to its `Next` member
        rw [if_neg hin]
        have hfilter : (x :: xs).filter (fun x => decide (¬ (B ≤ x ∧ x < B + sz)))
            = x :: xs.filter (fun x => decide (¬ (B ≤ x ∧ x < B + sz))) := by
          rw [List.filter_cons_of_pos]
          simp only [decide_not, Bool.not_eq_true', decide_eq_false_iff_not]
          exact hin
        rw [hfilter]
        obtain ⟨s', e1, e2, e3, e4, e5, e6, e7, e8⟩ := ih f s (some x) hsz h3 hpw'.2
          (fun r hr z hz => by cases hr; exact hpw'.1 z hz) hf'
        have hfl : s'.FreeList_ = s.FreeList_ := e7 (by simp)
        refine ⟨s', e1, ⟨?_, h2, e2⟩, e3, e4, e5, e6, fun _ => hfl, ?_⟩
        · cases ref with
          | none =>
            rw [loadFree_none, hfl]; exact h1
          | some r =>
            rw [loadFree_some]
            have hrx := href r rfl
            have : readPtr s'.mem r = readPtr s.mem r := by
              apply readPtr_congr
              intro k hk
              apply e8
              · intro r' hr'
                cases hr'
                have := hrx x (List.mem_cons_self _ _)
                omega
              · intro z hz
                have := hrx z (List.mem_cons_of_mem _ hz)
                omega
            rw [this]; exact h1
        · intro y hy1 hy2
          apply e8
          · intro r' hr'
            cases hr'
            have := hy2 x (List.mem_cons_self _ _)
            omega
          · intro z hz
            exact hy2 z (List.mem_cons_of_mem _ hz)

/-! ### Unlinking a page -/

theorem ListRep.next_of_append {m : Memory} {r : Nat} {rest : List Nat} :
    ∀ {d0 : List Nat} {h : Nat}, ListRep m h (d0 ++ r :: rest) →
      ListRep m (readPtr m r) rest := by
  intro d0
  induction d0 with
  | nil => intro h hr; exact hr.2.2
  | cons d ds ih => intro h hr; exact ih hr.2.2

/-- Bypassing the node after `r` in a chain: after `r->Next = P->Next` the
chain is the old one without `P`. -/
theorem ListRep.splice {m : Memory} {r P : Nat} {rest : List Nat}
    (hrest : ∀ z ∈ rest, z + 8 ≤ r ∨ r + 8 ≤ z) :
    ∀ {d0 : List Nat} {h : Nat}, (∀ z ∈ d0, z + 8 ≤ r ∨ r + 8 ≤ z) →
      ListRep m h (d0 ++ r :: P :: rest) →
      ListRep (writePtr m r (readPtr m P)) h (d0 ++ r :: rest) := by
  have hp : pointer_size = 8 := rfl
  intro d0
  induction d0 with
  | nil =>
    intro h _ hr
    obtain ⟨h1, h2, _, _, h5⟩ := hr
    refine ⟨h1, h2, ?_⟩
    rw [readPtr_writePtr_same _ _ _ (readPtr_lt _ _)]
    refine h5.congr ?_
    intro z hz k hk
    have := hrest z hz
    unfold writePtr
    exact writeLE_out _ _ _ _ _ (by omega)
  | cons d ds ih =>
    intro h hd hr
    obtain ⟨h1, h2, h3⟩ := hr
    refine ⟨h1, h2, ?_⟩
    have hdr := hd d (List.mem_cons_self _ _)
    have e : readPtr (writePtr m r (readPtr m P)) d = readPtr m d := by
      apply readPtr_congr
      intro k hk
      unfold writePtr
      exact writeLE_out _ _ _ _ _ (by omega)
    rw [e]
    exact ih (fun z hz => hd z (List.mem_cons_of_mem _ hz)) h3

theorem storePage_none (s : ObjectAllocator) (v : Nat) :
    (s.storePage none v).mem = s.mem ∧ (s.storePage none v).PageList_ = v ∧
    (s.storePage none v).FreeList_ = s.FreeList_ ∧ (s.storePage none v).Config_ = s.Config_ ∧
    (s.storePage none v).Stats_ = s.Stats_ ∧ (s.storePage none v).infos = s.infos := by
  unfold ObjectAllocator.storePage
  exact ⟨rfl, rfl, rfl, rfl, rfl, rfl⟩

theorem storePage_some (s : ObjectAllocator) (r v : Nat) :
    (s.storePage (some r) v).mem = writePtr s.mem r v ∧
    (s.storePage (some r) v).PageList_ = s.PageList_ ∧
    (s.storePage (some r) v).FreeList_ = s.FreeList_ ∧
    (s.storePage (some r) v).Config_ = s.Config_ ∧
    (s.storePage (some r) v).Stats_ = s.Stats_ ∧ (s.storePage (some r) v).infos = s.infos := by
  unfold ObjectAllocator.storePage
  exact ⟨rfl, rfl, rfl, rfl, rfl, rfl⟩

theorem loadPage_none (s : ObjectAllocator) : s.loadPage none = s.PageList_ := rfl

theorem loadPage_some (s : ObjectAllocator) (r : Nat) : s.loadPage (some r) = readPtr s.mem r :=
  rfl

theorem pageReleased_fields (s : ObjectAllocator) :
    s.pageReleased.mem = s.mem ∧ s.pageReleased.PageList_ = s.PageList_ ∧
    s.pageReleased.FreeList_ = s.FreeList_ ∧ s.pageReleased.Config_ = s.Config_ ∧
    s.pageReleased.infos = s.infos ∧
    s.pageReleased.Stats_ = { s.Stats_ with
      PagesInUse_ := decU32 s.Stats_.PagesInUse_,
      FreeObjects_ := subU32 s.Stats_.FreeObjects_ s.Config_.ObjectsPerPage_ } := by
  unfold ObjectAllocator.pageReleased
  exact ⟨rfl, rfl, rfl, rfl, rfl, rfl⟩

/-- The free nodes lie in pairwise disjoint `Next` cells. -/
theorem Inv.free_pairwise {s : ObjectAllocator} {pages free : List Nat} (h : Inv s pages free) :
    free.Pairwise (fun x y => x + 8 ≤ y ∨ y + 8 ≤ x) := by
  have hp : pointer_size = 8 := rfl
  have hos := h.wf.objectSize
  refine List.Pairwise.imp_of_mem ?_ h.freeNodup
  intro a b ha hb hne
  obtain ⟨P, hP, hbP⟩ := h.freeBlock a ha
  obtain ⟨Q, hQ, hbQ⟩ := h.freeBlock b hb
  have hPQ : P = Q ∨ P + s.Stats_.PageSize_ ≤ Q ∨ Q + s.Stats_.PageSize_ ≤ P := by
    by_cases e : P = Q
    · exact Or.inl e
    · exact Or.inr (h.pageDisjoint P hP Q hQ e)
  rcases zones_disjoint h.wf hPQ hbP hbQ hne with d | d
  · left; omega
  · right; omega

/-- The `Next` cell of a free node does not meet the link of a page. -/
theorem Inv.free_page_apart {s : ObjectAllocator} {pages free : List Nat} (h : Inv s pages free)
    {f Q : Nat} (hf : f ∈ free) (hQ : Q ∈ pages) : Q + 8 ≤ f ∨ f + 8 ≤ Q := by
  have hp : pointer_size = 8 := rfl
  have hos := h.wf.objectSize
  have hpl := h.wf.pageLink
  obtain ⟨P, hP, _, g1, g2, _⟩ := h.free_geom hf
  by_cases e : P = Q
  · subst e; left; omega
  · rcases h.pageDisjoint P hP Q hQ e with d | d
    · right; omega
    · left; omega

/-- The free nodes inside the address range of a page are its blocks. -/
theorem Inv.free_inPage {s : ObjectAllocator} {pages free : List Nat} (h : Inv s pages free)
    {f P : Nat} (hf : f ∈ free) (hP : P ∈ pages) (hin : s.inPage P f) : f ∈ s.pageBlocks P := by
  have hp : pointer_size = 8 := rfl
  have hos := h.wf.objectSize
  obtain ⟨Q, hQ, hb, g1, g2, _⟩ := h.free_geom hf
  by_cases e : Q = P
  · rw [← e]; exact hb
  · unfold ObjectAllocator.inPage at hin
    rcases h.pageDisjoint Q hQ P hP e with d | d <;> omega

/-- An empty page contributes exactly its blocks to the free list. -/
theorem Inv.filter_empty_length {s : ObjectAllocator} {pages free : List Nat}
    (h : Inv s pages free) {P : Nat} (hP : P ∈ pages) (hE : s.emptyIn free P) :
    (free.filter (fun x => decide (¬ (P ≤ x ∧ x < P + s.Stats_.PageSize_)))).length
      + s.Config_.ObjectsPerPage_ = free.length := by
  have h1 := List.length_eq_length_filter_add (l := free)
    (fun x => decide (¬ (P ≤ x ∧ x < P + s.Stats_.PageSize_)))
  have h2 : (free.filter (fun x => !decide (¬ (P ≤ x ∧ x < P + s.Stats_.PageSize_)))).length
      = s.Config_.ObjectsPerPage_ := by
    rw [← length_pageBlocks s P]
    refine List.Perm.length_eq ?_
    refine (List.perm_ext_iff_of_nodup (h.freeNodup.filter _) (pageBlocks_nodup h.wf P)).2 ?_
    intro a
    simp only [List.mem_filter, Bool.not_eq_true', decide_eq_false_iff_not, not_not]
    constructor
    · rintro ⟨ha, hin⟩
      exact h.free_inPage ha hP hin
    · intro ha
      exact ⟨hE a ha, inPage_of_block h.wf ha⟩
  omega

/-- The zone of a free node does not meet the link of a page. -/
theorem Inv.zone_page_apart {s : ObjectAllocator} {pages free : List Nat}
    (h : Inv s pages free) {f R : Nat} (hf : f ∈ free) (hR : R ∈ pages) {x : Nat}
    (hx1 : f ≤ x + s.Config_.PadBytes_ + s.Config_.HBlockInfo_.size_)
    (hx2 : x < f + s.Stats_.ObjectSize_ + s.Config_.PadBytes_) : x < R ∨ R + 8 ≤ x := by
  have hp : pointer_size = 8 := rfl
  have hpl := h.wf.pageLink
  obtain ⟨P, hP, _, g1, g2, _⟩ := h.free_geom hf
  by_cases e : P = R
  · subst e; right; omega
  · rcases h.pageDisjoint P hP R hR e with d | d
    · left; omega
    · right; omega

/-- The pad bytes of a free node do not meet the `Next` cell of a free node. -/
theorem Inv.pads_free_apart {s : ObjectAllocator} {pages free : List Nat}
    (h : Inv s pages free) {f g : Nat} (hf : f ∈ free) (hg : g ∈ free) {x : Nat}
    (hx : (f ≤ x + s.Config_.PadBytes_ ∧ x < f) ∨
      (f + s.Stats_.ObjectSize_ ≤ x ∧ x < f + s.Stats_.ObjectSize_ + s.Config_.PadBytes_)) :
    x < g ∨ g + 8 ≤ x := by
  have hp : pointer_size = 8 := rfl
  have hos := h.wf.objectSize
  by_cases e : f = g
  · subst e
    rcases hx with hx | hx
    · left; omega
    · right; omega
  · obtain ⟨P, hP, hbP⟩ := h.freeBlock f hf
    obtain ⟨Q, hQ, hbQ⟩ := h.freeBlock g hg
    have hPQ : P = Q ∨ P + s.Stats_.PageSize_ ≤ Q ∨ Q + s.Stats_.PageSize_ ≤ P := by
      by_cases e' : P = Q
      · exact Or.inl e'
      · exact Or.inr (h.pageDisjoint P hP Q hQ e')
    have z1 := zone_in_page h.wf hbP
    rcases zones_disjoint h.wf hPQ hbP hbQ e with d | d
    · left; omega
    · right; omega

/-- Releasing an empty page: `freeBlocks`, the unlinking through the cursor and
the statistics update keep the invariant, with the page removed from the page
list and its blocks from the free list. -/
theorem release_step {s : ObjectAllocator} {done rest free : List Nat} {P : Nat}
    {ref : Option Nat} (h : Inv s (done ++ P :: rest) free) (hE : s.emptyIn free P)
    (href : (ref = none ∧ done = []) ∨ (∃ d0 r, done = d0 ++ [r] ∧ ref = some r)) :
    ∃ s1 s3, freeBlocks s P = some s1 ∧
      s3 = (s1.storePage ref (readPtr s.mem P)).pageReleased ∧
      Inv s3 (done ++ rest)
        (free.filter (fun x => decide (¬ (P ≤ x ∧ x < P + s.Stats_.PageSize_)))) ∧
      SameLayout s s3 ∧ s3.infos = s.infos ∧
      s3.Stats_.ObjectsInUse_ = s.Stats_.ObjectsInUse_ ∧
      s3.Stats_.MostObjects_ = s.Stats_.MostObjects_ ∧
      s3.Stats_.Allocations_ = s.Stats_.Allocations_ ∧
      s3.Stats_.Deallocations_ = s.Stats_.Deallocations_ ∧
      (∀ y, (∀ f ∈ free, y < f ∨ f + 8 ≤ y) → (∀ Q ∈ done ++ P :: rest, y < Q ∨ Q + 8 ≤ y) →
        s3.mem y = s.mem y) := by
  have hp8 : pointer_size = 8 := rfl
  have hw := h.wf
  have hpl := hw.pageLink
  have hPm : P ∈ done ++ P :: rest := by simp
  have hsub : ∀ Q, Q ∈ done ++ rest → Q ∈ done ++ P :: rest := by
    intro Q hQ
    rcases List.mem_append.1 hQ with e | e
    · exact List.mem_append_left _ e
    · exact List.mem_append_right _ (List.mem_cons_of_mem _ e)
  -- freeBlocks
  obtain ⟨s1, e1, f1, e3, e4, e5, e6, _, e8⟩ := freeBlocks_loop P s.Stats_.PageSize_ free walkFuel
    s none rfl (by rw [loadFree_none]; exact h.freeRep) h.free_pairwise
    (fun r hr => by cases hr) h.free_lt_fuel
  rw [loadFree_none] at f1
  have frame1 : ∀ y, (∀ f ∈ free, y < f ∨ f + 8 ≤ y) → s1.mem y = s.mem y :=
    fun y hy => e8 y (fun r hr => by cases hr) hy
  have hlink1 : ∀ Q ∈ done ++ P :: rest, ∀ k, k < 8 → s1.mem (Q + k) = s.mem (Q + k) := by
    intro Q hQ k hk
    apply frame1
    intro f hf
    have := h.free_page_apart hf hQ
    omega
  have hpr1 : ListRep s1.mem s.PageList_ (done ++ P :: rest) := h.pageRep.congr hlink1
  have hnext : readPtr s1.mem P = readPtr s.mem P := readPtr_congr _ _ _ (hlink1 P hPm)
  -- pages are far apart
  have hapart : ∀ Q ∈ done ++ P :: rest, ∀ R ∈ done ++ P :: rest, Q ≠ R →
      Q + 8 ≤ R ∨ R + 8 ≤ Q := by
    intro Q hQ R hR hne
    rcases h.pageDisjoint Q hQ R hR hne with d | d
    · left; omega
    · right; omega
  have hnd := h.pageNodup
  -- the unlinking
  obtain ⟨s2, hs2, hpr2, u3, u4, u5, u6, frame2⟩ : ∃ s2, s2 = s1.storePage ref (readPtr s.mem P) ∧
      ListRep s2.mem s2.PageList_ (done ++ rest) ∧ s2.FreeList_ = s1.FreeList_ ∧
      s2.Config_ = s1.Config_ ∧ s2.Stats_ = s1.Stats_ ∧ s2.infos = s1.infos ∧
      (∀ y, (∀ Q ∈ done ++ P :: rest, y < Q ∨ Q + 8 ≤ y) → s2.mem y = s1.mem y) := by
    rcases href with ⟨hr, hd⟩ | ⟨d0, r, hd, hr⟩
    · subst hr hd
      obtain ⟨tm, tP, tF, tC, tS, tI⟩ := storePage_none s1 (readPtr s.mem P)
      refine ⟨_, rfl, ?_, tF, tC, tS, tI, fun y _ => by rw [tm]⟩
      rw [tm, tP, ← hnext]
      exact hpr1.2.2
    · subst hr hd
      obtain ⟨tm, tP, tF, tC, tS, tI⟩ := storePage_some s1 r (readPtr s.mem P)
      have hr_mem : r ∈ (d0 ++ [r]) ++ P :: rest := by simp
      refine ⟨_, rfl, ?_, tF, tC, tS, tI, ?_⟩
      · rw [tm, tP, e3, ← hnext]
        have hpr1' : ListRep s1.mem s.PageList_ (d0 ++ r :: P :: rest) := by
          simpa using hpr1
        have hnd' : (d0 ++ r :: P :: rest).Nodup := by simpa using hnd
        have := @ListRep.splice s1.mem r P rest ?_ d0 s.PageList_ ?_ hpr1'
        · simpa using this
        · intro z hz
          have hzm : z ∈ (d0 ++ [r]) ++ P :: rest := by simp [hz]
          have hne : z ≠ r := by
            intro e
            subst e
            have := (List.nodup_append.1 hnd').2.1
            have h2 := List.nodup_cons.1 this
            exact h2.1 (List.mem_cons_of_mem _ hz)
          exact hapart z hzm r hr_mem hne
        · intro z hz
          have hzm : z ∈ (d0 ++ [r]) ++ P :: rest := by simp [hz]
          have hne : z ≠ r := by
            intro e
            subst e
            exact (List.nodup_append.1 hnd').2.2 hz (List.mem_cons_self _ _)
          exact hapart z hzm r hr_mem hne
      · intro y hy
        rw [tm]
        unfold writePtr
        have := hy r hr_mem
        exact writeLE_out _ _ _ _ _ (by omega)
  obtain ⟨vm, vP, vF, vC, vI, vS⟩ := pageReleased_fields s2
  refine ⟨s1, s2.pageReleased, e1, by rw [hs2], ?_⟩
  generalize s2.pageReleased = s3 at vm vP vF vC vI vS ⊢
  have hl3 : SameLayout s s3 :=
    ⟨by rw [vC, u4, e4], by rw [vS, u5, e5], by rw [vS, u5, e5]⟩
  have hmem3 : ∀ y, (∀ f ∈ free, y < f ∨ f + 8 ≤ y) →
      (∀ Q ∈ done ++ P :: rest, y < Q ∨ Q + 8 ≤ y) → s3.mem y = s.mem y := by
    intro y hy1 hy2
    rw [vm, frame2 y hy2, frame1 y hy1]
  have hfilter_mem : ∀ f, f ∈ free.filter
      (fun x => decide (¬ (P ≤ x ∧ x < P + s.Stats_.PageSize_))) →
      f ∈ free ∧ ¬ s.inPage P f := by
    intro f hf
    have := List.mem_filter.1 hf
    exact ⟨this.1, of_decide_eq_true this.2⟩
  have hcount := h.filter_empty_length hPm hE
  refine ⟨?_, hl3, by rw [vI, u6, e6], by rw [vS, u5, e5],
    by rw [vS, u5, e5], by rw [vS, u5, e5], by rw [vS, u5, e5], hmem3⟩
  constructor
  · exact hl3.wellFormed hw
  · rw [vm, vP]; exact hpr2
  · rw [vm, vF, u3]
    refine f1.congr ?_
    intro f hf k hk
    apply frame2
    intro Q hQ
    have := h.free_page_apart (hfilter_mem f hf).1 hQ
    omega
  · intro Q hQ
    rw [hl3.2.2]; exact h.pageBound Q (hsub Q hQ)
  · have : (done ++ rest).Sublist (done ++ P :: rest) :=
      List.Sublist.append_left (List.sublist_cons_self P rest) done
    exact this.nodup hnd
  · intro Q hQ R hR hne
    rw [hl3.2.2]; exact h.pageDisjoint Q (hsub Q hQ) R (hsub R hR) hne
  · exact h.freeNodup.filter _
  · intro f hf
    obtain ⟨hf1, hf2⟩ := hfilter_mem f hf
    obtain ⟨Q, hQ, hb⟩ := h.freeBlock f hf1
    have hQP : Q ≠ P := by
      intro e
      subst e
      exact hf2 (inPage_of_block hw hb)
    refine ⟨Q, ?_, by rw [hl3.pageBlocks]; exact hb⟩
    rcases List.mem_append.1 hQ with e | e
    · exact List.mem_append_left _ e
    · rcases List.mem_cons.1 e with e' | e'
      · exact absurd e' hQP
      · exact List.mem_append_right _ e'
  · intro f hf
    obtain ⟨hf1, _⟩ := hfilter_mem f hf
    obtain ⟨Q, hQ, hb, g1, _, _⟩ := h.free_geom hf1
    refine padsIntact_of_pads hl3 (by omega) ?_ (h.freePads f hf1)
    intro x hx
    apply hmem3
    · intro g hg
      exact h.pads_free_apart hf1 hg hx
    · intro R hR
      exact h.zone_page_apart hf1 hR (by omega) (by omega)
  · rw [vS, u5, e5]
    show subU32 s.Stats_.FreeObjects_ s2.Config_.ObjectsPerPage_ = _
    rw [u4, e4, subU32_eq, h.cntFree]
    have := hw.objectsPerPage
    omega
  · rw [vS, u5, e5]
    show decU32 s.Stats_.PagesInUse_ = _
    rw [decU32_eq, h.cntPages]
    simp only [List.length_append, List.length_cons]
    omega
  · rw [vS, u5, e5, hl3.1]
    show s.Stats_.ObjectsInUse_ = _
    rw [h.cntUse]
    simp only [List.length_append, List.length_cons] at hcount ⊢
    have e : (done.length + (rest.length + 1)) * s.Config_.ObjectsPerPage_
        = (done.length + rest.length) * s.Config_.ObjectsPerPage_
          + s.Config_.ObjectsPerPage_ := by
      rw [← Nat.add_assoc, Nat.succ_mul]
    rw [e]
    congr 1
    omega

/-! ### FreeEmptyPages -/

/-- Whether another page is empty does not change when the nodes inside a page
are taken off the free list. -/
theorem Inv.emptyIn_filter {s s3 : ObjectAllocator} {pages free : List Nat}
    (h : Inv s pages free) (hl : SameLayout s s3) {P Q : Nat} (hP : P ∈ pages) (hQ : Q ∈ pages)
    (hne : Q ≠ P) :
    s3.emptyIn (free.filter (fun x => decide (¬ (P ≤ x ∧ x < P + s.Stats_.PageSize_)))) Q
      ↔ s.emptyIn free Q := by
  unfold ObjectAllocator.emptyIn
  rw [hl.pageBlocks]
  have key : ∀ b ∈ s.pageBlocks Q, ¬ (P ≤ b ∧ b < P + s.Stats_.PageSize_) := by
    intro b hb
    have hin := inPage_of_block h.wf hb
    unfold ObjectAllocator.inPage at hin
    rcases h.pageDisjoint Q hQ P hP hne with d | d <;> omega
  constructor
  · intro hh b hb
    exact (List.mem_filter.1 (hh b hb)).1
  · intro hh b hb
    exact List.mem_filter.2 ⟨hh b hb, decide_eq_true (key b hb)⟩

/-- The loop of `FreeEmptyPages`, started with the cursor in front of the pages
`rest`: it ends, it has released the empty pages among `rest` and counted
them, and the invariant holds again. -/
theorem freeEmptyPages_loop : ∀ (rest : List Nat) (fuel : Nat) (s : ObjectAllocator)
    (done free : List Nat) (ref : Option Nat) (count : Nat),
    Inv s (done ++ rest) free →
    ((ref = none ∧ done = []) ∨ (∃ d0 r, done = d0 ++ [r] ∧ ref = some r)) →
    rest.length < fuel → count < 2 ^ 32 →
    ∃ s', FreeEmptyPages.loop fuel s ref count
        = some ((count + (rest.filter (fun Q => decide (s.emptyIn free Q))).length) % 2 ^ 32, s') ∧
      Inv s' (done ++ rest.filter (fun Q => decide (¬ s.emptyIn free Q)))
        (free.filter (fun f => decide (∀ Q ∈ rest, s.emptyIn free Q → ¬ s.inPage Q f))) ∧
      SameLayout s s' ∧ s'.infos = s.infos ∧
      s'.Stats_.ObjectsInUse_ = s.Stats_.ObjectsInUse_ ∧
      s'.Stats_.MostObjects_ = s.Stats_.MostObjects_ ∧
      s'.Stats_.Allocations_ = s.Stats_.Allocations_ ∧
      s'.Stats_.Deallocations_ = s.Stats_.Deallocations_ ∧
      (∀ y, (∀ f ∈ free, y < f ∨ f + 8 ≤ y) → (∀ Q ∈ done ++ rest, y < Q ∨ Q + 8 ≤ y) →
        s'.mem y = s.mem y) ∧
      (free.filter (fun f => decide (∀ Q ∈ rest, s.emptyIn free Q → ¬ s.inPage Q f))).length
        + (rest.filter (fun Q => decide (s.emptyIn free Q))).length * s.Config_.ObjectsPerPage_
        = free.length := by
  intro rest
  induction rest with
  | nil =>
    intro fuel s done free ref count h href hf hc
    have hload : s.loadPage ref = 0 := by
      rcases href with ⟨hr, hd⟩ | ⟨d0, r, hd, hr⟩
      · subst hr hd
        exact h.pageRep
      · subst hr hd
        rw [loadPage_some]
        have : ListRep s.mem s.PageList_ (d0 ++ r :: []) := by simpa using h.pageRep
        exact this.next_of_append
    cases fuel with
    | zero => cases hf
    | succ f =>
      have e : free.filter (fun f => decide (∀ Q ∈ ([] : List Nat),
          s.emptyIn free Q → ¬ s.inPage Q f)) = free := by
        rw [List.filter_eq_self]
        intro a _
        simp
      refine ⟨s, ?_, ?_, SameLayout.refl s, rfl, rfl, rfl, rfl, rfl, fun _ _ _ => rfl, ?_⟩
      · unfold FreeEmptyPages.loop
        simp only [hload, if_true, List.filter_nil, List.length_nil, Nat.add_zero]
        rw [Nat.mod_eq_of_lt hc]
      · rw [e]
        exact h
      · rw [e]
        simp
  | cons P rest ih =>
    intro fuel s done free ref count h href hf hc
    have hPm : P ∈ done ++ P :: rest := by simp
    have hload : s.loadPage ref = P := by
      rcases href with ⟨hr, hd⟩ | ⟨d0, r, hd, hr⟩
      · subst hr hd
        exact h.pageRep.1
      · subst hr hd
        rw [loadPage_some]
        have : ListRep s.mem s.PageList_ (d0 ++ r :: P :: rest) := by simpa using h.pageRep
        exact this.next_of_append.1
    have hP0 : P ≠ 0 := h.pageRep.ne_zero P hPm
    cases fuel with
    | zero => cases hf
    | succ f =>
      have hf' : rest.length < f := by simpa using hf
      unfold FreeEmptyPages.loop
      simp only [hload, if_neg hP0, h.pageIsEmpty]
      by_cases hE : s.emptyIn free P
      · -- the page is empty: release it
        simp only [hE, decide_True]
        obtain ⟨s1, s3, r1, r2, r3, r4, r5, r6, r7, r8, r9, r10⟩ := release_step h hE href
        rw [r1]
        dsimp only
        rw [← r2]
        obtain ⟨s', i1, i2, i3, i4, i5, i6, i7, i8, i9, i10⟩ := ih f s3 done _ ref
          (incU32 count) r3 href hf' (by unfold incU32; exact Nat.mod_lt _ (by norm_num))
        -- the pages of `rest` other than `P`
        have hrest : ∀ Q ∈ rest, Q ∈ done ++ P :: rest ∧ Q ≠ P := by
          intro Q hQ
          refine ⟨by simp [hQ], ?_⟩
          intro e
          subst e
          have hnd := h.pageNodup
          have := (List.nodup_append.1 hnd).2.1
          exact (List.nodup_cons.1 this).1 hQ
        have hEeq : ∀ Q ∈ rest, s3.emptyIn (free.filter
            (fun x => decide (¬ (P ≤ x ∧ x < P + s.Stats_.PageSize_)))) Q ↔ s.emptyIn free Q :=
          fun Q hQ => h.emptyIn_filter r4 hPm (hrest Q hQ).1 (hrest Q hQ).2
        have hin : ∀ Q f, s3.inPage Q f ↔ s.inPage Q f := by
          intro Q f
          unfold ObjectAllocator.inPage
          rw [r4.2.2]
        have c1 : rest.filter (fun Q => decide (s3.emptyIn (free.filter
            (fun x => decide (¬ (P ≤ x ∧ x < P + s.Stats_.PageSize_)))) Q))
            = rest.filter (fun Q => decide (s.emptyIn free Q)) :=
          List.filter_congr (fun Q hQ => by rw [decide_eq_decide]; exact hEeq Q hQ)
        have c2 : rest.filter (fun Q => decide (¬ s3.emptyIn (free.filter
            (fun x => decide (¬ (P ≤ x ∧ x < P + s.Stats_.PageSize_)))) Q))
            = rest.filter (fun Q => decide (¬ s.emptyIn free Q)) :=
          List.filter_congr (fun Q hQ => by rw [decide_eq_decide, hEeq Q hQ])
        have c3 : (free.filter (fun x => decide (¬ (P ≤ x ∧ x < P + s.Stats_.PageSize_)))).filter
            (fun f => decide (∀ Q ∈ rest, s3.emptyIn (free.filter
              (fun x => decide (¬ (P ≤ x ∧ x < P + s.Stats_.PageSize_)))) Q → ¬ s3.inPage Q f))
            = free.filter (fun f => decide (∀ Q ∈ P :: rest, s.emptyIn free Q → ¬ s.inPage Q f)) := by
          rw [List.filter_filter]
          refine List.filter_congr ?_
          intro a _
          rw [← Bool.decide_and, decide_eq_decide]
          simp only [List.mem_cons, forall_eq_or_imp]
          constructor
          · rintro ⟨hh, hnot⟩
            refine ⟨fun _ => hnot, ?_⟩
            intro Q hQ hEQ
            exact fun c => hh Q hQ ((hEeq Q hQ).2 hEQ) ((hin Q a).2 c)
          · rintro ⟨hnot, hh⟩
            refine ⟨?_, hnot hE⟩
            intro Q hQ hEQ
            exact fun c => hh Q hQ ((hEeq Q hQ).1 hEQ) ((hin Q a).1 c)
        rw [c1] at i1
        rw [c2, c3] at i2
        rw [c1, c3, r4.1] at i10
        have hcount := h.filter_empty_length hPm hE
        refine ⟨s', ?_, ?_, r4.trans i3, i4.trans r5, i5.trans r6, i6.trans r7, i7.trans r8,
          i8.trans r9, ?_, ?_⟩
        · rw [i1, List.filter_cons_of_pos (by simpa using hE)]
          simp only [List.length_cons, incU32]
          congr 2
          norm_num at hc ⊢
          omega
        · rw [List.filter_cons_of_neg (by simpa using hE)]
          exact i2
        · intro y hy1 hy2
          rw [i9 y (fun g hg => hy1 g (List.mem_filter.1 hg).1) (fun Q hQ => hy2 Q (by
            rcases List.mem_append.1 hQ with e | e
            · exact List.mem_append_left _ e
            · exact List.mem_append_right _ (List.mem_cons_of_mem _ e)))]
          exact r10 y hy1 hy2
        · rw [List.filter_cons_of_pos (by simpa using hE)]
          simp only [List.length_cons, Nat.succ_mul]
          omega
      · -- the page is in use: step over it
        simp only [hE, decide_False]
        have h' : Inv s ((done ++ [P]) ++ rest) free := by
          rw [List.append_assoc]; exact h
        obtain ⟨s', i1, i2, i3, i4, i5, i6, i7, i8, i9, i10⟩ := ih f s (done ++ [P]) free
          (some P) count h' (Or.inr ⟨done, P, rfl, rfl⟩) hf' hc
        have c3 : free.filter (fun f => decide (∀ Q ∈ rest, s.emptyIn free Q → ¬ s.inPage Q f))
            = free.filter (fun f => decide (∀ Q ∈ P :: rest, s.emptyIn free Q → ¬ s.inPage Q f)) := by
          refine List.filter_congr ?_
          intro a _
          rw [decide_eq_decide]
          simp only [List.mem_cons, forall_eq_or_imp]
          constructor
          · intro hh; exact ⟨fun c => absurd c hE, hh⟩
          · intro hh; exact hh.2
        rw [c3, List.append_assoc] at i2
        rw [c3] at i10
        refine ⟨s', ?_, ?_, i3, i4, i5, i6, i7, i8, ?_, ?_⟩
        · rw [i1, List.filter_cons_of_neg (by simpa using hE)]
        · rw [List.filter_cons_of_pos (by simpa using hE)]
          exact i2
        · intro y hy1 hy2
          exact i9 y hy1 (fun Q hQ => hy2 Q (by simpa using hQ))
        · rw [List.filter_cons_of_neg (by simpa using hE)]
          exact i10

/-- `FreeEmptyPages` on a state that satisfies the invariant: it returns the
number of empty pages, the page list loses exactly the empty pages and the free
list exactly the nodes inside them, and the invariant holds again. -/
theorem FreeEmptyPages_spec {s : ObjectAllocator} {pages free : List Nat}
    (h : Inv s pages free) :
    ∃ s', FreeEmptyPages s
        = .ok ((pages.filter (fun Q => decide (s.emptyIn free Q))).length % 2 ^ 32) s' ∧
      Inv s' (pages.filter (fun Q => decide (¬ s.emptyIn free Q)))
        (free.filter (fun f => decide (∀ Q ∈ pages, s.emptyIn free Q → ¬ s.inPage Q f))) ∧
      SameLayout s s' ∧ s'.infos = s.infos ∧
      s'.Stats_.ObjectsInUse_ = s.Stats_.ObjectsInUse_ ∧
      s'.Stats_.MostObjects_ = s.Stats_.MostObjects_ ∧
      s'.Stats_.Allocations_ = s.Stats_.Allocations_ ∧
      s'.Stats_.Deallocations_ = s.Stats_.Deallocations_ ∧
      (∀ y, (∀ f ∈ free, y < f ∨ f + 8 ≤ y) → (∀ Q ∈ pages, y < Q ∨ Q + 8 ≤ y) →
        s'.mem y = s.mem y) ∧
      (free.filter (fun f => decide (∀ Q ∈ pages, s.emptyIn free Q → ¬ s.inPage Q f))).length
        + (pages.filter (fun Q => decide (s.emptyIn free Q))).length * s.Config_.ObjectsPerPage_
        = free.length := by
  obtain ⟨s', i1, i2, i3, i4, i5, i6, i7, i8, i9, i10⟩ := freeEmptyPages_loop pages walkFuel s []
    free none 0 (by simpa using h) (Or.inl ⟨rfl, rfl⟩) h.pages_lt (by norm_num)
  refine ⟨s', ?_, by simpa using i2, i3, i4, i5, i6, i7, i8, by simpa using i9, i10⟩
  unfold FreeEmptyPages
  rw [i1]
  simp

/-! ### Allocate as a whole -/

/-- The first part of `Allocate`: nothing to do when a block is free, the page
limit error, the host's out-of-memory error, or a new page. -/
theorem paged_spec {s : ObjectAllocator} {pages free : List Nat} (h : Inv s pages free)
    {host : HostAlloc} (hf : Fresh s pages host) :
    (s.Stats_.FreeObjects_ ≠ 0 ∧ Allocate.paged s host = .ok () s) ∨
    (s.Stats_.FreeObjects_ = 0 ∧
      (s.Config_.MaxPages_ > 0 ∧ s.Stats_.PagesInUse_ ≥ s.Config_.MaxPages_) ∧
      Allocate.paged s host = .throw (.oa .E_NO_PAGES) s) ∨
    (s.Stats_.FreeObjects_ = 0 ∧
      ¬ (s.Config_.MaxPages_ > 0 ∧ s.Stats_.PagesInUse_ ≥ s.Config_.MaxPages_) ∧
      host.storage = none ∧ Allocate.paged s host = .throw (.oa .E_NO_MEMORY) s) ∨
    (s.Stats_.FreeObjects_ = 0 ∧
      ¬ (s.Config_.MaxPages_ > 0 ∧ s.Stats_.PagesInUse_ ≥ s.Config_.MaxPages_) ∧
      ∃ N s1, host.storage = some N ∧ Allocate.paged s host = .ok () s1 ∧
        Inv s1 (N :: pages) ((s.pageBlocks N).reverse ++ free) ∧
        SameLayout s s1 ∧ s1.infos = s.infos ∧ s1.PageList_ = N ∧
        s1.Stats_ = { s.Stats_ with
          FreeObjects_ := (s.Stats_.FreeObjects_ + s.Config_.ObjectsPerPage_) % 2 ^ 32,
          PagesInUse_ := incU32 s.Stats_.PagesInUse_ } ∧
        (∀ x, (x < N ∨ N + s.Stats_.PageSize_ ≤ x) → s1.mem x = s.mem x)) := by
  unfold Allocate.paged
  by_cases h0 : s.Stats_.FreeObjects_ = 0
  · rw [if_pos (by omega)]
    by_cases hl : s.Config_.MaxPages_ > 0 ∧ s.Stats_.PagesInUse_ ≥ s.Config_.MaxPages_
    · rw [if_pos hl]
      exact Or.inr (Or.inl ⟨h0, hl, rfl⟩)
    · rw [if_neg hl]
      cases hs : host.storage with
      | none => exact Or.inr (Or.inr (Or.inl ⟨h0, hl, rfl, rfl⟩))
      | some N =>
        obtain ⟨hN0, hN, hfr⟩ := hf N hs
        obtain ⟨s1, a1, a2, a3, a4, a5, a6, a7⟩ := AllocateNewPage_spec h hN0 hN hfr
        exact Or.inr (Or.inr (Or.inr ⟨h0, hl, N, s1, rfl, a1, a2, a3, a4, a5, a6, a7⟩))
  · rw [if_neg (by omega)]
    exact Or.inl ⟨h0, rfl⟩

/-- `Allocate` keeps the invariant: whenever it returns or throws, the lists
of the new state satisfy it, no page has left the page list, and a returned
pointer is a block of a page. -/
theorem Allocate_inv {s : ObjectAllocator} {pages free : List Nat} (h : Inv s pages free)
    {label : Option String} {host : HostAlloc} (hf : Fresh s pages host) {s' : ObjectAllocator}
    (hst : (Allocate s label host).state? = some s') :
    ∃ pages' free', Inv s' pages' free' ∧ SameLayout s s' ∧ (∀ P ∈ pages, P ∈ pages') ∧
      (∀ p, (Allocate s label host).value? = some p → ∃ P ∈ pages', p ∈ s'.pageBlocks P) := by
  rw [Allocate_eq h.wf.bypass] at hst ⊢
  have fin : ∀ {s1 : ObjectAllocator} {pages1 free1 : List Nat}, Inv s1 pages1 free1 →
      SameLayout s s1 → (∀ P ∈ pages, P ∈ pages1) →
      (Allocate.finish s1 label host).state? = some s' →
      ∃ pages' free', Inv s' pages' free' ∧ SameLayout s s' ∧ (∀ P ∈ pages, P ∈ pages') ∧
        (∀ p, (Allocate.finish s1 label host).value? = some p →
          ∃ P ∈ pages', p ∈ s'.pageBlocks P) := by
    intro s1 pages1 free1 h1 hl1 hsub hst1
    cases free1 with
    | nil =>
      have : s1.FreeList_ = 0 := h1.freeRep
      unfold Allocate.finish at hst1
      rw [if_pos this] at hst1
      cases hst1
    | cons p tail =>
      obtain ⟨P, hP, hb⟩ := h1.freeBlock p (List.mem_cons_self _ _)
      obtain ⟨s'', hres, b1, b2, _, _, _⟩ := finish_spec h1 label host
      rcases hres with hr | ⟨hr, _⟩
      · rw [hr] at hst1 ⊢
        have e : s'' = s' := by simpa [Result.state?] using hst1
        subst e
        refine ⟨pages1, tail, b1, hl1.trans b2, hsub, ?_⟩
        intro q hq
        have e : p = q := by simpa [Result.value?] using hq
        subst e
        exact ⟨P, hP, by rw [b2.pageBlocks]; exact hb⟩
      · rw [hr] at hst1 ⊢
        have e : s'' = s' := by simpa [Result.state?] using hst1
        subst e
        refine ⟨pages1, tail, b1, hl1.trans b2, hsub, ?_⟩
        intro q hq
        simp [Result.value?] at hq
  rcases paged_spec h hf with ⟨_, hp⟩ | ⟨_, _, hp⟩ | ⟨_, _, _, hp⟩ | ⟨_, _, N, s1, _, hp, a2, a3, _⟩
  · rw [hp] at hst ⊢
    exact fin h (SameLayout.refl s) (fun P hP => hP) hst
  · rw [hp] at hst ⊢
    have e : s = s' := by simpa [Result.state?] using hst
    subst e
    exact ⟨pages, free, h, SameLayout.refl s, fun P hP => hP, fun p hq => by
      simp [Result.value?] at hq⟩
  · rw [hp] at hst ⊢
    have e : s = s' := by simpa [Result.state?] using hst
    subst e
    exact ⟨pages, free, h, SameLayout.refl s, fun P hP => hP, fun p hq => by
      simp [Result.value?] at hq⟩
  · rw [hp] at hst ⊢
    exact fin a2 a3 (fun P hP => List.mem_cons_of_mem _ hP) hst

/-! ### Free as a whole -/

/-- The three checks of `Free` on a state that satisfies the invariant. -/
theorem Free_cases {s : ObjectAllocator} {pages free : List Nat} (h : Inv s pages free)
    {p : Nat} (hp : p ≠ 0) (host : HostAlloc) :
    (p ∈ free ∧ Free s p host = .throw (.oa .E_MULTIPLE_FREE) s) ∨
    (p ∉ free ∧ (∀ P ∈ pages, ¬ s.inPage P p) ∧
      Free s p host = .throw (.oa .E_BAD_BOUNDARY) s) ∨
    (p ∉ free ∧ (∃ P ∈ pages, s.inPage P p) ∧ ¬ s.padsIntact p ∧
      Free s p host = .throw (.oa .E_CORRUPTED_BLOCK) s) ∨
    (p ∉ free ∧ (∃ P ∈ pages, s.inPage P p) ∧ s.padsIntact p ∧
      Free s p host = BlockHeaderCheckFree (Free.push s p) p host) := by
  rw [Free_eq h.wf.bypass hp, h.checkErrorFree, h.checkBlockBoundary]
  by_cases h1 : p ∈ free
  · left
    rw [decide_eq_true h1]
    exact ⟨h1, rfl⟩
  · right
    rw [decide_eq_false h1]
    by_cases h2 : ∀ P ∈ pages, ¬ s.inPage P p
    · left
      rw [decide_eq_true h2]
      exact ⟨h1, h2, rfl⟩
    · right
      have h2' : ∃ P ∈ pages, s.inPage P p := by
        by_contra hc
        exact h2 (fun P hP hin => hc ⟨P, hP, hin⟩)
      rw [decide_eq_false h2]
      by_cases h3 : s.padsIntact p
      · right
        have hc := (corruptedCheck_iff s p).2 h3
        refine ⟨h1, h2', h3, ?_⟩
        show (if CorruptedCheck s p = true then _ else _) = _
        rw [if_neg (by rw [hc]; simp)]
      · left
        have hc : CorruptedCheck s p = true := by
          cases hc : CorruptedCheck s p with
          | true => rfl
          | false => exact absurd ((corruptedCheck_iff s p).1 hc) h3
        refine ⟨h1, h2', h3, ?_⟩
        show (if CorruptedCheck s p = true then _ else _) = _
        rw [if_pos hc]

/-- `Free` of null, of a block of a page, or of an address outside every page
keeps the invariant, with the same pages. -/
theorem Free_inv {s : ObjectAllocator} {pages free : List Nat} (h : Inv s pages free)
    {p : Nat} {host : HostAlloc}
    (hp : p = 0 ∨ (∃ P ∈ pages, p ∈ s.pageBlocks P) ∨ ∀ P ∈ pages, ¬ s.inPage P p)
    {s' : ObjectAllocator} (hst : (Free s p host).state? = some s') :
    ∃ free', Inv s' pages free' ∧ SameLayout s s' := by
  by_cases h0 : p = 0
  · unfold Free at hst
    rw [if_pos h0] at hst
    have e : s = s' := by simpa [Result.state?] using hst
    subst e
    exact ⟨free, h, SameLayout.refl s⟩
  · have same : ∀ e, Free s p host = .throw e s → ∃ free', Inv s' pages free' ∧ SameLayout s s' := by
      intro e he
      rw [he] at hst
      have e : s = s' := by simpa [Result.state?] using hst
      subst e
      exact ⟨free, h, SameLayout.refl s⟩
    rcases Free_cases h h0 host with ⟨_, hr⟩ | ⟨_, _, hr⟩ | ⟨_, _, _, hr⟩ | ⟨hnf, ⟨Q, hQ, hin⟩, hpads, hr⟩
    · exact same _ hr
    · exact same _ hr
    · exact same _ hr
    · rcases hp with hp | ⟨P, hP, hb⟩ | hp
      · exact absurd hp h0
      · obtain ⟨s'', hres, b1, b2, _⟩ := push_spec h hP hb hnf hpads host
        rw [hr] at hst
        rcases hres with hres | ⟨hres, _⟩
        · rw [hres] at hst
          have e : s'' = s' := by simpa [Result.state?] using hst
          subst e
          exact ⟨_, b1, b2⟩
        · rw [hres] at hst
          have e : s'' = s' := by simpa [Result.state?] using hst
          subst e
          exact ⟨_, b1, b2⟩
      · exact absurd hin (hp Q hQ)

/-! ### The reachable states satisfy the invariant -/

theorem Inv.fresh_of_freshStorage {s : ObjectAllocator} {pages free : List Nat}
    (h : Inv s pages free) {host : HostAlloc} (hf : FreshStorage s host) : Fresh s pages host := by
  intro N hN
  have := hf N hN
  rw [h.pageList_eq] at this
  exact this

/-- A client's store into the object region or the pads of a block in use
keeps the invariant. -/
theorem Inv.poke {s : ObjectAllocator} {pages free : List Nat} (h : Inv s pages free)
    {P p a : Nat} (hP : P ∈ pages) (hb : p ∈ s.pageBlocks P) (hpf : p ∉ free)
    (h1 : p - s.Config_.PadBytes_ ≤ a)
    (h2 : a < p + s.Stats_.ObjectSize_ + s.Config_.PadBytes_) (v : Nat) :
    Inv (s.poke a v) pages free := by
  refine @Inv.frame_zone s (s.poke a v) pages free h ⟨rfl, rfl, rfl⟩ rfl rfl rfl rfl rfl P p hP hb
    hpf ?_
  intro x hx
  show (if x = a then v % 256 else s.mem x) = s.mem x
  rw [if_neg]
  omega

/-- Every reachable state satisfies the invariant, and the pointers handed
out are blocks of its pages. -/
theorem Reachable.inv {s : ObjectAllocator} {R : List Nat} (hr : Reachable s R) :
    ∃ pages free, Inv s pages free ∧ ∀ p ∈ R, ∃ P ∈ pages, p ∈ s.pageBlocks P := by
  induction hr with
  | construct ObjectSize config m host s hv hb hc hh =>
    obtain ⟨s0, e0, hw0, p0, f0, _, _, c1, c2, c3, _⟩ := construct_spec m host hv hb
    have hi0 := Inv.initial hw0 p0 f0 c1 c2 c3
    rw [e0] at hc
    cases hs : host.storage with
    | none =>
      rw [hs] at hc
      simp [AllocateNewPage] at hc
    | some N =>
      rw [hs] at hc
      have hl : s.Stats_.PageSize_ = s0.Stats_.PageSize_ := (AllocateNewPage_layout hc).2.2
      obtain ⟨hN0, hN⟩ := hh N hs
      obtain ⟨s1, a1, a2, _⟩ := AllocateNewPage_spec hi0 hN0 (by rw [← hl]; exact hN)
        (fun P hP => by cases hP)
      rw [a1] at hc
      have e : s1 = s := by simpa using hc
      subst e
      exact ⟨_, _, a2, fun p hp => by cases hp⟩
  | allocate s R label host s' _ hf hst ih =>
    obtain ⟨pages, free, hi, hR⟩ := ih
    obtain ⟨pages', free', b1, b2, b3, b4⟩ := Allocate_inv hi (hi.fresh_of_freshStorage hf) hst
    refine ⟨pages', free', b1, ?_⟩
    intro p hp
    rcases List.mem_append.1 hp with e | e
    · exact b4 p (by
        cases hv : (Allocate s label host).value? with
        | none => rw [hv] at e; cases e
        | some q =>
          rw [hv] at e
          simp at e
          rw [e])
    · obtain ⟨P, hP, hb⟩ := hR p e
      exact ⟨P, b3 P hP, by rw [b2.pageBlocks]; exact hb⟩
  | free s R p host s' _ hp hst ih =>
    obtain ⟨pages, free, hi, hR⟩ := ih
    have hp' : p = 0 ∨ (∃ P ∈ pages, p ∈ s.pageBlocks P) ∨ ∀ P ∈ pages, ¬ s.inPage P p := by
      rcases hp with e | e | e
      · exact Or.inl e
      · exact Or.inr (Or.inl (hR p e))
      · refine Or.inr (Or.inr ?_)
        intro P hP hin
        exact e ((hi.owns_iff p).2 ⟨P, hP, hin⟩)
    obtain ⟨free', b1, b2⟩ := Free_inv hi hp' hst
    refine ⟨pages, free', b1, ?_⟩
    intro q hq
    obtain ⟨P, hP, hb⟩ := hR q hq
    exact ⟨P, hP, by rw [b2.pageBlocks]; exact hb⟩
  | freeEmptyPages s R s' _ hst ih =>
    obtain ⟨pages, free, hi, hR⟩ := ih
    obtain ⟨s'', a1, a2, a3, _⟩ := FreeEmptyPages_spec hi
    rw [a1] at hst
    have e : s'' = s' := by simpa [Result.state?] using hst
    subst e
    refine ⟨_, _, a2, ?_⟩
    intro p hp
    obtain ⟨hpR, hown⟩ := List.mem_filter.1 hp
    have hown' := (a2.owns_iff p).1 (of_decide_eq_true hown)
    obtain ⟨Q, hQ, hin⟩ := hown'
    obtain ⟨P, hP, hb⟩ := hR p hpR
    have hQ' : Q ∈ pages := (List.mem_filter.1 hQ).1
    have hinP := inPage_of_block hi.wf hb
    have e : P = Q := by
      by_contra hne
      unfold ObjectAllocator.inPage at hin hinP
      rw [a3.2.2] at hin
      rcases hi.pageDisjoint P hP Q hQ' hne with d | d <;> omega
    subst e
    exact ⟨P, hQ, by rw [a3.pageBlocks]; exact hb⟩
  | clientWrite s R p a v _ hpR hpf h1 h2 ih =>
    obtain ⟨pages, free, hi, hR⟩ := ih
    obtain ⟨P, hP, hb⟩ := hR p hpR
    rw [hi.freeList_eq] at hpf
    refine ⟨pages, free, hi.poke hP hb hpf h1 h2 v, ?_⟩
    intro q hq
    obtain ⟨Q, hQ, hb'⟩ := hR q hq
    exact ⟨Q, hQ, hb'⟩

/-! ### Headers, without the invariant -/

/-- Filling in a header changes neither the lists' heads, the configuration
nor the statistics, and fails only when the host cannot supply an external
header. -/
theorem BlockHeaderCheck_fields (s : ObjectAllocator) (p : Nat) (label : Option String)
    (host : HostAlloc) :
    ∃ s', (BlockHeaderCheck s p label host = .ok () s' ∨
        (BlockHeaderCheck s p label host = .throw (.oa .E_NO_MEMORY) s' ∧
          ¬ HostServes s label host)) ∧
      s'.PageList_ = s.PageList_ ∧ s'.FreeList_ = s.FreeList_ ∧ s'.Config_ = s.Config_ ∧
      s'.Stats_ = s.Stats_ := by
  unfold BlockHeaderCheck HostServes
  cases ht : s.Config_.HBlockInfo_.type_ with
  | hbNone =>
    simp only [if_true]
    exact ⟨s, Or.inl rfl, rfl, rfl, rfl, rfl⟩
  | hbBasic =>
    simp only [if_false, reduceCtorEq]
    exact ⟨_, Or.inl rfl, rfl, rfl, rfl, rfl⟩
  | hbExtended =>
    simp only [if_false, reduceCtorEq]
    exact ⟨_, Or.inl rfl, rfl, rfl, rfl, rfl⟩
  | hbExternal =>
    simp only [if_false, reduceCtorEq]
    cases hi : host.info with
    | none =>
      refine ⟨s, Or.inr ⟨rfl, ?_⟩, rfl, rfl, rfl, rfl⟩
      simp
    | some record =>
      dsimp only
      by_cases hl : label.isSome = true ∧ host.label = false
      · rw [if_pos hl]
        refine ⟨_, Or.inr ⟨rfl, ?_⟩, rfl, rfl, rfl, rfl⟩
        simp [hl.1, hl.2]
      · rw [if_neg hl]
        exact ⟨_, Or.inl rfl, rfl, rfl, rfl, rfl⟩

/-- Resetting a header changes neither the lists' heads, the configuration nor
the statistics, and the only exception it lets through is the host's
`std::bad_alloc` for the temporary record of an external header. -/
theorem BlockHeaderCheckFree_fields (s : ObjectAllocator) (p : Nat) (host : HostAlloc) :
    ∃ s', (BlockHeaderCheckFree s p host = .ok () s' ∨
        (BlockHeaderCheckFree s p host = .throw .bad_alloc s' ∧
          s.Config_.HBlockInfo_.type_ = .hbExternal ∧ host.info = none)) ∧
      s'.PageList_ = s.PageList_ ∧ s'.FreeList_ = s.FreeList_ ∧ s'.Config_ = s.Config_ ∧
      s'.Stats_ = s.Stats_ := by
  unfold BlockHeaderCheckFree
  cases ht : s.Config_.HBlockInfo_.type_ with
  | hbNone =>
    simp only [if_true]
    exact ⟨s, Or.inl rfl, rfl, rfl, rfl, rfl⟩
  | hbBasic =>
    simp only [if_false, reduceCtorEq]
    exact ⟨_, Or.inl rfl, rfl, rfl, rfl, rfl⟩
  | hbExtended =>
    simp only [if_false, reduceCtorEq]
    exact ⟨_, Or.inl rfl, rfl, rfl, rfl, rfl⟩
  | hbExternal =>
    simp only [if_false, reduceCtorEq]
    cases hi : host.info with
    | none =>
      exact ⟨s, Or.inr ⟨rfl, trivial, rfl⟩, rfl, rfl, rfl, rfl⟩
    | some record =>
      dsimp only
      by_cases hz : p - s.Config_.PadBytes_ - s.Config_.HBlockInfo_.size_ ≠ 0
      · rw [if_pos hz]
        exact ⟨_, Or.inl rfl, rfl, rfl, rfl, rfl⟩
      · rw [if_neg hz]
        exact ⟨_, Or.inl rfl, rfl, rfl, rfl, rfl⟩

/-! ### The outcomes of Free, without the invariant -/

/-- The ways a call of `Free` can end: a walk that never ends, one of the
three errors with the allocator untouched, the no-op on null, the bypass
branch, or the push followed by the header reset. -/
theorem Free_outcome (s : ObjectAllocator) (p : Nat) (host : HostAlloc) :
    Free s p host = .undefined ∨
    (∃ e, (e = OAException.E_MULTIPLE_FREE ∨ e = OAException.E_BAD_BOUNDARY ∨
        e = OAException.E_CORRUPTED_BLOCK) ∧ Free s p host = .throw (.oa e) s) ∨
    (p = 0 ∧ Free s p host = .ok () s) ∨
    (p ≠ 0 ∧ s.Config_.UseCPPMemManager_ = true ∧ ∃ s', Free s p host = .ok () s') ∨
    (p ≠ 0 ∧ s.Config_.UseCPPMemManager_ = false ∧
      Free s p host = BlockHeaderCheckFree (Free.push s p) p host) := by
  by_cases hp : p = 0
  · refine Or.inr (Or.inr (Or.inl ⟨hp, ?_⟩))
    unfold Free
    rw [if_pos hp]
  · cases hb : s.Config_.UseCPPMemManager_ with
    | true =>
      refine Or.inr (Or.inr (Or.inr (Or.inl ⟨hp, rfl, ?_⟩)))
      unfold Free
      rw [if_neg hp, if_pos hb]
      exact ⟨_, rfl⟩
    | false =>
      rw [Free_eq hb hp]
      cases h1 : CheckErrorFree s p with
      | none => exact Or.inl rfl
      | some b1 =>
        cases b1 with
        | true => exact Or.inr (Or.inl ⟨_, Or.inl rfl, rfl⟩)
        | false =>
          cases h2 : CheckBlockBoundary s p with
          | none => exact Or.inl rfl
          | some b2 =>
            cases b2 with
            | true => exact Or.inr (Or.inl ⟨_, Or.inr (Or.inl rfl), rfl⟩)
            | false =>
              cases h3 : CorruptedCheck s p with
              | true => exact Or.inr (Or.inl ⟨_, Or.inr (Or.inr rfl), rfl⟩)
              | false => exact Or.inr (Or.inr (Or.inr (Or.inr ⟨hp, rfl, rfl⟩)))

/-- The counters of a state that satisfies the invariant balance. -/
theorem Inv.balance {s : ObjectAllocator} {pages free : List Nat} (h : Inv s pages free) :
    (s.Stats_.ObjectsInUse_ + s.Stats_.FreeObjects_) % 2 ^ 32
      = (s.Stats_.PagesInUse_ * s.Config_.ObjectsPerPage_) % 2 ^ 32 ∧
    (pages.length * s.Config_.ObjectsPerPage_ < 2 ^ 32 →
      s.Stats_.ObjectsInUse_ + s.Stats_.FreeObjects_
        = s.Stats_.PagesInUse_ * s.Config_.ObjectsPerPage_) := by
  have hle := h.free_le
  rw [h.cntUse, h.cntFree, h.cntPages]
  constructor
  · rw [← Nat.add_mod, Nat.sub_add_cancel hle, Nat.mod_mul_mod]
  · intro hlt
    by_cases hn : s.Config_.ObjectsPerPage_ = 0
    · rw [hn] at hle ⊢
      simp only [Nat.mul_zero, Nat.le_zero] at hle ⊢
      rw [hle]
      rfl
    · have hp : pages.length ≤ pages.length * s.Config_.ObjectsPerPage_ :=
        Nat.le_mul_of_pos_right _ (Nat.pos_of_ne_zero hn)
      rw [Nat.mod_eq_of_lt (a := pages.length) (by omega)]
      generalize pages.length * s.Config_.ObjectsPerPage_ = T at hle hlt hp ⊢
      omega

/-- A block of a page is not null. -/
theorem Inv.block_ne_zero {s : ObjectAllocator} {pages free : List Nat} (h : Inv s pages free)
    {P p : Nat} (hb : p ∈ s.pageBlocks P) : p ≠ 0 := by
  have z := zone_in_page h.wf hb
  have hp8 : pointer_size = 8 := rfl
  omega

/-- `Free` of a block in use with intact pads: the block goes in front of the
free list; only the host's failure to supply the temporary record of an
external header makes the call throw, after the push. -/
theorem Inv.free_in_use {s : ObjectAllocator} {pages free : List Nat} (h : Inv s pages free)
    {P p : Nat} (hP : P ∈ pages) (hb : p ∈ s.pageBlocks P) (hpf : p ∉ free)
    (hpads : s.padsIntact p) (host : HostAlloc) :
    ∃ s', (Free s p host = .ok () s' ∨
        (Free s p host = .throw .bad_alloc s' ∧
          s.Config_.HBlockInfo_.type_ = .hbExternal ∧ host.info = none)) ∧
      Inv s' pages (p :: free) ∧ SameLayout s s' ∧
      s'.PageList_ = s.PageList_ ∧ s'.FreeList_ = p ∧ s'.Stats_ = (Free.push s p).Stats_ := by
  have hp0 := h.block_ne_zero hb
  rcases Free_cases h hp0 host with ⟨h1, _⟩ | ⟨_, h2, _⟩ | ⟨_, _, h3, _⟩ | ⟨_, _, _, hr⟩
  · exact absurd h1 hpf
  · exact absurd (inPage_of_block h.wf hb) (h2 P hP)
  · exact absurd hpads h3
  · obtain ⟨s', hres, b1, b2, b3, b4, b5, _⟩ := push_spec h hP hb hpf hpads host
    rw [hr]
    exact ⟨s', hres, b1, b2, b3, b4, b5⟩

/-! ### The example allocators are reachable -/

theorem exStart_reachable : Reachable exStart [] :=
  Reachable.construct 8 exConfig (fun _ => 0) exHost exStart (by decide) rfl rfl
    (fun newPage e => by
      have e4 : newPage = 4096 := by cases e; rfl
      subst e4
      decide)

theorem exOne_reachable : Reachable exOne [4128] :=
  Reachable.allocate exStart [] none exHostNone exOne exStart_reachable (by decide) rfl

theorem exTwo_reachable : Reachable exTwo [4111, 4128] :=
  Reachable.allocate exOne [4128] none exHostNone exTwo exOne_reachable (by decide) rfl

theorem exCorrupt_reachable : Reachable exCorrupt [4128] :=
  Reachable.clientWrite exOne [4128] 4128 4126 0 exOne_reachable (by decide) (by decide)
    (by decide) (by decide)

theorem exStartB_reachable : Reachable exStartB [] :=
  Reachable.construct 8 exConfigB (fun _ => 0) exHost exStartB (by decide) rfl rfl
    (fun newPage e => by
      have e4 : newPage = 4096 := by cases e; rfl
      subst e4
      decide)

theorem exFullB_reachable : Reachable exFullB [4104] :=
  Reachable.allocate exStartB [] none exHostNone exFullB exStartB_reachable (by decide) rfl

theorem exTwo_history : UseHistory exTwo [4111, 4128] [2, 1, 0] :=
  UseHistory.allocate exOne [4128] [1, 0] none exHostNone exTwo
    (UseHistory.allocate exStart [] [0] none exHostNone exOne
      (UseHistory.construct 8 exConfig (fun _ => 0) exHost exStart (by decide) rfl rfl
        (fun newPage e => by
          have e4 : newPage = 4096 := by cases e; rfl
          subst e4
          decide))
      (by decide) rfl)
    (by decide) rfl

/-! ### Allocate, case by case -/

theorem paged_of_free {s : ObjectAllocator} (hcnt : s.Stats_.FreeObjects_ ≠ 0)
    (host : HostAlloc) : Allocate.paged s host = .ok () s := by
  unfold Allocate.paged
  rw [if_neg (by omega)]

/-- `Allocate` with a free block at hand: it builds no page and hands out the
head of the free list. -/
theorem Inv.allocate_pop {s : ObjectAllocator} {pages tail : List Nat} {p : Nat}
    (h : Inv s pages (p :: tail)) (hcnt : s.Stats_.FreeObjects_ ≠ 0) (label : Option String)
    (host : HostAlloc) :
    ∃ s', (Allocate s label host = .ok p s' ∨
        (Allocate s label host = .throw (.oa .E_NO_MEMORY) s' ∧ ¬ HostServes s label host)) ∧
      Inv s' pages tail ∧ SameLayout s s' ∧
      s'.PageList_ = s.PageList_ ∧ s'.Stats_ = (Allocate.take s).Stats_ ∧
      (∀ x, (x + s.Config_.PadBytes_ + s.Config_.HBlockInfo_.size_ < p ∨
        (p ≤ x + s.Config_.PadBytes_ ∧ x < p) ∨
        p + s.Stats_.ObjectSize_ ≤ x) → s'.mem x = s.mem x) := by
  obtain ⟨s', hres, rest⟩ := finish_spec h label host
  refine ⟨s', ?_, rest⟩
  rw [Allocate_eq h.wf.bypass, paged_of_free hcnt]
  exact hres

/-- `Allocate` with no free block and room for a page: it builds the page the
host hands out, in front of the page list, and hands out the last block of
that page. -/
theorem Inv.allocate_grow {s : ObjectAllocator} {pages free : List Nat} (h : Inv s pages free)
    (hcnt : s.Stats_.FreeObjects_ = 0)
    (hcap : ¬ (s.Config_.MaxPages_ > 0 ∧ s.Stats_.PagesInUse_ ≥ s.Config_.MaxPages_))
    (hopp : 1 ≤ s.Config_.ObjectsPerPage_) {host : HostAlloc} {N : Nat}
    (hN : host.storage = some N) (hf : Fresh s pages host) (label : Option String) :
    ∃ p tail s1 s', (s.pageBlocks N).reverse ++ free = p :: tail ∧
      AllocateNewPage s host.storage = .ok () s1 ∧
      s1.Stats_.FreeObjects_ = s.Config_.ObjectsPerPage_ ∧
      (Allocate s label host = .ok p s' ∨
        (Allocate s label host = .throw (.oa .E_NO_MEMORY) s' ∧ ¬ HostServes s label host)) ∧
      Inv s' (N :: pages) tail ∧ SameLayout s s' ∧ s'.PageList_ = N ∧
      s'.Stats_.PagesInUse_ = incU32 s.Stats_.PagesInUse_ ∧
      s'.Stats_.FreeObjects_ = s.Config_.ObjectsPerPage_ - 1 := by
  rcases paged_spec h hf with ⟨h0, _⟩ | ⟨_, hl, _⟩ | ⟨_, _, hnone, _⟩ |
    ⟨_, _, N', s1, hN', hp, a2, a3, _, a5, a6, _⟩
  · exact absurd hcnt h0
  · exact absurd hl hcap
  · rw [hN] at hnone
    cases hnone
  · have e : N' = N := by
      rw [hN] at hN'
      cases hN'
      rfl
    subst e
    have hpg : AllocateNewPage s host.storage = .ok () s1 := by
      unfold Allocate.paged at hp
      rw [if_pos (by omega), if_neg hcap] at hp
      exact hp
    have hlen : ((s.pageBlocks N').reverse ++ free).length ≠ 0 := by
      rw [List.length_append, List.length_reverse, length_pageBlocks]
      omega
    have hF1 : s1.Stats_.FreeObjects_ = s.Config_.ObjectsPerPage_ := by
      rw [a6]
      show (s.Stats_.FreeObjects_ + s.Config_.ObjectsPerPage_) % 2 ^ 32 = _
      rw [hcnt, Nat.zero_add, Nat.mod_eq_of_lt h.wf.objectsPerPage]
    have hP1 : s1.Stats_.PagesInUse_ = incU32 s.Stats_.PagesInUse_ := by
      rw [a6]
    cases hl : (s.pageBlocks N').reverse ++ free with
    | nil =>
      rw [hl] at hlen
      exact absurd rfl hlen
    | cons p tail =>
      rw [hl] at a2
      obtain ⟨s', hres, b1, b2, b3, b4, _⟩ := finish_spec a2 label host
      obtain ⟨_, _, _, _, ⟨_, _, tS3, tS4, _⟩, _⟩ := take_fields s1
      refine ⟨p, tail, s1, s', rfl, hpg, hF1, ?_, b1, a3.trans b2, b3.trans a5, ?_, ?_⟩
      · rw [Allocate_eq h.wf.bypass, hp]
        rcases hres with hr | ⟨hr, hn⟩
        · exact Or.inl hr
        · refine Or.inr ⟨hr, ?_⟩
          unfold HostServes at hn ⊢
          rw [a3.1] at hn
          exact hn
      · rw [b4, tS4, hP1]
      · rw [b4, tS3, hF1, decU32_eq]
        have := h.wf.objectsPerPage
        omega

/-! ### Allocating until the page limit -/

/-- The allocator the constructor returns has one page, all of whose blocks
are free. -/
theorem construct_inv {ObjectSize : Nat} {config : OAConfig} {m : Memory} {host : HostAlloc}
    {s : ObjectAllocator} (hv : ValidConfig ObjectSize config)
    (hb : config.UseCPPMemManager_ = false)
    (hc : ObjectAllocator.construct ObjectSize config m host = .ok () s)
    (hh : ∀ newPage, host.storage = some newPage →
      newPage ≠ 0 ∧ newPage + s.Stats_.PageSize_ ≤ 2 ^ 64) :
    ∃ N free, Inv s [N] free ∧ free.length = config.ObjectsPerPage_ ∧
      s.Config_.ObjectsPerPage_ = config.ObjectsPerPage_ ∧
      s.Config_.MaxPages_ = config.MaxPages_ := by
  obtain ⟨s0, e0, hw0, p0, f0, _, _, c1, c2, c3, _, _, _, _, d1, d2, _⟩ :=
    construct_spec m host hv hb
  have hi0 := Inv.initial hw0 p0 f0 c1 c2 c3
  rw [e0] at hc
  cases hs : host.storage with
  | none =>
    rw [hs] at hc
    simp [AllocateNewPage] at hc
  | some N =>
    rw [hs] at hc
    have hl : s.Stats_.PageSize_ = s0.Stats_.PageSize_ := (AllocateNewPage_layout hc).2.2
    obtain ⟨hN0, hN⟩ := hh N hs
    obtain ⟨s1, a1, a2, a3, _⟩ := AllocateNewPage_spec hi0 hN0 (by rw [← hl]; exact hN)
      (fun P hP => by cases hP)
    rw [a1] at hc
    have e : s1 = s := by simpa using hc
    subst e
    refine ⟨N, _, a2, ?_, by rw [a3.1, d1], by rw [a3.1, d2]⟩
    rw [List.length_append, List.length_reverse, length_pageBlocks, d1]
    rfl

/-- C1: in non-bypass mode, after the constructor and after every later call
(`Allocate`, `Free` of null, of a pointer `Allocate` returned or of an address
outside every page, whether the call returns or throws), the counters satisfy
`ObjectsInUse + FreeObjects == PagesInUse * ObjectsPerPage` in the `unsigned`
arithmetic of the code, and as an equation of numbers as long as the number of
blocks fits an `unsigned`. -/
theorem stats_balance {s : ObjectAllocator} {R : List Nat} (hr : Reachable s R) :
    (s.Stats_.ObjectsInUse_ + s.Stats_.FreeObjects_) % 2 ^ 32
      = (s.Stats_.PagesInUse_ * s.Config_.ObjectsPerPage_) % 2 ^ 32 ∧
    (s.pageList.length * s.Config_.ObjectsPerPage_ < 2 ^ 32 →
      s.Stats_.ObjectsInUse_ + s.Stats_.FreeObjects_
        = s.Stats_.PagesInUse_ * s.Config_.ObjectsPerPage_) := by
  obtain ⟨pages, free, hi, _⟩ := hr.inv
  rw [hi.pageList_eq]
  exact hi.balance

theorem stats_balance_witness :
    Reachable exTwo [4111, 4128] ∧
    (exTwo.Stats_.ObjectsInUse_ + exTwo.Stats_.FreeObjects_) % 2 ^ 32
      = (exTwo.Stats_.PagesInUse_ * exTwo.Config_.ObjectsPerPage_) % 2 ^ 32 ∧
    (exTwo.pageList.length * exTwo.Config_.ObjectsPerPage_ < 2 ^ 32 →
      exTwo.Stats_.ObjectsInUse_ + exTwo.Stats_.FreeObjects_
        = exTwo.Stats_.PagesInUse_ * exTwo.Config_.ObjectsPerPage_) :=
  ⟨exTwo_reachable, stats_balance exTwo_reachable⟩

/-- C2: in non-bypass mode, for a pointer `p` that `Allocate` returned, that is
in use (not on the free list) and whose pad bytes are intact, `Free(p)` returns
(the host supplying the temporary record that the reset of an external header
asks for), and a second `Free(p)` right after it throws `E_MULTIPLE_FREE`. -/
theorem double_free_detected {s : ObjectAllocator} {R : List Nat} {p : Nat} (host : HostAlloc)
    (hr : Reachable s R) (hp : p ∈ R) (huse : p ∉ s.freeList) (hpads : s.padsIntact p)
    (hhost : s.Config_.HBlockInfo_.type_ = .hbExternal → host.info.isSome = true) :
    ∃ s', Free s p host = .ok () s' ∧
      ∀ host', Free s' p host' = .throw (.oa .E_MULTIPLE_FREE) s' := by
  obtain ⟨pages, free, hi, hR⟩ := hr.inv
  obtain ⟨P, hP, hb⟩ := hR p hp
  rw [hi.freeList_eq] at huse
  obtain ⟨s', hres, hi', _⟩ := hi.free_in_use hP hb huse hpads host
  rcases hres with hok | ⟨_, hext, hnone⟩
  · refine ⟨s', hok, ?_⟩
    intro host'
    rcases Free_cases hi' (hi.block_ne_zero hb) host' with ⟨_, h1⟩ | ⟨h2, _⟩ | ⟨h2, _⟩ | ⟨h2, _⟩
    · exact h1
    · exact absurd (List.mem_cons_self p free) h2
    · exact absurd (List.mem_cons_self p free) h2
    · exact absurd (List.mem_cons_self p free) h2
  · have := hhost hext
    rw [hnone] at this
    cases this

theorem double_free_detected_witness :
    Reachable exOne [4128] ∧ 4128 ∈ [4128] ∧ 4128 ∉ exOne.freeList ∧ exOne.padsIntact 4128 ∧
    ∃ s', Free exOne 4128 exHostNone = .ok () s' ∧
      ∀ host', Free s' 4128 host' = .throw (.oa .E_MULTIPLE_FREE) s' :=
  ⟨exOne_reachable, by decide, by decide, by decide,
    double_free_detected exHostNone exOne_reachable (by decide) (by decide) (by decide)
      (by decide)⟩

/-- C4: in non-bypass mode, for a pointer `p` that `Allocate` returned and that
is in use, `Free(p)` throws `E_CORRUPTED_BLOCK` exactly when one of the
`PadBytes` bytes right before the object or one of the `PadBytes` bytes right
after it differs from the pad pattern; when they all hold the pattern,
`Free(p)` returns (the host supplying the temporary record that the reset of
an external header asks for). -/
theorem corrupted_iff_pad_differs {s : ObjectAllocator} {R : List Nat} {p : Nat}
    (host : HostAlloc) (hr : Reachable s R) (hp : p ∈ R) (huse : p ∉ s.freeList) :
    ((Free s p host).thrown? = some (.oa .E_CORRUPTED_BLOCK) ↔
      ∃ k, k < s.Config_.PadBytes_ ∧
        (s.mem (p - s.Config_.PadBytes_ + k) ≠ PAD_PATTERN ∨
          s.mem (p + s.Stats_.ObjectSize_ + k) ≠ PAD_PATTERN)) ∧
    ((∀ k, k < s.Config_.PadBytes_ →
        s.mem (p - s.Config_.PadBytes_ + k) = PAD_PATTERN ∧
        s.mem (p + s.Stats_.ObjectSize_ + k) = PAD_PATTERN) →
      (s.Config_.HBlockInfo_.type_ = .hbExternal → host.info.isSome = true) →
      ∃ s', Free s p host = .ok () s') := by
  obtain ⟨pages, free, hi, hR⟩ := hr.inv
  obtain ⟨P, hP, hb⟩ := hR p hp
  rw [hi.freeList_eq] at huse
  have hbad : ¬ s.padsIntact p ↔ ∃ k, k < s.Config_.PadBytes_ ∧
      (s.mem (p - s.Config_.PadBytes_ + k) ≠ PAD_PATTERN ∨
        s.mem (p + s.Stats_.ObjectSize_ + k) ≠ PAD_PATTERN) := by
    unfold ObjectAllocator.padsIntact
    constructor
    · intro h
      by_contra hc
      apply h
      intro k hk
      by_contra hk2
      apply hc
      refine ⟨k, hk, ?_⟩
      by_cases h1 : s.mem (p - s.Config_.PadBytes_ + k) = PAD_PATTERN
      · right
        intro h2
        exact hk2 ⟨h1, h2⟩
      · left
        exact h1
    · rintro ⟨k, hk, h1 | h1⟩ h
      · exact h1 (h k hk).1
      · exact h1 (h k hk).2
  constructor
  · rw [← hbad]
    rcases Free_cases hi (hi.block_ne_zero hb) host with ⟨h1, _⟩ | ⟨_, h2, _⟩ | ⟨_, _, h3, hres⟩ |
      ⟨_, _, h3, _⟩
    · exact absurd h1 huse
    · exact absurd (inPage_of_block hi.wf hb) (h2 P hP)
    · rw [hres]
      exact ⟨fun _ => h3, fun _ => rfl⟩
    · obtain ⟨s', hres, _⟩ := hi.free_in_use hP hb huse h3 host
      constructor
      · intro hthrown
        rcases hres with hres | ⟨hres, _⟩
        · rw [hres] at hthrown
          cases hthrown
        · rw [hres] at hthrown
          cases hthrown
      · intro hn
        exact absurd h3 hn
  · intro hpads hhost
    obtain ⟨s', hres, _⟩ := hi.free_in_use hP hb huse hpads host
    rcases hres with hok | ⟨_, hext, hnone⟩
    · exact ⟨s', hok⟩
    · have := hhost hext
      rw [hnone] at this
      cases this

theorem corrupted_iff_pad_differs_witness :
    Reachable exCorrupt [4128] ∧ 4128 ∈ [4128] ∧ 4128 ∉ exCorrupt.freeList ∧
    (Free exCorrupt 4128 exHostNone).thrown? = some (.oa .E_CORRUPTED_BLOCK) ∧
    exCorrupt.mem (4128 - exCorrupt.Config_.PadBytes_ + 0) ≠ PAD_PATTERN :=
  ⟨exCorrupt_reachable, by decide, by decide,
    ((corrupted_iff_pad_differs exHostNone exCorrupt_reachable (by decide) (by decide)).1).2
      ⟨0, by decide, Or.inl (by decide)⟩,
    by decide⟩

/-- C6: whenever `Free` throws one of its errors, it is `E_MULTIPLE_FREE`,
`E_BAD_BOUNDARY` or `E_CORRUPTED_BLOCK` and the allocator after the call is the
allocator before it: the free list and the page list, every counter, and all
of memory (the block's header and the object bytes with it) are unchanged, so
the pointer has not been pushed onto the free list. -/
theorem failed_free_keeps_state {s s' : ObjectAllocator} {p : Nat} {host : HostAlloc}
    {e : OAException} (h : Free s p host = .throw (.oa e) s') :
    (e = .E_MULTIPLE_FREE ∨ e = .E_BAD_BOUNDARY ∨ e = .E_CORRUPTED_BLOCK) ∧ s' = s ∧
    s'.freeList = s.freeList ∧ s'.pageList = s.pageList := by
  have key : (e = .E_MULTIPLE_FREE ∨ e = .E_BAD_BOUNDARY ∨ e = .E_CORRUPTED_BLOCK) ∧ s' = s := by
    rcases Free_outcome s p host with h1 | ⟨e1, he1, h1⟩ | ⟨_, h1⟩ | ⟨_, _, s1, h1⟩ | ⟨_, _, h1⟩
    · rw [h1] at h
      cases h
    · rw [h1] at h
      cases h
      exact ⟨he1, rfl⟩
    · rw [h1] at h
      cases h
    · rw [h1] at h
      cases h
    · rw [h1] at h
      obtain ⟨s1, hres, _⟩ := BlockHeaderCheckFree_fields (Free.push s p) p host
      rcases hres with hres | ⟨hres, _⟩
      · rw [hres] at h
        cases h
      · rw [hres] at h
        cases h
  obtain ⟨k1, k2⟩ := key
  subst k2
  exact ⟨k1, rfl, rfl, rfl⟩

theorem failed_free_keeps_state_witness :
    Free exCorrupt 4128 exHostNone = .throw (.oa .E_CORRUPTED_BLOCK) exCorrupt ∧
    ((OAException.E_CORRUPTED_BLOCK = .E_MULTIPLE_FREE ∨
        OAException.E_CORRUPTED_BLOCK = .E_BAD_BOUNDARY ∨
        OAException.E_CORRUPTED_BLOCK = .E_CORRUPTED_BLOCK) ∧ exCorrupt = exCorrupt ∧
      exCorrupt.freeList = exCorrupt.freeList ∧ exCorrupt.pageList = exCorrupt.pageList) :=
  ⟨rfl, failed_free_keeps_state (rfl : Free exCorrupt 4128 exHostNone = _)⟩

/-- C7: in non-bypass mode, after a `Free(p)` of a non-null `p` that returned,
the head of the free list is `p`, and the next `Allocate` returns the address
`p` (the host supplying what an external header asks for; the `unsigned`
counter of free objects not having wrapped around in the `Free`). -/
theorem last_freed_first_reused {s s' : ObjectAllocator} {p : Nat} {host : HostAlloc}
    (hb : s.Config_.UseCPPMemManager_ = false) (hp : p ≠ 0)
    (hfree : Free s p host = .ok () s') :
    s'.FreeList_ = p ∧
    (s.Stats_.FreeObjects_ + 1 < 2 ^ 32 →
      ∀ (label : Option String) (host' : HostAlloc), HostServes s' label host' →
        ∃ s'', Allocate s' label host' = .ok p s'') := by
  obtain ⟨tm, tP, tF, tC, ⟨tS1, tS2, tS3, tS4, tS5⟩, tI⟩ := push_fields s p
  generalize ht : Free.push s p = t at tm tP tF tC tS1 tS2 tS3 tS4 tS5 tI
  have hpush : BlockHeaderCheckFree t p host = .ok () s' := by
    rcases Free_outcome s p host with h1 | ⟨e1, _, h1⟩ | ⟨h0, _⟩ | ⟨_, hb1, _⟩ | ⟨_, _, h1⟩
    · rw [h1] at hfree
      cases hfree
    · rw [h1] at hfree
      cases hfree
    · exact absurd h0 hp
    · rw [hb] at hb1
      cases hb1
    · rw [← ht, ← h1]
      exact hfree
  obtain ⟨s1, hres, eP, eF, eC, eS⟩ := BlockHeaderCheckFree_fields t p host
  have e1 : s1 = s' := by
    rcases hres with hres | ⟨hres, _⟩
    · rw [hres] at hpush
      cases hpush
      rfl
    · rw [hres] at hpush
      cases hpush
  subst e1
  have hF : s1.FreeList_ = p := eF.trans tF
  refine ⟨hF, ?_⟩
  intro hcnt label host' hserves
  have hcount : s1.Stats_.FreeObjects_ ≠ 0 := by
    rw [eS, tS3]
    unfold incU32
    omega
  have hb' : s1.Config_.UseCPPMemManager_ = false := by rw [eC, tC]; exact hb
  rw [Allocate_eq hb']
  have hpaged : Allocate.paged s1 host' = .ok () s1 := by
    unfold Allocate.paged
    rw [if_neg (by omega)]
  rw [hpaged]
  show ∃ s'', Allocate.finish s1 label host' = .ok p s''
  unfold Allocate.finish
  rw [if_neg (by rw [hF]; exact hp), hF]
  obtain ⟨uC⟩ : (Allocate.take s1).Config_ = s1.Config_ ∧ True := ⟨(take_fields s1).2.2.2.1, trivial⟩
  generalize Allocate.take s1 = u at uC
  obtain ⟨s2, hres2, _⟩ := BlockHeaderCheck_fields u p label host'
  rcases hres2 with hres2 | ⟨_, hn⟩
  · rw [hres2]
    exact ⟨s2, rfl⟩
  · exfalso
    apply hn
    unfold HostServes at hserves ⊢
    rw [uC]
    exact hserves

theorem last_freed_first_reused_witness :
    exOne.Config_.UseCPPMemManager_ = false ∧ Free exOne 4128 exHostNone = .ok () exFreed ∧
    exFreed.FreeList_ = 4128 ∧
    (exOne.Stats_.FreeObjects_ + 1 < 2 ^ 32 →
      ∀ (label : Option String) (host' : HostAlloc), HostServes exFreed label host' →
        ∃ s'', Allocate exFreed label host' = .ok 4128 s'') :=
  ⟨rfl, rfl, last_freed_first_reused (rfl : exOne.Config_.UseCPPMemManager_ = false)
    (by decide) (rfl : Free exOne 4128 exHostNone = .ok () exFreed)⟩

/-- C8, as stated, fails: in the reachable state `exFullB` no block is free, so
`Allocate` builds a page before it hands out a block, and after the `Free` of
that block the head of the free list and the number of free blocks both differ
from their values before the `Allocate`. -/
theorem roundtrip_counterexample :
    Reachable exFullB [4104] ∧ exFullB.Config_.UseCPPMemManager_ = false ∧
    FreshStorage exFullB exHostB ∧
    Allocate exFullB none exHostB = .ok 8200 exGrownB ∧
    Free exGrownB 8200 exHostNone = .ok () exBackB ∧
    exBackB.FreeList_ ≠ exFullB.FreeList_ ∧
    exBackB.Stats_.FreeObjects_ ≠ exFullB.Stats_.FreeObjects_ :=
  ⟨exFullB_reachable, rfl, by decide, rfl, rfl, by decide, by decide⟩

/-- C8, amended: for every reachable non-bypass state with at least one free
block (`FreeObjects > 0`), if `Allocate` returns `p` and `Free(p)` is called
right after it, the `Free` ends (it returns when the host supplies the
temporary record that the reset of an external header asks for) and the head
of the free list and `FreeObjects` are what they were before the
`Allocate`. -/
theorem roundtrip_restores {s s1 : ObjectAllocator} {R : List Nat} {p : Nat}
    {label : Option String} {host : HostAlloc} (host' : HostAlloc)
    (hr : Reachable s R) (hcnt : s.Stats_.FreeObjects_ ≠ 0)
    (halloc : Allocate s label host = .ok p s1) :
    ∃ s2, (Free s1 p host').state? = some s2 ∧
      s2.FreeList_ = s.FreeList_ ∧ s2.Stats_.FreeObjects_ = s.Stats_.FreeObjects_ ∧
      ((s.Config_.HBlockInfo_.type_ = .hbExternal → host'.info.isSome = true) →
        Free s1 p host' = .ok () s2) := by
  obtain ⟨pages, free, hi, _⟩ := hr.inv
  have hF := hi.cntFree
  cases free with
  | nil =>
    rw [hF] at hcnt
    exact absurd rfl hcnt
  | cons q tail =>
    obtain ⟨s', hres, hi1, hl, _, hS, hmem⟩ := hi.allocate_pop hcnt label host
    have e : q = p ∧ s' = s1 := by
      rcases hres with hres | ⟨hres, _⟩
      · rw [hres] at halloc
        cases halloc
        exact ⟨rfl, rfl⟩
      · rw [hres] at halloc
        cases halloc
    obtain ⟨e1, e2⟩ := e
    subst e1 e2
    have hhead : s.FreeList_ = q := hi.freeRep.1
    obtain ⟨P, hP, hb, g1, _, _⟩ := hi.free_geom (List.mem_cons_self q tail)
    have hnd := List.nodup_cons.1 hi.freeNodup
    have hpads : s'.padsIntact q := by
      refine padsIntact_of_pads hl (by omega) ?_ (hi.freePads q (List.mem_cons_self q tail))
      intro x hx
      exact hmem x (by omega)
    obtain ⟨s2, hres2, _, _, _, hF2, hS2⟩ :=
      hi1.free_in_use hP (by rw [hl.pageBlocks]; exact hb) hnd.1 hpads host'
    obtain ⟨_, _, _, _, ⟨_, _, tS3, _, _⟩, _⟩ := take_fields s
    obtain ⟨_, _, _, _, ⟨_, _, pS3, _, _⟩, _⟩ := push_fields s' q
    have hlt : s.Stats_.FreeObjects_ < 2 ^ 32 := by
      rw [hF]
      exact Nat.mod_lt _ (by norm_num)
    have hcount : s2.Stats_.FreeObjects_ = s.Stats_.FreeObjects_ := by
      rw [hS2, pS3, hS, tS3, decU32_eq]
      unfold incU32
      omega
    refine ⟨s2, ?_, by rw [hF2, hhead], hcount, ?_⟩
    · rcases hres2 with h2 | ⟨h2, _⟩
      · rw [h2]
        rfl
      · rw [h2]
        rfl
    · intro hhost
      rcases hres2 with h2 | ⟨_, hext, hnone⟩
      · exact h2
      · rw [hl.1] at hext
        have := hhost hext
        rw [hnone] at this
        cases this

theorem roundtrip_restores_witness :
    Reachable exStart [] ∧ exStart.Stats_.FreeObjects_ ≠ 0 ∧
    Allocate exStart none exHostNone = .ok 4128 exOne ∧
    ∃ s2, (Free exOne 4128 exHostNone).state? = some s2 ∧
      s2.FreeList_ = exStart.FreeList_ ∧
      s2.Stats_.FreeObjects_ = exStart.Stats_.FreeObjects_ ∧
      ((exStart.Config_.HBlockInfo_.type_ = .hbExternal → exHostNone.info.isSome = true) →
        Free exOne 4128 exHostNone = .ok () s2) :=
  ⟨exStart_reachable, by decide, rfl,
    roundtrip_restores exHostNone exStart_reachable (by decide)
      (rfl : Allocate exStart none exHostNone = .ok 4128 exOne)⟩

/-- C9: for every reachable non-bypass state (with at least one object per
page) in which no object is free and the page limit is not reached, one
`Allocate`, served by the host, builds exactly one page: `PagesInUse` goes up
by 1, the page build adds `ObjectsPerPage` to `FreeObjects`, which is
`ObjectsPerPage - 1` when the call returns, and the new page is the head of the
page list, in front of the pages there were. When `FreeObjects > 0` before the
call, `Allocate` builds no page. -/
theorem allocate_builds_one_page {s : ObjectAllocator} {R : List Nat} {label : Option String}
    {host : HostAlloc} (hr : Reachable s R) (hopp : 1 ≤ s.Config_.ObjectsPerPage_)
    (hserves : HostServes s label host) :
    (s.Stats_.FreeObjects_ = 0 →
      ¬ (s.Config_.MaxPages_ > 0 ∧ s.Stats_.PagesInUse_ ≥ s.Config_.MaxPages_) →
      FreshStorage s host → ∀ N, host.storage = some N →
      ∃ p s1 s', AllocateNewPage s host.storage = .ok () s1 ∧
        s1.Stats_.FreeObjects_ = s.Stats_.FreeObjects_ + s.Config_.ObjectsPerPage_ ∧
        Allocate s label host = .ok p s' ∧
        s'.Stats_.PagesInUse_ = (s.Stats_.PagesInUse_ + 1) % 2 ^ 32 ∧
        (s.Stats_.PagesInUse_ + 1 < 2 ^ 32 →
          s'.Stats_.PagesInUse_ = s.Stats_.PagesInUse_ + 1) ∧
        s'.Stats_.FreeObjects_ = s.Config_.ObjectsPerPage_ - 1 ∧
        s'.PageList_ = N ∧ s'.pageList = N :: s.pageList) ∧
    (s.Stats_.FreeObjects_ ≠ 0 →
      ∃ p s', Allocate s label host = .ok p s' ∧
        s'.Stats_.PagesInUse_ = s.Stats_.PagesInUse_ ∧
        s'.PageList_ = s.PageList_ ∧ s'.pageList = s.pageList) := by
  obtain ⟨pages, free, hi, _⟩ := hr.inv
  constructor
  · intro hcnt hcap hfresh N hN
    obtain ⟨p, tail, s1, s', _, hpg, hF1, hres, hi', _, hPL, hPU, hFO⟩ :=
      hi.allocate_grow hcnt hcap hopp hN (hi.fresh_of_freshStorage hfresh) label
    rcases hres with hres | ⟨_, hn⟩
    · refine ⟨p, s1, s', hpg, by rw [hF1, hcnt, Nat.zero_add], hres, hPU, ?_, hFO, hPL, ?_⟩
      · intro hlt
        rw [hPU]
        unfold incU32
        exact Nat.mod_eq_of_lt hlt
      · rw [hi'.pageList_eq, hi.pageList_eq]
    · exact absurd hserves hn
  · intro hcnt
    have hF := hi.cntFree
    cases free with
    | nil =>
      rw [hF] at hcnt
      exact absurd rfl hcnt
    | cons q tail =>
      obtain ⟨s', hres, hi', _, hPL, hS, _⟩ := hi.allocate_pop hcnt label host
      obtain ⟨_, _, _, _, ⟨_, _, _, tS4, _⟩, _⟩ := take_fields s
      rcases hres with hres | ⟨_, hn⟩
      · refine ⟨q, s', hres, by rw [hS, tS4], hPL, ?_⟩
        rw [hi'.pageList_eq, hi.pageList_eq]
      · exact absurd hserves hn

theorem allocate_builds_one_page_witness :
    Reachable exFullB [4104] ∧ 1 ≤ exFullB.Config_.ObjectsPerPage_ ∧
    HostServes exFullB none exHostB ∧ exFullB.Stats_.FreeObjects_ = 0 ∧
    ¬ (exFullB.Config_.MaxPages_ > 0 ∧
      exFullB.Stats_.PagesInUse_ ≥ exFullB.Config_.MaxPages_) ∧
    FreshStorage exFullB exHostB ∧ exHostB.storage = some 8192 ∧
    ∃ p s1 s', AllocateNewPage exFullB exHostB.storage = .ok () s1 ∧
      s1.Stats_.FreeObjects_
        = exFullB.Stats_.FreeObjects_ + exFullB.Config_.ObjectsPerPage_ ∧
      Allocate exFullB none exHostB = .ok p s' ∧
      s'.Stats_.PagesInUse_ = (exFullB.Stats_.PagesInUse_ + 1) % 2 ^ 32 ∧
      (exFullB.Stats_.PagesInUse_ + 1 < 2 ^ 32 →
        s'.Stats_.PagesInUse_ = exFullB.Stats_.PagesInUse_ + 1) ∧
      s'.Stats_.FreeObjects_ = exFullB.Config_.ObjectsPerPage_ - 1 ∧
      s'.PageList_ = 8192 ∧ s'.pageList = 8192 :: exFullB.pageList :=
  ⟨exFullB_reachable, by decide, by decide, by decide, by decide, by decide, rfl,
    (allocate_builds_one_page exFullB_reachable (by decide)
      (by decide : HostServes exFullB none exHostB)).1 (by decide) (by decide) (by decide)
      8192 rfl⟩

/-- C10: in every reachable state `FreeEmptyPages` returns the number `k` of
pages of the page list all of whose blocks are on the free list (as an
`unsigned`), leaves exactly the other pages on the page list and leaves
`ObjectsInUse` alone; with the numbers of pages and of free blocks within an
`unsigned`, `PagesInUse` has gone down by `k` and `FreeObjects` by
`k * ObjectsPerPage`. -/
theorem freeEmptyPages_count {s : ObjectAllocator} {R : List Nat} (hr : Reachable s R) :
    ∃ s', FreeEmptyPages s
        = .ok ((s.pageList.filter (fun P => decide (s.pageEmpty P))).length % 2 ^ 32) s' ∧
      s'.pageList = s.pageList.filter (fun P => decide (¬ s.pageEmpty P)) ∧
      s'.Stats_.ObjectsInUse_ = s.Stats_.ObjectsInUse_ ∧
      (s.pageList.length < 2 ^ 32 → s.freeList.length < 2 ^ 32 →
        FreeEmptyPages s
          = .ok (s.pageList.filter (fun P => decide (s.pageEmpty P))).length s' ∧
        s'.Stats_.PagesInUse_ + (s.pageList.filter (fun P => decide (s.pageEmpty P))).length
          = s.Stats_.PagesInUse_ ∧
        s'.Stats_.FreeObjects_
            + (s.pageList.filter (fun P => decide (s.pageEmpty P))).length
              * s.Config_.ObjectsPerPage_
          = s.Stats_.FreeObjects_) := by
  obtain ⟨pages, free, hi, _⟩ := hr.inv
  obtain ⟨s', hres, hi', _, _, hU, _, _, _, _, hlen⟩ := FreeEmptyPages_spec hi
  have e1 : (fun P => decide (s.pageEmpty P)) = (fun Q => decide (s.emptyIn free Q)) := by
    funext P
    apply decide_eq_decide.2
    unfold ObjectAllocator.pageEmpty ObjectAllocator.emptyIn
    rw [hi.freeList_eq]
  have e2 : (fun P => decide (¬ s.pageEmpty P)) = (fun Q => decide (¬ s.emptyIn free Q)) := by
    funext P
    apply decide_eq_decide.2
    unfold ObjectAllocator.pageEmpty ObjectAllocator.emptyIn
    rw [hi.freeList_eq]
  rw [hi.pageList_eq, hi.freeList_eq, e1, e2]
  have hsplit : pages.length
      = (pages.filter (fun Q => decide (s.emptyIn free Q))).length
        + (pages.filter (fun Q => decide (¬ s.emptyIn free Q))).length := by
    have := List.length_eq_length_filter_add (l := pages) (fun Q => decide (s.emptyIn free Q))
    simpa using this
  refine ⟨s', hres, hi'.pageList_eq, hU, ?_⟩
  intro hp hf
  have hk : (pages.filter (fun Q => decide (s.emptyIn free Q))).length < 2 ^ 32 := by omega
  refine ⟨?_, ?_, ?_⟩
  · rw [hres, Nat.mod_eq_of_lt hk]
  · rw [hi'.cntPages, hi.cntPages, Nat.mod_eq_of_lt hp, Nat.mod_eq_of_lt (by omega)]
    omega
  · rw [hi'.cntFree, hi.cntFree, Nat.mod_eq_of_lt hf, Nat.mod_eq_of_lt (by omega)]
    exact hlen

theorem freeEmptyPages_count_witness :
    Reachable exStart [] ∧
    ∃ s', FreeEmptyPages exStart
        = .ok ((exStart.pageList.filter (fun P => decide (exStart.pageEmpty P))).length
            % 2 ^ 32) s' ∧
      s'.pageList = exStart.pageList.filter (fun P => decide (¬ exStart.pageEmpty P)) ∧
      s'.Stats_.ObjectsInUse_ = exStart.Stats_.ObjectsInUse_ ∧
      (exStart.pageList.length < 2 ^ 32 → exStart.freeList.length < 2 ^ 32 →
        FreeEmptyPages exStart
          = .ok (exStart.pageList.filter (fun P => decide (exStart.pageEmpty P))).length s' ∧
        s'.Stats_.PagesInUse_
            + (exStart.pageList.filter (fun P => decide (exStart.pageEmpty P))).length
          = exStart.Stats_.PagesInUse_ ∧
        s'.Stats_.FreeObjects_
            + (exStart.pageList.filter (fun P => decide (exStart.pageEmpty P))).length
              * exStart.Config_.ObjectsPerPage_
          = exStart.Stats_.FreeObjects_) :=
  ⟨exStart_reachable, freeEmptyPages_count exStart_reachable⟩

/-! ### What FreeEmptyPages leaves alone -/

/-- The zone of a block (header, pads, object region) meets neither the link
of a page nor the `Next` cell of a free node other than the block itself. -/
theorem Inv.zone_apart {s : ObjectAllocator} {pages free : List Nat} (h : Inv s pages free)
    {P b : Nat} (hP : P ∈ pages) (hb : b ∈ s.pageBlocks P) (hbf : b ∉ free) {x : Nat}
    (hx1 : b ≤ x + s.Config_.PadBytes_ + s.Config_.HBlockInfo_.size_)
    (hx2 : x < b + s.Stats_.ObjectSize_ + s.Config_.PadBytes_) :
    (∀ f ∈ free, x < f ∨ f + 8 ≤ x) ∧ (∀ Q ∈ pages, x < Q ∨ Q + 8 ≤ x) := by
  have hp : pointer_size = 8 := rfl
  have hos := h.wf.objectSize
  have hpl := h.wf.pageLink
  have z := zone_in_page h.wf hb
  constructor
  · intro f hf
    obtain ⟨Q, hQ, hbQ⟩ := h.freeBlock f hf
    have hne : b ≠ f := fun e => hbf (e ▸ hf)
    have hPQ : P = Q ∨ P + s.Stats_.PageSize_ ≤ Q ∨ Q + s.Stats_.PageSize_ ≤ P := by
      by_cases e' : P = Q
      · exact Or.inl e'
      · exact Or.inr (h.pageDisjoint P hP Q hQ e')
    rcases zones_disjoint h.wf hPQ hb hbQ hne with d | d
    · left; omega
    · right; omega
  · intro Q hQ
    by_cases e : P = Q
    · subst e; right; omega
    · rcases h.pageDisjoint P hP Q hQ e with d | d
      · left; omega
      · right; omega

/-- A free node lies in a page that is not empty exactly when it lies in no
empty page. -/
theorem Inv.free_survives_iff {s : ObjectAllocator} {pages free : List Nat}
    (h : Inv s pages free) {f : Nat} (hf : f ∈ free) :
    (∀ Q ∈ pages, s.emptyIn free Q → ¬ s.inPage Q f) ↔
      ∃ P ∈ pages.filter (fun Q => decide (¬ s.emptyIn free Q)), s.inPage P f := by
  obtain ⟨P, hP, hb⟩ := h.freeBlock f hf
  have hin := inPage_of_block h.wf hb
  constructor
  · intro hall
    refine ⟨P, List.mem_filter.2 ⟨hP, decide_eq_true ?_⟩, hin⟩
    intro hE
    exact hall P hP hE hin
  · rintro ⟨P', hP', hin'⟩ Q hQ hE hinQ
    obtain ⟨hP'm, hne⟩ := List.mem_filter.1 hP'
    have hne' : ¬ s.emptyIn free P' := of_decide_eq_true hne
    have e : P' = Q := by
      by_contra hc
      unfold ObjectAllocator.inPage at hin' hinQ
      rcases h.pageDisjoint P' hP'm Q hQ hc with d | d <;> omega
    subst e
    exact hne' hE

/-- `FreeEmptyPages` in a state that satisfies the invariant, in terms of the
lists read from memory: what is left on the two lists, the counters, and the
memory it does not write. -/
theorem Inv.freeEmptyPages {s : ObjectAllocator} {pages free : List Nat} (h : Inv s pages free) :
    ∃ k s', FreeEmptyPages s = .ok k s' ∧
      s'.pageList = s.pageList.filter (fun P => decide (¬ s.pageEmpty P)) ∧
      s'.freeList = s.freeList.filter (fun f => decide (∃ P ∈ s'.pageList, s.inPage P f)) ∧
      s'.Stats_.FreeObjects_ = s'.freeList.length % 2 ^ 32 ∧ SameLayout s s' ∧
      (∀ y, (∀ f ∈ free, y < f ∨ f + 8 ≤ y) → (∀ Q ∈ pages, y < Q ∨ Q + 8 ≤ y) →
        s'.mem y = s.mem y) := by
  obtain ⟨s', hres, hi', hl, _, _, _, _, _, hmem, _⟩ := FreeEmptyPages_spec h
  have e2 : (fun P => decide (¬ s.pageEmpty P)) = (fun Q => decide (¬ s.emptyIn free Q)) := by
    funext P
    apply decide_eq_decide.2
    unfold ObjectAllocator.pageEmpty ObjectAllocator.emptyIn
    rw [h.freeList_eq]
  refine ⟨_, s', hres, ?_, ?_, ?_, hl, hmem⟩
  · rw [hi'.pageList_eq, h.pageList_eq, e2]
  · rw [hi'.freeList_eq, hi'.pageList_eq, h.freeList_eq]
    apply List.filter_congr
    intro f hf
    apply decide_eq_decide.2
    exact h.free_survives_iff hf
  · rw [hi'.freeList_eq]
    exact hi'.cntFree

/-! ### The walk of DumpMemoryInUse -/

/-- The blocks of pairwise different pages of the page list are pairwise
different. -/
theorem Inv.allBlocks_nodup {s : ObjectAllocator} {pages free : List Nat}
    (h : Inv s pages free) : ∀ (l : List Nat), (∀ P ∈ l, P ∈ pages) → l.Nodup →
      (s.allBlocks l).Nodup := by
  intro l
  induction l with
  | nil => intro _ _; exact List.nodup_nil
  | cons P Ps ih =>
    intro hsub hnd
    obtain ⟨hP, hPs⟩ := List.nodup_cons.1 hnd
    show (s.pageBlocks P ++ s.allBlocks Ps).Nodup
    refine List.nodup_append.2 ⟨pageBlocks_nodup h.wf P,
      ih (fun Q hQ => hsub Q (List.mem_cons_of_mem _ hQ)) hPs, ?_⟩
    intro b hb1 hb2
    obtain ⟨Q, hQ, hbQ⟩ := mem_allBlocks.1 hb2
    have hne : P ≠ Q := fun e => hP (e ▸ hQ)
    have i1 := inPage_of_block h.wf hb1
    have i2 := inPage_of_block h.wf hbQ
    unfold ObjectAllocator.inPage at i1 i2
    rcases h.pageDisjoint P (hsub P (List.mem_cons_self _ _)) Q
      (hsub Q (List.mem_cons_of_mem _ hQ)) hne with d | d <;> omega

/-- The blocks that are not free are as many as `ObjectsInUse` counts. -/
theorem Inv.length_inUse {s : ObjectAllocator} {pages free : List Nat} (h : Inv s pages free) :
    ((s.allBlocks pages).filter (fun b => decide (b ∉ free))).length
      = pages.length * s.Config_.ObjectsPerPage_ - free.length := by
  have h1 := List.length_eq_length_filter_add (l := s.allBlocks pages)
    (fun b => decide (b ∉ free))
  have h2 : ((s.allBlocks pages).filter (fun b => !decide (b ∉ free))).length = free.length := by
    refine List.Perm.length_eq ?_
    refine (List.perm_ext_iff_of_nodup
      ((h.allBlocks_nodup pages (fun P hP => hP) h.pageNodup).filter _) h.freeNodup).2 ?_
    intro a
    simp only [List.mem_filter, Bool.not_eq_true', decide_eq_false_iff_not, not_not]
    constructor
    · rintro ⟨_, ha⟩
      exact ha
    · intro ha
      exact ⟨mem_allBlocks.2 (h.freeBlock a ha), ha⟩
  rw [length_allBlocks] at h1
  omega

/-- The walk over the blocks of a page counts the blocks that are not free and
calls the callback on each of them, in the order of the addresses. -/
theorem dump_blocks {s : ObjectAllocator} {pages free : List Nat} (h : Inv s pages free)
    (P : Nat) : ∀ (k i blockPtr count : Nat) (calls : List (Nat × Nat)),
      i + k = s.Config_.ObjectsPerPage_ →
      (i < s.Config_.ObjectsPerPage_ → blockPtr = s.objAddr P i) → count < 2 ^ 32 →
      DumpMemoryInUse.blocks s k i blockPtr count calls
        = some ((count + (((List.range' i k).map (s.objAddr P)).filter
              (fun b => decide (b ∉ free))).length) % 2 ^ 32,
            calls ++ (((List.range' i k).map (s.objAddr P)).filter
              (fun b => decide (b ∉ free))).map (fun b => (b, s.Stats_.ObjectSize_))) := by
  intro k
  induction k with
  | zero =>
    intro i blockPtr count calls _ _ hc
    simp only [DumpMemoryInUse.blocks, List.range'_zero, List.map_nil, List.filter_nil,
      List.length_nil, Nat.add_zero, List.append_nil]
    rw [Nat.mod_eq_of_lt hc]
  | succ k ih =>
    intro i blockPtr count calls hik hptr hc
    have hi : i < s.Config_.ObjectsPerPage_ := by omega
    have hb := hptr hi
    have hnext : (i + 1 < s.Config_.ObjectsPerPage_ →
        (if i < decU32 s.Config_.ObjectsPerPage_ then
          blockPtr + (s.Config_.HBlockInfo_.size_ + (2 * s.Config_.PadBytes_) % 2 ^ 32
            + s.Stats_.ObjectSize_) + s.Config_.InterAlignSize_
        else blockPtr + (s.Config_.HBlockInfo_.size_ + (2 * s.Config_.PadBytes_) % 2 ^ 32
            + s.Stats_.ObjectSize_)) = s.objAddr P (i + 1)) := by
      intro hi'
      have hw := h.wf
      have h2p : (2 * s.Config_.PadBytes_) % 2 ^ 32 = 2 * s.Config_.PadBytes_ :=
        Nat.mod_eq_of_lt hw.padBytes
      rw [h2p, if_pos (by rw [decU32_of_pos (by omega) hw.objectsPerPage]; omega), hb]
      have e : (i + 1) * s.stride = i * s.stride + s.stride := Nat.succ_mul _ _
      have hst : s.stride = s.Config_.HBlockInfo_.size_ + 2 * s.Config_.PadBytes_
          + s.Stats_.ObjectSize_ + s.Config_.InterAlignSize_ := rfl
      unfold ObjectAllocator.objAddr
      rw [e]
      generalize i * s.stride = A
      omega
    simp only [DumpMemoryInUse.blocks, h.checkErrorFree, List.range'_succ, List.map_cons]
    by_cases hm : blockPtr ∈ free
    · have hm' : s.objAddr P i ∈ free := hb ▸ hm
      simp only [hm, decide_True, if_true]
      rw [ih (i + 1) _ count calls (by omega) hnext hc]
      rw [List.filter_cons_of_neg (by simpa using hm')]
    · have hm' : s.objAddr P i ∉ free := hb ▸ hm
      simp only [hm, decide_False, Bool.false_eq_true, if_false]
      rw [ih (i + 1) _ (incU32 count) _ (by omega) hnext
        (by unfold incU32; exact Nat.mod_lt _ (by norm_num))]
      rw [List.filter_cons_of_pos (by simpa using hm')]
      simp only [List.length_cons, List.map_cons, List.append_assoc, List.singleton_append, hb]
      congr 2
      unfold incU32
      omega

/-- The walk over the page list counts the blocks that are not free and calls
the callback on each of them, page by page. -/
theorem dump_pages {s : ObjectAllocator} {pages free : List Nat} (h : Inv s pages free) :
    ∀ (l : List Nat) (fuel head count : Nat) (calls : List (Nat × Nat)),
      ListRep s.mem head l → l.length < fuel → count < 2 ^ 32 →
      DumpMemoryInUse.pages s fuel head count calls
        = some ((count + ((s.allBlocks l).filter (fun b => decide (b ∉ free))).length) % 2 ^ 32,
            calls ++ ((s.allBlocks l).filter (fun b => decide (b ∉ free))).map
              (fun b => (b, s.Stats_.ObjectSize_))) := by
  intro l
  induction l with
  | nil =>
    intro fuel head count calls hr hf hc
    have : head = 0 := hr
    subst this
    cases fuel with
    | zero => cases hf
    | succ f =>
      simp only [DumpMemoryInUse.pages, if_true, ObjectAllocator.allBlocks, List.filter_nil,
        List.length_nil, Nat.add_zero, List.map_nil, List.append_nil]
      rw [Nat.mod_eq_of_lt hc]
  | cons P Ps ih =>
    intro fuel head count calls hr hf hc
    obtain ⟨e, hP0, hrest⟩ := hr
    subst e
    cases fuel with
    | zero => cases hf
    | succ f =>
      simp only [DumpMemoryInUse.pages, if_neg hP0]
      rw [dump_blocks h head _ 0 _ count calls (by omega)
        (by intro _; unfold ObjectAllocator.objAddr; omega) hc]
      simp only []
      rw [ih f _ _ _ hrest (by simpa using hf) (Nat.mod_lt _ (by norm_num))]
      have e1 : (List.range' 0 s.Config_.ObjectsPerPage_).map (s.objAddr head)
          = s.pageBlocks head := by
        unfold ObjectAllocator.pageBlocks
        rw [List.range_eq_range']
      simp only [e1, ObjectAllocator.allBlocks, List.filter_append, List.length_append,
        List.map_append, List.append_assoc]
      congr 2
      omega

/-- In a state that satisfies the invariant `DumpMemoryInUse` returns
`ObjectsInUse` and calls the callback on the blocks in use. -/
theorem Inv.dumpMemoryInUse {s : ObjectAllocator} {pages free : List Nat}
    (h : Inv s pages free) :
    DumpMemoryInUse s = some (s.Stats_.ObjectsInUse_,
      s.inUseBlocks.map (fun b => (b, s.Stats_.ObjectSize_))) ∧
    s.inUseBlocks.Nodup ∧
    ∀ b, b ∈ s.inUseBlocks ↔ (∃ P ∈ s.pageList, b ∈ s.pageBlocks P) ∧ b ∉ s.freeList := by
  unfold ObjectAllocator.inUseBlocks
  rw [h.pageList_eq, h.freeList_eq]
  refine ⟨?_, (h.allBlocks_nodup pages (fun P hP => hP) h.pageNodup).filter _, ?_⟩
  · unfold DumpMemoryInUse
    rw [dump_pages h pages walkFuel s.PageList_ 0 [] h.pageRep h.pages_lt (by norm_num)]
    rw [h.cntUse, h.length_inUse]
    simp
  · intro b
    rw [List.mem_filter, mem_allBlocks]
    simp

/-! ### The high-water mark -/

theorem take_most (s1 : ObjectAllocator) :
    (Allocate.take s1).Stats_.MostObjects_
      = if incU32 s1.Stats_.ObjectsInUse_ > s1.Stats_.MostObjects_
        then incU32 s1.Stats_.ObjectsInUse_ else s1.Stats_.MostObjects_ := by
  unfold Allocate.take
  rfl

theorem push_most (s : ObjectAllocator) (p : Nat) :
    (Free.push s p).Stats_.MostObjects_ = s.Stats_.MostObjects_ := by
  unfold Free.push
  rfl

/-- What one `Allocate` does to the number of blocks in use and to the two
counters that follow it: nothing when it throws before a block is taken, and
one more block in use otherwise. -/
theorem Inv.allocate_step {s : ObjectAllocator} {pages free : List Nat} (h : Inv s pages free)
    {label : Option String} {host : HostAlloc} (hf : Fresh s pages host)
    {s' : ObjectAllocator} (hst : (Allocate s label host).state? = some s') :
    s' = s ∨ ∃ pages' free', Inv s' pages' free' ∧
      pages'.length * s'.Config_.ObjectsPerPage_ - free'.length
        = pages.length * s.Config_.ObjectsPerPage_ - free.length + 1 ∧
      s'.Stats_.ObjectsInUse_ = incU32 s.Stats_.ObjectsInUse_ ∧
      s'.Stats_.MostObjects_
        = (if incU32 s.Stats_.ObjectsInUse_ > s.Stats_.MostObjects_
          then incU32 s.Stats_.ObjectsInUse_ else s.Stats_.MostObjects_) := by
  rw [Allocate_eq h.wf.bypass] at hst
  have fin : ∀ {s1 : ObjectAllocator} {pages1 free1 : List Nat}, Inv s1 pages1 free1 →
      SameLayout s s1 → s1.Stats_.ObjectsInUse_ = s.Stats_.ObjectsInUse_ →
      s1.Stats_.MostObjects_ = s.Stats_.MostObjects_ →
      pages1.length * s.Config_.ObjectsPerPage_ - free1.length
        = pages.length * s.Config_.ObjectsPerPage_ - free.length →
      (Allocate.finish s1 label host).state? = some s' →
      ∃ pages' free', Inv s' pages' free' ∧
        pages'.length * s'.Config_.ObjectsPerPage_ - free'.length
          = pages.length * s.Config_.ObjectsPerPage_ - free.length + 1 ∧
        s'.Stats_.ObjectsInUse_ = incU32 s.Stats_.ObjectsInUse_ ∧
        s'.Stats_.MostObjects_
          = (if incU32 s.Stats_.ObjectsInUse_ > s.Stats_.MostObjects_
            then incU32 s.Stats_.ObjectsInUse_ else s.Stats_.MostObjects_) := by
    intro s1 pages1 free1 h1 hl1 hU hM hr hst1
    cases free1 with
    | nil =>
      have : s1.FreeList_ = 0 := h1.freeRep
      unfold Allocate.finish at hst1
      rw [if_pos this] at hst1
      cases hst1
    | cons p tail =>
      obtain ⟨s'', hres, b1, b2, _, b4, _⟩ := finish_spec h1 label host
      have e : s'' = s' := by
        rcases hres with hr' | ⟨hr', _⟩
        · rw [hr'] at hst1
          simpa [Result.state?] using hst1
        · rw [hr'] at hst1
          simpa [Result.state?] using hst1
      subst e
      have hle := h1.free_le
      rw [hl1.1] at hle
      obtain ⟨_, _, _, _, ⟨_, _, _, _, tS5⟩, _⟩ := take_fields s1
      refine ⟨pages1, tail, b1, ?_, by rw [b4, tS5, hU], by rw [b4, take_most, hU, hM]⟩
      rw [(hl1.trans b2).1]
      simp only [List.length_cons] at hr hle
      generalize pages1.length * s.Config_.ObjectsPerPage_ = T at hr hle ⊢
      omega
  rcases paged_spec h hf with ⟨_, hp⟩ | ⟨_, _, hp⟩ | ⟨_, _, _, hp⟩ |
    ⟨_, _, N, s1, _, hp, a2, a3, _, _, a6, _⟩
  · rw [hp] at hst
    exact Or.inr (fin h (SameLayout.refl s) rfl rfl rfl hst)
  · rw [hp] at hst
    left
    simpa [Result.state?] using hst.symm
  · rw [hp] at hst
    left
    simpa [Result.state?] using hst.symm
  · rw [hp] at hst
    refine Or.inr (fin a2 a3 (by rw [a6]) (by rw [a6]) ?_ hst)
    have hle := h.free_le
    simp only [List.length_cons, List.length_append, List.length_reverse, length_pageBlocks,
      Nat.succ_mul]
    generalize pages.length * s.Config_.ObjectsPerPage_ = T at hle ⊢
    omega

/-- What one `Free` does to the number of blocks in use and to the two
counters that follow it: nothing when it is a no-op or throws one of its
errors, and one block in use less otherwise. -/
theorem Inv.free_step {s : ObjectAllocator} {pages free : List Nat} (h : Inv s pages free)
    {p : Nat} {host : HostAlloc}
    (hp : p = 0 ∨ (∃ P ∈ pages, p ∈ s.pageBlocks P) ∨ ∀ P ∈ pages, ¬ s.inPage P p)
    {s' : ObjectAllocator} (hst : (Free s p host).state? = some s') :
    s' = s ∨ ∃ free', Inv s' pages free' ∧
      1 ≤ pages.length * s.Config_.ObjectsPerPage_ - free.length ∧
      pages.length * s'.Config_.ObjectsPerPage_ - free'.length
        = pages.length * s.Config_.ObjectsPerPage_ - free.length - 1 ∧
      s'.Stats_.ObjectsInUse_ = decU32 s.Stats_.ObjectsInUse_ ∧
      s'.Stats_.MostObjects_ = s.Stats_.MostObjects_ := by
  by_cases h0 : p = 0
  · left
    unfold Free at hst
    rw [if_pos h0] at hst
    simpa [Result.state?] using hst.symm
  · have same : ∀ e, Free s p host = .throw e s → s' = s := by
      intro e he
      rw [he] at hst
      simpa [Result.state?] using hst.symm
    rcases Free_cases h h0 host with ⟨_, hr⟩ | ⟨_, _, hr⟩ | ⟨_, _, _, hr⟩ |
      ⟨hnf, ⟨Q, hQ, hin⟩, hpads, hr⟩
    · exact Or.inl (same _ hr)
    · exact Or.inl (same _ hr)
    · exact Or.inl (same _ hr)
    · rcases hp with hp | ⟨P, hP, hb⟩ | hp
      · exact absurd hp h0
      · right
        obtain ⟨s'', hres, b1, b2, _, _, b5⟩ := h.free_in_use hP hb hnf hpads host
        have e : s'' = s' := by
          rcases hres with hres | ⟨hres, _⟩
          · rw [hres] at hst
            simpa [Result.state?] using hst
          · rw [hres] at hst
            simpa [Result.state?] using hst
        subst e
        have hlt := h.free_lt hP hb hnf
        obtain ⟨_, _, _, _, ⟨_, _, _, _, pS5⟩, _⟩ := push_fields s p
        refine ⟨_, b1, by omega, ?_, by rw [b5, pS5], by rw [b5, push_most]⟩
        rw [b2.1]
        simp only [List.length_cons]
        omega
      · exact absurd hin (hp Q hQ)

/-- A run with its history is a run. -/
theorem UseHistory.reachable {s : ObjectAllocator} {R h : List Nat} (hu : UseHistory s R h) :
    Reachable s R := by
  induction hu with
  | construct ObjectSize config m host s hv hb hc hh =>
    exact Reachable.construct ObjectSize config m host s hv hb hc hh
  | allocate s R h label host s' _ hf hst ih =>
    exact Reachable.allocate s R label host s' ih hf hst
  | free s R h p host s' _ hp hst ih =>
    exact Reachable.free s R p host s' ih hp hst

/-- Along a run, `MostObjects` is the largest value `ObjectsInUse` has had; it
is the largest value of an `unsigned` once that many blocks have been in
use. -/
theorem UseHistory.high_water {s : ObjectAllocator} {R h : List Nat} (hu : UseHistory s R h) :
    ∃ pages free, Inv s pages free ∧
      s.Stats_.MostObjects_ = h.foldr max 0 ∧ (∃ t, h = s.Stats_.ObjectsInUse_ :: t) ∧
      s.Stats_.MostObjects_ < 2 ^ 32 ∧
      (2 ^ 32 - 1 ≤ pages.length * s.Config_.ObjectsPerPage_ - free.length →
        s.Stats_.MostObjects_ = 2 ^ 32 - 1) := by
  induction hu with
  | construct ObjectSize config m host s hv hb hc hh =>
    obtain ⟨s0, e0, hw0, p0, f0, _, _, c1, c2, c3, c4, _⟩ := construct_spec m host hv hb
    have hi0 := Inv.initial hw0 p0 f0 c1 c2 c3
    rw [e0] at hc
    cases hs : host.storage with
    | none =>
      rw [hs] at hc
      simp [AllocateNewPage] at hc
    | some N =>
      rw [hs] at hc
      have hl : s.Stats_.PageSize_ = s0.Stats_.PageSize_ := (AllocateNewPage_layout hc).2.2
      obtain ⟨hN0, hN⟩ := hh N hs
      obtain ⟨s1, a1, a2, a3, _, _, a6, _⟩ := AllocateNewPage_spec hi0 hN0
        (by rw [← hl]; exact hN) (fun P hP => by cases hP)
      rw [a1] at hc
      have e : s1 = s := by simpa using hc
      subst e
      have hU : s1.Stats_.ObjectsInUse_ = 0 := by rw [a6]; exact c3
      have hM : s1.Stats_.MostObjects_ = 0 := by rw [a6]; exact c4
      refine ⟨_, _, a2, ?_, ⟨[], rfl⟩, by rw [hM]; norm_num, ?_⟩
      · rw [hM, hU]
        rfl
      · intro hbig
        exfalso
        simp only [List.length_cons, List.length_nil, List.length_append, List.length_reverse,
          length_pageBlocks, a3.1] at hbig
        omega
  | allocate s R h label host s' hprev hf hst ih =>
    obtain ⟨pages, free, hi, hM, ⟨t, ht⟩, hlt, hbig⟩ := ih
    have hUlt : s.Stats_.ObjectsInUse_ < 2 ^ 32 := by
      rw [hi.cntUse]
      exact Nat.mod_lt _ (by norm_num)
    have hUM : s.Stats_.ObjectsInUse_ ≤ s.Stats_.MostObjects_ := by
      rw [hM, ht]
      exact le_max_left _ _
    rcases hi.allocate_step (hi.fresh_of_freshStorage hf) hst with e | ⟨pages', free', hi', hr, hU', hM'⟩
    · subst e
      refine ⟨pages, free, hi, ?_, ⟨h, rfl⟩, hlt, hbig⟩
      show _ = max _ (h.foldr max 0)
      rw [← hM]
      exact (max_eq_right hUM).symm
    · have hU := hi.cntUse
      have hinc : incU32 s.Stats_.ObjectsInUse_ < 2 ^ 32 := by
        unfold incU32
        exact Nat.mod_lt _ (by norm_num)
      refine ⟨pages', free', hi', ?_, ⟨h, rfl⟩, ?_, ?_⟩
      · show _ = max _ (h.foldr max 0)
        rw [← hM, hM', hU']
        split
        · rw [max_eq_left (by omega)]
        · rw [max_eq_right (by omega)]
      · rw [hM']
        split <;> omega
      · intro hb'
        rw [hr] at hb'
        rw [hM']
        generalize pages.length * s.Config_.ObjectsPerPage_ - free.length = r at hU hbig hb'
        by_cases hr2 : 2 ^ 32 - 1 ≤ r
        · have := hbig hr2
          split <;> omega
        · have hr3 : r = 2 ^ 32 - 2 := by omega
          have : incU32 s.Stats_.ObjectsInUse_ = 2 ^ 32 - 1 := by
            unfold incU32
            rw [hU, hr3]
            norm_num
          split <;> omega
  | free s R h p host s' hprev hp hst ih =>
    obtain ⟨pages, free, hi, hM, ⟨t, ht⟩, hlt, hbig⟩ := ih
    obtain ⟨pages0, free0, hi0, hR⟩ := hprev.reachable.inv
    have ep : pages0 = pages := by rw [← hi0.pageList_eq, hi.pageList_eq]
    subst ep
    have hUM : s.Stats_.ObjectsInUse_ ≤ s.Stats_.MostObjects_ := by
      rw [hM, ht]
      exact le_max_left _ _
    have hp' : p = 0 ∨ (∃ P ∈ pages0, p ∈ s.pageBlocks P) ∨ ∀ P ∈ pages0, ¬ s.inPage P p := by
      rcases hp with e | e | e
      · exact Or.inl e
      · exact Or.inr (Or.inl (hR p e))
      · refine Or.inr (Or.inr ?_)
        intro P hP hin
        exact e ((hi.owns_iff p).2 ⟨P, hP, hin⟩)
    rcases hi.free_step hp' hst with e | ⟨free', hi', hr1, hr, hU', hM'⟩
    · subst e
      refine ⟨pages0, free, hi, ?_, ⟨h, rfl⟩, hlt, hbig⟩
      show _ = max _ (h.foldr max 0)
      rw [← hM]
      exact (max_eq_right hUM).symm
    · have hU := hi.cntUse
      refine ⟨pages0, free', hi', ?_, ⟨h, rfl⟩, by rw [hM']; exact hlt, ?_⟩
      · show _ = max _ (h.foldr max 0)
        rw [← hM, hM', hU', decU32_eq]
        generalize pages0.length * s.Config_.ObjectsPerPage_ - free.length = r at hU hbig hr1
        have hle : (s.Stats_.ObjectsInUse_ + 4294967295) % 4294967296
            ≤ s.Stats_.MostObjects_ := by
          by_cases hz : s.Stats_.ObjectsInUse_ = 0
          · have : 2 ^ 32 - 1 ≤ r := by omega
            have := hbig this
            omega
          · omega
        exact (max_eq_right hle).symm
      · intro hb'
        rw [hr] at hb'
        rw [hM']
        exact hbig (by omega)

/-! ## The properties, continued -/

/-- C13: in every reachable state of non-bypass mode (after any sequence of
`Allocate`, `Free` and `FreeEmptyPages` calls), `DumpMemoryInUse` calls the
callback exactly once for each block of each page of the page list that is not
on the free list, with the address of the block and `ObjectSize`, and returns
the statistic `ObjectsInUse`; being a `const` walk it leaves the allocator as
it is. -/
theorem dumpMemoryInUse_visits_in_use {s : ObjectAllocator} {R : List Nat}
    (hr : Reachable s R) :
    DumpMemoryInUse s = some (s.Stats_.ObjectsInUse_,
      s.inUseBlocks.map (fun b => (b, s.Stats_.ObjectSize_))) ∧
    s.inUseBlocks.Nodup ∧
    ∀ b, b ∈ s.inUseBlocks ↔ (∃ P ∈ s.pageList, b ∈ s.pageBlocks P) ∧ b ∉ s.freeList := by
  obtain ⟨pages, free, hi, _⟩ := hr.inv
  exact hi.dumpMemoryInUse

theorem dumpMemoryInUse_visits_in_use_witness :
    Reachable exOne [4128] ∧ DumpMemoryInUse exOne = some (1, [(4128, 8)]) ∧
    (DumpMemoryInUse exOne = some (exOne.Stats_.ObjectsInUse_,
      exOne.inUseBlocks.map (fun b => (b, exOne.Stats_.ObjectSize_))) ∧
    exOne.inUseBlocks.Nodup ∧
    ∀ b, b ∈ exOne.inUseBlocks ↔
      (∃ P ∈ exOne.pageList, b ∈ exOne.pageBlocks P) ∧ b ∉ exOne.freeList) :=
  ⟨exOne_reachable, by decide, dumpMemoryInUse_visits_in_use exOne_reachable⟩

/-- C14, amended: in non-bypass mode, with a valid configuration, after the
constructor and after every call of a sequence of `Allocate` and `Free` calls
in which `Free` is passed null, a pointer `Allocate` returned or an address
outside every page, `MostObjects` is the largest of the values `ObjectsInUse`
has had since construction, and `ObjectsInUse` is the latest of them. -/
theorem mostObjects_high_water {s : ObjectAllocator} {R h : List Nat}
    (hu : UseHistory s R h) :
    s.Stats_.MostObjects_ = h.foldr max 0 ∧ s.Stats_.MostObjects_ ∈ h ∧
    (∀ u ∈ h, u ≤ s.Stats_.MostObjects_) ∧ h.head? = some s.Stats_.ObjectsInUse_ := by
  obtain ⟨pages, free, _, hM, ⟨t, ht⟩, _, _⟩ := hu.high_water
  have hmem : ∀ (l : List Nat), l ≠ [] → l.foldr max 0 ∈ l ∧ ∀ u ∈ l, u ≤ l.foldr max 0 := by
    intro l
    induction l with
    | nil => intro hne; exact absurd rfl hne
    | cons a l ih =>
      intro _
      show max a (l.foldr max 0) ∈ a :: l ∧ ∀ u ∈ a :: l, u ≤ max a (l.foldr max 0)
      by_cases hl : l = []
      · subst hl
        simp
      · obtain ⟨i1, i2⟩ := ih hl
        constructor
        · rcases le_total a (l.foldr max 0) with hle | hle
          · rw [max_eq_right hle]
            exact List.mem_cons_of_mem _ i1
          · rw [max_eq_left hle]
            exact List.mem_cons_self _ _
        · intro u hu'
          rcases List.mem_cons.1 hu' with e | e
          · rw [e]
            exact le_max_left _ _
          · exact le_trans (i2 u e) (le_max_right _ _)
  have hne : h ≠ [] := by rw [ht]; exact List.cons_ne_nil _ _
  obtain ⟨m1, m2⟩ := hmem h hne
  refine ⟨hM, by rw [hM]; exact m1, by rw [hM]; exact m2, by rw [ht]; rfl⟩

theorem mostObjects_high_water_witness :
    UseHistory exTwo [4111, 4128] [2, 1, 0] ∧
    exTwo.Stats_.MostObjects_ = [2, 1, 0].foldr max 0 ∧ exTwo.Stats_.MostObjects_ ∈ [2, 1, 0] ∧
    (∀ u ∈ [2, 1, 0], u ≤ exTwo.Stats_.MostObjects_) ∧
    [2, 1, 0].head? = some exTwo.Stats_.ObjectsInUse_ :=
  ⟨exTwo_history, mostObjects_high_water exTwo_history⟩

/-- C15 fails on the code: in bypass mode `Allocate` increments `MostObjects`
on every call. After `Allocate`, `Free`, `Allocate` on a fresh bypass
allocator `ObjectsInUse` has been 0, 1, 0 and 1, never more than 1, and
`MostObjects` is 2, the number of allocations. -/
theorem bypass_mostObjects_counts_allocations :
    ObjectAllocator.construct 8 exConfigC (fun _ => 0) exHostNone = .ok () exBypass ∧
    exBypass.Config_.UseCPPMemManager_ = true ∧
    Allocate exBypass none exHostC = .ok 4096 exBypassA ∧
    Free exBypassA 4096 exHostNone = .ok () exBypassAF ∧
    Allocate exBypassAF none exHostC = .ok 4096 exBypassAFA ∧
    exBypass.Stats_.ObjectsInUse_ = 0 ∧ exBypassA.Stats_.ObjectsInUse_ = 1 ∧
    exBypassAF.Stats_.ObjectsInUse_ = 0 ∧ exBypassAFA.Stats_.ObjectsInUse_ = 1 ∧
    exBypassAFA.Stats_.MostObjects_ = 2 :=
  ⟨rfl, rfl, rfl, rfl, rfl, rfl, rfl, rfl, rfl, rfl⟩

/-- C16: `Allocate` throws `E_NO_PAGES` exactly when, in non-bypass mode, no
object is free, `MaxPages > 0` and `PagesInUse >= MaxPages`; the allocator
after the call is then the allocator before it: no page is linked in, and the
free list, the page list and every counter are unchanged. -/
theorem page_limit_keeps_state (s : ObjectAllocator) (label : Option String)
    (host : HostAlloc) :
    ((Allocate s label host).thrown? = some (.oa .E_NO_PAGES) ↔
      (s.Config_.UseCPPMemManager_ = false ∧ s.Stats_.FreeObjects_ = 0 ∧
        s.Config_.MaxPages_ > 0 ∧ s.Stats_.PagesInUse_ ≥ s.Config_.MaxPages_)) ∧
    (∀ s', Allocate s label host = .throw (.oa .E_NO_PAGES) s' →
      s' = s ∧ s'.pageList = s.pageList ∧ s'.freeList = s.freeList) := by
  have key : ∀ s', Allocate s label host = .throw (.oa .E_NO_PAGES) s' →
      s' = s ∧ (s.Config_.UseCPPMemManager_ = false ∧ s.Stats_.FreeObjects_ = 0 ∧
        s.Config_.MaxPages_ > 0 ∧ s.Stats_.PagesInUse_ ≥ s.Config_.MaxPages_) := by
    intro s' h
    cases hb : s.Config_.UseCPPMemManager_ with
    | true =>
      unfold Allocate at h
      rw [if_pos hb] at h
      cases hs : host.storage with
      | none => rw [hs] at h; cases h
      | some a => rw [hs] at h; cases h
    | false =>
      rw [Allocate_eq hb] at h
      unfold Allocate.paged at h
      by_cases h0 : s.Stats_.FreeObjects_ ≤ 0
      · rw [if_pos h0] at h
        by_cases hl : s.Config_.MaxPages_ > 0 ∧ s.Stats_.PagesInUse_ ≥ s.Config_.MaxPages_
        · rw [if_pos hl] at h
          cases h
          exact ⟨rfl, rfl, by omega, hl.1, hl.2⟩
        · rw [if_neg hl] at h
          cases hs : host.storage with
          | none =>
            rw [hs] at h
            cases h
          | some N =>
            rw [hs, AllocateNewPage_eq] at h
            generalize AllocateNewPage.link _ N = s1 at h
            change Allocate.finish s1 label host = _ at h
            unfold Allocate.finish at h
            by_cases hz : s1.FreeList_ = 0
            · rw [if_pos hz] at h
              cases h
            · rw [if_neg hz] at h
              generalize Allocate.take s1 = t at h
              obtain ⟨s2, hres, _⟩ := BlockHeaderCheck_fields t s1.FreeList_ label host
              rcases hres with hres | ⟨hres, _⟩
              · rw [hres] at h
                cases h
              · rw [hres] at h
                cases h
      · rw [if_neg h0] at h
        change Allocate.finish s label host = _ at h
        unfold Allocate.finish at h
        by_cases hz : s.FreeList_ = 0
        · rw [if_pos hz] at h
          cases h
        · rw [if_neg hz] at h
          generalize Allocate.take s = t at h
          obtain ⟨s2, hres, _⟩ := BlockHeaderCheck_fields t s.FreeList_ label host
          rcases hres with hres | ⟨hres, _⟩
          · rw [hres] at h
            cases h
          · rw [hres] at h
            cases h
  constructor
  · constructor
    · intro h
      cases hres : Allocate s label host with
      | ok v s' => rw [hres] at h; cases h
      | undefined => rw [hres] at h; cases h
      | throw e s' =>
        rw [hres] at h
        have e1 : e = .oa .E_NO_PAGES := by
          simpa [Result.thrown?] using h
        subst e1
        exact (key s' hres).2
    · rintro ⟨hb, h0, hl⟩
      rw [Allocate_eq hb]
      unfold Allocate.paged
      rw [if_pos (by omega), if_pos hl]
      rfl
  · intro s' h
    obtain ⟨e, _⟩ := key s' h
    subst e
    exact ⟨rfl, rfl, rfl⟩

/-- C17: `Free` of the null pointer is a no-op, in bypass mode and in
non-bypass mode alike: it returns and leaves the allocator as it was, the free
list, the page list and every counter, `Deallocations` included. -/
theorem free_null_noop (s : ObjectAllocator) (host : HostAlloc) :
    Free s 0 host = .ok () s := by
  unfold Free
  rw [if_pos rfl]

/-! ### Padding and the order of the checks of Free -/

/-- A walk that ends has used less than its fuel. -/
theorem chain_length_lt {m : Memory} : ∀ {fuel : Nat} {h : Nat} {l : List Nat},
    chain m fuel h = some l → l.length < fuel := by
  intro fuel
  induction fuel with
  | zero => intro h l hc; simp [chain] at hc
  | succ f ih =>
    intro h l hc
    simp only [chain] at hc
    by_cases hz : h = 0
    · rw [if_pos hz] at hc
      cases hc
      exact Nat.succ_pos f
    · rw [if_neg hz] at hc
      cases hcf : chain m f (readPtr m h) with
      | none => rw [hcf] at hc; cases hc
      | some t =>
        rw [hcf] at hc
        cases hc
        have := ih hcf
        simp only [List.length_cons]
        omega

/-- For a positive alignment `CalculatePadding` returns the distance to the
next multiple of the alignment. -/
theorem CalculatePadding_least (size : Nat) {alignment : Nat} (h : 0 < alignment) :
    ∃ p, CalculatePadding size alignment = some p ∧ (size + p) % alignment = 0 ∧
      p < alignment ∧ ∀ q, (size + q) % alignment = 0 → p ≤ q := by
  have hr : size % alignment < alignment := Nat.mod_lt _ h
  have key : ∀ q, (size + q) % alignment = (size % alignment + q) % alignment := by
    intro q
    rw [Nat.add_mod size q, Nat.add_mod (size % alignment) q, Nat.mod_mod]
  unfold CalculatePadding
  rw [if_neg (by omega)]
  by_cases h0 : size % alignment = 0
  · refine ⟨0, ?_, ?_, h, fun q _ => Nat.zero_le q⟩
    · simp [h0]
    · simpa using h0
  · refine ⟨alignment - size % alignment, ?_, ?_, by omega, ?_⟩
    · simp only []
      rw [if_neg (by omega)]
    · rw [key, Nat.add_sub_cancel' (Nat.le_of_lt hr), Nat.mod_self]
    · intro q hq
      by_contra hc
      rw [key, Nat.mod_eq_of_lt (by omega)] at hq
      omega

/-! ### The walk of ValidatePages -/

/-- The walk over the blocks of a page counts the blocks with a damaged pad and
calls the callback on each of them, in the order of the addresses. -/
theorem validate_blocks {s : ObjectAllocator} (hw : WellFormed s) (P : Nat) :
    ∀ (k i blockPtr count : Nat) (calls : List (Nat × Nat)),
      i + k = s.Config_.ObjectsPerPage_ →
      (i < s.Config_.ObjectsPerPage_ → blockPtr = s.objAddr P i) → count < 2 ^ 32 →
      ValidatePages.blocks s k i blockPtr count calls
        = ((count + (((List.range' i k).map (s.objAddr P)).filter
              (fun b => decide (¬ s.padsIntact b))).length) % 2 ^ 32,
            calls ++ (((List.range' i k).map (s.objAddr P)).filter
              (fun b => decide (¬ s.padsIntact b))).map (fun b => (b, s.Stats_.ObjectSize_))) := by
  intro k
  induction k with
  | zero =>
    intro i blockPtr count calls _ _ hc
    simp only [ValidatePages.blocks, List.range'_zero, List.map_nil, List.filter_nil,
      List.length_nil, Nat.add_zero, List.append_nil]
    rw [Nat.mod_eq_of_lt hc]
  | succ k ih =>
    intro i blockPtr count calls hik hptr hc
    have hi : i < s.Config_.ObjectsPerPage_ := by omega
    have hb := hptr hi
    have hnext : (i + 1 < s.Config_.ObjectsPerPage_ →
        (if i < decU32 s.Config_.ObjectsPerPage_ then
          blockPtr + (s.Config_.HBlockInfo_.size_ + (2 * s.Config_.PadBytes_) % 2 ^ 32
            + s.Stats_.ObjectSize_) + s.Config_.InterAlignSize_
        else blockPtr + (s.Config_.HBlockInfo_.size_ + (2 * s.Config_.PadBytes_) % 2 ^ 32
            + s.Stats_.ObjectSize_)) = s.objAddr P (i + 1)) := by
      intro hi'
      have h2p : (2 * s.Config_.PadBytes_) % 2 ^ 32 = 2 * s.Config_.PadBytes_ :=
        Nat.mod_eq_of_lt hw.padBytes
      rw [h2p, if_pos (by rw [decU32_of_pos (by omega) hw.objectsPerPage]; omega), hb]
      have e : (i + 1) * s.stride = i * s.stride + s.stride := Nat.succ_mul _ _
      have hst : s.stride = s.Config_.HBlockInfo_.size_ + 2 * s.Config_.PadBytes_
          + s.Stats_.ObjectSize_ + s.Config_.InterAlignSize_ := rfl
      unfold ObjectAllocator.objAddr
      rw [e]
      generalize i * s.stride = A
      omega
    simp only [ValidatePages.blocks, List.range'_succ, List.map_cons]
    by_cases hm : s.padsIntact blockPtr
    · have hc0 := (corruptedCheck_iff s blockPtr).2 hm
      have hm' : s.padsIntact (s.objAddr P i) := hb ▸ hm
      simp only [hc0, Bool.false_eq_true, if_false]
      rw [ih (i + 1) _ count calls (by omega) hnext hc]
      rw [List.filter_cons_of_neg (by simpa using hm')]
    · have hc1 : CorruptedCheck s blockPtr = true := by
        cases hcc : CorruptedCheck s blockPtr with
        | true => rfl
        | false => exact absurd ((corruptedCheck_iff s blockPtr).1 hcc) hm
      have hm' : ¬ s.padsIntact (s.objAddr P i) := hb ▸ hm
      simp only [hc1, if_true]
      rw [ih (i + 1) _ (incU32 count) _ (by omega) hnext
        (by unfold incU32; exact Nat.mod_lt _ (by norm_num))]
      rw [List.filter_cons_of_pos (by simpa using hm')]
      simp only [List.length_cons, List.map_cons, List.append_assoc, List.singleton_append, hb]
      congr 1
      unfold incU32
      omega

/-- The walk over the page list counts the blocks with a damaged pad and calls
the callback on each of them, page by page. -/
theorem validate_pages {s : ObjectAllocator} (hw : WellFormed s) :
    ∀ (l : List Nat) (fuel head count : Nat) (calls : List (Nat × Nat)),
      ListRep s.mem head l → l.length < fuel → count < 2 ^ 32 →
      ValidatePages.pages s fuel head count calls
        = some ((count + ((s.allBlocks l).filter
              (fun b => decide (¬ s.padsIntact b))).length) % 2 ^ 32,
            calls ++ ((s.allBlocks l).filter (fun b => decide (¬ s.padsIntact b))).map
              (fun b => (b, s.Stats_.ObjectSize_))) := by
  intro l
  induction l with
  | nil =>
    intro fuel head count calls hr hf hc
    have : head = 0 := hr
    subst this
    cases fuel with
    | zero => cases hf
    | succ f =>
      simp only [ValidatePages.pages, if_true, ObjectAllocator.allBlocks, List.filter_nil,
        List.length_nil, Nat.add_zero, List.map_nil, List.append_nil]
      rw [Nat.mod_eq_of_lt hc]
  | cons P Ps ih =>
    intro fuel head count calls hr hf hc
    obtain ⟨e, hP0, hrest⟩ := hr
    subst e
    cases fuel with
    | zero => cases hf
    | succ f =>
      simp only [ValidatePages.pages, if_neg hP0]
      rw [validate_blocks hw head _ 0 _ count calls (by omega)
        (by intro _; unfold ObjectAllocator.objAddr; omega) hc]
      simp only []
      rw [ih f _ _ _ hrest (by simpa using hf) (Nat.mod_lt _ (by norm_num))]
      have e1 : (List.range' 0 s.Config_.ObjectsPerPage_).map (s.objAddr head)
          = s.pageBlocks head := by
        unfold ObjectAllocator.pageBlocks
        rw [List.range_eq_range']
      simp only [e1, ObjectAllocator.allBlocks, List.filter_append, List.length_append,
        List.map_append, List.append_assoc]
      congr 2
      omega

/-- In a state that satisfies the invariant `ValidatePages` counts the blocks
with a damaged pad and calls the callback on them; none of them is on the free
list. -/
theorem Inv.validatePages {s : ObjectAllocator} {pages free : List Nat}
    (h : Inv s pages free) :
    ValidatePages s = some (s.corruptedBlocks.length % 2 ^ 32,
      s.corruptedBlocks.map (fun b => (b, s.Stats_.ObjectSize_))) ∧
    s.corruptedBlocks.Nodup ∧
    (∀ b, b ∈ s.corruptedBlocks ↔ (∃ P ∈ s.pageList, b ∈ s.pageBlocks P) ∧ ¬ s.padsIntact b) ∧
    (∀ b ∈ s.corruptedBlocks, b ∉ s.freeList) ∧
    (s.Config_.PadBytes_ = 0 → s.corruptedBlocks = []) := by
  have hmem : ∀ b, b ∈ s.corruptedBlocks ↔
      (∃ P ∈ s.pageList, b ∈ s.pageBlocks P) ∧ ¬ s.padsIntact b := by
    intro b
    unfold ObjectAllocator.corruptedBlocks
    rw [List.mem_filter, mem_allBlocks]
    simp
  refine ⟨?_, ?_, hmem, ?_, ?_⟩
  · unfold ObjectAllocator.corruptedBlocks ValidatePages
    rw [h.pageList_eq]
    rw [validate_pages h.wf pages walkFuel s.PageList_ 0 [] h.pageRep h.pages_lt (by norm_num)]
    simp
  · unfold ObjectAllocator.corruptedBlocks
    rw [h.pageList_eq]
    exact (h.allBlocks_nodup pages (fun P hP => hP) h.pageNodup).filter _
  · intro b hb hf
    rw [h.freeList_eq] at hf
    exact ((hmem b).1 hb).2 (h.freePads b hf)
  · intro h0
    apply List.eq_nil_iff_forall_not_mem.2
    intro b hb
    apply ((hmem b).1 hb).2
    intro k hk
    omega

/-! ### What the headers hold -/

/-- Reading back a little-endian value gives what was stored, reduced to the
width. -/
theorem readLE_writeLE_mod (n : Nat) :
    ∀ (m : Memory) (a v : Nat), readLE (writeLE m a n v) a n = v % 256 ^ n := by
  induction n with
  | zero => intro m a v; simp [readLE, Nat.mod_one]
  | succ n ih =>
    intro m a v
    simp only [readLE]
    have e1 : writeLE m a (n + 1) v a = v % 256 := by
      rw [writeLE_in m a (n + 1) v a (le_refl a) (by omega)]
      simp
    have e2 : readLE (writeLE m a (n + 1) v) (a + 1) n
        = readLE (writeLE m (a + 1) n (v / 256)) (a + 1) n := by
      apply readLE_congr
      intro k hk
      rw [writeLE_in m a (n + 1) v (a + 1 + k) (by omega) (by omega),
        writeLE_in m (a + 1) n (v / 256) (a + 1 + k) (by omega) (by omega)]
      rw [show a + 1 + k - a = k + 1 by omega, show a + 1 + k - (a + 1) = k by omega]
      rw [Nat.div_div_eq_div_mul, pow_succ, Nat.mul_comm]
    rw [e1, e2, ih, Nat.mod_mod, pow_succ', Nat.mod_mul]

/-- The header fields of a block depend only on the bytes of its header. -/
theorem header_congr {s s' : ObjectAllocator} (hw : WellFormed s) (hl : SameLayout s s')
    {b : Nat}
    (hm : ∀ x, s.headerAddr b ≤ x → x < s.headerAddr b + s.Config_.HBlockInfo_.size_ →
      s'.mem x = s.mem x) :
    (s.Config_.HBlockInfo_.type_ = .hbBasic →
      s'.basicAllocNum b = s.basicAllocNum b ∧ s'.basicFlag b = s.basicFlag b) ∧
    (s.Config_.HBlockInfo_.type_ = .hbExtended → s'.useCount b = s.useCount b) := by
  have eh : s'.headerAddr b = s.headerAddr b := by
    unfold ObjectAllocator.headerAddr
    rw [hl.1]
  constructor
  · intro ht
    have := hw.basic ht
    unfold ObjectAllocator.basicAllocNum ObjectAllocator.basicFlag
    rw [eh]
    refine ⟨readLE_congr _ _ _ _ (fun k hk => hm _ (by omega) (by omega)), ?_⟩
    exact hm _ (by omega) (by omega)
  · intro ht
    have := hw.extended ht
    unfold ObjectAllocator.useCount
    rw [eh, hl.1]
    exact readLE_congr _ _ _ _ (fun k hk => hm _ (by omega) (by omega))

/-- What `BlockHeaderCheck` leaves in a basic header (the allocation counter
and the flag) and in an extended header (the use counter, one more than
before). -/
theorem BlockHeaderCheck_content {s s' : ObjectAllocator} {p : Nat} {label : Option String}
    {host : HostAlloc} (hA : s.Stats_.Allocations_ < 2 ^ 32)
    (hres : BlockHeaderCheck s p label host = .ok () s') :
    (s.Config_.HBlockInfo_.type_ = .hbBasic →
      s'.basicAllocNum p = s.Stats_.Allocations_ ∧ s'.basicFlag p = 1) ∧
    (s.Config_.HBlockInfo_.type_ = .hbExtended →
      s'.useCount p = (s.useCount p + 1) % 65536) := by
  constructor
  · intro ht
    unfold BlockHeaderCheck at hres
    simp only [ht, if_false, reduceCtorEq] at hres
    injection hres with _ e
    subst e
    unfold ObjectAllocator.basicAllocNum ObjectAllocator.basicFlag ObjectAllocator.headerAddr
    dsimp only
    constructor
    · rw [readLE_congr (writeLE s.mem (p - s.Config_.PadBytes_ - s.Config_.HBlockInfo_.size_) 4
        s.Stats_.Allocations_) _ 4 _ (fun k hk => writeLE_out _ _ _ _ _ (by omega))]
      exact readLE_writeLE_same 4 _ _ _ (by norm_num at hA ⊢; exact hA)
    · rw [writeLE_in _ _ _ _ _ (le_refl _) (by omega)]
      simp
  · intro ht
    unfold BlockHeaderCheck at hres
    simp only [ht, if_false, reduceCtorEq] at hres
    injection hres with _ e
    subst e
    unfold ObjectAllocator.useCount ObjectAllocator.headerAddr
    dsimp only
    rw [readLE_congr (writeLE s.mem (p - s.Config_.PadBytes_ - s.Config_.HBlockInfo_.size_
        + s.Config_.HBlockInfo_.additional_) 2 (readLE s.mem (p - s.Config_.PadBytes_
          - s.Config_.HBlockInfo_.size_ + s.Config_.HBlockInfo_.additional_) 2 + 1)) _ 2 _
      (fun k hk => by
        rw [writeLE_out _ _ _ _ _ (by omega), writeLE_out _ _ _ _ _ (by omega)])]
    rw [readLE_writeLE_mod]
    norm_num

/-- The statement about the headers, block by block: a block of the new state
either has the header bytes, the place (on the free list or not) and the count
it had, or satisfies the statement outright. -/
theorem HeaderInv.transfer {s s' : ObjectAllocator} {pages free R pages' free' R' : List Nat}
    (hw : WellFormed s) (hl : SameLayout s s') (h : HeaderInv s pages free R)
    (hb : ∀ P ∈ pages', ∀ b ∈ s.pageBlocks P,
      (P ∈ pages ∧
        (∀ x, s.headerAddr b ≤ x → x < s.headerAddr b + s.Config_.HBlockInfo_.size_ →
          s'.mem x = s.mem x) ∧
        (b ∈ free' ↔ b ∈ free) ∧ R'.count b = R.count b) ∨
      ((s.Config_.HBlockInfo_.type_ = .hbBasic →
          (b ∈ free' → s'.basicAllocNum b = 0 ∧ s'.basicFlag b = 0) ∧
          (b ∉ free' → s'.basicFlag b = 1)) ∧
        (s.Config_.HBlockInfo_.type_ = .hbExtended → s'.useCount b = R'.count b % 65536))) :
    HeaderInv s' pages' free' R' := by
  intro P hP b hbP
  rw [hl.pageBlocks] at hbP
  rw [hl.1]
  rcases hb P hP b hbP with ⟨hPm, hm, hf, hc⟩ | hd
  · obtain ⟨c1, c2⟩ := header_congr hw hl hm
    obtain ⟨i1, i2⟩ := h P hPm b hbP
    constructor
    · intro ht
      obtain ⟨e1, e2⟩ := c1 ht
      rw [e1, e2, hf]
      exact i1 ht
    · intro ht
      rw [c2 ht, hc]
      exact i2 ht
  · exact hd

/-- The header of a block lies outside the header and the object region of
any other block. -/
theorem Inv.header_other {s : ObjectAllocator} {pages free : List Nat} (h : Inv s pages free)
    {P Q b p : Nat} (hP : P ∈ pages) (hb : b ∈ s.pageBlocks P) (hQ : Q ∈ pages)
    (hp : p ∈ s.pageBlocks Q) (hne : b ≠ p) {x : Nat}
    (hx1 : s.headerAddr b ≤ x) (hx2 : x < s.headerAddr b + s.Config_.HBlockInfo_.size_) :
    x + s.Config_.PadBytes_ + s.Config_.HBlockInfo_.size_ < p ∨
      p + s.Stats_.ObjectSize_ + s.Config_.PadBytes_ ≤ x := by
  have z := zone_in_page h.wf hb
  unfold ObjectAllocator.headerAddr at hx1 hx2
  have hPQ : P = Q ∨ P + s.Stats_.PageSize_ ≤ Q ∨ Q + s.Stats_.PageSize_ ≤ P := by
    by_cases e' : P = Q
    · exact Or.inl e'
    · exact Or.inr (h.pageDisjoint P hP Q hQ e')
  rcases zones_disjoint h.wf hPQ hb hp hne with d | d
  · left; omega
  · right; omega

/-- A block belongs to one page only. -/
theorem Inv.block_page {s : ObjectAllocator} {pages free : List Nat} (h : Inv s pages free)
    {P Q b : Nat} (hP : P ∈ pages) (hQ : Q ∈ pages) (hb : b ∈ s.pageBlocks P)
    (hin : s.inPage Q b) : P = Q := by
  by_contra hne
  have i1 := inPage_of_block h.wf hb
  unfold ObjectAllocator.inPage at i1 hin
  rcases h.pageDisjoint P hP Q hQ hne with d | d <;> omega

/-- What a successful `Allocate.finish` is made of. -/
theorem finish_ok {s1 s' : ObjectAllocator} {label : Option String} {host : HostAlloc} {p : Nat}
    (hres : Allocate.finish s1 label host = .ok p s') :
    s1.FreeList_ = p ∧ BlockHeaderCheck (Allocate.take s1) p label host = .ok () s' := by
  unfold Allocate.finish at hres
  by_cases h0 : s1.FreeList_ = 0
  · rw [if_pos h0] at hres
    cases hres
  · rw [if_neg h0] at hres
    cases hc : BlockHeaderCheck (Allocate.take s1) s1.FreeList_ label host with
    | ok v s3 =>
      rw [hc] at hres
      injection hres with e1 e2
      subst e1 e2
      exact ⟨rfl, hc⟩
    | throw e s3 => rw [hc] at hres; cases hres
    | undefined => rw [hc] at hres; cases hres

/-- The headers after the head of the free list has been handed out. -/
theorem HeaderInv.finish {s1 s' : ObjectAllocator} {pages tail R : List Nat} {p : Nat}
    (h : Inv s1 pages (p :: tail)) (hh : HeaderInv s1 pages (p :: tail) R)
    {label : Option String} {host : HostAlloc}
    (hres : Allocate.finish s1 label host = .ok p s') :
    HeaderInv s' pages tail (p :: R) := by
  have hw := h.wf
  obtain ⟨s'', hr, _, hl, _, _, hm⟩ := finish_spec h label host
  have e : s'' = s' := by
    rcases hr with hr | ⟨hr, _⟩
    · rw [hres] at hr
      injection hr with _ e
      exact e.symm
    · rw [hres] at hr
      cases hr
  subst e
  obtain ⟨hfl, hchk⟩ := finish_ok hres
  obtain ⟨Q, hQ, hpQ⟩ := h.freeBlock p (List.mem_cons_self _ _)
  have hnd := List.nodup_cons.1 h.freeNodup
  obtain ⟨tm, _, _, tC, ⟨tS1, tS2, _, _, _⟩, _⟩ := take_fields s1
  have hlt : SameLayout s1 (Allocate.take s1) := ⟨tC, tS1, tS2⟩
  have hA : (Allocate.take s1).Stats_.Allocations_ < 2 ^ 32 := by
    show incU32 _ < _
    unfold incU32
    exact Nat.mod_lt _ (by norm_num)
  obtain ⟨c1, c2⟩ := BlockHeaderCheck_content hA hchk
  rw [tC] at c1 c2
  have zp := zone_in_page hw hpQ
  obtain ⟨_, t2⟩ := header_congr (b := p) hw hlt (by
    intro x hx1 hx2
    unfold ObjectAllocator.headerAddr at hx1 hx2
    rw [tm, hfl, memset_out _ _ _ _ _ (by omega)])
  apply HeaderInv.transfer hw hl hh
  intro P hP b hb
  by_cases hbp : b = p
  · subst hbp
    right
    constructor
    · intro ht
      exact ⟨fun hn => absurd hn hnd.1, fun _ => (c1 ht).2⟩
    · intro ht
      rw [c2 ht, t2 ht, (hh P hP b hb).2 ht, List.count_cons_self]
      omega
  · left
    refine ⟨hP, ?_, ?_, List.count_cons_of_ne hbp R⟩
    · intro x hx1 hx2
      apply hm
      rcases h.header_other hP hb hQ hpQ hbp hx1 hx2 with d | d
      · left; exact d
      · right; right; omega
    · rw [List.mem_cons]
      constructor
      · exact Or.inr
      · rintro (c | c)
        · exact absurd c hbp
        · exact c

/-- What a successful `Allocate` leaves in the statistics and in a basic
header. -/
theorem Inv.allocate_basic {s : ObjectAllocator} {pages free : List Nat} (h : Inv s pages free)
    (hb : s.Config_.HBlockInfo_.type_ = .hbBasic) {label : Option String} {host : HostAlloc}
    (hf : Fresh s pages host) {p : Nat} {s' : ObjectAllocator}
    (ha : Allocate s label host = .ok p s') :
    s'.Stats_.Allocations_ = incU32 s.Stats_.Allocations_ ∧
    s'.basicAllocNum p = s'.Stats_.Allocations_ ∧ s'.basicFlag p = 1 := by
  rw [Allocate_eq h.wf.bypass] at ha
  have fin : ∀ {s1 : ObjectAllocator}, s1.Config_ = s.Config_ →
      s1.Stats_.Allocations_ = s.Stats_.Allocations_ →
      Allocate.finish s1 label host = .ok p s' →
      s'.Stats_.Allocations_ = incU32 s.Stats_.Allocations_ ∧
      s'.basicAllocNum p = s'.Stats_.Allocations_ ∧ s'.basicFlag p = 1 := by
    intro s1 hc hA hfin
    obtain ⟨_, hchk⟩ := finish_ok hfin
    obtain ⟨_, _, _, tC, _, _⟩ := take_fields s1
    have hA' : (Allocate.take s1).Stats_.Allocations_ = incU32 s.Stats_.Allocations_ := by
      show incU32 _ = _
      rw [hA]
    obtain ⟨c1, _⟩ := BlockHeaderCheck_content (by
      rw [hA']
      unfold incU32
      exact Nat.mod_lt _ (by norm_num)) hchk
    obtain ⟨e1, e2⟩ := c1 (by rw [tC, hc]; exact hb)
    obtain ⟨s'', hres, _, _, _, eS⟩ := BlockHeaderCheck_fields (Allocate.take s1) p label host
    have e : s'' = s' := by
      rcases hres with hr | ⟨hr, _⟩
      · rw [hchk] at hr
        injection hr with _ e
        exact e.symm
      · rw [hchk] at hr
        cases hr
    subst e
    rw [eS]
    exact ⟨hA', e1, e2⟩
  rcases paged_spec h hf with ⟨_, hp⟩ | ⟨_, _, hp⟩ | ⟨_, _, _, hp⟩ |
    ⟨_, _, N, s1, _, hp, _, a3, _, _, a6, _⟩
  · rw [hp] at ha
    exact fin rfl rfl ha
  · rw [hp] at ha
    cases ha
  · rw [hp] at ha
    cases ha
  · rw [hp] at ha
    exact fin a3.1 (by rw [a6]) ha

/-! ## The properties, continued: headers, checks and walks -/

/-- C28: `Free` applies its three checks in the order double free, boundary,
corruption. In non-bypass mode, in any state whose free list and page list end
(whatever the bytes of the pads and of the rest of memory), for every non-null
pointer: a pointer on the free list makes `Free` throw `E_MULTIPLE_FREE`; a
pointer not on the free list that lies in no page makes it throw
`E_BAD_BOUNDARY`; and `E_CORRUPTED_BLOCK` is thrown only for a pointer that is
not on the free list, lies in a page and has a damaged pad. Each time the
allocator is left as it was. -/
theorem free_checks_in_order (s : ObjectAllocator) (pages free : List Nat) (p : Nat)
    (host : HostAlloc) (hb : s.Config_.UseCPPMemManager_ = false) (hp : p ≠ 0)
    (hF : chain s.mem walkFuel s.FreeList_ = some free)
    (hP : chain s.mem walkFuel s.PageList_ = some pages) :
    (p ∈ free → Free s p host = .throw (.oa .E_MULTIPLE_FREE) s) ∧
    (p ∉ free → (∀ P ∈ pages, ¬ s.inPage P p) →
      Free s p host = .throw (.oa .E_BAD_BOUNDARY) s) ∧
    (∀ s', Free s p host = .throw (.oa .E_CORRUPTED_BLOCK) s' →
      s' = s ∧ p ∉ free ∧ (∃ P ∈ pages, s.inPage P p) ∧ ¬ s.padsIntact p) := by
  have e1 : CheckErrorFree s p = some (decide (p ∈ free)) :=
    checkErrorFree_loop (listRep_of_chain hF) (chain_length_lt hF)
  have e2 : CheckBlockBoundary s p = some (decide (∀ P ∈ pages, ¬ s.inPage P p)) :=
    checkBlockBoundary_loop (listRep_of_chain hP) (chain_length_lt hP)
  rw [Free_eq hb hp, e1, e2]
  refine ⟨?_, ?_, ?_⟩
  · intro h1
    rw [decide_eq_true h1]
  · intro h1 h2
    rw [decide_eq_false h1, decide_eq_true h2]
  · intro s' hs
    by_cases h1 : p ∈ free
    · rw [decide_eq_true h1] at hs
      cases hs
    · rw [decide_eq_false h1] at hs
      by_cases h2 : ∀ P ∈ pages, ¬ s.inPage P p
      · rw [decide_eq_true h2] at hs
        cases hs
      · rw [decide_eq_false h2] at hs
        have h2' : ∃ P ∈ pages, s.inPage P p := by
          by_contra hc
          exact h2 (fun P hP hin => hc ⟨P, hP, hin⟩)
        by_cases h3 : s.padsIntact p
        · have hc := (corruptedCheck_iff s p).2 h3
          simp only [hc, Bool.false_eq_true, if_false] at hs
          obtain ⟨s'', hres, _⟩ := BlockHeaderCheckFree_fields (Free.push s p) p host
          rcases hres with hres | ⟨hres, _⟩
          · rw [hres] at hs
            cases hs
          · rw [hres] at hs
            cases hs
        · have hc : CorruptedCheck s p = true := by
            cases hc : CorruptedCheck s p with
            | true => rfl
            | false => exact absurd ((corruptedCheck_iff s p).1 hc) h3
          simp only [hc, if_true] at hs
          have e : s = s' := by
            injection hs
          exact ⟨e.symm, h1, h2', h3⟩

theorem free_checks_in_order_witness :
    exFreeCorrupt.Config_.UseCPPMemManager_ = false ∧ (4128 : Nat) ≠ 0 ∧
    chain exFreeCorrupt.mem walkFuel exFreeCorrupt.FreeList_ = some [4128, 4111] ∧
    chain exFreeCorrupt.mem walkFuel exFreeCorrupt.PageList_ = some [4096] ∧
    ¬ exFreeCorrupt.padsIntact 4128 ∧
    ((4128 ∈ [4128, 4111] →
        Free exFreeCorrupt 4128 exHostNone = .throw (.oa .E_MULTIPLE_FREE) exFreeCorrupt) ∧
      (4128 ∉ [4128, 4111] → (∀ P ∈ [4096], ¬ exFreeCorrupt.inPage P 4128) →
        Free exFreeCorrupt 4128 exHostNone = .throw (.oa .E_BAD_BOUNDARY) exFreeCorrupt) ∧
      (∀ s', Free exFreeCorrupt 4128 exHostNone = .throw (.oa .E_CORRUPTED_BLOCK) s' →
        s' = exFreeCorrupt ∧ 4128 ∉ [4128, 4111] ∧ (∃ P ∈ [4096], exFreeCorrupt.inPage P 4128) ∧
          ¬ exFreeCorrupt.padsIntact 4128)) :=
  ⟨rfl, by decide, by decide, by decide, by decide,
    free_checks_in_order exFreeCorrupt [4096] [4128, 4111] 4128 exHostNone rfl (by decide)
      (by decide) (by decide)⟩

/-- A counterexample to C30 as stated: with alignment 0 the function does not
return 0, it computes a remainder by zero, which is undefined. -/
theorem calculatePadding_zero_alignment : CalculatePadding 5 0 ≠ some 0 := by
  decide

/-- C30, amended: for every offset and every alignment greater than 0,
`CalculatePadding(offset, alignment)` returns the smallest `p` such that
`offset + p` is a multiple of the alignment, and `p < alignment`. For alignment
0 the function is not defined; the constructor calls it only when the alignment
is positive. -/
theorem calculatePadding_smallest (offset alignment : Nat) (h : 0 < alignment) :
    ∃ p, CalculatePadding offset alignment = some p ∧ (offset + p) % alignment = 0 ∧
      p < alignment ∧ ∀ q, (offset + q) % alignment = 0 → p ≤ q :=
  CalculatePadding_least offset h

theorem calculatePadding_smallest_witness :
    0 < 8 ∧ CalculatePadding 13 8 = some 3 ∧
    ∃ p, CalculatePadding 13 8 = some p ∧ (13 + p) % 8 = 0 ∧
      p < 8 ∧ ∀ q, (13 + q) % 8 = 0 → p ≤ q :=
  ⟨by decide, by decide, calculatePadding_smallest 13 8 (by decide)⟩

/-- A counterexample to C24 as stated: the first `Allocate` of the allocator
`exStart`, whose `Allocations` counter is 0 before the call, returns 4128 with
the flag of its basic header set and allocation number 1, the value of the
counter after the call, not 0. -/
theorem basic_header_counterexample :
    Allocate exStart none exHostNone = .ok 4128 exOne ∧
    exStart.Config_.HBlockInfo_.type_ = .hbBasic ∧ exStart.Stats_.Allocations_ = 0 ∧
    exOne.basicFlag 4128 = 1 ∧ exOne.basicAllocNum 4128 = 1 ∧
    exOne.basicAllocNum 4128 ≠ exStart.Stats_.Allocations_ :=
  ⟨rfl, rfl, by decide, by decide, by decide, by decide⟩

/-- C24, amended: with a basic header, an `Allocate` that returns, called in a
reachable state, increments the `Allocations` counter first and then writes
into the header of the returned block the value the counter has after the
increment, together with the flag set. -/
theorem basic_header_after_allocate {s : ObjectAllocator} {R : List Nat} (hr : Reachable s R)
    (hb : s.Config_.HBlockInfo_.type_ = .hbBasic) (label : Option String) (host : HostAlloc)
    (hf : FreshStorage s host) {p : Nat} {s' : ObjectAllocator}
    (ha : Allocate s label host = .ok p s') :
    s'.Stats_.Allocations_ = incU32 s.Stats_.Allocations_ ∧
    s'.basicAllocNum p = s'.Stats_.Allocations_ ∧ s'.basicFlag p = 1 := by
  obtain ⟨pages, free, hi, _⟩ := hr.inv
  exact hi.allocate_basic hb (hi.fresh_of_freshStorage hf) ha

theorem basic_header_after_allocate_witness :
    Reachable exOne [4128] ∧ exOne.Config_.HBlockInfo_.type_ = .hbBasic ∧
    FreshStorage exOne exHostNone ∧ Allocate exOne none exHostNone = .ok 4111 exTwo ∧
    exTwo.basicAllocNum 4111 = 2 ∧
    (exTwo.Stats_.Allocations_ = incU32 exOne.Stats_.Allocations_ ∧
      exTwo.basicAllocNum 4111 = exTwo.Stats_.Allocations_ ∧ exTwo.basicFlag 4111 = 1) :=
  ⟨exOne_reachable, rfl, by decide, rfl, by decide,
    basic_header_after_allocate exOne_reachable rfl none exHostNone (by decide) rfl⟩

/-- C27, what the code does: with external headers, `Allocate("x")` attaches
the record at 20000 to the block at 4128; the `Free(4128)` that follows
returns and leaves the pointer in the header null, but the record of
`Allocate`, with its label, is still live: `Free` has overwritten the pointer
with a record of its own and released that one. One record is live while no
object is in use. -/
theorem external_record_leaks :
    exX.Config_.HBlockInfo_.type_ = .hbExternal ∧
    (Allocate exX (some "x") exHostX).value? = some 4128 ∧
    exXA.externalHeader 4128 = 20000 ∧
    exXA.infos = [(20000, { in_use := true, alloc_num := 1, label := some "x" })] ∧
    exXA.Stats_.ObjectsInUse_ = 1 ∧
    (Free exXA 4128 exHostY).value? = some () ∧
    exXAF.externalHeader 4128 = 0 ∧
    exXAF.infos = [(20000, { in_use := true, alloc_num := 1, label := some "x" })] ∧
    exXAF.Stats_.ObjectsInUse_ = 0 ∧ exXAF.infos.length ≠ exXAF.Stats_.ObjectsInUse_ :=
  ⟨rfl, by decide, by decide, by decide, by decide, by decide, by decide, by decide, by decide,
    by decide⟩

/-- C29: in every reachable state `ValidatePages`, a `const` walk that only
reads, calls the callback exactly once for each block of each page of the page
list that has a pad byte different from the pad pattern, with the address of
the block and `ObjectSize`, and returns the number of these blocks (as an
`unsigned`; the number itself when it is below `2^32`). With `PadBytes = 0` it
returns 0 and never calls the callback. -/
theorem validatePages_counts_corrupted {s : ObjectAllocator} {R : List Nat}
    (hr : Reachable s R) :
    ValidatePages s = some (s.corruptedBlocks.length % 2 ^ 32,
      s.corruptedBlocks.map (fun b => (b, s.Stats_.ObjectSize_))) ∧
    (s.corruptedBlocks.length < 2 ^ 32 →
      ValidatePages s = some (s.corruptedBlocks.length,
        s.corruptedBlocks.map (fun b => (b, s.Stats_.ObjectSize_)))) ∧
    s.corruptedBlocks.Nodup ∧
    (∀ b, b ∈ s.corruptedBlocks ↔ (∃ P ∈ s.pageList, b ∈ s.pageBlocks P) ∧ ¬ s.padsIntact b) ∧
    (s.Config_.PadBytes_ = 0 → ValidatePages s = some (0, [])) := by
  obtain ⟨pages, free, hi, _⟩ := hr.inv
  obtain ⟨h1, h2, h3, _, h5⟩ := hi.validatePages
  refine ⟨h1, ?_, h2, h3, ?_⟩
  · intro hlt
    rw [h1, Nat.mod_eq_of_lt hlt]
  · intro h0
    rw [h1, h5 h0]
    rfl

theorem validatePages_counts_corrupted_witness :
    Reachable exCorrupt [4128] ∧ ValidatePages exCorrupt = some (1, [(4128, 8)]) ∧
    (ValidatePages exCorrupt = some (exCorrupt.corruptedBlocks.length % 2 ^ 32,
      exCorrupt.corruptedBlocks.map (fun b => (b, exCorrupt.Stats_.ObjectSize_))) ∧
    (exCorrupt.corruptedBlocks.length < 2 ^ 32 →
      ValidatePages exCorrupt = some (exCorrupt.corruptedBlocks.length,
        exCorrupt.corruptedBlocks.map (fun b => (b, exCorrupt.Stats_.ObjectSize_)))) ∧
    exCorrupt.corruptedBlocks.Nodup ∧
    (∀ b, b ∈ exCorrupt.corruptedBlocks ↔
      (∃ P ∈ exCorrupt.pageList, b ∈ exCorrupt.pageBlocks P) ∧ ¬ exCorrupt.padsIntact b) ∧
    (exCorrupt.Config_.PadBytes_ = 0 → ValidatePages exCorrupt = some (0, []))) :=
  ⟨exCorrupt_reachable, by decide, validatePages_counts_corrupted exCorrupt_reachable⟩

/-! ### The layout the constructor computes -/

theorem CalculateTotalPageSize_eq (left block opp inter : Nat)
    (h : pointer_size + left + block * opp < 2 ^ 64) (hi : inter ≤ block) :
    CalculateTotalPageSize pointer_size left block opp inter
      = if opp > 1 then pointer_size + left + block * opp - inter
        else pointer_size + left + block * opp := by
  have hp : pointer_size = 8 := rfl
  have hB : 1 ≤ opp → block ≤ block * opp := fun h => Nat.le_mul_of_pos_right _ h
  unfold CalculateTotalPageSize
  generalize block * opp = T at h hB
  norm_num at h ⊢
  have e3 : (pointer_size + left + T) % 18446744073709551616 = pointer_size + left + T :=
    Nat.mod_eq_of_lt (by omega)
  by_cases h1 : 1 < opp
  · have := hB (by omega)
    rw [if_pos h1, if_pos h1, e3, if_pos (by omega)]
  · rw [if_neg h1, if_neg h1, e3]

/-- The layout of the allocator the constructor sets up, in either mode: the
members of the configuration are those passed in, except for the two alignment
sizes, which are computed when an alignment is asked for; the page size is the
one of `pageSizeOf`. -/
theorem construct_layout {ObjectSize : Nat} {config : OAConfig} (m : Memory) (host : HostAlloc)
    (hv : ValidConfig ObjectSize config) :
    ∃ s0, ObjectAllocator.construct ObjectSize config m host
        = (if ¬ config.UseCPPMemManager_ then AllocateNewPage s0 host.storage else .ok () s0) ∧
      s0.Stats_.ObjectSize_ = ObjectSize ∧
      s0.Config_.ObjectsPerPage_ = config.ObjectsPerPage_ ∧
      s0.Config_.PadBytes_ = config.PadBytes_ ∧
      s0.Config_.HBlockInfo_ = config.HBlockInfo_ ∧
      s0.Config_.Alignment_ = config.Alignment_ ∧
      s0.Config_.UseCPPMemManager_ = config.UseCPPMemManager_ ∧
      (0 < config.Alignment_ → s0.Config_.LeftAlignSize_ < config.Alignment_ ∧
        s0.Config_.InterAlignSize_ < config.Alignment_) ∧
      (config.Alignment_ = 0 → s0.Config_.LeftAlignSize_ = 0 ∧
        s0.Config_.InterAlignSize_ = 0) ∧
      Aligned s0.Config_ ObjectSize ∧
      s0.Stats_.PageSize_ = pageSizeOf s0.Config_ ObjectSize := by
  obtain ⟨v1, v2, v3, v4, v5, v6, v7, v9, v8⟩ := hv
  have hp : pointer_size = 8 := rfl
  have hmid : (config.HBlockInfo_.size_ + (2 * config.PadBytes_) % 2 ^ 32 + ObjectSize) % 2 ^ 64
      = config.HBlockInfo_.size_ + 2 * config.PadBytes_ + ObjectSize := by
    norm_num at v4 v9 ⊢
    omega
  by_cases ha : config.Alignment_ > 0
  · have hsz : (pointer_size + config.HBlockInfo_.size_ + config.PadBytes_) % 2 ^ 64
        = pointer_size + config.HBlockInfo_.size_ + config.PadBytes_ := by
      norm_num at v9 ⊢
      omega
    obtain ⟨p1, e1, m1, l1, _⟩ := CalculatePadding_least
      (pointer_size + config.HBlockInfo_.size_ + config.PadBytes_) ha
    obtain ⟨p2, e2, m2, l2, _⟩ := CalculatePadding_least
      (config.HBlockInfo_.size_ + 2 * config.PadBytes_ + ObjectSize) ha
    have hq1 : p1 % 2 ^ 32 = p1 := Nat.mod_eq_of_lt (by omega)
    have hq2 : p2 % 2 ^ 32 = p2 := Nat.mod_eq_of_lt (by omega)
    have hmid2 : (config.HBlockInfo_.size_ + 2 * config.PadBytes_ + ObjectSize + p2) % 2 ^ 64
        = config.HBlockInfo_.size_ + 2 * config.PadBytes_ + ObjectSize + p2 :=
      Nat.mod_eq_of_lt (by omega)
    have hmulA : (config.HBlockInfo_.size_ + 2 * config.PadBytes_ + ObjectSize + p2)
        * config.ObjectsPerPage_ ≤ (config.HBlockInfo_.size_ + 2 * config.PadBytes_ + ObjectSize
          + config.Alignment_) * config.ObjectsPerPage_ :=
      Nat.mul_le_mul_right _ (by omega)
    have hcp := CalculateTotalPageSize_eq p1
      (config.HBlockInfo_.size_ + 2 * config.PadBytes_ + ObjectSize + p2)
      config.ObjectsPerPage_ p2 (by omega) (by omega)
    unfold ObjectAllocator.construct
    simp only [ha, if_true, hsz, e1, e2, hmid, hq1, hq2, hmid2]
    refine ⟨_, rfl, rfl, rfl, rfl, rfl, rfl, rfl, fun _ => ⟨l1, l2⟩,
      fun h0 => absurd h0 (by omega), ?_, ?_⟩
    · intro _
      refine ⟨?_, m2⟩
      show (pointer_size + p1 + config.HBlockInfo_.size_ + config.PadBytes_)
        % config.Alignment_ = 0
      rw [← m1]
      congr 1
      omega
    · exact hcp
  · have ha0 : config.Alignment_ = 0 := by omega
    obtain ⟨l0, i0⟩ := v7 ha0
    have hcp := CalculateTotalPageSize_eq config.LeftAlignSize_
      (config.HBlockInfo_.size_ + 2 * config.PadBytes_ + ObjectSize)
      config.ObjectsPerPage_ config.InterAlignSize_
      (by rw [l0]; simp only [ha0, Nat.add_zero] at v8; omega) (by rw [i0]; omega)
    unfold ObjectAllocator.construct
    simp only [ha, if_false, hmid]
    refine ⟨_, rfl, rfl, rfl, rfl, rfl, rfl, rfl, fun h0 => h0.elim,
      fun _ => ⟨l0, i0⟩, fun h0 => absurd h0 ha, ?_⟩
    show CalculateTotalPageSize pointer_size config.LeftAlignSize_
      (config.HBlockInfo_.size_ + 2 * config.PadBytes_ + ObjectSize) config.ObjectsPerPage_
      config.InterAlignSize_ = pageSizeOf config ObjectSize
    rw [hcp]
    unfold pageSizeOf
    simp only [i0, Nat.add_zero]

/-- The layout of the allocator the constructor leaves behind, whether it
returns or throws. -/
theorem construct_state_layout {ObjectSize : Nat} {config : OAConfig} {m : Memory}
    {host : HostAlloc} (hv : ValidConfig ObjectSize config) {s : ObjectAllocator}
    (hs : (ObjectAllocator.construct ObjectSize config m host).state? = some s) :
    s.Stats_.ObjectSize_ = ObjectSize ∧
    s.Config_.ObjectsPerPage_ = config.ObjectsPerPage_ ∧
    s.Config_.PadBytes_ = config.PadBytes_ ∧
    s.Config_.HBlockInfo_ = config.HBlockInfo_ ∧
    s.Config_.Alignment_ = config.Alignment_ ∧
    (0 < config.Alignment_ → s.Config_.LeftAlignSize_ < config.Alignment_ ∧
      s.Config_.InterAlignSize_ < config.Alignment_) ∧
    (config.Alignment_ = 0 → s.Config_.LeftAlignSize_ = 0 ∧ s.Config_.InterAlignSize_ = 0) ∧
    Aligned s.Config_ ObjectSize ∧
    s.Stats_.PageSize_ = pageSizeOf s.Config_ ObjectSize := by
  obtain ⟨s0, e0, a1, a2, a3, a4, a5, a6, a7, a8, a9, a10⟩ := construct_layout m host hv
  rw [e0] at hs
  have key : SameLayout s0 s := by
    by_cases hb : config.UseCPPMemManager_ = true
    · rw [if_neg (by simp [hb])] at hs
      have e : s0 = s := by simpa [Result.state?] using hs
      subst e
      exact SameLayout.refl _
    · rw [if_pos hb] at hs
      cases hst : host.storage with
      | none =>
        rw [hst] at hs
        have e : s0 = s := by simpa [AllocateNewPage, Result.state?] using hs
        subst e
        exact SameLayout.refl _
      | some N =>
        rw [hst] at hs
        obtain ⟨s1, hs1⟩ : ∃ s1, AllocateNewPage s0 (some N) = .ok () s1 :=
          ⟨_, AllocateNewPage_eq s0 N⟩
        rw [hs1] at hs
        have e : s1 = s := by simpa [Result.state?] using hs
        subst e
        exact AllocateNewPage_layout hs1
  obtain ⟨k1, k2, k3⟩ := key
  rw [k1, k2, k3]
  exact ⟨a1, a2, a3, a4, a5, a7, a8, a9, a10⟩

/-- A statement about the layout (configuration, object size, page size) that
holds when the constructor returns holds in every reachable state: no call
changes the layout. -/
theorem Reachable.layout (Q : OAConfig → Nat → Nat → Prop)
    (h0 : ∀ (ObjectSize : Nat) (config : OAConfig) (m : Memory) (host : HostAlloc)
      (s : ObjectAllocator), ValidConfig ObjectSize config →
      ObjectAllocator.construct ObjectSize config m host = .ok () s →
      Q s.Config_ s.Stats_.ObjectSize_ s.Stats_.PageSize_)
    {s : ObjectAllocator} {R : List Nat} (hr : Reachable s R) :
    Q s.Config_ s.Stats_.ObjectSize_ s.Stats_.PageSize_ := by
  induction hr with
  | construct ObjectSize config m host s hv hb hc hh => exact h0 _ _ _ _ _ hv hc
  | allocate s R label host s' hprev hf hst ih =>
    obtain ⟨pages, free, hi, _⟩ := hprev.inv
    obtain ⟨_, _, _, ⟨k1, k2, k3⟩, _⟩ := Allocate_inv hi (hi.fresh_of_freshStorage hf) hst
    rw [k1, k2, k3]
    exact ih
  | free s R p host s' hprev hp hst ih =>
    obtain ⟨pages, free, hi, hR⟩ := hprev.inv
    have hp' : p = 0 ∨ (∃ P ∈ pages, p ∈ s.pageBlocks P) ∨ ∀ P ∈ pages, ¬ s.inPage P p := by
      rcases hp with e | e | e
      · exact Or.inl e
      · exact Or.inr (Or.inl (hR p e))
      · refine Or.inr (Or.inr ?_)
        intro P hP hin
        exact e ((hi.owns_iff p).2 ⟨P, hP, hin⟩)
    obtain ⟨_, _, ⟨k1, k2, k3⟩⟩ := Free_inv hi hp' hst
    rw [k1, k2, k3]
    exact ih
  | freeEmptyPages s R s' hprev hst ih =>
    obtain ⟨pages, free, hi, _⟩ := hprev.inv
    obtain ⟨s'', a1, _, ⟨k1, k2, k3⟩, _⟩ := FreeEmptyPages_spec hi
    rw [a1] at hst
    have e : s'' = s' := by simpa [Result.state?] using hst
    subst e
    rw [k1, k2, k3]
    exact ih
  | clientWrite s R p a v _ _ _ _ _ ih => exact ih

/-! ### The page limit -/

/-- In every reachable state the page list is no longer than the page limit,
when there is one. -/
theorem Reachable.pages_bound {s : ObjectAllocator} {R : List Nat} (hr : Reachable s R) :
    ∃ pages free, Inv s pages free ∧
      (0 < s.Config_.MaxPages_ → pages.length ≤ s.Config_.MaxPages_) := by
  induction hr with
  | construct ObjectSize config m host s hv hb hc hh =>
    obtain ⟨N, free, hi, _, _, _⟩ := construct_inv hv hb hc hh
    exact ⟨[N], free, hi, fun h => h⟩
  | allocate s R label host s' _ hf hst ih =>
    obtain ⟨pages, free, hi, hb⟩ := ih
    have hf' := hi.fresh_of_freshStorage hf
    rw [Allocate_eq hi.wf.bypass] at hst
    have fin : ∀ {s1 : ObjectAllocator} {pages1 free1 : List Nat}, Inv s1 pages1 free1 →
        (0 < s1.Config_.MaxPages_ → pages1.length ≤ s1.Config_.MaxPages_) →
        (Allocate.finish s1 label host).state? = some s' →
        ∃ pages' free', Inv s' pages' free' ∧
          (0 < s'.Config_.MaxPages_ → pages'.length ≤ s'.Config_.MaxPages_) := by
      intro s1 pages1 free1 h1 hb1 hst1
      cases free1 with
      | nil =>
        have : s1.FreeList_ = 0 := h1.freeRep
        unfold Allocate.finish at hst1
        rw [if_pos this] at hst1
        cases hst1
      | cons p tail =>
        obtain ⟨s'', hres, b1, b2, _⟩ := finish_spec h1 label host
        have e : s'' = s' := by
          rcases hres with hr | ⟨hr, _⟩ <;>
          · rw [hr] at hst1
            simpa [Result.state?] using hst1
        subst e
        exact ⟨pages1, tail, b1, by rw [b2.1]; exact hb1⟩
    rcases paged_spec hi hf' with ⟨_, hp⟩ | ⟨_, _, hp⟩ | ⟨_, _, _, hp⟩ |
      ⟨h0, hcap, N, s1, hN, hp, a2, a3, _⟩
    · rw [hp] at hst
      exact fin hi hb hst
    · rw [hp] at hst
      have e : s = s' := by simpa [Result.state?] using hst
      subst e
      exact ⟨pages, free, hi, hb⟩
    · rw [hp] at hst
      have e : s = s' := by simpa [Result.state?] using hst
      subst e
      exact ⟨pages, free, hi, hb⟩
    · rw [hp] at hst
      refine fin a2 ?_ hst
      rw [a3.1]
      intro hm
      have h1 := hb hm
      have h2 := hi.cntPages
      have h3 := hi.wf.maxPages
      have h4 : ¬ s.Stats_.PagesInUse_ ≥ s.Config_.MaxPages_ := fun c => hcap ⟨hm, c⟩
      rw [h2, Nat.mod_eq_of_lt (by omega)] at h4
      rw [List.length_cons]
      omega
  | free s R p host s' hprev hp hst ih =>
    obtain ⟨pages, free, hi, hb⟩ := ih
    obtain ⟨pages0, free0, hi0, hR⟩ := hprev.inv
    have e1 : pages0 = pages := ListRep.unique hi0.pageRep hi.pageRep
    subst e1
    have hp' : p = 0 ∨ (∃ P ∈ pages0, p ∈ s.pageBlocks P) ∨ ∀ P ∈ pages0, ¬ s.inPage P p := by
      rcases hp with e | e | e
      · exact Or.inl e
      · exact Or.inr (Or.inl (hR p e))
      · refine Or.inr (Or.inr ?_)
        intro P hP hin
        exact e ((hi.owns_iff p).2 ⟨P, hP, hin⟩)
    obtain ⟨free', b1, b2⟩ := Free_inv hi hp' hst
    exact ⟨pages0, free', b1, by rw [b2.1]; exact hb⟩
  | freeEmptyPages s R s' _ hst ih =>
    obtain ⟨pages, free, hi, hb⟩ := ih
    obtain ⟨s'', a1, a2, a3, _⟩ := FreeEmptyPages_spec hi
    rw [a1] at hst
    have e : s'' = s' := by simpa [Result.state?] using hst
    subst e
    refine ⟨_, _, a2, ?_⟩
    rw [a3.1]
    intro hm
    exact Nat.le_trans (List.length_filter_le _ _) (hb hm)
  | clientWrite s R p a v hprev hpR hpf h1 h2 ih =>
    obtain ⟨pages, free, hi, hb⟩ := ih
    obtain ⟨pages0, free0, hi0, hR⟩ := hprev.inv
    have e1 : pages0 = pages := ListRep.unique hi0.pageRep hi.pageRep
    subst e1
    obtain ⟨P, hP, hbl⟩ := hR p hpR
    rw [hi.freeList_eq] at hpf
    exact ⟨pages0, free, hi.poke hP hbl hpf h1 h2 v, hb⟩

/-! ### `Allocate` never pops an empty free list -/

theorem CleanRun.toReachable {s : ObjectAllocator} {R : List Nat} (hr : CleanRun s R) :
    Reachable s R := by
  induction hr with
  | construct ObjectSize config m host s hv hb hc hh =>
    exact Reachable.construct ObjectSize config m host s hv hb hc hh
  | allocate s R label host s' _ hf hst ih => exact Reachable.allocate s R label host s' ih hf hst
  | free s R p host s' _ hp hst ih => exact Reachable.free s R p host s' ih hp hst
  | freeEmptyPages s R s' _ hst ih => exact Reachable.freeEmptyPages s R s' ih hst
  | clientWrite s R p a v _ hpR hpf h1 h2 ih =>
    exact Reachable.clientWrite s R p a v ih hpR hpf (by omega) (by omega)

/-- The statement about the pad bytes, block by block: a block of the new
state either has the pad bytes it had, or has intact pads outright. -/
theorem PadsInv.carry {s s' : ObjectAllocator} {pages pages' : List Nat}
    (hw : WellFormed s) (hl : SameLayout s s') (h : PadsInv s pages)
    (hb : ∀ P ∈ pages', ∀ b ∈ s.pageBlocks P,
      (P ∈ pages ∧ ∀ x, ((b ≤ x + s.Config_.PadBytes_ ∧ x < b) ∨
          (b + s.Stats_.ObjectSize_ ≤ x ∧
            x < b + s.Stats_.ObjectSize_ + s.Config_.PadBytes_)) → s'.mem x = s.mem x) ∨
      s'.padsIntact b) :
    PadsInv s' pages' := by
  intro P hP b hbl
  rw [hl.pageBlocks] at hbl
  rcases hb P hP b hbl with ⟨hPm, hm⟩ | c
  · have zp := zone_in_page hw hbl
    exact padsIntact_of_pads hl (by omega) hm (h P hPm b hbl)
  · exact c

/-- A store into the header or the object region of a block leaves the pad
bytes of every block alone. -/
theorem Inv.pads_frame {s : ObjectAllocator} {pages free : List Nat} (h : Inv s pages free)
    {P Q b p : Nat} (hP : P ∈ pages) (hb : b ∈ s.pageBlocks P) (hQ : Q ∈ pages)
    (hp : p ∈ s.pageBlocks Q) {x : Nat}
    (hx : (b ≤ x + s.Config_.PadBytes_ ∧ x < b) ∨
      (b + s.Stats_.ObjectSize_ ≤ x ∧ x < b + s.Stats_.ObjectSize_ + s.Config_.PadBytes_)) :
    x + s.Config_.PadBytes_ + s.Config_.HBlockInfo_.size_ < p ∨
      (p ≤ x + s.Config_.PadBytes_ ∧ x < p) ∨ p + s.Stats_.ObjectSize_ ≤ x := by
  by_cases e : b = p
  · subst e
    omega
  · have hPQ : P = Q ∨ P + s.Stats_.PageSize_ ≤ Q ∨ Q + s.Stats_.PageSize_ ≤ P := by
      by_cases c : P = Q
      · exact Or.inl c
      · exact Or.inr (h.pageDisjoint P hP Q hQ c)
    have zb := zone_in_page h.wf hb
    have zp := zone_in_page h.wf hp
    rcases zones_disjoint h.wf hPQ hb hp e with d | d <;> omega

/-- The pad bytes of the blocks after a page has been built. -/
theorem PadsInv.newPage {s s1 : ObjectAllocator} {pages free : List Nat} (h : Inv s pages free)
    (hh : PadsInv s pages) {N : Nat}
    (hfresh : ∀ P ∈ pages, N + s.Stats_.PageSize_ ≤ P ∨ P + s.Stats_.PageSize_ ≤ N)
    (h1 : Inv s1 (N :: pages) ((s.pageBlocks N).reverse ++ free)) (hl : SameLayout s s1)
    (hm : ∀ x, (x < N ∨ N + s.Stats_.PageSize_ ≤ x) → s1.mem x = s.mem x) :
    PadsInv s1 (N :: pages) := by
  apply PadsInv.carry h.wf hl hh
  intro P hP b hb
  rcases List.mem_cons.1 hP with e | e
  · subst e
    right
    exact h1.freePads b (List.mem_append_left _ (List.mem_reverse.2 hb))
  · left
    refine ⟨e, ?_⟩
    intro x hx
    apply hm
    have zb := zone_in_page h.wf hb
    have hp8 : pointer_size = 8 := rfl
    rcases hfresh P e with d | d <;> omega

/-- Every state of a run without stores into the pad bytes satisfies the
invariant, and the pad bytes of all its blocks hold the pad pattern. -/
theorem CleanRun.pads {s : ObjectAllocator} {R : List Nat} (hr : CleanRun s R) :
    ∃ pages free, Inv s pages free ∧ (∀ p ∈ R, ∃ P ∈ pages, p ∈ s.pageBlocks P) ∧
      PadsInv s pages := by
  induction hr with
  | construct ObjectSize config m host s hv hb hc hh =>
    obtain ⟨s0, e0, hw0, p0, f0, _, _, c1, c2, c3, _⟩ := construct_spec m host hv hb
    have hi0 := Inv.initial hw0 p0 f0 c1 c2 c3
    rw [e0] at hc
    cases hs : host.storage with
    | none =>
      rw [hs] at hc
      simp [AllocateNewPage] at hc
    | some N =>
      rw [hs] at hc
      have hl : s.Stats_.PageSize_ = s0.Stats_.PageSize_ := (AllocateNewPage_layout hc).2.2
      obtain ⟨hN0, hN⟩ := hh N hs
      obtain ⟨s1, a1, a2, a3, _, _, _, a7⟩ := AllocateNewPage_spec hi0 hN0 (by rw [← hl]; exact hN)
        (fun P hP => by cases hP)
      have e : s1 = s := by
        rw [a1] at hc
        injection hc
      subst e
      refine ⟨_, _, a2, (fun p hp => by cases hp), ?_⟩
      exact PadsInv.newPage hi0 (fun P hP => by cases hP) (fun P hP => by cases hP) a2 a3 a7
  | allocate s R label host s' _ hf hst ih =>
    obtain ⟨pages, free, hi, hR, hh⟩ := ih
    have hf' := hi.fresh_of_freshStorage hf
    rw [Allocate_eq hi.wf.bypass] at hst ⊢
    have fin : ∀ {s1 : ObjectAllocator} {pages1 free1 : List Nat}, Inv s1 pages1 free1 →
        (∀ p ∈ R, ∃ P ∈ pages1, p ∈ s1.pageBlocks P) → PadsInv s1 pages1 →
        (Allocate.finish s1 label host).state? = some s' →
        ∃ pages' free', Inv s' pages' free' ∧
          (∀ p ∈ (Allocate.finish s1 label host).value?.toList ++ R,
            ∃ P ∈ pages', p ∈ s'.pageBlocks P) ∧
          PadsInv s' pages' := by
      intro s1 pages1 free1 h1 hR1 hh1 hst1
      cases free1 with
      | nil =>
        have : s1.FreeList_ = 0 := h1.freeRep
        unfold Allocate.finish at hst1
        rw [if_pos this] at hst1
        cases hst1
      | cons p tail =>
        obtain ⟨P, hP, hb⟩ := h1.freeBlock p (List.mem_cons_self _ _)
        obtain ⟨s'', hres, b1, b2, _, _, bm⟩ := finish_spec h1 label host
        have e : s'' = s' := by
          rcases hres with hr | ⟨hr, _⟩ <;>
          · rw [hr] at hst1
            simpa [Result.state?] using hst1
        subst e
        have hpads : PadsInv s'' pages1 := by
          apply PadsInv.carry h1.wf b2 hh1
          intro Q hQ b hbQ
          left
          exact ⟨hQ, fun x hx => bm x (h1.pads_frame hQ hbQ hP hb hx)⟩
        refine ⟨pages1, tail, b1, ?_, hpads⟩
        intro q hq
        have hq' : q = p ∨ q ∈ R := by
          rcases List.mem_append.1 hq with c | c
          · left
            rcases hres with hr | ⟨hr, _⟩
            · rw [hr] at c
              simpa [Result.value?] using c
            · rw [hr] at c
              simp [Result.value?] at c
          · exact Or.inr c
        rcases hq' with e | e
        · rw [e]
          exact ⟨P, hP, by rw [b2.pageBlocks]; exact hb⟩
        · obtain ⟨Q, hQ, hbQ⟩ := hR1 q e
          exact ⟨Q, hQ, by rw [b2.pageBlocks]; exact hbQ⟩
    rcases paged_spec hi hf' with ⟨_, hp⟩ | ⟨_, _, hp⟩ | ⟨_, _, _, hp⟩ |
      ⟨h0, hcap, N, s1, hN, hp, a2, a3, _, _, _, a7⟩
    · rw [hp] at hst ⊢
      exact fin hi hR hh hst
    · rw [hp] at hst ⊢
      have e : s = s' := by simpa [Result.state?] using hst
      subst e
      exact ⟨pages, free, hi, hR, hh⟩
    · rw [hp] at hst ⊢
      have e : s = s' := by simpa [Result.state?] using hst
      subst e
      exact ⟨pages, free, hi, hR, hh⟩
    · obtain ⟨_, _, hfr⟩ := hf' N hN
      have hh1 := PadsInv.newPage hi hh hfr a2 a3 a7
      rw [hp] at hst ⊢
      refine fin a2 ?_ hh1 hst
      intro p hp'
      obtain ⟨Q, hQ, hbQ⟩ := hR p hp'
      exact ⟨Q, List.mem_cons_of_mem _ hQ, by rw [a3.pageBlocks]; exact hbQ⟩
  | free s R p host s' _ hp hst ih =>
    obtain ⟨pages, free, hi, hR, hh⟩ := ih
    by_cases h0 : p = 0
    · unfold Free at hst
      rw [if_pos h0] at hst
      have e : s = s' := by simpa [Result.state?] using hst
      subst e
      exact ⟨pages, free, hi, hR, hh⟩
    · have same : ∀ e, Free s p host = .throw e s →
          ∃ pages free, Inv s' pages free ∧ (∀ p ∈ R, ∃ P ∈ pages, p ∈ s'.pageBlocks P) ∧
            PadsInv s' pages := by
        intro e he
        rw [he] at hst
        have e : s = s' := by simpa [Result.state?] using hst
        subst e
        exact ⟨pages, free, hi, hR, hh⟩
      rcases Free_cases hi h0 host with ⟨_, hr⟩ | ⟨_, _, hr⟩ | ⟨_, _, _, hr⟩ |
        ⟨hnf, ⟨Q, hQ, hin⟩, hpads, hr⟩
      · exact same _ hr
      · exact same _ hr
      · exact same _ hr
      · have hblock : ∃ P ∈ pages, p ∈ s.pageBlocks P := by
          rcases hp with e | e | e
          · exact absurd e h0
          · exact hR p e
          · exact absurd ((hi.owns_iff p).2 ⟨Q, hQ, hin⟩) e
        obtain ⟨P, hP, hb⟩ := hblock
        obtain ⟨s'', hres, b1, b2, _, _, _, bm⟩ := push_spec hi hP hb hnf hpads host
        rw [hr] at hst
        have e : s'' = s' := by
          rcases hres with hres | ⟨hres, _⟩ <;>
          · rw [hres] at hst
            simpa [Result.state?] using hst
        subst e
        refine ⟨pages, p :: free, b1, ?_, ?_⟩
        · intro q hq
          obtain ⟨Q', hQ', hbQ⟩ := hR q hq
          exact ⟨Q', hQ', by rw [b2.pageBlocks]; exact hbQ⟩
        · apply PadsInv.carry hi.wf b2 hh
          intro Q' hQ' b hbQ
          left
          exact ⟨hQ', fun x hx => bm x (hi.pads_frame hQ' hbQ hP hb hx)⟩
  | freeEmptyPages s R s' _ hst ih =>
    obtain ⟨pages, free, hi, hR, hh⟩ := ih
    obtain ⟨s'', a1, a2, a3, _, _, _, _, _, amem, _⟩ := FreeEmptyPages_spec hi
    rw [a1] at hst
    have e : s'' = s' := by simpa [Result.state?] using hst
    subst e
    refine ⟨_, _, a2, ?_, ?_⟩
    · intro p hp
      obtain ⟨hpR, hown⟩ := List.mem_filter.1 hp
      obtain ⟨Q, hQ, hin⟩ := (a2.owns_iff p).1 (of_decide_eq_true hown)
      obtain ⟨P, hP, hb⟩ := hR p hpR
      have hQ' : Q ∈ pages := (List.mem_filter.1 hQ).1
      have e : P = Q := hi.block_page hP hQ' hb (by
        unfold ObjectAllocator.inPage at hin ⊢
        rw [a3.2.2] at hin
        exact hin)
      subst e
      exact ⟨P, hQ, by rw [a3.pageBlocks]; exact hb⟩
    · apply PadsInv.carry hi.wf a3 hh
      intro P hP b hb
      left
      have hPm : P ∈ pages := (List.mem_filter.1 hP).1
      refine ⟨hPm, ?_⟩
      intro x hx
      have zb := zone_in_page hi.wf hb
      by_cases hbf : b ∈ free
      · refine amem x (fun g hg => hi.pads_free_apart hbf hg hx) ?_
        intro Q hQ
        exact hi.zone_page_apart hbf hQ (by omega) (by omega)
      · obtain ⟨g1, g2⟩ := hi.zone_apart hPm hb hbf (x := x) (by omega) (by omega)
        exact amem x g1 g2
  | clientWrite s R p a v _ hpR hpf h1 h2 ih =>
    obtain ⟨pages, free, hi, hR, hh⟩ := ih
    obtain ⟨P, hP, hb⟩ := hR p hpR
    rw [hi.freeList_eq] at hpf
    refine ⟨pages, free, hi.poke hP hb hpf (by omega) (by omega) v, hR, ?_⟩
    apply PadsInv.carry hi.wf (⟨rfl, rfl, rfl⟩ : SameLayout s (s.poke a v)) hh
    intro Q hQ b hbQ
    left
    refine ⟨hQ, ?_⟩
    intro x hx
    show (if x = a then v % 256 else s.mem x) = s.mem x
    rw [if_neg]
    have := hi.pads_frame hQ hbQ hP hb hx
    omega

/-! ### The order of the free list after a page build -/

/-- The blocks of a page are in increasing address order. -/
theorem pageBlocks_increasing {s : ObjectAllocator} (hw : WellFormed s) (P : Nat) :
    (s.pageBlocks P).Pairwise (· < ·) := by
  unfold ObjectAllocator.pageBlocks
  rw [List.pairwise_map]
  refine List.Pairwise.imp ?_ (List.pairwise_lt_range _)
  intro i j hij
  have := zones_same_page (s := s) (P := P) hij
  have ho := hw.objectSize
  have hp : pointer_size = 8 := rfl
  omega

/-- The first `k` blocks of a page in reverse order: the last block, then one
stride lower each time. -/
theorem take_reverse_pageBlocks (s : ObjectAllocator) (P k : Nat)
    (hk : k ≤ s.Config_.ObjectsPerPage_) :
    (s.pageBlocks P).reverse.take k
      = (List.range k).map
          (fun j => s.objAddr P (s.Config_.ObjectsPerPage_ - 1) - j * s.stride) := by
  apply List.ext_getElem
  · simp [length_pageBlocks]
    omega
  · intro i h1 h2
    have hi : i < k := by simpa using h2
    simp only [List.getElem_take, List.getElem_reverse, List.getElem_map, List.getElem_range,
      ObjectAllocator.pageBlocks, List.length_map, List.length_range]
    unfold ObjectAllocator.objAddr
    have e : (s.Config_.ObjectsPerPage_ - 1) * s.stride
        = (s.Config_.ObjectsPerPage_ - 1 - i) * s.stride + i * s.stride := by
      rw [← Nat.add_mul]
      congr 1
      omega
    rw [e]
    omega

/-- The allocator the constructor returns: one page, whose blocks are the free
list, last block first. -/
theorem construct_free {ObjectSize : Nat} {config : OAConfig} {m : Memory} {host : HostAlloc}
    {s : ObjectAllocator} (hv : ValidConfig ObjectSize config)
    (hb : config.UseCPPMemManager_ = false)
    (hc : ObjectAllocator.construct ObjectSize config m host = .ok () s)
    (hh : ∀ newPage, host.storage = some newPage →
      newPage ≠ 0 ∧ newPage + s.Stats_.PageSize_ ≤ 2 ^ 64) :
    ∃ N, host.storage = some N ∧ Inv s [N] (s.pageBlocks N).reverse := by
  obtain ⟨s0, e0, hw0, p0, f0, _, _, c1, c2, c3, _⟩ := construct_spec m host hv hb
  have hi0 := Inv.initial hw0 p0 f0 c1 c2 c3
  rw [e0] at hc
  cases hs : host.storage with
  | none =>
    rw [hs] at hc
    simp [AllocateNewPage] at hc
  | some N =>
    rw [hs] at hc
    have hl : s.Stats_.PageSize_ = s0.Stats_.PageSize_ := (AllocateNewPage_layout hc).2.2
    obtain ⟨hN0, hN⟩ := hh N hs
    obtain ⟨s1, a1, a2, a3, _⟩ := AllocateNewPage_spec hi0 hN0 (by rw [← hl]; exact hN)
      (fun P hP => by cases hP)
    rw [a1] at hc
    have e : s1 = s := by simpa using hc
    subst e
    refine ⟨N, rfl, ?_⟩
    rw [List.append_nil] at a2
    rw [a3.pageBlocks]
    exact a2

/-- A page build links the blocks of the new page in front of the free list,
last block first. -/
theorem Inv.build_free_list {s : ObjectAllocator} {pages free : List Nat} (h : Inv s pages free)
    {host : HostAlloc} (hf : Fresh s pages host) {N : Nat} (hN : host.storage = some N) :
    ∃ s1, AllocateNewPage s (some N) = .ok () s1 ∧
      s1.freeList = (s.pageBlocks N).reverse ++ s.freeList ∧ s1.pageList = N :: s.pageList := by
  obtain ⟨hN0, hN64, hfr⟩ := hf N hN
  obtain ⟨s1, a1, a2, _⟩ := AllocateNewPage_spec h hN0 hN64 hfr
  exact ⟨s1, a1, by rw [a2.freeList_eq, h.freeList_eq], by rw [a2.pageList_eq, h.pageList_eq]⟩

/-- A run of `Allocate` calls no longer than the free list pops its nodes in
order. -/
theorem allocateAll_pops : ∀ (calls : List (Option String × HostAlloc)) (s : ObjectAllocator)
    (pages front rest : List Nat), Inv s pages (front ++ rest) →
    (front ++ rest).length < 2 ^ 32 → calls.length = front.length →
    (∀ c ∈ calls, HostServes s c.1 c.2) →
    ∃ s', allocateAll s calls = some (front, s') ∧ Inv s' pages rest ∧ SameLayout s s' := by
  intro calls
  induction calls with
  | nil =>
    intro s pages front rest h _ hl _
    have : front = [] := List.eq_nil_of_length_eq_zero hl.symm
    subst this
    exact ⟨s, rfl, h, SameLayout.refl s⟩
  | cons c cs ih =>
    intro s pages front rest h hlt hl hserve
    cases front with
    | nil => cases hl
    | cons p f' =>
      have hcnt : s.Stats_.FreeObjects_ ≠ 0 := by
        rw [h.cntFree, Nat.mod_eq_of_lt hlt]
        simp
      obtain ⟨s1, hres, b1, b2, _⟩ := Inv.allocate_pop h hcnt c.1 c.2
      have hok : Allocate s c.1 c.2 = .ok p s1 := by
        rcases hres with hr | ⟨_, hn⟩
        · exact hr
        · exact absurd (hserve c (List.mem_cons_self _ _)) hn
      have hserve' : ∀ c' ∈ cs, HostServes s1 c'.1 c'.2 := by
        intro c' hc'
        have := hserve c' (List.mem_cons_of_mem _ hc')
        unfold HostServes at this ⊢
        rw [b2.1]
        exact this
      obtain ⟨s', r1, r2, r3⟩ := ih s1 pages f' rest b1
        (by simp only [List.cons_append, List.length_cons] at hlt; omega)
        (by simpa using hl) hserve'
      refine ⟨s', ?_, r2, b2.trans r3⟩
      simp only [allocateAll, hok, r1, Option.map_some']

/-! ### Calls in any state: the configuration and the page counter -/

theorem loop_pagesInUse : ∀ (k i : Nat) (s : ObjectAllocator) (cur : Nat),
    (AllocateNewPage.loop k i s cur).Stats_.PagesInUse_ = s.Stats_.PagesInUse_ ∧
    (AllocateNewPage.loop k i s cur).PageList_ = s.PageList_ := by
  intro k
  induction k with
  | zero => intro i s cur; exact ⟨rfl, rfl⟩
  | succ k ih =>
    intro i s cur
    simp only [AllocateNewPage.loop]
    obtain ⟨a, b⟩ := ih (i + 1) (AllocateNewPage.block s cur i).1 (AllocateNewPage.block s cur i).2
    rw [a, b, block_eq]
    exact ⟨rfl, rfl⟩

/-- A page build, in any state: the configuration stays and the page counter
goes up by one. -/
theorem AllocateNewPage_any {s s' : ObjectAllocator} {N : Nat}
    (h : AllocateNewPage s (some N) = .ok () s') :
    s'.Config_ = s.Config_ ∧ s'.Stats_.PagesInUse_ = incU32 s.Stats_.PagesInUse_ := by
  have hl := (AllocateNewPage_layout h).1
  rw [AllocateNewPage_eq] at h
  have e : AllocateNewPage.link (AllocateNewPage.loop s.Config_.ObjectsPerPage_ 0
      (AllocateNewPage.fresh s N) (N + pointer_size + s.Config_.LeftAlignSize_)) N = s' := by
    injection h
  refine ⟨hl, ?_⟩
  rw [← e]
  unfold AllocateNewPage.link
  dsimp only
  rw [(loop_pagesInUse _ _ _ _).1]
  rfl

/-- The first part of `Allocate`, in any state: it asks the host for a page
exactly when `Allocate.newPage` says so. -/
theorem paged_any (s : ObjectAllocator) (host : HostAlloc) :
    (Allocate.newPage s host = none ∧
      (Allocate.paged s host = .ok () s ∨ ∃ e, Allocate.paged s host = .throw e s)) ∨
    (∃ N, Allocate.newPage s host = some N ∧
      Allocate.paged s host = AllocateNewPage s (some N)) := by
  unfold Allocate.paged Allocate.newPage
  by_cases h1 : s.Stats_.FreeObjects_ ≤ 0
  · rw [if_pos h1, if_pos h1]
    by_cases h2 : s.Config_.MaxPages_ > 0 ∧ s.Stats_.PagesInUse_ ≥ s.Config_.MaxPages_
    · rw [if_pos h2, if_pos h2]
      exact Or.inl ⟨rfl, Or.inr ⟨_, rfl⟩⟩
    · rw [if_neg h2, if_neg h2]
      cases hst : host.storage with
      | none => exact Or.inl ⟨rfl, Or.inr ⟨_, rfl⟩⟩
      | some N => exact Or.inr ⟨N, rfl, rfl⟩
  · rw [if_neg h1, if_neg h1]
    exact Or.inl ⟨rfl, Or.inl rfl⟩

/-- The second part of `Allocate`, in any state: neither the configuration nor
the page counter changes. -/
theorem finish_any {s1 s' : ObjectAllocator} {label : Option String} {host : HostAlloc}
    (h : (Allocate.finish s1 label host).state? = some s') :
    s'.Config_ = s1.Config_ ∧ s'.Stats_.PagesInUse_ = s1.Stats_.PagesInUse_ := by
  unfold Allocate.finish at h
  by_cases h0 : s1.FreeList_ = 0
  · rw [if_pos h0] at h
    cases h
  · rw [if_neg h0] at h
    obtain ⟨t1, _, _, t4, t5, _⟩ := take_fields s1
    obtain ⟨s3, hres, _, _, c3, c4⟩ :=
      BlockHeaderCheck_fields (Allocate.take s1) s1.FreeList_ label host
    have e : s3 = s' := by
      rcases hres with hr | ⟨hr, _⟩
      · rw [hr] at h
        simpa [Result.state?] using h
      · rw [hr] at h
        simpa [Result.state?] using h
    subst e
    rw [c3, c4, t4]
    exact ⟨rfl, t5.2.2.2.1⟩

/-- A call of `Allocate` in non-bypass mode, in any state: the configuration
stays, and the page counter goes up by one when the call obtains a page. -/
theorem Allocate_any {s s' : ObjectAllocator} (hb : s.Config_.UseCPPMemManager_ = false)
    {label : Option String} {host : HostAlloc}
    (h : (Allocate s label host).state? = some s') :
    s'.Config_ = s.Config_ ∧
    ((Allocate.newPage s host = none ∧ s'.Stats_.PagesInUse_ = s.Stats_.PagesInUse_) ∨
      (∃ N, Allocate.newPage s host = some N ∧
        ¬ (s.Config_.MaxPages_ > 0 ∧ s.Stats_.PagesInUse_ ≥ s.Config_.MaxPages_) ∧
        s'.Stats_.PagesInUse_ = incU32 s.Stats_.PagesInUse_)) := by
  rw [Allocate_eq hb] at h
  rcases paged_any s host with ⟨hn, hp | ⟨e, hp⟩⟩ | ⟨N, hn, hp⟩
  · rw [hp] at h
    obtain ⟨a, b⟩ := finish_any h
    exact ⟨a, Or.inl ⟨hn, b⟩⟩
  · rw [hp] at h
    have e1 : s = s' := by simpa [Result.state?] using h
    subst e1
    exact ⟨rfl, Or.inl ⟨hn, rfl⟩⟩
  · have hlim : ¬ (s.Config_.MaxPages_ > 0 ∧ s.Stats_.PagesInUse_ ≥ s.Config_.MaxPages_) := by
      intro hl
      unfold Allocate.newPage at hn
      by_cases h1 : s.Stats_.FreeObjects_ ≤ 0
      · rw [if_pos h1, if_pos hl] at hn
        cases hn
      · rw [if_neg h1] at hn
        cases hn
    obtain ⟨s1, hs1⟩ : ∃ s1, AllocateNewPage s (some N) = .ok () s1 :=
      ⟨_, AllocateNewPage_eq s N⟩
    rw [hp, hs1] at h
    obtain ⟨a, b⟩ := finish_any h
    obtain ⟨c, d⟩ := AllocateNewPage_any hs1
    exact ⟨a.trans c, Or.inr ⟨N, hn, hlim, b.trans d⟩⟩

/-- A call of `Free` in non-bypass mode, with any address, in any state:
neither the configuration nor the page counter changes. -/
theorem Free_any {s s' : ObjectAllocator} (hb : s.Config_.UseCPPMemManager_ = false)
    {p : Nat} {host : HostAlloc} (h : (Free s p host).state? = some s') :
    s'.Config_ = s.Config_ ∧ s'.Stats_.PagesInUse_ = s.Stats_.PagesInUse_ := by
  rcases Free_outcome s p host with hu | ⟨e, _, ht⟩ | ⟨_, ho⟩ | ⟨_, hc, _⟩ | ⟨_, _, hf⟩
  · rw [hu] at h
    cases h
  · rw [ht] at h
    have e1 : s = s' := by simpa [Result.state?] using h
    subst e1
    exact ⟨rfl, rfl⟩
  · rw [ho] at h
    have e1 : s = s' := by simpa [Result.state?] using h
    subst e1
    exact ⟨rfl, rfl⟩
  · rw [hb] at hc
    cases hc
  · rw [hf] at h
    obtain ⟨_, _, _, p4, p5, _⟩ := push_fields s p
    obtain ⟨s3, hres, _, _, c3, c4⟩ := BlockHeaderCheckFree_fields (Free.push s p) p host
    have e : s3 = s' := by
      rcases hres with hr | ⟨hr, _⟩
      · rw [hr] at h
        simpa [Result.state?] using h
      · rw [hr] at h
        simpa [Result.state?] using h
    subst e
    rw [c3, c4, p4]
    exact ⟨rfl, p5.2.2.2.1⟩

theorem freeBlocks_loop_fields (block : Nat) : ∀ (fuel : Nat) (s : ObjectAllocator)
    (ref : Option Nat) (s' : ObjectAllocator), freeBlocks.loop block fuel s ref = some s' →
    s'.Config_ = s.Config_ ∧ s'.Stats_ = s.Stats_ := by
  intro fuel
  induction fuel with
  | zero =>
    intro s ref s' h
    simp only [freeBlocks.loop] at h
    cases h
  | succ fuel ih =>
    intro s ref s' h
    simp only [freeBlocks.loop] at h
    by_cases h0 : s.loadFree ref = 0
    · rw [if_pos h0] at h
      cases h
      exact ⟨rfl, rfl⟩
    · rw [if_neg h0] at h
      by_cases h1 : s.loadFree ref ≥ block ∧ s.loadFree ref < block + s.Stats_.PageSize_
      · rw [if_pos h1] at h
        obtain ⟨a, b⟩ := ih _ _ _ h
        have hs : (s.storeFree ref (readPtr s.mem (s.loadFree ref))).Config_ = s.Config_ ∧
            (s.storeFree ref (readPtr s.mem (s.loadFree ref))).Stats_ = s.Stats_ := by
          cases ref with
          | none => exact ⟨(storeFree_none s _).2.2.2.1, (storeFree_none s _).2.2.2.2.1⟩
          | some r => exact ⟨(storeFree_some s r _).2.2.2.1, (storeFree_some s r _).2.2.2.2.1⟩
        exact ⟨a.trans hs.1, b.trans hs.2⟩
      · rw [if_neg h1] at h
        exact ih _ _ _ h

theorem storePage_fields (s : ObjectAllocator) (ref : Option Nat) (v : Nat) :
    (s.storePage ref v).Config_ = s.Config_ ∧ (s.storePage ref v).Stats_ = s.Stats_ := by
  cases ref with
  | none => exact ⟨(storePage_none s v).2.2.2.1, (storePage_none s v).2.2.2.2.1⟩
  | some r => exact ⟨(storePage_some s r v).2.2.2.1, (storePage_some s r v).2.2.2.2.1⟩

/-- The loop of `FreeEmptyPages`, in any state: the configuration stays, and
the page counter goes down by one for each page passed to `delete[]`. -/
theorem FreeEmptyPages_loop_any : ∀ (fuel : Nat) (s : ObjectAllocator) (ref : Option Nat)
    (count : Nat) (r : Nat × ObjectAllocator),
    FreeEmptyPages.loop fuel s ref count = some r →
    r.2.Config_ = s.Config_ ∧
    r.2.Stats_.PagesInUse_
      = Nat.iterate decU32 (FreeEmptyPages.released fuel s ref).length s.Stats_.PagesInUse_ := by
  intro fuel
  induction fuel with
  | zero =>
    intro s ref count r h
    simp only [FreeEmptyPages.loop] at h
    cases h
  | succ fuel ih =>
    intro s ref count r h
    simp only [FreeEmptyPages.loop] at h
    simp only [FreeEmptyPages.released]
    by_cases h0 : s.loadPage ref = 0
    · rw [if_pos h0] at h
      rw [if_pos h0]
      cases h
      exact ⟨rfl, rfl⟩
    · rw [if_neg h0] at h
      rw [if_neg h0]
      cases hpe : PageIsEmpty s (s.loadPage ref) with
      | none =>
        rw [hpe] at h
        cases h
      | some b =>
        rw [hpe] at h
        cases b with
        | false =>
          dsimp only at h ⊢
          exact ih _ _ _ _ h
        | true =>
          dsimp only at h ⊢
          cases hfb : freeBlocks s (s.loadPage ref) with
          | none =>
            rw [hfb] at h
            cases h
          | some s1 =>
            rw [hfb] at h
            dsimp only at h ⊢
            obtain ⟨a, b⟩ := ih _ _ _ _ h
            obtain ⟨f1, f2⟩ := freeBlocks_loop_fields _ _ _ _ _ hfb
            obtain ⟨g1, g2⟩ := storePage_fields s1 ref (readPtr s.mem (s.loadPage ref))
            obtain ⟨_, _, _, r4, _, r6⟩ :=
              pageReleased_fields (s1.storePage ref (readPtr s.mem (s.loadPage ref)))
            refine ⟨a.trans (r4.trans (g1.trans f1)), ?_⟩
            rw [b, List.length_cons, Function.iterate_succ_apply, r6]
            dsimp only
            rw [g2, f2]

theorem iterate_decU32 : ∀ (k n : Nat), k ≤ n → n < 2 ^ 32 → Nat.iterate decU32 k n = n - k := by
  intro k
  induction k with
  | zero => intro n _ _; rfl
  | succ k ih =>
    intro n h1 h2
    rw [Function.iterate_succ_apply, decU32_of_pos (by omega) h2, ih (n - 1) (by omega) (by omega)]
    omega

theorem length_diff_of_subperm : ∀ (rel live : List Nat), List.Subperm rel live →
    (live.diff rel).length = live.length - rel.length := by
  intro rel
  induction rel with
  | nil => intro live _; simp
  | cons a rel ih =>
    intro live h
    have ha : a ∈ live := h.subset (List.mem_cons_self _ _)
    have h2 : List.Subperm rel (live.erase a) := by
      have := h.erase a
      rwa [List.erase_cons_head] at this
    rw [List.diff_cons, ih _ h2, List.length_erase_of_mem ha, List.length_cons]
    omega

/-- The constructor, with any configuration: it sets up an allocator without
pages, whose configuration is the one passed in but for the two alignment
sizes, and in non-bypass mode builds the first page. -/
theorem construct_start (ObjectSize : Nat) (config : OAConfig) (m : Memory) (host : HostAlloc) :
    ∃ s0, ObjectAllocator.construct ObjectSize config m host
        = (if ¬ config.UseCPPMemManager_ then AllocateNewPage s0 host.storage else .ok () s0) ∧
      s0.Config_.UseCPPMemManager_ = config.UseCPPMemManager_ ∧
      s0.Config_.MaxPages_ = config.MaxPages_ ∧
      s0.Config_.ObjectsPerPage_ = config.ObjectsPerPage_ ∧
      s0.Stats_.PagesInUse_ = 0 ∧ s0.Stats_.FreeObjects_ = 0 ∧ s0.FreeList_ = 0 := by
  by_cases ha : config.Alignment_ > 0
  · obtain ⟨p1, e1, _⟩ := CalculatePadding_least
      ((pointer_size + config.HBlockInfo_.size_ + config.PadBytes_) % 2 ^ 64) ha
    obtain ⟨p2, e2, _⟩ := CalculatePadding_least
      ((config.HBlockInfo_.size_ + (2 * config.PadBytes_) % 2 ^ 32 + ObjectSize) % 2 ^ 64) ha
    unfold ObjectAllocator.construct
    simp only [ha, if_true, e1, e2]
    exact ⟨_, rfl, rfl, rfl, rfl, rfl, rfl, rfl⟩
  · unfold ObjectAllocator.construct
    simp only [ha, if_false]
    exact ⟨_, rfl, rfl, rfl, rfl, rfl, rfl, rfl⟩

/-- The constructor in non-bypass mode, with any configuration: it does not
change `MaxPages` or the mode, and the page counter is 1 when the host had
storage for the page and 0 when it had none. -/
theorem construct_any {ObjectSize : Nat} {config : OAConfig} {m : Memory} {host : HostAlloc}
    {s : ObjectAllocator} (hb : config.UseCPPMemManager_ = false)
    (hs : (ObjectAllocator.construct ObjectSize config m host).state? = some s) :
    s.Config_.UseCPPMemManager_ = false ∧ s.Config_.MaxPages_ = config.MaxPages_ ∧
    s.Stats_.PagesInUse_ = host.storage.toList.length := by
  obtain ⟨s0, e0, k1, k2, _, k3, _⟩ := construct_start ObjectSize config m host
  rw [hb] at k1
  rw [e0, if_pos (by rw [hb]; simp)] at hs
  cases hst : host.storage with
  | none =>
    rw [hst] at hs
    have e : s0 = s := by simpa [AllocateNewPage, Result.state?] using hs
    subst e
    exact ⟨k1, k2, k3⟩
  | some N =>
    rw [hst] at hs
    obtain ⟨s1, hs1⟩ : ∃ s1, AllocateNewPage s0 (some N) = .ok () s1 :=
      ⟨_, AllocateNewPage_eq s0 N⟩
    rw [hs1] at hs
    have e : s1 = s := by simpa [Result.state?] using hs
    subst e
    obtain ⟨a, b⟩ := AllocateNewPage_any hs1
    rw [a, b, k3]
    exact ⟨k1, k2, rfl⟩

/-- What holds after any sequence of calls: the mode and the range of
`MaxPages`, and, when there is a page limit, the page counter is the number of
pages the host has handed out and that have not been deleted, which is within
the limit. -/
theorem AnyRun.pages {s : ObjectAllocator} {live : List Nat} (hr : AnyRun s live) :
    s.Config_.UseCPPMemManager_ = false ∧ s.Config_.MaxPages_ < 2 ^ 32 ∧
    (0 < s.Config_.MaxPages_ →
      s.Stats_.PagesInUse_ = live.length ∧ live.length ≤ s.Config_.MaxPages_) := by
  induction hr with
  | construct ObjectSize config m host s hb hm hs =>
    obtain ⟨a, b, c⟩ := construct_any hb hs
    refine ⟨a, by rw [b]; exact hm, fun h0 => ⟨c, ?_⟩⟩
    cases host.storage with
    | none => exact Nat.zero_le _
    | some N => exact h0
  | reachable s R hr =>
    obtain ⟨pages, free, hi, hb⟩ := hr.pages_bound
    refine ⟨hi.wf.bypass, hi.wf.maxPages, fun h0 => ?_⟩
    have h1 := hb h0
    have h2 := hi.cntPages
    have h3 := hi.wf.maxPages
    rw [Nat.mod_eq_of_lt (by omega)] at h2
    rw [hi.pageList_eq, h2]
    exact ⟨rfl, h1⟩
  | allocate s live label host s' _ hst ih =>
    obtain ⟨i1, i2, i3⟩ := ih
    obtain ⟨a, b⟩ := Allocate_any i1 hst
    rw [a]
    refine ⟨i1, i2, fun h0 => ?_⟩
    obtain ⟨j1, j2⟩ := i3 h0
    rcases b with ⟨hn, hp⟩ | ⟨N, hn, hlim, hp⟩
    · rw [hn, hp]
      exact ⟨j1, j2⟩
    · rw [hn, hp]
      have hlt : s.Stats_.PagesInUse_ < s.Config_.MaxPages_ := by
        by_contra hc
        exact hlim ⟨h0, by omega⟩
      have e : incU32 s.Stats_.PagesInUse_ = s.Stats_.PagesInUse_ + 1 := by
        unfold incU32
        norm_num at i2
        omega
      rw [e]
      simp only [Option.toList, List.singleton_append, List.length_cons]
      omega
  | free s live p host s' _ hst ih =>
    obtain ⟨i1, i2, i3⟩ := ih
    obtain ⟨a, b⟩ := Free_any i1 hst
    rw [a, b]
    exact ⟨i1, i2, i3⟩
  | freeEmptyPages s live s' _ hst hsub ih =>
    obtain ⟨i1, i2, i3⟩ := ih
    have hloop : ∃ r, FreeEmptyPages.loop walkFuel s none 0 = some r ∧ r.2 = s' := by
      unfold FreeEmptyPages at hst
      cases hl : FreeEmptyPages.loop walkFuel s none 0 with
      | none =>
        rw [hl] at hst
        cases hst
      | some r =>
        rw [hl] at hst
        exact ⟨r, rfl, by simpa [Result.state?] using hst⟩
    obtain ⟨r, hl, e⟩ := hloop
    obtain ⟨a, b⟩ := FreeEmptyPages_loop_any _ _ _ _ _ hl
    rw [e] at a b
    rw [a]
    refine ⟨i1, i2, fun h0 => ?_⟩
    obtain ⟨j1, j2⟩ := i3 h0
    have hk : s.released.length ≤ live.length := hsub.length_le
    have hd := length_diff_of_subperm _ _ hsub
    rw [b, hd, j1]
    have : Nat.iterate decU32 (FreeEmptyPages.released walkFuel s none).length live.length
        = live.length - s.released.length :=
      iterate_decU32 _ _ hk (by omega)
    rw [this]
    exact ⟨rfl, by omega⟩
  | clientWrite s live a v _ ih => exact ih

/-! ### The layout the constructor computes, for any object size -/

/-- The layout of the allocator the constructor sets up, in either mode and
for any object size, as long as the sizes do not wrap around: the members of
the configuration are those passed in, except for the two alignment sizes,
which are computed when an alignment is asked for; the first object of a page
and the stride are then multiples of the alignment; and the page size is the
one of `pageSizeOf` when the inter-block alignment passed in is 0 for an
alignment of 0. -/
theorem construct_sizes {ObjectSize : Nat} {config : OAConfig} (m : Memory) (host : HostAlloc)
    (h1 : 2 * config.PadBytes_ < 2 ^ 32) (h2 : config.Alignment_ < 2 ^ 32)
    (h3 : pointer_size + config.HBlockInfo_.size_ + 2 * config.PadBytes_ + ObjectSize
      + config.Alignment_ < 2 ^ 64) :
    ∃ s0, ObjectAllocator.construct ObjectSize config m host
        = (if ¬ config.UseCPPMemManager_ then AllocateNewPage s0 host.storage else .ok () s0) ∧
      s0.Stats_.ObjectSize_ = ObjectSize ∧
      s0.Config_.ObjectsPerPage_ = config.ObjectsPerPage_ ∧
      s0.Config_.PadBytes_ = config.PadBytes_ ∧
      s0.Config_.HBlockInfo_ = config.HBlockInfo_ ∧
      s0.Config_.Alignment_ = config.Alignment_ ∧
      Aligned s0.Config_ ObjectSize ∧
      ((config.Alignment_ = 0 → config.InterAlignSize_ = 0) →
        pointer_size + config.LeftAlignSize_ + config.Alignment_
          + (config.HBlockInfo_.size_ + 2 * config.PadBytes_ + ObjectSize + config.Alignment_)
            * config.ObjectsPerPage_ < 2 ^ 64 →
        s0.Stats_.PageSize_ = pageSizeOf s0.Config_ ObjectSize) := by
  have hp : pointer_size = 8 := rfl
  have hmid : (config.HBlockInfo_.size_ + (2 * config.PadBytes_) % 2 ^ 32 + ObjectSize) % 2 ^ 64
      = config.HBlockInfo_.size_ + 2 * config.PadBytes_ + ObjectSize := by
    norm_num at h1 h3 ⊢
    omega
  by_cases ha : config.Alignment_ > 0
  · have hsz : (pointer_size + config.HBlockInfo_.size_ + config.PadBytes_) % 2 ^ 64
        = pointer_size + config.HBlockInfo_.size_ + config.PadBytes_ := by
      norm_num at h3 ⊢
      omega
    obtain ⟨p1, e1, m1, l1, _⟩ := CalculatePadding_least
      (pointer_size + config.HBlockInfo_.size_ + config.PadBytes_) ha
    obtain ⟨p2, e2, m2, l2, _⟩ := CalculatePadding_least
      (config.HBlockInfo_.size_ + 2 * config.PadBytes_ + ObjectSize) ha
    have hq1 : p1 % 2 ^ 32 = p1 := Nat.mod_eq_of_lt (by omega)
    have hq2 : p2 % 2 ^ 32 = p2 := Nat.mod_eq_of_lt (by omega)
    have hmid2 : (config.HBlockInfo_.size_ + 2 * config.PadBytes_ + ObjectSize + p2) % 2 ^ 64
        = config.HBlockInfo_.size_ + 2 * config.PadBytes_ + ObjectSize + p2 :=
      Nat.mod_eq_of_lt (by omega)
    have hmulA : (config.HBlockInfo_.size_ + 2 * config.PadBytes_ + ObjectSize + p2)
        * config.ObjectsPerPage_ ≤ (config.HBlockInfo_.size_ + 2 * config.PadBytes_ + ObjectSize
          + config.Alignment_) * config.ObjectsPerPage_ :=
      Nat.mul_le_mul_right _ (by omega)
    have hcp : pointer_size + config.LeftAlignSize_ + config.Alignment_
          + (config.HBlockInfo_.size_ + 2 * config.PadBytes_ + ObjectSize + config.Alignment_)
            * config.ObjectsPerPage_ < 2 ^ 64 →
        CalculateTotalPageSize pointer_size p1
          (config.HBlockInfo_.size_ + 2 * config.PadBytes_ + ObjectSize + p2)
          config.ObjectsPerPage_ p2
        = if config.ObjectsPerPage_ > 1 then pointer_size + p1
            + (config.HBlockInfo_.size_ + 2 * config.PadBytes_ + ObjectSize + p2)
              * config.ObjectsPerPage_ - p2
          else pointer_size + p1
            + (config.HBlockInfo_.size_ + 2 * config.PadBytes_ + ObjectSize + p2)
              * config.ObjectsPerPage_ :=
      fun hb => CalculateTotalPageSize_eq p1 _ _ p2 (by omega) (by omega)
    unfold ObjectAllocator.construct
    simp only [ha, if_true, hsz, e1, e2, hmid, hq1, hq2, hmid2]
    refine ⟨_, rfl, rfl, rfl, rfl, rfl, rfl, ?_, ?_⟩
    · intro _
      refine ⟨?_, m2⟩
      show (pointer_size + p1 + config.HBlockInfo_.size_ + config.PadBytes_)
        % config.Alignment_ = 0
      rw [← m1]
      congr 1
      omega
    · intro _ hb
      exact hcp hb
  · have ha0 : config.Alignment_ = 0 := by omega
    unfold ObjectAllocator.construct
    simp only [ha, if_false, hmid]
    refine ⟨_, rfl, rfl, rfl, rfl, rfl, rfl, fun h0 => absurd h0 ha, ?_⟩
    intro hz hb
    have i0 := hz ha0
    have hcp := CalculateTotalPageSize_eq config.LeftAlignSize_
      (config.HBlockInfo_.size_ + 2 * config.PadBytes_ + ObjectSize)
      config.ObjectsPerPage_ config.InterAlignSize_
      (by simp only [ha0, Nat.add_zero] at hb; omega) (by rw [i0]; omega)
    show CalculateTotalPageSize pointer_size config.LeftAlignSize_
      (config.HBlockInfo_.size_ + 2 * config.PadBytes_ + ObjectSize) config.ObjectsPerPage_
      config.InterAlignSize_ = pageSizeOf config ObjectSize
    rw [hcp]
    unfold pageSizeOf
    simp only [i0, Nat.add_zero]

/-- The layout of the allocator the constructor leaves behind, whether it
returns or throws, for any object size. -/
theorem construct_state_sizes {ObjectSize : Nat} {config : OAConfig} {m : Memory}
    {host : HostAlloc} (h1 : 2 * config.PadBytes_ < 2 ^ 32) (h2 : config.Alignment_ < 2 ^ 32)
    (h3 : pointer_size + config.HBlockInfo_.size_ + 2 * config.PadBytes_ + ObjectSize
      + config.Alignment_ < 2 ^ 64) {s : ObjectAllocator}
    (hs : (ObjectAllocator.construct ObjectSize config m host).state? = some s) :
    s.Stats_.ObjectSize_ = ObjectSize ∧
    s.Config_.ObjectsPerPage_ = config.ObjectsPerPage_ ∧
    s.Config_.PadBytes_ = config.PadBytes_ ∧
    s.Config_.HBlockInfo_ = config.HBlockInfo_ ∧
    s.Config_.Alignment_ = config.Alignment_ ∧
    Aligned s.Config_ ObjectSize ∧
    ((config.Alignment_ = 0 → config.InterAlignSize_ = 0) →
      pointer_size + config.LeftAlignSize_ + config.Alignment_
        + (config.HBlockInfo_.size_ + 2 * config.PadBytes_ + ObjectSize + config.Alignment_)
          * config.ObjectsPerPage_ < 2 ^ 64 →
      s.Stats_.PageSize_ = pageSizeOf s.Config_ ObjectSize) := by
  obtain ⟨s0, e0, a1, a2, a3, a4, a5, a6, a7⟩ := construct_sizes m host h1 h2 h3
  rw [e0] at hs
  have key : SameLayout s0 s := by
    by_cases hb : config.UseCPPMemManager_ = true
    · rw [if_neg (by simp [hb])] at hs
      have e : s0 = s := by simpa [Result.state?] using hs
      subst e
      exact SameLayout.refl _
    · rw [if_pos hb] at hs
      cases hst : host.storage with
      | none =>
        rw [hst] at hs
        have e : s0 = s := by simpa [AllocateNewPage, Result.state?] using hs
        subst e
        exact SameLayout.refl _
      | some N =>
        rw [hst] at hs
        obtain ⟨s1, hs1⟩ : ∃ s1, AllocateNewPage s0 (some N) = .ok () s1 :=
          ⟨_, AllocateNewPage_eq s0 N⟩
        rw [hs1] at hs
        have e : s1 = s := by simpa [Result.state?] using hs
        subst e
        exact AllocateNewPage_layout hs1
  obtain ⟨k1, k2, k3⟩ := key
  rw [k1, k2, k3]
  exact ⟨a1, a2, a3, a4, a5, a6, a7⟩

/-! ### The head of the free list after a page build, for any object size -/

theorem loop_stride (s : ObjectAllocator) (cur i : Nat) :
    (AllocateNewPage.block s cur i).1.Config_ = s.Config_ ∧
    (AllocateNewPage.block s cur i).1.stride = s.stride ∧
    (AllocateNewPage.block s cur i).1.Stats_.FreeObjects_ = incU32 s.Stats_.FreeObjects_ ∧
    (AllocateNewPage.block s cur i).1.FreeList_
      = cur + s.Config_.HBlockInfo_.size_ + s.Config_.PadBytes_ ∧
    (AllocateNewPage.block s cur i).2
      = cur + s.Config_.HBlockInfo_.size_ + s.Config_.PadBytes_ + s.Stats_.ObjectSize_
          + s.Config_.PadBytes_ + gapAfter s i := by
  rw [block_eq]
  exact ⟨rfl, rfl, rfl, rfl, rfl⟩

/-- The page-building loop with `k + 1` iterations left, the last of them the
last block of the page: afterwards the head of the free list is `k` strides
behind the object region of the block at the cursor. -/
theorem loop_head : ∀ (k i : Nat) (s : ObjectAllocator) (cur : Nat),
    s.Config_.ObjectsPerPage_ < 2 ^ 32 → i + (k + 1) = s.Config_.ObjectsPerPage_ →
    (AllocateNewPage.loop (k + 1) i s cur).FreeList_
      = cur + s.Config_.HBlockInfo_.size_ + s.Config_.PadBytes_ + k * s.stride := by
  intro k
  induction k with
  | zero =>
    intro i s cur _ _
    simp only [AllocateNewPage.loop]
    rw [(loop_stride s cur i).2.2.2.1]
    omega
  | succ k ih =>
    intro i s cur hopp hik
    obtain ⟨b1, b2, _, _, b5⟩ := loop_stride s cur i
    have hstep : AllocateNewPage.loop (k + 1 + 1) i s cur
        = AllocateNewPage.loop (k + 1) (i + 1) (AllocateNewPage.block s cur i).1
            (AllocateNewPage.block s cur i).2 := rfl
    rw [hstep, ih (i + 1) _ _ (by rw [b1]; exact hopp) (by rw [b1]; omega), b1, b2, b5]
    have hgap : gapAfter s i = s.Config_.InterAlignSize_ := by
      unfold gapAfter
      have hd : decU32 s.Config_.ObjectsPerPage_ = s.Config_.ObjectsPerPage_ - 1 :=
        decU32_of_pos (by omega) hopp
      by_cases hz : s.Config_.InterAlignSize_ > 0
      · rw [if_pos ⟨hz, by rw [hd]; omega⟩]
      · rw [if_neg (fun h => hz h.1)]
        omega
    rw [hgap, Nat.succ_mul]
    unfold ObjectAllocator.stride
    omega

theorem loop_freeObjects : ∀ (k i : Nat) (s : ObjectAllocator) (cur : Nat),
    s.Stats_.FreeObjects_ < 2 ^ 32 →
    (AllocateNewPage.loop k i s cur).Stats_.FreeObjects_
      = (s.Stats_.FreeObjects_ + k) % 2 ^ 32 := by
  intro k
  induction k with
  | zero =>
    intro i s cur h
    simp only [AllocateNewPage.loop]
    exact (Nat.mod_eq_of_lt h).symm
  | succ k ih =>
    intro i s cur h
    obtain ⟨_, _, b3, _, _⟩ := loop_stride s cur i
    have hstep : AllocateNewPage.loop (k + 1) i s cur
        = AllocateNewPage.loop k (i + 1) (AllocateNewPage.block s cur i).1
            (AllocateNewPage.block s cur i).2 := rfl
    have hlt : incU32 s.Stats_.FreeObjects_ < 2 ^ 32 := by
      unfold incU32
      exact Nat.mod_lt _ (by norm_num)
    rw [hstep, ih (i + 1) _ _ (by rw [b3]; exact hlt), b3]
    unfold incU32
    norm_num
    omega

/-- The allocator the constructor returns in non-bypass mode, for any object
size, with at least one object per page: the head of the free list is the
object region of the last block of the page, and the free counter is the
number of objects per page. -/
theorem construct_head {ObjectSize : Nat} {config : OAConfig} {m : Memory} {host : HostAlloc}
    {s : ObjectAllocator} {N : Nat} (hb : config.UseCPPMemManager_ = false)
    (h1 : 1 ≤ config.ObjectsPerPage_) (h2 : config.ObjectsPerPage_ < 2 ^ 32)
    (hN : host.storage = some N)
    (hs : (ObjectAllocator.construct ObjectSize config m host).state? = some s) :
    s.Config_.UseCPPMemManager_ = false ∧
    s.Config_.ObjectsPerPage_ = config.ObjectsPerPage_ ∧
    s.FreeList_ = s.objAddr N (s.Config_.ObjectsPerPage_ - 1) ∧
    s.Stats_.FreeObjects_ = s.Config_.ObjectsPerPage_ := by
  obtain ⟨s0, e0, k1, _, k3, _, k5, _⟩ := construct_start ObjectSize config m host
  rw [hb] at k1
  rw [e0, if_pos (by rw [hb]; simp), hN] at hs
  have hs1 : AllocateNewPage s0 (some N) = .ok () s := by
    rw [AllocateNewPage_eq] at hs ⊢
    have e : AllocateNewPage.link (AllocateNewPage.loop s0.Config_.ObjectsPerPage_ 0
        (AllocateNewPage.fresh s0 N) (N + pointer_size + s0.Config_.LeftAlignSize_)) N = s := by
      simpa [Result.state?] using hs
    rw [e]
  obtain ⟨l1, l2, _⟩ := AllocateNewPage_layout hs1
  rw [AllocateNewPage_eq] at hs1
  have e : AllocateNewPage.link (AllocateNewPage.loop s0.Config_.ObjectsPerPage_ 0
      (AllocateNewPage.fresh s0 N) (N + pointer_size + s0.Config_.LeftAlignSize_)) N = s := by
    injection hs1
  obtain ⟨k, hk⟩ : ∃ k, s0.Config_.ObjectsPerPage_ = k + 1 := ⟨s0.Config_.ObjectsPerPage_ - 1, by omega⟩
  have hf : (AllocateNewPage.fresh s0 N).Config_ = s0.Config_ := rfl
  have hfs : (AllocateNewPage.fresh s0 N).stride = s0.stride := rfl
  have hfo : (AllocateNewPage.fresh s0 N).Stats_.FreeObjects_ = 0 := k5
  have hst : s.stride = s0.stride := by
    unfold ObjectAllocator.stride
    rw [l1, l2]
  refine ⟨by rw [l1]; exact k1, by rw [l1]; exact k3, ?_, ?_⟩
  · have hh := loop_head k 0 (AllocateNewPage.fresh s0 N)
      (N + pointer_size + s0.Config_.LeftAlignSize_) (by rw [hf, k3]; exact h2)
      (by rw [hf, hk]; omega)
    unfold ObjectAllocator.objAddr
    rw [hst, l1, hk, Nat.add_sub_cancel, ← e]
    unfold AllocateNewPage.link
    dsimp only
    rw [hk, hh, hf, hfs]
  · have hc := loop_freeObjects s0.Config_.ObjectsPerPage_ 0 (AllocateNewPage.fresh s0 N)
      (N + pointer_size + s0.Config_.LeftAlignSize_) (by rw [hfo]; norm_num)
    rw [l1, ← e]
    unfold AllocateNewPage.link
    dsimp only
    rw [hc, hfo, Nat.zero_add]
    exact Nat.mod_eq_of_lt (by rw [k3]; exact h2)

/-- A call of `Allocate` in non-bypass mode while the free counter is not
zero, in any state: what it returns is the head of the free list. -/
theorem Allocate_head {s s' : ObjectAllocator} (hb : s.Config_.UseCPPMemManager_ = false)
    (hf : s.Stats_.FreeObjects_ ≠ 0) {label : Option String} {host : HostAlloc} {p : Nat}
    (h : Allocate s label host = .ok p s') : p = s.FreeList_ := by
  rw [Allocate_eq hb] at h
  have hp : Allocate.paged s host = .ok () s := by
    unfold Allocate.paged
    rw [if_neg (by omega)]
  rw [hp] at h
  dsimp only at h
  unfold Allocate.finish at h
  by_cases h0 : s.FreeList_ = 0
  · rw [if_pos h0] at h
    cases h
  · rw [if_neg h0] at h
    cases hc : BlockHeaderCheck (Allocate.take s) s.FreeList_ label host with
    | ok u s3 =>
      rw [hc] at h
      injection h with e1 _
      exact e1.symm
    | throw e s3 =>
      rw [hc] at h
      cases h
    | undefined =>
      rw [hc] at h
      cases h

/-! ### The example allocators, continued -/

theorem exGapEnd_run : AnyRun exGapEnd [] :=
  AnyRun.freeEmptyPages exGapF [4096] exGapEnd
    (AnyRun.free exGap [4096] 4104 exHostNone exGapF
      (AnyRun.construct 8 exConfigG (fun _ => 0) exHost exGap rfl (by decide) rfl) rfl)
    rfl (by decide)

/-- In every reachable state of an allocator with an alignment, the offset of
the first object region in a page and the stride between object regions are
multiples of the alignment, and so is the offset of the object region of every
block of a page and of the block `Allocate` returns. -/
theorem Reachable.aligned {s : ObjectAllocator} {R : List Nat} (hr : Reachable s R)
    (ha : 0 < s.Config_.Alignment_) :
    (pointer_size + s.Config_.LeftAlignSize_ + s.Config_.HBlockInfo_.size_
      + s.Config_.PadBytes_) % s.Config_.Alignment_ = 0 ∧
    s.stride % s.Config_.Alignment_ = 0 ∧
    (∀ P ∈ s.pageList, ∀ b ∈ s.pageBlocks P,
      P ≤ b ∧ (b - P) % s.Config_.Alignment_ = 0) ∧
    ∀ (label : Option String) (host : HostAlloc) (p : Nat) (s' : ObjectAllocator),
      FreshStorage s host → Allocate s label host = .ok p s' →
      ∃ P ∈ s'.pageList, p ∈ s'.pageBlocks P ∧ P ≤ p ∧ (p - P) % s.Config_.Alignment_ = 0 := by
  have hal : Aligned s.Config_ s.Stats_.ObjectSize_ :=
    Reachable.layout (fun cfg os _ => Aligned cfg os)
      (fun ObjectSize config m host s0 hv hc => by
        obtain ⟨a1, _, _, _, _, _, _, a8, _⟩ :=
          construct_state_layout hv (show _ = some s0 by rw [hc]; rfl)
        rw [a1]
        exact a8) hr
  obtain ⟨h1, h2⟩ := hal ha
  have hblock : ∀ P i, P ≤ s.objAddr P i ∧ (s.objAddr P i - P) % s.Config_.Alignment_ = 0 := by
    intro P i
    unfold ObjectAllocator.objAddr
    refine ⟨by omega, ?_⟩
    have e : P + pointer_size + s.Config_.LeftAlignSize_ + s.Config_.HBlockInfo_.size_
        + s.Config_.PadBytes_ + i * s.stride - P
        = (pointer_size + s.Config_.LeftAlignSize_ + s.Config_.HBlockInfo_.size_
          + s.Config_.PadBytes_) + i * s.stride := by omega
    rw [e, Nat.add_mod, h1, Nat.mul_mod]
    unfold ObjectAllocator.stride
    rw [h2]
    simp
  refine ⟨h1, h2, ?_, ?_⟩
  · intro P _ b hb
    obtain ⟨i, _, e⟩ := mem_pageBlocks.1 hb
    rw [e]
    exact hblock P i
  · intro label host p s' hf hok
    obtain ⟨pages, free, hi, _⟩ := hr.inv
    obtain ⟨pages', free', hi', hl, _, hp⟩ := Allocate_inv hi (hi.fresh_of_freshStorage hf)
      (show (Allocate s label host).state? = some s' by rw [hok]; rfl)
    obtain ⟨P, hP, hb⟩ := hp p (by rw [hok]; rfl)
    refine ⟨P, by rw [hi'.pageList_eq]; exact hP, hb, ?_⟩
    rw [hl.pageBlocks] at hb
    obtain ⟨i, _, e⟩ := mem_pageBlocks.1 hb
    rw [e]
    exact hblock P i

/-- The offsets of the object regions of the blocks of a page are multiples of
the alignment when the first one and the stride are. -/
theorem aligned_blocks {s : ObjectAllocator} (ha : Aligned s.Config_ s.Stats_.ObjectSize_)
    (h0 : 0 < s.Config_.Alignment_) (P i : Nat) :
    P ≤ s.objAddr P i ∧ (s.objAddr P i - P) % s.Config_.Alignment_ = 0 := by
  obtain ⟨h1, h2⟩ := ha h0
  unfold ObjectAllocator.objAddr
  refine ⟨by omega, ?_⟩
  have e : P + pointer_size + s.Config_.LeftAlignSize_ + s.Config_.HBlockInfo_.size_
      + s.Config_.PadBytes_ + i * s.stride - P
      = (pointer_size + s.Config_.LeftAlignSize_ + s.Config_.HBlockInfo_.size_
        + s.Config_.PadBytes_) + i * s.stride := by omega
  rw [e, Nat.add_mod, h1, Nat.mul_mod]
  unfold ObjectAllocator.stride
  rw [h2]
  simp

/-! ## The properties, continued -/

/-- A counterexample to C31 as stated: the allocator for 12-byte objects with
one object per page and alignment 8 has one left alignment byte and three
inter-block alignment bytes; its page size is 33, the value without the
subtraction, and not 30, the value of the formula with the subtraction. -/
theorem page_size_counterexample :
    ValidConfig 12 exConfigA1 ∧
    ObjectAllocator.construct 12 exConfigA1 (fun _ => 0) exHost = .ok () exAlignedOne ∧
    exAlignedOne.Config_.ObjectsPerPage_ = 1 ∧ exAlignedOne.Config_.LeftAlignSize_ = 1 ∧
    exAlignedOne.Config_.InterAlignSize_ = 3 ∧
    exAlignedOne.Stats_.PageSize_ = 33 ∧
    pointer_size + exAlignedOne.Config_.LeftAlignSize_
      + (exAlignedOne.Config_.HBlockInfo_.size_ + 2 * exAlignedOne.Config_.PadBytes_
          + exAlignedOne.Stats_.ObjectSize_ + exAlignedOne.Config_.InterAlignSize_)
        * exAlignedOne.Config_.ObjectsPerPage_
      - exAlignedOne.Config_.InterAlignSize_ = 30 :=
  ⟨by decide, rfl, by decide, by decide, by decide, by decide, by decide⟩

/-- C31, amended: for every configuration and object size, in either mode,
whose sizes do not wrap around (twice the pad bytes fits an `unsigned`, a block
and a page fit a `size_t`) and whose inter-block alignment size is 0 when the
alignment is 0, the page size the constructor computes is the link pointer,
the left alignment and `ObjectsPerPage` blocks of header, two pads, object and
inter-block alignment, less one inter-block alignment when there is more than
one object per page; with one object per page (or none) nothing is subtracted.
The object size, the objects per page, the pad bytes and the header are those
passed to the constructor. -/
theorem page_size_formula (ObjectSize : Nat) (config : OAConfig) (m : Memory)
    (host : HostAlloc) {s : ObjectAllocator}
    (hpad : 2 * config.PadBytes_ < 2 ^ 32) (hal : config.Alignment_ < 2 ^ 32)
    (hzero : config.Alignment_ = 0 → config.InterAlignSize_ = 0)
    (hblock : pointer_size + config.HBlockInfo_.size_ + 2 * config.PadBytes_ + ObjectSize
      + config.Alignment_ < 2 ^ 64)
    (hpage : pointer_size + config.LeftAlignSize_ + config.Alignment_
      + (config.HBlockInfo_.size_ + 2 * config.PadBytes_ + ObjectSize + config.Alignment_)
        * config.ObjectsPerPage_ < 2 ^ 64)
    (hs : (ObjectAllocator.construct ObjectSize config m host).state? = some s) :
    (1 < s.Config_.ObjectsPerPage_ →
      s.Stats_.PageSize_ = pointer_size + s.Config_.LeftAlignSize_
        + (s.Config_.HBlockInfo_.size_ + 2 * s.Config_.PadBytes_ + s.Stats_.ObjectSize_
            + s.Config_.InterAlignSize_) * s.Config_.ObjectsPerPage_
        - s.Config_.InterAlignSize_) ∧
    (s.Config_.ObjectsPerPage_ ≤ 1 →
      s.Stats_.PageSize_ = pointer_size + s.Config_.LeftAlignSize_
        + (s.Config_.HBlockInfo_.size_ + 2 * s.Config_.PadBytes_ + s.Stats_.ObjectSize_
            + s.Config_.InterAlignSize_) * s.Config_.ObjectsPerPage_) ∧
    s.Stats_.ObjectSize_ = ObjectSize ∧
    s.Config_.ObjectsPerPage_ = config.ObjectsPerPage_ ∧
    s.Config_.PadBytes_ = config.PadBytes_ ∧
    s.Config_.HBlockInfo_ = config.HBlockInfo_ := by
  obtain ⟨a1, a2, a3, a4, _, _, a7⟩ := construct_state_sizes hpad hal hblock hs
  have a9 := a7 hzero hpage
  refine ⟨?_, ?_, a1, a2, a3, a4⟩
  · intro h
    rw [a9, a1]
    unfold pageSizeOf
    simp only [gt_iff_lt, h, if_true]
  · intro h
    rw [a9, a1]
    unfold pageSizeOf
    simp only [gt_iff_lt, Nat.not_lt.2 h, if_false]

theorem page_size_formula_witness :
    (2 * exConfigA.PadBytes_ < 2 ^ 32 ∧ exConfigA.Alignment_ < 2 ^ 32 ∧
      (exConfigA.Alignment_ = 0 → exConfigA.InterAlignSize_ = 0) ∧
      pointer_size + exConfigA.HBlockInfo_.size_ + 2 * exConfigA.PadBytes_ + 4
        + exConfigA.Alignment_ < 2 ^ 64 ∧
      pointer_size + exConfigA.LeftAlignSize_ + exConfigA.Alignment_
        + (exConfigA.HBlockInfo_.size_ + 2 * exConfigA.PadBytes_ + 4 + exConfigA.Alignment_)
          * exConfigA.ObjectsPerPage_ < 2 ^ 64 ∧
      (ObjectAllocator.construct 4 exConfigA (fun _ => 0) exHost).state? = some exAlignedS) ∧
    exAlignedS.Config_.LeftAlignSize_ = 1 ∧ exAlignedS.Config_.InterAlignSize_ = 3 ∧
    exAlignedS.Stats_.PageSize_ = 38 ∧
    ((1 < exAlignedS.Config_.ObjectsPerPage_ →
      exAlignedS.Stats_.PageSize_ = pointer_size + exAlignedS.Config_.LeftAlignSize_
        + (exAlignedS.Config_.HBlockInfo_.size_ + 2 * exAlignedS.Config_.PadBytes_
            + exAlignedS.Stats_.ObjectSize_ + exAlignedS.Config_.InterAlignSize_)
          * exAlignedS.Config_.ObjectsPerPage_
        - exAlignedS.Config_.InterAlignSize_) ∧
    (exAlignedS.Config_.ObjectsPerPage_ ≤ 1 →
      exAlignedS.Stats_.PageSize_ = pointer_size + exAlignedS.Config_.LeftAlignSize_
        + (exAlignedS.Config_.HBlockInfo_.size_ + 2 * exAlignedS.Config_.PadBytes_
            + exAlignedS.Stats_.ObjectSize_ + exAlignedS.Config_.InterAlignSize_)
          * exAlignedS.Config_.ObjectsPerPage_) ∧
    exAlignedS.Stats_.ObjectSize_ = 4 ∧
    exAlignedS.Config_.ObjectsPerPage_ = exConfigA.ObjectsPerPage_ ∧
    exAlignedS.Config_.PadBytes_ = exConfigA.PadBytes_ ∧
    exAlignedS.Config_.HBlockInfo_ = exConfigA.HBlockInfo_) :=
  ⟨⟨by decide, by decide, by decide, by decide, by decide, rfl⟩, by decide, by decide, by decide,
    page_size_formula 4 exConfigA (fun _ => 0) exHost (by decide) (by decide) (by decide)
      (by decide) (by decide) rfl⟩

/-- C32: for every configuration with an alignment and every object size, in
either mode, whose sizes do not wrap around (twice the pad bytes fits an
`unsigned`, a block fits a `size_t`), the allocator the constructor sets up
keeps the alignment asked for, and the offset of the first object region in a
page and the stride between object regions are multiples of it; so the offset
of the object region of every block from the start of its page is one. In
non-bypass mode, with at least one object per page, the page build of the
constructor leaves the object region of the last block of the page at the head
of the free list, and that is what the next `Allocate` returns. In every
reachable state of an allocator with an alignment, `Allocate` returns the
object region of a block of a page, at an offset from the start of the page
that is a multiple of the alignment. -/
theorem objects_aligned (ObjectSize : Nat) (config : OAConfig) (m : Memory) (host : HostAlloc)
    {s : ObjectAllocator} (hpad : 2 * config.PadBytes_ < 2 ^ 32)
    (hal : config.Alignment_ < 2 ^ 32)
    (hblock : pointer_size + config.HBlockInfo_.size_ + 2 * config.PadBytes_ + ObjectSize
      + config.Alignment_ < 2 ^ 64)
    (ha : 0 < config.Alignment_)
    (hs : (ObjectAllocator.construct ObjectSize config m host).state? = some s) :
    s.Config_.Alignment_ = config.Alignment_ ∧
    (pointer_size + s.Config_.LeftAlignSize_ + s.Config_.HBlockInfo_.size_
      + s.Config_.PadBytes_) % s.Config_.Alignment_ = 0 ∧
    s.stride % s.Config_.Alignment_ = 0 ∧
    (∀ P i, P ≤ s.objAddr P i ∧ (s.objAddr P i - P) % s.Config_.Alignment_ = 0) ∧
    (∀ P, ∀ b ∈ s.pageBlocks P, P ≤ b ∧ (b - P) % s.Config_.Alignment_ = 0) ∧
    (config.UseCPPMemManager_ = false → 1 ≤ config.ObjectsPerPage_ →
      config.ObjectsPerPage_ < 2 ^ 32 → ∀ N, host.storage = some N →
        s.FreeList_ = s.objAddr N (s.Config_.ObjectsPerPage_ - 1) ∧
        ∀ (label : Option String) (host' : HostAlloc) (p : Nat) (s' : ObjectAllocator),
          Allocate s label host' = .ok p s' →
          p = s.objAddr N (s.Config_.ObjectsPerPage_ - 1) ∧ N ≤ p ∧
            (p - N) % s.Config_.Alignment_ = 0) ∧
    ∀ (t : ObjectAllocator) (R : List Nat), Reachable t R → 0 < t.Config_.Alignment_ →
      (pointer_size + t.Config_.LeftAlignSize_ + t.Config_.HBlockInfo_.size_
        + t.Config_.PadBytes_) % t.Config_.Alignment_ = 0 ∧
      t.stride % t.Config_.Alignment_ = 0 ∧
      (∀ P ∈ t.pageList, ∀ b ∈ t.pageBlocks P,
        P ≤ b ∧ (b - P) % t.Config_.Alignment_ = 0) ∧
      ∀ (label : Option String) (host' : HostAlloc) (p : Nat) (t' : ObjectAllocator),
        FreshStorage t host' → Allocate t label host' = .ok p t' →
        ∃ P ∈ t'.pageList, p ∈ t'.pageBlocks P ∧ P ≤ p ∧
          (p - P) % t.Config_.Alignment_ = 0 := by
  obtain ⟨a1, _, _, _, a5, a6, _⟩ := construct_state_sizes hpad hal hblock hs
  have ha' : 0 < s.Config_.Alignment_ := by rw [a5]; exact ha
  have hA : Aligned s.Config_ s.Stats_.ObjectSize_ := by rw [a1]; exact a6
  obtain ⟨h1, h2⟩ := hA ha'
  refine ⟨a5, h1, h2, aligned_blocks hA ha', ?_, ?_, ?_⟩
  · intro P b hb
    obtain ⟨i, _, e⟩ := mem_pageBlocks.1 hb
    rw [e]
    exact aligned_blocks hA ha' P i
  · intro hb hn1 hn2 N hN
    obtain ⟨c1, c2, c3, c4⟩ := construct_head hb hn1 hn2 hN hs
    refine ⟨c3, ?_⟩
    intro label host' p s' hok
    have hp := Allocate_head c1 (by rw [c4, c2]; omega) hok
    rw [hp, c3]
    exact ⟨rfl, aligned_blocks hA ha' N _⟩
  · intro t R hr ht
    exact hr.aligned ht

theorem objects_aligned_witness :
    (2 * exConfigA.PadBytes_ < 2 ^ 32 ∧ exConfigA.Alignment_ < 2 ^ 32 ∧
      pointer_size + exConfigA.HBlockInfo_.size_ + 2 * exConfigA.PadBytes_ + 4
        + exConfigA.Alignment_ < 2 ^ 64 ∧ 0 < exConfigA.Alignment_ ∧
      (ObjectAllocator.construct 4 exConfigA (fun _ => 0) exHost).state? = some exAlignedS) ∧
    exAlignedS.Config_.Alignment_ = 8 ∧ exAlignedS.pageBlocks 4096 = [4112, 4128] ∧
    Allocate exAlignedS none exHostNone = .ok 4128 exAlignedSA ∧
    (exAlignedS.Config_.Alignment_ = exConfigA.Alignment_ ∧
    (pointer_size + exAlignedS.Config_.LeftAlignSize_ + exAlignedS.Config_.HBlockInfo_.size_
      + exAlignedS.Config_.PadBytes_) % exAlignedS.Config_.Alignment_ = 0 ∧
    exAlignedS.stride % exAlignedS.Config_.Alignment_ = 0 ∧
    (∀ P i, P ≤ exAlignedS.objAddr P i ∧
      (exAlignedS.objAddr P i - P) % exAlignedS.Config_.Alignment_ = 0) ∧
    (∀ P, ∀ b ∈ exAlignedS.pageBlocks P, P ≤ b ∧ (b - P) % exAlignedS.Config_.Alignment_ = 0) ∧
    (exConfigA.UseCPPMemManager_ = false → 1 ≤ exConfigA.ObjectsPerPage_ →
      exConfigA.ObjectsPerPage_ < 2 ^ 32 → ∀ N, exHost.storage = some N →
        exAlignedS.FreeList_ = exAlignedS.objAddr N (exAlignedS.Config_.ObjectsPerPage_ - 1) ∧
        ∀ (label : Option String) (host' : HostAlloc) (p : Nat) (s' : ObjectAllocator),
          Allocate exAlignedS label host' = .ok p s' →
          p = exAlignedS.objAddr N (exAlignedS.Config_.ObjectsPerPage_ - 1) ∧ N ≤ p ∧
            (p - N) % exAlignedS.Config_.Alignment_ = 0) ∧
    ∀ (t : ObjectAllocator) (R : List Nat), Reachable t R → 0 < t.Config_.Alignment_ →
      (pointer_size + t.Config_.LeftAlignSize_ + t.Config_.HBlockInfo_.size_
        + t.Config_.PadBytes_) % t.Config_.Alignment_ = 0 ∧
      t.stride % t.Config_.Alignment_ = 0 ∧
      (∀ P ∈ t.pageList, ∀ b ∈ t.pageBlocks P,
        P ≤ b ∧ (b - P) % t.Config_.Alignment_ = 0) ∧
      ∀ (label : Option String) (host' : HostAlloc) (p : Nat) (t' : ObjectAllocator),
        FreshStorage t host' → Allocate t label host' = .ok p t' →
        ∃ P ∈ t'.pageList, p ∈ t'.pageBlocks P ∧ P ≤ p ∧
          (p - P) % t.Config_.Alignment_ = 0) :=
  ⟨⟨by decide, by decide, by decide, by decide, rfl⟩, by decide, by decide, rfl,
    objects_aligned 4 exConfigA (fun _ => 0) exHost (by decide) (by decide) (by decide)
      (by decide) rfl⟩

/-- A counterexample to C33 as stated: the allocator `exSmall` for 4-byte
objects (four pad bytes, no headers, two objects per page) is constructed on
the page at 4096, whose blocks are at 4108 and 4120, 12 bytes apart. The head
of the free list is 4120, the last block, but the link stored in it does not
lead to 4108: its eight bytes do not fit the 4-byte object, and the right pad,
filled in after the link was stored, covers its upper four bytes, so that it
reads `0xDDDDDDDD0000100C`. The free list is not the blocks of the page in
decreasing order, and the second `Allocate` does not return the address one
stride below the first. -/
theorem page_build_small_objects :
    ObjectAllocator.construct 4 exConfigS (fun _ => 0) exHost = .ok () exSmall ∧
    exSmall.pageBlocks 4096 = [4108, 4120] ∧ exSmall.stride = 12 ∧
    exSmall.FreeList_ = 4120 ∧ readPtr exSmall.mem 4120 = 15987178193492643852 ∧
    exSmall.freeList = [4120, 15987178193492643852] ∧
    exSmall.freeList ≠ (exSmall.pageBlocks 4096).reverse ∧
    Allocate exSmall none exHostNone = .ok 4120 exSmallA ∧
    Allocate exSmallA none exHostNone = .ok 15987178193492643852 exSmallAA ∧
    15987178193492643852 ≠ 4120 - exSmall.stride :=
  ⟨rfl, by decide, by decide, by decide, by decide, by decide, by decide, rfl, rfl, by decide⟩

/-- C33, amended: for a valid configuration in non-bypass mode (an object
holds a pointer), the constructor leaves the blocks of its page on the free
list, last block first; a run of `Allocate` calls no longer than the page
returns the object region of the last block and then addresses one stride
lower each time; and every page build, in any reachable state, puts the blocks
of the new page, which are in increasing address order, in front of the free
list in reverse order. -/
theorem page_build_free_list_order (ObjectSize : Nat) (config : OAConfig) (m : Memory)
    (host : HostAlloc) {s : ObjectAllocator} {N : Nat} (hv : ValidConfig ObjectSize config)
    (hb : config.UseCPPMemManager_ = false)
    (hc : ObjectAllocator.construct ObjectSize config m host = .ok () s)
    (hN : host.storage = some N) (hfit : N ≠ 0 ∧ N + s.Stats_.PageSize_ ≤ 2 ^ 64) :
    s.pageList = [N] ∧ s.freeList = (s.pageBlocks N).reverse ∧
    (s.pageBlocks N).Pairwise (· < ·) ∧
    (∀ calls : List (Option String × HostAlloc),
      calls.length ≤ s.Config_.ObjectsPerPage_ → (∀ c ∈ calls, HostServes s c.1 c.2) →
      ∃ s', allocateAll s calls = some ((List.range calls.length).map
        (fun j => s.objAddr N (s.Config_.ObjectsPerPage_ - 1) - j * s.stride), s')) ∧
    ∀ (t : ObjectAllocator) (R : List Nat) (host' : HostAlloc) (N' : Nat),
      Reachable t R → FreshStorage t host' → host'.storage = some N' →
      (t.pageBlocks N').Pairwise (· < ·) ∧
      ∃ t1, AllocateNewPage t (some N') = .ok () t1 ∧
        t1.freeList = (t.pageBlocks N').reverse ++ t.freeList := by
  have hh : ∀ newPage, host.storage = some newPage →
      newPage ≠ 0 ∧ newPage + s.Stats_.PageSize_ ≤ 2 ^ 64 := by
    intro newPage e
    rw [hN] at e
    cases e
    exact hfit
  obtain ⟨N1, e1, hi⟩ := construct_free hv hb hc hh
  have e : N1 = N := by
    rw [hN] at e1
    cases e1
    rfl
  subst e
  refine ⟨hi.pageList_eq, hi.freeList_eq, pageBlocks_increasing hi.wf _, ?_, ?_⟩
  · intro calls hlen hserve
    have hsplit := (List.take_append_drop calls.length (s.pageBlocks N1).reverse).symm
    have hopp := hi.wf.objectsPerPage
    obtain ⟨s', r1, _⟩ := allocateAll_pops calls s [N1]
      ((s.pageBlocks N1).reverse.take calls.length)
      ((s.pageBlocks N1).reverse.drop calls.length)
      (by rw [← hsplit]; exact hi)
      (by rw [← hsplit, List.length_reverse, length_pageBlocks]; exact hopp)
      (by rw [List.length_take, List.length_reverse, length_pageBlocks]; omega) hserve
    rw [take_reverse_pageBlocks s N1 _ hlen] at r1
    exact ⟨s', r1⟩
  · intro t R host' N' hr hf hN'
    obtain ⟨pages, free, ht, _⟩ := hr.inv
    obtain ⟨t1, b1, b2, _⟩ := ht.build_free_list (ht.fresh_of_freshStorage hf) hN'
    exact ⟨pageBlocks_increasing ht.wf _, t1, b1, b2⟩

theorem page_build_free_list_order_witness :
    (ValidConfig 8 exConfig ∧ exConfig.UseCPPMemManager_ = false ∧
      ObjectAllocator.construct 8 exConfig (fun _ => 0) exHost = .ok () exStart ∧
      exHost.storage = some 4096 ∧ (4096 ≠ 0 ∧ 4096 + exStart.Stats_.PageSize_ ≤ 2 ^ 64)) ∧
    exStart.pageBlocks 4096 = [4111, 4128] ∧ exStart.stride = 17 ∧
    allocateAll exStart exCalls = some ([4128, 4111], exTwo) ∧
    (exStart.pageList = [4096] ∧ exStart.freeList = (exStart.pageBlocks 4096).reverse ∧
    (exStart.pageBlocks 4096).Pairwise (· < ·) ∧
    (∀ calls : List (Option String × HostAlloc),
      calls.length ≤ exStart.Config_.ObjectsPerPage_ →
      (∀ c ∈ calls, HostServes exStart c.1 c.2) →
      ∃ s', allocateAll exStart calls = some ((List.range calls.length).map
        (fun j => exStart.objAddr 4096 (exStart.Config_.ObjectsPerPage_ - 1)
          - j * exStart.stride), s')) ∧
    ∀ (t : ObjectAllocator) (R : List Nat) (host' : HostAlloc) (N' : Nat),
      Reachable t R → FreshStorage t host' → host'.storage = some N' →
      (t.pageBlocks N').Pairwise (· < ·) ∧
      ∃ t1, AllocateNewPage t (some N') = .ok () t1 ∧
        t1.freeList = (t.pageBlocks N').reverse ++ t.freeList) :=
  ⟨⟨by decide, rfl, rfl, rfl, by decide⟩, by decide, by decide, rfl,
    page_build_free_list_order 8 exConfig (fun _ => 0) exHost (by decide) rfl rfl rfl (by decide)⟩

/-- C35: in non-bypass mode with a page limit, after the constructor with
any configuration and any sequence of calls of `Allocate`, of `Free` with any
address, of `FreeEmptyPages` (each `delete[]` in it being passed storage the
host handed out for a page and that was not deleted before) and any stores of
the client, the statistic `PagesInUse` does not exceed `MaxPages`; it is the
number of pages handed out and not deleted, and in the states of `Reachable`
the length of the page list. -/
theorem pages_in_use_bounded {s : ObjectAllocator} {live : List Nat} (hr : AnyRun s live)
    (hm : 0 < s.Config_.MaxPages_) :
    s.Stats_.PagesInUse_ ≤ s.Config_.MaxPages_ ∧
    s.Stats_.PagesInUse_ = live.length ∧
    ∀ R, Reachable s R → s.Stats_.PagesInUse_ = s.pageList.length := by
  obtain ⟨_, _, h3⟩ := hr.pages
  obtain ⟨j1, j2⟩ := h3 hm
  refine ⟨by omega, j1, ?_⟩
  intro R hR
  exact (((AnyRun.reachable s R hR).pages).2.2 hm).1

theorem pages_in_use_bounded_witness :
    (AnyRun exGapEnd [] ∧ 0 < exGapEnd.Config_.MaxPages_) ∧
    exGap.pageList = [4096] ∧ exGap.pageBlocks 4096 = [4112, 4128] ∧
    Free exGap 4104 exHostNone = .ok () exGapF ∧
    exGapF.freeList = [4104, 4128, 4112] ∧ exGapF.Stats_.PagesInUse_ = 1 ∧
    exGapF.released = [4096] ∧ FreeEmptyPages exGapF = .ok 1 exGapEnd ∧
    exGapEnd.Config_.MaxPages_ = 1 ∧ exGapEnd.Stats_.PagesInUse_ = 0 ∧
    (exGapEnd.Stats_.PagesInUse_ ≤ exGapEnd.Config_.MaxPages_ ∧
      exGapEnd.Stats_.PagesInUse_ = ([] : List Nat).length ∧
      ∀ R, Reachable exGapEnd R →
        exGapEnd.Stats_.PagesInUse_ = exGapEnd.pageList.length) :=
  ⟨⟨exGapEnd_run, by decide⟩, by decide, by decide, rfl, by decide, by decide, by decide, rfl,
    by decide, by decide, pages_in_use_bounded exGapEnd_run (by decide)⟩

/-- A counterexample to C37 as stated: the allocator `exTiny` for 4-byte
objects (one object per page, no pad bytes, no headers) is constructed on a
memory whose bytes all hold 255. Its page is the 12 bytes from 4096, its one
block the object region at 4104, which ends where the page ends. The page
build stores the eight bytes of the link of the block at 4104: the bytes at
4108 to 4111, behind the page, hold 0 afterwards. -/
theorem page_build_leaves_page :
    ObjectAllocator.construct 4 exConfigT (fun _ => 255) exHost = .ok () exTiny ∧
    exTiny.Config_.ObjectsPerPage_ = 1 ∧ exTiny.Stats_.PageSize_ = 12 ∧
    exTiny.pageList = [4096] ∧ exTiny.pageBlocks 4096 = [4104] ∧
    4104 + exTiny.Stats_.ObjectSize_ + exTiny.Config_.PadBytes_ = 4096 + exTiny.Stats_.PageSize_ ∧
    4096 + exTiny.Stats_.PageSize_ ≤ 4108 ∧
    exTiny.mem 4108 = 0 ∧ exTiny.mem 4109 = 0 ∧ exTiny.mem 4110 = 0 ∧ exTiny.mem 4111 = 0 ∧
    exTiny.mem 4112 = 255 :=
  ⟨rfl, by decide, by decide, by decide, by decide, by decide, by decide, by decide, by decide,
    by decide, by decide, by decide⟩

/-- C37, amended: in every reachable state (a valid configuration in
non-bypass mode: an object holds a pointer), for every page address `P`: each
block of the page, from the start of its header to the end of its right pad,
lies behind the link pointer and the left alignment and inside the page; the
page build links exactly the object regions `pageBlocks P` and changes no byte
outside the page; and the walks of `PageIsEmpty`, `ValidatePages` and
`DumpMemoryInUse` over the page test exactly those addresses, first block
first. -/
theorem page_walks_stay_inside {s : ObjectAllocator} {R : List Nat} (hr : Reachable s R)
    (P : Nat) :
    (∀ i, i < s.Config_.ObjectsPerPage_ →
      P + pointer_size + s.Config_.LeftAlignSize_ ≤ s.headerAddr (s.objAddr P i) ∧
      s.headerAddr (s.objAddr P i) + s.Config_.HBlockInfo_.size_ + s.Config_.PadBytes_
        = s.objAddr P i ∧
      s.objAddr P i + s.Stats_.ObjectSize_ + s.Config_.PadBytes_
        ≤ P + s.Stats_.PageSize_) ∧
    (∀ host : HostAlloc, FreshStorage s host → host.storage = some P →
      ∃ s1, AllocateNewPage s (some P) = .ok () s1 ∧
        s1.freeList = (s.pageBlocks P).reverse ++ s.freeList ∧
        ∀ x, (x < P ∨ P + s.Stats_.PageSize_ ≤ x) → s1.mem x = s.mem x) ∧
    PageIsEmpty s P = some (decide (s.pageEmpty P)) ∧
    ∀ (count : Nat) (calls : List (Nat × Nat)), count < 2 ^ 32 →
      ValidatePages.blocks s s.Config_.ObjectsPerPage_ 0
          (P + pointer_size + s.Config_.LeftAlignSize_ + s.Config_.HBlockInfo_.size_
            + s.Config_.PadBytes_) count calls
        = ((count + ((s.pageBlocks P).filter
              (fun b => decide (¬ s.padsIntact b))).length) % 2 ^ 32,
            calls ++ ((s.pageBlocks P).filter (fun b => decide (¬ s.padsIntact b))).map
              (fun b => (b, s.Stats_.ObjectSize_))) ∧
      DumpMemoryInUse.blocks s s.Config_.ObjectsPerPage_ 0
          (P + pointer_size + s.Config_.LeftAlignSize_ + s.Config_.HBlockInfo_.size_
            + s.Config_.PadBytes_) count calls
        = some ((count + ((s.pageBlocks P).filter
              (fun b => decide (b ∉ s.freeList))).length) % 2 ^ 32,
            calls ++ ((s.pageBlocks P).filter (fun b => decide (b ∉ s.freeList))).map
              (fun b => (b, s.Stats_.ObjectSize_))) := by
  obtain ⟨pages, free, hi, _⟩ := hr.inv
  have hstart : ∀ i, i < s.Config_.ObjectsPerPage_ →
      P + pointer_size + s.Config_.LeftAlignSize_ + s.Config_.HBlockInfo_.size_
        + s.Config_.PadBytes_ = s.objAddr P 0 := by
    intro _ _
    unfold ObjectAllocator.objAddr
    omega
  have hblocks : s.pageBlocks P = (List.range' 0 s.Config_.ObjectsPerPage_).map (s.objAddr P) := by
    unfold ObjectAllocator.pageBlocks
    rw [List.range_eq_range']
  refine ⟨?_, ?_, ?_, ?_⟩
  · intro i hi'
    have hm : s.objAddr P i ∈ s.pageBlocks P := mem_pageBlocks.2 ⟨i, hi', rfl⟩
    have zp := zone_in_page hi.wf hm
    unfold ObjectAllocator.headerAddr
    omega
  · intro host hf hP
    obtain ⟨hN0, hN64, hfr⟩ := (hi.fresh_of_freshStorage hf) P hP
    obtain ⟨s1, b1, b2, _, _, _, _, b7⟩ := AllocateNewPage_spec hi hN0 hN64 hfr
    exact ⟨s1, b1, by rw [b2.freeList_eq, hi.freeList_eq], b7⟩
  · rw [hi.pageIsEmpty P]
    congr 1
    rw [decide_eq_decide]
    unfold ObjectAllocator.emptyIn ObjectAllocator.pageEmpty
    rw [hi.freeList_eq]
  · intro count calls hc
    rw [hblocks, hi.freeList_eq]
    exact ⟨validate_blocks hi.wf P _ 0 _ count calls (by omega) (hstart 0) hc,
      dump_blocks hi P _ 0 _ count calls (by omega) (hstart 0) hc⟩

theorem page_walks_stay_inside_witness :
    Reachable exOne [4128] ∧ exOne.pageBlocks 4096 = [4111, 4128] ∧
    exOne.freeList = [4111] ∧ PageIsEmpty exOne 4096 = some false ∧
    ((∀ i, i < exOne.Config_.ObjectsPerPage_ →
      4096 + pointer_size + exOne.Config_.LeftAlignSize_
        ≤ exOne.headerAddr (exOne.objAddr 4096 i) ∧
      exOne.headerAddr (exOne.objAddr 4096 i) + exOne.Config_.HBlockInfo_.size_
        + exOne.Config_.PadBytes_ = exOne.objAddr 4096 i ∧
      exOne.objAddr 4096 i + exOne.Stats_.ObjectSize_ + exOne.Config_.PadBytes_
        ≤ 4096 + exOne.Stats_.PageSize_) ∧
    (∀ host : HostAlloc, FreshStorage exOne host → host.storage = some 4096 →
      ∃ s1, AllocateNewPage exOne (some 4096) = .ok () s1 ∧
        s1.freeList = (exOne.pageBlocks 4096).reverse ++ exOne.freeList ∧
        ∀ x, (x < 4096 ∨ 4096 + exOne.Stats_.PageSize_ ≤ x) → s1.mem x = exOne.mem x) ∧
    PageIsEmpty exOne 4096 = some (decide (exOne.pageEmpty 4096)) ∧
    ∀ (count : Nat) (calls : List (Nat × Nat)), count < 2 ^ 32 →
      ValidatePages.blocks exOne exOne.Config_.ObjectsPerPage_ 0
          (4096 + pointer_size + exOne.Config_.LeftAlignSize_ + exOne.Config_.HBlockInfo_.size_
            + exOne.Config_.PadBytes_) count calls
        = ((count + ((exOne.pageBlocks 4096).filter
              (fun b => decide (¬ exOne.padsIntact b))).length) % 2 ^ 32,
            calls ++ ((exOne.pageBlocks 4096).filter
              (fun b => decide (¬ exOne.padsIntact b))).map
              (fun b => (b, exOne.Stats_.ObjectSize_))) ∧
      DumpMemoryInUse.blocks exOne exOne.Config_.ObjectsPerPage_ 0
          (4096 + pointer_size + exOne.Config_.LeftAlignSize_ + exOne.Config_.HBlockInfo_.size_
            + exOne.Config_.PadBytes_) count calls
        = some ((count + ((exOne.pageBlocks 4096).filter
              (fun b => decide (b ∉ exOne.freeList))).length) % 2 ^ 32,
            calls ++ ((exOne.pageBlocks 4096).filter
              (fun b => decide (b ∉ exOne.freeList))).map
              (fun b => (b, exOne.Stats_.ObjectSize_)))) :=
  ⟨exOne_reachable, by decide, by decide, by decide,
    page_walks_stay_inside exOne_reachable 4096⟩

/-- C38: the boundary check of `Free` looks at pages, not at blocks. The
allocator `exStartB` (no pad bytes, no headers, one page at 4096 whose only
block is at 4104) is reachable; the address 4096, the first byte of the page
and of its link to the next page, lies in the page and is the object region
of no block; `Free(4096)` returns without an exception, the address is the new
head of the free list, linked to the old head, and `FreeObjects` and
`Deallocations` have gone up by one. -/
theorem free_is_page_granular :
    ∃ (s : ObjectAllocator) (R : List Nat) (p : Nat) (host : HostAlloc) (s' : ObjectAllocator),
      Reachable s R ∧ s.Config_.UseCPPMemManager_ = false ∧ s.Config_.PadBytes_ = 0 ∧
      s.owns p ∧ (∀ P ∈ s.pageList, p ∉ s.pageBlocks P) ∧
      Free s p host = .ok () s' ∧
      s'.FreeList_ = p ∧ readPtr s'.mem p = s.FreeList_ ∧
      s'.Stats_.FreeObjects_ = s.Stats_.FreeObjects_ + 1 ∧
      s'.Stats_.Deallocations_ = s.Stats_.Deallocations_ + 1 :=
  ⟨exStartB, [], 4096, exHostNone, exBadFree, exStartB_reachable, rfl, rfl, by decide,
    by decide, rfl, by decide, by decide, by decide, by decide⟩

/-! ## Counterexamples on configurations and calls outside the contract -/

/-- A counterexample to C14 as stated: the allocator `exStartB` of non-bypass
mode is just constructed, with its page at 4096, its one block at 4104 and no
object in use. `Free(4096)`, the address of the page itself, returns: the
address lies in the page, and `Free` does not look whether it is the object
region of a block. `ObjectsInUse` goes from 0 to 4294967295, and `MostObjects`
stays 0: it is not the largest value `ObjectsInUse` has had. -/
theorem mostObjects_bad_free :
    Reachable exStartB [] ∧ exStartB.Config_.UseCPPMemManager_ = false ∧
    exStartB.pageList = [4096] ∧ exStartB.pageBlocks 4096 = [4104] ∧
    exStartB.Stats_.ObjectsInUse_ = 0 ∧ exStartB.Stats_.MostObjects_ = 0 ∧
    Free exStartB 4096 exHostNone = .ok () exBadFree ∧
    exBadFree.Stats_.ObjectsInUse_ = 4294967295 ∧ exBadFree.Stats_.MostObjects_ = 0 :=
  ⟨exStartB_reachable, rfl, by decide, by decide, by decide, by decide, rfl, by decide, by decide⟩

end OA

namespace BL

/-! ### Slots of an array -/

theorem items_eq_segment {T : Type} (node : BNode T) :
    node.items = segment node.values 0 node.count := by
  unfold BNode.items segment
  rw [List.range_eq_range']

theorem segment_zero {T : Type} (f : Nat → T) (i : Nat) : segment f i 0 = [] := rfl

theorem segment_succ {T : Type} (f : Nat → T) (i k : Nat) :
    segment f i (k + 1) = f i :: segment f (i + 1) k := by
  unfold segment
  rw [List.range'_succ, List.map_cons]

theorem segment_append {T : Type} (f : Nat → T) (i m n : Nat) :
    segment f i (m + n) = segment f i m ++ segment f (i + m) n := by
  unfold segment
  rw [← List.map_append, List.range'_append_1, Nat.add_comm n m]

theorem segment_concat {T : Type} (f : Nat → T) (i k : Nat) :
    segment f i (k + 1) = segment f i k ++ [f (i + k)] := by
  rw [segment_append, segment_succ, segment_zero]

theorem length_segment {T : Type} (f : Nat → T) (i k : Nat) : (segment f i k).length = k := by
  unfold segment
  simp

theorem mem_segment {T : Type} {f : Nat → T} {i k : Nat} {x : T} :
    x ∈ segment f i k ↔ ∃ j, i ≤ j ∧ j < i + k ∧ f j = x := by
  unfold segment
  simp only [List.mem_map, List.mem_range'_1]
  constructor
  · rintro ⟨j, ⟨h1, h2⟩, e⟩
    exact ⟨j, h1, h2, e⟩
  · rintro ⟨j, h1, h2, e⟩
    exact ⟨j, ⟨h1, h2⟩, e⟩

theorem segment_congr {T : Type} {f g : Nat → T} {i k : Nat}
    (h : ∀ j, i ≤ j → j < i + k → f j = g j) : segment f i k = segment g i k := by
  unfold segment
  apply List.map_congr_left
  intro j hj
  obtain ⟨h1, h2⟩ := List.mem_range'_1.1 hj
  exact h j h1 h2

/-- The slots from `i + 1` on of an array that holds, one slot further, what
another array holds from `i` on. -/
theorem segment_shift {T : Type} {f g : Nat → T} : ∀ (k i : Nat),
    (∀ j, i ≤ j → j < i + k → g (j + 1) = f j) → segment g (i + 1) k = segment f i k := by
  intro k
  induction k with
  | zero => intro i _; rfl
  | succ k ih =>
    intro i h
    rw [segment_succ, segment_succ, h i (le_refl i) (by omega),
      ih (i + 1) (fun j h1 h2 => h j (by omega) (by omega))]

theorem head_segment {T : Type} (f : Nat → T) (i k : Nat) (hk : 1 ≤ k) :
    (segment f i k).head? = some (f i) := by
  obtain ⟨k', rfl⟩ : ∃ k', k = k' + 1 := ⟨k - 1, by omega⟩
  rw [segment_succ]
  rfl

/-! ### Making room in a node -/

/-- What the shifting loop leaves in each slot. -/
theorem shiftRight_apply {T : Type} (lo : Nat) : ∀ (hi : Nat) (f : Nat → T) (j : Nat),
    shiftRight f lo hi j = if lo < j ∧ j ≤ hi then f (j - 1) else f j := by
  intro hi
  induction hi with
  | zero =>
    intro f j
    rw [if_neg (by omega)]
    rfl
  | succ i ih =>
    intro f j
    unfold shiftRight
    by_cases h : i + 1 > lo
    · rw [if_pos h, ih]
      by_cases h1 : lo < j ∧ j ≤ i
      · rw [if_pos h1, if_pos (by omega), Function.update_noteq (by omega)]
      · rw [if_neg h1]
        by_cases h2 : j = i + 1
        · subst h2
          rw [Function.update_same, if_pos (by omega)]
          rfl
        · rw [Function.update_noteq h2, if_neg (by omega)]
    · rw [if_neg h, if_neg (by omega)]

/-- The items of an array after room was made at `index` and the value stored
there. -/
theorem segment_insert {T : Type} (f : Nat → T) (index c : Nat) (h : index ≤ c) (v : T) :
    segment (Function.update (shiftRight f index c) index v) 0 (c + 1)
      = segment f 0 index ++ v :: segment f index (c - index) := by
  have e : c + 1 = index + ((c - index) + 1) := by omega
  rw [e, segment_append, segment_succ, Nat.zero_add, Function.update_same]
  congr 1
  · apply segment_congr
    intro j _ h2
    rw [Function.update_noteq (by omega), shiftRight_apply, if_neg (by omega)]
  · congr 1
    apply segment_shift
    intro j h1 h2
    rw [Function.update_noteq (by omega), shiftRight_apply, if_pos (by omega)]
    rfl

/-- Where the search for the insertion index stops: after the items the value
is not less than, at an item it is less than or at the end. -/
theorem insertIndex_spec {T : Type} [LinearOrder T] (value : T) (node : BNode T) :
    ∀ (k i : Nat), i + k = node.count →
      i ≤ insertIndex value node k i ∧ insertIndex value node k i ≤ node.count ∧
      (∀ j, i ≤ j → j < insertIndex value node k i → ¬ value < node.values j) ∧
      (insertIndex value node k i < node.count →
        value < node.values (insertIndex value node k i)) := by
  intro k
  induction k with
  | zero =>
    intro i hi
    simp only [insertIndex]
    exact ⟨le_refl i, by omega, fun j h1 h2 => by omega, fun h => by omega⟩
  | succ k ih =>
    intro i hi
    unfold insertIndex
    by_cases hv : value < node.values i
    · rw [if_pos hv]
      exact ⟨le_refl i, by omega, fun j h1 h2 => by omega, fun _ => hv⟩
    · rw [if_neg hv]
      obtain ⟨a1, a2, a3, a4⟩ := ih (i + 1) (by omega)
      refine ⟨by omega, a2, ?_, a4⟩
      intro j h1 h2
      by_cases e : j = i
      · rw [e]; exact hv
      · exact a3 j (by omega) h2

/-- The sorted insertion into a node: the value goes between the items it is
not less than and an item it is less than. -/
theorem insertInNode_spec {T : Type} [LinearOrder T] (node : BNode T) (value : T) :
    (insertInNode node value).count = node.count + 1 ∧
    ∃ l r, node.items = l ++ r ∧ (insertInNode node value).items = l ++ value :: r ∧
      (∀ x ∈ l, x ≤ value) ∧ (∀ y, r.head? = some y → value < y) := by
  obtain ⟨_, a2, a3, a4⟩ := insertIndex_spec value node node.count 0 (by omega)
  refine ⟨rfl, segment node.values 0 (insertIndex value node node.count 0),
    segment node.values (insertIndex value node node.count 0)
      (node.count - insertIndex value node node.count 0), ?_, ?_, ?_, ?_⟩
  · have e := segment_append node.values 0 (insertIndex value node node.count 0)
      (node.count - insertIndex value node node.count 0)
    rw [Nat.zero_add] at e
    rw [items_eq_segment, ← e]
    congr 1
    omega
  · rw [items_eq_segment]
    exact segment_insert node.values _ node.count a2 value
  · intro x hx
    obtain ⟨j, h1, h2, e⟩ := mem_segment.1 hx
    rw [← e]
    exact not_lt.1 (a3 j h1 (by omega))
  · intro y hy
    by_cases hlt : insertIndex value node node.count 0 < node.count
    · rw [head_segment _ _ _ (by omega)] at hy
      cases hy
      exact a4 hlt
    · have : node.count - insertIndex value node node.count 0 = 0 := by omega
      rw [this, segment_zero] at hy
      cases hy

/-- A value in front of a sorted list whose first item it is less than is not
more than any item of the list. -/
theorem le_of_head {T : Type} [LinearOrder T] {value : T} {r : List T}
    (hs : r.Sorted (· ≤ ·)) (hh : ∀ y, r.head? = some y → value < y) :
    ∀ y ∈ r, value ≤ y := by
  cases r with
  | nil => intro y hy; cases hy
  | cons a r' =>
    intro y hy
    have h1 : value < a := hh a rfl
    rcases List.mem_cons.1 hy with e | e
    · rw [e]; exact le_of_lt h1
    · exact le_trans (le_of_lt h1) (List.rel_of_sorted_cons hs y e)

/-- A sorted list stays sorted when a value is put between the items it is
not less than and the items it is not more than. -/
theorem sorted_middle {T : Type} [LinearOrder T] {l r : List T} {value : T}
    (hs : (l ++ r).Sorted (· ≤ ·)) (hl : ∀ x ∈ l, x ≤ value) (hr : ∀ y ∈ r, value ≤ y) :
    (l ++ value :: r).Sorted (· ≤ ·) := by
  unfold List.Sorted at hs ⊢
  obtain ⟨h1, h2, h3⟩ := List.pairwise_append.1 hs
  refine List.pairwise_append.2 ⟨h1, List.pairwise_cons.2 ⟨hr, h2⟩, ?_⟩
  intro x hx y hy
  rcases List.mem_cons.1 hy with e | e
  · rw [e]; exact hl x hx
  · exact h3 x hx y e

/-! ### Chains of nodes -/

theorem flattenNodes_append {T : Type} (a b : List (BNode T)) :
    flattenNodes (a ++ b) = flattenNodes a ++ flattenNodes b := by
  induction a with
  | nil => rfl
  | cons n a ih =>
    show n.items ++ flattenNodes (a ++ b) = (n.items ++ flattenNodes a) ++ flattenNodes b
    rw [ih, List.append_assoc]

theorem flattenNodes_cons {T : Type} (n : BNode T) (a : List (BNode T)) :
    flattenNodes (n :: a) = n.items ++ flattenNodes a := rfl

theorem mem_flattenNodes {T : Type} {nodes : List (BNode T)} {x : T} :
    x ∈ flattenNodes nodes ↔ ∃ n ∈ nodes, x ∈ n.items := by
  induction nodes with
  | nil => simp [flattenNodes]
  | cons n a ih =>
    rw [flattenNodes_cons, List.mem_append, ih]
    simp

theorem length_items {T : Type} (node : BNode T) : node.items.length = node.count := by
  rw [items_eq_segment, length_segment]

/-! ### Splitting a node -/

/-- What the moving loop of `Split` leaves in the two nodes. -/
theorem move_spec {T : Type} : ∀ (k i r : Nat) (node temp : BNode T),
    (Split.move k i r node temp).1.count = node.count - k ∧
    (Split.move k i r node temp).1.values = node.values ∧
    (Split.move k i r node temp).2.count = temp.count + k ∧
    (∀ j, j < k → (Split.move k i r node temp).2.values (r + j) = node.values (i + j)) ∧
    (∀ j, j < r → (Split.move k i r node temp).2.values j = temp.values j) := by
  intro k
  induction k with
  | zero =>
    intro i r node temp
    exact ⟨rfl, rfl, rfl, fun j h => by omega, fun j _ => rfl⟩
  | succ k ih =>
    intro i r node temp
    unfold Split.move
    obtain ⟨a1, a2, a3, a4, a5⟩ := ih (i + 1) (r + 1) { node with count := node.count - 1 }
      { count := temp.count + 1,
        values := Function.update temp.values r (node.values i) }
    refine ⟨by rw [a1]; show node.count - 1 - k = _; omega, a2,
      by rw [a3]; show temp.count + 1 + k = _; omega, ?_, ?_⟩
    · intro j hj
      cases j with
      | zero =>
        simp only [Nat.add_zero]
        rw [a5 r (by omega)]
        show Function.update temp.values r (node.values i) r = _
        rw [Function.update_same]
      | succ j =>
        have := a4 j (by omega)
        rw [show r + (j + 1) = r + 1 + j by omega, this]
        show node.values (i + 1 + j) = _
        rw [show i + 1 + j = i + (j + 1) by omega]
    · intro j hj
      rw [a5 j (by omega)]
      show Function.update temp.values r (node.values i) j = _
      rw [Function.update_noteq (by omega)]

/-- The halves of a full node after the moving loop of `Split`. -/
theorem move_halves {T : Type} [Inhabited T] (S : Nat) (node : BNode T) (hc : node.count = S) :
    (Split.move (S - S / 2) (S / 2) 0 node { count := 0, values := fun _ => default }).1.items
      = segment node.values 0 (S / 2) ∧
    (Split.move (S - S / 2) (S / 2) 0 node { count := 0, values := fun _ => default }).2.items
      = segment node.values (S / 2) (S - S / 2) ∧
    (Split.move (S - S / 2) (S / 2) 0 node { count := 0, values := fun _ => default }).1.count
      = S / 2 ∧
    (Split.move (S - S / 2) (S / 2) 0 node { count := 0, values := fun _ => default }).2.count
      = S - S / 2 ∧
    node.items = segment node.values 0 (S / 2) ++ segment node.values (S / 2) (S - S / 2) := by
  obtain ⟨a1, a2, a3, a4, _⟩ := move_spec (S - S / 2) (S / 2) 0 node
    ({ count := 0, values := fun _ => default } : BNode T)
  have hhalf : S / 2 ≤ S := Nat.div_le_self S 2
  have c1 : (Split.move (S - S / 2) (S / 2) 0 node
      { count := 0, values := fun _ => default }).1.count = S / 2 := by
    rw [a1, hc]
    omega
  have c2 : (Split.move (S - S / 2) (S / 2) 0 node
      { count := 0, values := fun _ => default }).2.count = S - S / 2 := by
    rw [a3]
    show 0 + (S - S / 2) = _
    omega
  refine ⟨?_, ?_, c1, c2, ?_⟩
  · rw [items_eq_segment, c1, a2]
  · rw [items_eq_segment, c2]
    unfold segment
    rw [List.range'_eq_map_range (S / 2), List.range'_eq_map_range 0, List.map_map, List.map_map]
    apply List.map_congr_left
    intro j hj
    have hj' := List.mem_range.1 hj
    have := a4 j hj'
    simp only [Function.comp, Nat.zero_add] at this ⊢
    rw [this]
  · have e := segment_append node.values 0 (S / 2) (S - S / 2)
    rw [Nat.zero_add] at e
    rw [items_eq_segment, hc, ← e]
    congr 1
    omega

/-- `Split` of a full node whose items are sorted: the node is replaced by two
nodes that hold its items and the value, the value between the items it is
not less than and the items it is not more than. -/
theorem Split_spec {T : Type} [LinearOrder T] [Inhabited T] (b : BList T)
    (before : List (BNode T)) (node : BNode T) (after : List (BNode T)) (value : T)
    (hS : 1 ≤ b.stats.ArraySize) (hc : node.count = b.stats.ArraySize)
    (hs : node.items.Sorted (· ≤ ·)) :
    ∃ n1 n2 l r, Split b before node after value true
        = .ok { nodes := before ++ n1 :: n2 :: after,
                stats := { b.stats with NodeCount := b.stats.NodeCount + 1,
                                        ItemCount := b.stats.ItemCount + 1 } } ∧
      (1 ≤ n1.count ∧ n1.count ≤ b.stats.ArraySize) ∧
      (1 ≤ n2.count ∧ n2.count ≤ b.stats.ArraySize) ∧
      node.items = l ++ r ∧ n1.items ++ n2.items = l ++ value :: r ∧
      (∀ x ∈ l, x ≤ value) ∧ (∀ y ∈ r, value ≤ y) := by
  unfold Split CreateNewNode
  simp only [if_true]
  by_cases h1 : b.stats.ArraySize = 1
  · rw [if_pos h1]
    have hit : node.items = [node.values 0] := by
      rw [items_eq_segment, hc, h1]
      rfl
    by_cases hv : node.values 0 < value
    · rw [if_pos hv]
      refine ⟨node, Increament { count := 0, values := fun _ => default } value,
        [node.values 0], [], rfl, by omega, ⟨by show 1 ≤ 0 + 1; omega, by show 0 + 1 ≤ _; omega⟩,
        by rw [hit]; rfl, ?_, ?_, ?_⟩
      · rw [hit]
        rfl
      · intro x hx
        rw [List.mem_singleton.1 hx]
        exact le_of_lt hv
      · intro y hy
        cases hy
    · rw [if_neg hv]
      refine ⟨{ node with values := Function.update node.values 0 value },
        { count := 0 + 1, values := Function.update (fun _ => default) 0 (node.values 0) },
        [], [node.values 0], rfl, ⟨by show 1 ≤ node.count; omega, by show node.count ≤ _; omega⟩,
        ⟨by show 1 ≤ 0 + 1; omega, by show 0 + 1 ≤ _; omega⟩, by rw [hit]; rfl, ?_, ?_, ?_⟩
      · rw [items_eq_segment, items_eq_segment]
        show segment (Function.update node.values 0 value) 0 node.count
          ++ segment (Function.update (fun _ => default) 0 (node.values 0)) 0 (0 + 1) = _
        rw [hc, h1]
        rfl
      · intro x hx
        cases hx
      · intro y hy
        rw [List.mem_singleton.1 hy]
        exact not_lt.1 hv
  · rw [if_neg h1]
    obtain ⟨m1, m2, c1, c2, m5⟩ := move_halves b.stats.ArraySize node hc
    generalize Split.move (b.stats.ArraySize - b.stats.ArraySize / 2) (b.stats.ArraySize / 2) 0
      node { count := 0, values := fun _ => default } = halves at m1 m2 c1 c2
    have hS2 : 2 ≤ b.stats.ArraySize := by omega
    have hh1 : 1 ≤ b.stats.ArraySize / 2 := by omega
    have hh2 : b.stats.ArraySize / 2 < b.stats.ArraySize := by omega
    rw [m5] at hs
    unfold List.Sorted at hs
    obtain ⟨s1, s2, s3⟩ := List.pairwise_append.1 hs
    have hfirst : halves.2.values 0 ∈ segment node.values (b.stats.ArraySize / 2)
        (b.stats.ArraySize - b.stats.ArraySize / 2) := by
      rw [← m2, items_eq_segment, c2]
      exact mem_segment.2 ⟨0, le_refl 0, by omega, rfl⟩
    have hle : ∀ y ∈ segment node.values (b.stats.ArraySize / 2)
        (b.stats.ArraySize - b.stats.ArraySize / 2), halves.2.values 0 ≤ y := by
      have hh : (segment node.values (b.stats.ArraySize / 2)
          (b.stats.ArraySize - b.stats.ArraySize / 2)).head? = some (halves.2.values 0) := by
        rw [← m2, items_eq_segment, c2, head_segment _ _ _ (by omega)]
      intro y hy
      cases hseg : segment node.values (b.stats.ArraySize / 2)
          (b.stats.ArraySize - b.stats.ArraySize / 2) with
      | nil => rw [hseg] at hy; cases hy
      | cons a rest =>
        rw [hseg] at hh hy s2
        have ea : a = halves.2.values 0 := by
          cases hh
          rfl
        rcases List.mem_cons.1 hy with e | e
        · rw [e, ea]
        · rw [← ea]
          exact List.rel_of_pairwise_cons s2 e
    by_cases hv : value < halves.2.values 0
    · rw [if_pos hv]
      obtain ⟨ic, l, r, i1, i2, i3, i4⟩ := insertInNode_spec halves.1 value
      refine ⟨insertInNode halves.1 value, halves.2, l, r ++ halves.2.items, rfl,
        ⟨by rw [ic]; omega, by rw [ic, c1]; omega⟩, ⟨by rw [c2]; omega, by rw [c2]; omega⟩,
        ?_, ?_, i3, ?_⟩
      · rw [m5, ← m1, ← m2, i1, List.append_assoc]
      · rw [i2, List.append_assoc]
        rfl
      · intro y hy
        rcases List.mem_append.1 hy with e | e
        · refine le_of_head ?_ i4 y e
          rw [← m1, i1] at s1
          exact (List.pairwise_append.1 s1).2.1
        · rw [m2] at e
          exact le_trans (le_of_lt hv) (hle y e)
    · rw [if_neg hv]
      obtain ⟨ic, l, r, i1, i2, i3, i4⟩ := insertInNode_spec halves.2 value
      refine ⟨halves.1, insertInNode halves.2 value, halves.1.items ++ l, r, rfl,
        ⟨by rw [c1]; omega, by rw [c1]; omega⟩, ⟨by rw [ic]; omega, by rw [ic, c2]; omega⟩,
        ?_, ?_, ?_, ?_⟩
      · rw [m5, ← m1, ← m2, i1, List.append_assoc]
      · rw [i2, List.append_assoc]
      · intro x hx
        rcases List.mem_append.1 hx with e | e
        · rw [m1] at e
          exact le_trans (s3 x e _ hfirst) (not_lt.1 hv)
        · exact i3 x e
      · refine le_of_head ?_ i4
        rw [← m2, i1] at s2
        exact (List.pairwise_append.1 s2).2.1

/-! ### The search of insert -/

/-- When the scan of a node sets `inserted`: the value is less than an item of
the node, or the scan reaches the last item and the value is less than the
first slot of the next node. -/
theorem scan_spec {T : Type} [LinearOrder T] (value : T) (node : BNode T)
    (next : Option (BNode T)) : ∀ (k i : Nat), i + k = node.count →
      (insert.scan value node next k i = true ↔
        (∃ j, i ≤ j ∧ j < node.count ∧ value < node.values j) ∨
        (1 ≤ k ∧ next.any (fun n => decide (value < n.values 0)) = true)) := by
  intro k
  induction k with
  | zero =>
    intro i hi
    simp only [insert.scan, Bool.false_eq_true, false_iff, not_or, not_exists, not_and]
    exact ⟨fun j h1 h2 => by omega, fun h => by omega⟩
  | succ k ih =>
    intro i hi
    unfold insert.scan
    by_cases hv : value < node.values i
    · rw [if_pos hv]
      exact ⟨fun _ => Or.inl ⟨i, le_refl i, by omega, hv⟩, fun _ => rfl⟩
    · rw [if_neg hv]
      by_cases hn : i = node.count - 1 ∧
          next.any (fun n => decide (value < n.values 0)) = true
      · rw [if_pos hn]
        exact ⟨fun _ => Or.inr ⟨by omega, hn.2⟩, fun _ => rfl⟩
      · rw [if_neg hn, ih (i + 1) (by omega)]
        constructor
        · rintro (⟨j, h1, h2, h3⟩ | ⟨h1, h2⟩)
          · exact Or.inl ⟨j, by omega, h2, h3⟩
          · exact Or.inr ⟨by omega, h2⟩
        · rintro (⟨j, h1, h2, h3⟩ | ⟨_, h2⟩)
          · have : j ≠ i := fun e => hv (e ▸ h3)
            exact Or.inl ⟨j, by omega, h2, h3⟩
          · refine Or.inr ⟨?_, h2⟩
            by_contra hk
            exact hn ⟨by omega, h2⟩

/-- Where the walk of `insert` over the nodes stops: at a node whose scan sets
`inserted`, after nodes none of whose items the value is less than. -/
theorem search_spec {T : Type} [LinearOrder T] (value : T) :
    ∀ (nodes before : List (BNode T)),
      (∀ n ∈ before, ∀ x ∈ n.items, x ≤ value) →
      (insert.search value before nodes = none ∧
        ∀ n ∈ nodes, ∀ x ∈ n.items, x ≤ value) ∨
      (∃ b' p a, insert.search value before nodes = some (b', p, a) ∧
        before.reverse ++ nodes = b' ++ p :: a ∧
        (∀ n ∈ b', ∀ x ∈ n.items, x ≤ value) ∧
        insert.scan value p a.head? p.count 0 = true) := by
  intro nodes
  induction nodes with
  | nil =>
    intro before _
    exact Or.inl ⟨rfl, fun n hn => by cases hn⟩
  | cons p rest ih =>
    intro before hb
    unfold insert.search
    by_cases hsc : insert.scan value p rest.head? p.count 0 = true
    · rw [if_pos hsc]
      refine Or.inr ⟨before.reverse, p, rest, rfl, rfl, ?_, hsc⟩
      intro n hn
      exact hb n (List.mem_reverse.1 hn)
    · rw [if_neg hsc]
      have hp : ∀ x ∈ p.items, x ≤ value := by
        intro x hx
        rw [items_eq_segment] at hx
        obtain ⟨j, _, h2, e⟩ := mem_segment.1 hx
        rw [← e]
        apply not_lt.1
        intro hlt
        exact hsc ((scan_spec value p rest.head? p.count 0 (by omega)).2
          (Or.inl ⟨j, Nat.zero_le j, by omega, hlt⟩))
      have hb' : ∀ n ∈ p :: before, ∀ x ∈ n.items, x ≤ value := by
        intro n hn
        rcases List.mem_cons.1 hn with e | e
        · rw [e]; exact hp
        · exact hb n e
      rcases ih (p :: before) hb' with ⟨h1, h2⟩ | ⟨b', q, a, h1, h2, h3, h4⟩
      · refine Or.inl ⟨h1, ?_⟩
        intro n hn
        rcases List.mem_cons.1 hn with e | e
        · rw [e]; exact hp
        · exact h2 n e
      · refine Or.inr ⟨b', q, a, h1, ?_, h3, h4⟩
        rw [← h2]
        simp

/-- After the node the walk of `insert` stops at, no item is less than the
value. -/
theorem after_ge {T : Type} [LinearOrder T] {value : T} {p : BNode T} {a : List (BNode T)}
    (hscan : insert.scan value p a.head? p.count 0 = true)
    (hs : (p.items ++ flattenNodes a).Sorted (· ≤ ·)) (hfa : ∀ n ∈ a, 1 ≤ n.count) :
    ∀ y ∈ flattenNodes a, value ≤ y := by
  unfold List.Sorted at hs
  obtain ⟨_, s2, s3⟩ := List.pairwise_append.1 hs
  rcases (scan_spec value p a.head? p.count 0 (by omega)).1 hscan with
    ⟨j, _, h2, h3⟩ | ⟨_, h2⟩
  · intro y hy
    have hx : p.values j ∈ p.items := by
      rw [items_eq_segment]
      exact mem_segment.2 ⟨j, Nat.zero_le j, by omega, rfl⟩
    exact le_trans (le_of_lt h3) (s3 _ hx y hy)
  · cases a with
    | nil => intro y hy; cases hy
    | cons n rest =>
      have hv : value < n.values 0 := by
        simpa using h2
      refine le_of_head s2 ?_
      intro y hy
      rw [flattenNodes_cons, items_eq_segment] at hy
      obtain ⟨c, hc⟩ : ∃ c, n.count = c + 1 :=
        ⟨n.count - 1, by have := hfa n (List.mem_cons_self _ _); omega⟩
      rw [hc, segment_succ] at hy
      cases hy
      exact hv

/-- The items of a node after the value was put in front, as `push_front` and
`insert` do it. -/
theorem items_front {T : Type} (node : BNode T) (value : T) :
    (Increament { node with values := shiftRight node.values 0 node.count } value).items
      = value :: node.items := by
  rw [items_eq_segment, items_eq_segment]
  exact segment_insert node.values 0 node.count (Nat.zero_le _) value

/-- The items of a node after the value was put behind them, as `push_back`
does it. -/
theorem items_back {T : Type} (node : BNode T) (value : T) :
    ({ count := node.count + 1,
       values := Function.update node.values node.count value } : BNode T).items
      = node.items ++ [value] := by
  rw [items_eq_segment, items_eq_segment]
  show segment (Function.update node.values node.count value) 0 (node.count + 1) = _
  rw [segment_concat, Nat.zero_add, Function.update_same]
  congr 1
  apply segment_congr
  intro j _ h2
  rw [Function.update_noteq (by omega)]

theorem items_fresh {T : Type} [Inhabited T] (value : T) :
    (Increament ({ count := 0, values := fun _ => default } : BNode T) value).items
      = [value] := by
  rw [items_eq_segment]
  show segment (Function.update (fun _ => default) 0 value) 0 (0 + 1) = _
  rw [segment_succ, segment_zero, Function.update_same]

/-! ### insert -/

/-- `insert` on a list whose nodes hold between 1 and `Size` items and whose
contents are sorted: the value goes between the items it is not less than and
the items it is not more than, and the nodes again hold between 1 and `Size`
items. -/
theorem insert_spec {T : Type} [LinearOrder T] [Inhabited T] (b : BList T) (value : T)
    (hS : 1 ≤ b.stats.ArraySize) (hf : b.Filled) (hs : b.flatten.Sorted (· ≤ ·)) :
    ∃ b' l r, insert b value true = .ok b' ∧ b'.Filled ∧
      b'.stats.ArraySize = b.stats.ArraySize ∧
      b'.stats.ItemCount = b.stats.ItemCount + 1 ∧
      b.flatten = l ++ r ∧ b'.flatten = l ++ value :: r ∧
      (∀ x ∈ l, x ≤ value) ∧ (∀ y ∈ r, value ≤ y) := by
  obtain ⟨nodes, stats⟩ := b
  unfold BList.Filled at hf ⊢
  unfold BList.flatten at hs ⊢
  simp only at hS hf hs ⊢
  cases nodes with
  | nil =>
    refine ⟨_, [], [], rfl, ?_, rfl, rfl, rfl, ?_, (fun x hx => by cases hx),
      (fun y hy => by cases hy)⟩
    · intro node hn
      have e : node = Increament { count := 0, values := fun _ => default } value := by
        simpa [BList.countItem] using hn
      rw [e]
      exact ⟨by show 1 ≤ 0 + 1; omega, by show 0 + 1 ≤ stats.ArraySize; omega⟩
    · show flattenNodes [Increament { count := 0, values := fun _ => default } value] = _
      rw [flattenNodes_cons, items_fresh]
      rfl
  | cons head rest =>
    -- the conclusion for a result whose nodes are known
    have fin : ∀ (res : Except BListException (BList T)) (nodes' : List (BNode T))
        (stats' : BListStats) (l r : List T),
        insert { nodes := head :: rest, stats := stats } value true = res →
        res = .ok { nodes := nodes', stats := stats' } →
        (∀ node ∈ nodes', 1 ≤ node.count ∧ node.count ≤ stats.ArraySize) →
        stats'.ArraySize = stats.ArraySize → stats'.ItemCount = stats.ItemCount + 1 →
        flattenNodes (head :: rest) = l ++ r → flattenNodes nodes' = l ++ value :: r →
        (∀ x ∈ l, x ≤ value) → (∀ y ∈ r, value ≤ y) →
        ∃ b' l r, insert { nodes := head :: rest, stats := stats } value true = .ok b' ∧
          (∀ node ∈ b'.nodes, 1 ≤ node.count ∧ node.count ≤ b'.stats.ArraySize) ∧
          b'.stats.ArraySize = stats.ArraySize ∧ b'.stats.ItemCount = stats.ItemCount + 1 ∧
          flattenNodes (head :: rest) = l ++ r ∧ flattenNodes b'.nodes = l ++ value :: r ∧
          (∀ x ∈ l, x ≤ value) ∧ (∀ y ∈ r, value ≤ y) := by
      intro res nodes' stats' l r e1 e2 h1 h2 h3 h4 h5 h6 h7
      refine ⟨_, l, r, e1.trans e2, ?_, h2, h3, h4, h5, h6, h7⟩
      intro node hn
      rw [h2]
      exact h1 node hn
    have hins : insert { nodes := head :: rest, stats := stats } value true =
        (match insert.search value [] (head :: rest) with
        | none =>
          if ((head :: rest).getLast (List.cons_ne_nil head rest)).count < stats.ArraySize then
            push_back { nodes := head :: rest, stats := stats } value true
          else Split { nodes := head :: rest, stats := stats } (head :: rest).dropLast
            ((head :: rest).getLast (List.cons_ne_nil head rest)) [] value true
        | some (before, ptrHead, after) =>
          if ptrHead.count ≥ stats.ArraySize then
            match after with
            | nextNode :: rest =>
              if ptrHead.values (ptrHead.count - 1) < value ∧ nextNode.count < stats.ArraySize
              then
                .ok (BList.countItem { nodes := head :: rest, stats := stats }
                  (before ++ ptrHead :: Increament
                    { nextNode with values := shiftRight nextNode.values 0 nextNode.count }
                    value :: rest))
              else Split { nodes := head :: rest, stats := stats } before ptrHead after value true
            | [] => Split { nodes := head :: rest, stats := stats } before ptrHead after value true
          else
            .ok (BList.countItem { nodes := head :: rest, stats := stats }
              (before ++ insertInNode ptrHead value :: after))) := rfl
    rcases search_spec value (head :: rest) [] (fun n hn => by cases hn) with
      ⟨h1, h2⟩ | ⟨b', p, a, h1, h2, h3, h4⟩
    · -- the value is not less than any item
      rw [h1] at hins
      simp only at hins
      have hall : ∀ x ∈ flattenNodes (head :: rest), x ≤ value := by
        intro x hx
        obtain ⟨n, hn, hxn⟩ := mem_flattenNodes.1 hx
        exact h2 n hn x hxn
      have hdec := List.dropLast_append_getLast (List.cons_ne_nil head rest)
      generalize hinit : (head :: rest).dropLast = init at hins hdec
      generalize htail : (head :: rest).getLast (List.cons_ne_nil head rest) = tail at hins hdec
      have hflat : flattenNodes (head :: rest) = flattenNodes init ++ tail.items := by
        rw [← hdec, flattenNodes_append, flattenNodes_cons]
        simp [flattenNodes]
      have htm : tail ∈ head :: rest := by rw [← hdec]; simp
      have him : ∀ n ∈ init, n ∈ head :: rest := by
        intro n hn
        rw [← hdec]
        exact List.mem_append_left _ hn
      by_cases hroom : tail.count < stats.ArraySize
      · rw [if_pos hroom] at hins
        have hpb : push_back { nodes := head :: rest, stats := stats } value true
            = .ok (BList.countItem { nodes := head :: rest, stats := stats }
              (init ++ [{ count := tail.count + 1,
                          values := Function.update tail.values tail.count value }])) := by
          unfold push_back
          simp only []
          rw [List.getLast?_eq_getLast _ (List.cons_ne_nil head rest), htail]
          simp only []
          rw [if_pos hroom, hinit]
        refine fin _ _ _ (flattenNodes (head :: rest)) [] hins hpb ?_ rfl rfl
          (List.append_nil _).symm ?_ hall (fun y hy => by cases hy)
        · intro node hn
          rcases List.mem_append.1 hn with e | e
          · exact hf node (him node e)
          · rw [List.mem_singleton.1 e]
            exact ⟨by show 1 ≤ tail.count + 1; omega, by show tail.count + 1 ≤ _; omega⟩
        · rw [flattenNodes_append, flattenNodes_cons, items_back, hflat]
          simp [flattenNodes]
      · rw [if_neg hroom] at hins
        have hcount : tail.count = stats.ArraySize := by
          have := (hf tail htm).2
          omega
        have hst : tail.items.Sorted (· ≤ ·) := by
          rw [hflat] at hs
          exact (List.pairwise_append.1 hs).2.1
        obtain ⟨n1, n2, l0, r0, hsp, c1, c2, i1, i2, i3, i4⟩ :=
          Split_spec { nodes := head :: rest, stats := stats } init tail [] value hS hcount hst
        refine fin _ _ _ (flattenNodes init ++ l0) r0 hins hsp ?_ rfl rfl ?_ ?_ ?_ i4
        · intro node hn
          rcases List.mem_append.1 hn with e | e
          · exact hf node (him node e)
          · rcases List.mem_cons.1 e with e | e
            · rw [e]; exact c1
            · rw [List.mem_singleton.1 e]; exact c2
        · rw [hflat, i1, List.append_assoc]
        · rw [flattenNodes_append, flattenNodes_cons, flattenNodes_cons]
          show _ ++ (n1.items ++ (n2.items ++ [])) = _
          rw [List.append_nil, i2, List.append_assoc]
        · intro x hx
          rcases List.mem_append.1 hx with e | e
          · exact hall x (by rw [hflat]; exact List.mem_append_left _ e)
          · exact i3 x e
    · -- the walk stops at the node `p`
      rw [h1] at hins
      simp only at hins
      simp only [List.reverse_nil, List.nil_append] at h2
      have hflat : flattenNodes (head :: rest)
          = flattenNodes b' ++ (p.items ++ flattenNodes a) := by
        rw [h2, flattenNodes_append, flattenNodes_cons]
      have hbm : ∀ n ∈ b', n ∈ head :: rest := by
        intro n hn
        rw [h2]
        exact List.mem_append_left _ hn
      have hpm : p ∈ head :: rest := by rw [h2]; simp
      have ham : ∀ n ∈ a, n ∈ head :: rest := by
        intro n hn
        rw [h2]
        exact List.mem_append_right _ (List.mem_cons_of_mem _ hn)
      have hbl : ∀ x ∈ flattenNodes b', x ≤ value := by
        intro x hx
        obtain ⟨n, hn, hxn⟩ := mem_flattenNodes.1 hx
        exact h3 n hn x hxn
      rw [hflat] at hs
      unfold List.Sorted at hs
      obtain ⟨_, s2, _⟩ := List.pairwise_append.1 hs
      obtain ⟨sp, sa, spa⟩ := List.pairwise_append.1 s2
      have hage : ∀ y ∈ flattenNodes a, value ≤ y :=
        after_ge h4 s2 (fun n hn => (hf n (ham n hn)).1)
      -- the case of a split
      have split : insert { nodes := head :: rest, stats := stats } value true
            = Split { nodes := head :: rest, stats := stats } b' p a value true →
          p.count = stats.ArraySize →
          ∃ b'' l r, insert { nodes := head :: rest, stats := stats } value true = .ok b'' ∧
            (∀ node ∈ b''.nodes, 1 ≤ node.count ∧ node.count ≤ b''.stats.ArraySize) ∧
            b''.stats.ArraySize = stats.ArraySize ∧
            b''.stats.ItemCount = stats.ItemCount + 1 ∧
            flattenNodes (head :: rest) = l ++ r ∧ flattenNodes b''.nodes = l ++ value :: r ∧
            (∀ x ∈ l, x ≤ value) ∧ (∀ y ∈ r, value ≤ y) := by
        intro hsplit hcount
        obtain ⟨n1, n2, l0, r0, hsp, c1, c2, i1, i2, i3, i4⟩ :=
          Split_spec { nodes := head :: rest, stats := stats } b' p a value hS hcount sp
        refine fin _ _ _ (flattenNodes b' ++ l0) (r0 ++ flattenNodes a) hsplit hsp ?_ rfl rfl
          ?_ ?_ ?_ ?_
        · intro node hn
          rcases List.mem_append.1 hn with e | e
          · exact hf node (hbm node e)
          · rcases List.mem_cons.1 e with e | e
            · rw [e]; exact c1
            · rcases List.mem_cons.1 e with e | e
              · rw [e]; exact c2
              · exact hf node (ham node e)
        · rw [hflat, i1]
          simp only [List.append_assoc]
        · rw [flattenNodes_append, flattenNodes_cons, flattenNodes_cons, ← List.append_assoc n1.items,
            i2]
          simp only [List.append_assoc, List.cons_append]
        · intro x hx
          rcases List.mem_append.1 hx with e | e
          · exact hbl x e
          · exact i3 x e
        · intro y hy
          rcases List.mem_append.1 hy with e | e
          · exact i4 y e
          · exact hage y e
      by_cases hfull : p.count ≥ stats.ArraySize
      · rw [if_pos hfull] at hins
        have hcount : p.count = stats.ArraySize := by
          have := (hf p hpm).2
          omega
        cases a with
        | nil => exact split hins hcount
        | cons nx rest' =>
          simp only at hins
          by_cases hnext : p.values (p.count - 1) < value ∧ nx.count < stats.ArraySize
          · rw [if_pos hnext] at hins
            refine fin _ _ _ (flattenNodes b' ++ p.items) (nx.items ++ flattenNodes rest') hins rfl
              ?_ rfl rfl ?_ ?_ ?_ ?_
            · intro node hn
              rcases List.mem_append.1 hn with e | e
              · exact hf node (hbm node e)
              · rcases List.mem_cons.1 e with e | e
                · rw [e]; exact hf p hpm
                · rcases List.mem_cons.1 e with e | e
                  · rw [e]
                    exact ⟨by show 1 ≤ nx.count + 1; omega,
                      by show nx.count + 1 ≤ stats.ArraySize; omega⟩
                  · exact hf node (ham node (List.mem_cons_of_mem _ e))
            · rw [hflat, flattenNodes_cons]
              simp only [List.append_assoc]
            · rw [flattenNodes_append, flattenNodes_cons, flattenNodes_cons, items_front]
              simp only [List.append_assoc, List.cons_append]
            · intro x hx
              rcases List.mem_append.1 hx with e | e
              · exact hbl x e
              · -- every item of `p` is at most its last item
                rw [items_eq_segment] at e sp
                obtain ⟨j, _, hj, ej⟩ := mem_segment.1 e
                have hp1 := (hf p hpm).1
                by_cases hlast : j = p.count - 1
                · rw [← ej, hlast]
                  exact le_of_lt hnext.1
                · have hsplit := segment_append p.values 0 (j + 1) (p.count - (j + 1))
                  rw [show j + 1 + (p.count - (j + 1)) = p.count by omega, segment_concat] at hsplit
                  rw [hsplit] at sp
                  have := (List.pairwise_append.1 sp).2.2 (p.values (0 + j))
                    (List.mem_append_right _ (List.mem_singleton_self _))
                    (p.values (p.count - 1))
                    (mem_segment.2 ⟨p.count - 1, by omega, by omega, rfl⟩)
                  rw [Nat.zero_add, ej] at this
                  exact le_trans this (le_of_lt hnext.1)
            · intro y hy
              exact hage y (by rw [flattenNodes_cons]; exact hy)
          · rw [if_neg hnext] at hins
            exact split hins hcount
      · rw [if_neg hfull] at hins
        obtain ⟨ic, l0, r0, i1, i2, i3, i4⟩ := insertInNode_spec p value
        refine fin _ _ _ (flattenNodes b' ++ l0) (r0 ++ flattenNodes a) hins rfl ?_ rfl rfl
          ?_ ?_ ?_ ?_
        · intro node hn
          rcases List.mem_append.1 hn with e | e
          · exact hf node (hbm node e)
          · rcases List.mem_cons.1 e with e | e
            · rw [e, ic]
              have := (hf p hpm).1
              exact ⟨by omega, by omega⟩
            · exact hf node (ham node e)
        · rw [hflat, i1]
          simp only [List.append_assoc]
        · rw [flattenNodes_append, flattenNodes_cons, i2]
          simp only [List.append_assoc, List.cons_append]
        · intro x hx
          rcases List.mem_append.1 hx with e | e
          · exact hbl x e
          · exact i3 x e
        · intro y hy
          rcases List.mem_append.1 hy with e | e
          · refine le_of_head ?_ i4 y e
            rw [i1] at sp
            exact (List.pairwise_append.1 sp).2.1
          · exact hage y e

/-! ### find and the subscript operator -/

theorem getElem?_items {T : Type} (node : BNode T) (j : Nat) (hj : j < node.count) :
    node.items[j]? = some (node.values j) := by
  unfold BNode.items
  rw [List.getElem?_map, List.getElem?_range hj]
  rfl

/-- Where the scan of `find` over a node stops. -/
theorem find_scan_spec {T : Type} [DecidableEq T] (value : T) (node : BNode T) :
    ∀ (k i : Nat), i + k = node.count →
      (∀ r, find.scan value node k i = some r →
        i ≤ r ∧ r < node.count ∧ node.values r = value ∧
        ∀ j, i ≤ j → j < r → node.values j ≠ value) ∧
      (find.scan value node k i = none →
        ∀ j, i ≤ j → j < node.count → node.values j ≠ value) := by
  intro k
  induction k with
  | zero =>
    intro i hi
    exact ⟨(fun r hr => by cases hr), (fun _ j h1 h2 => by omega)⟩
  | succ k ih =>
    intro i hi
    unfold find.scan
    by_cases hv : node.values i = value
    · rw [if_pos hv]
      refine ⟨?_, fun h => by cases h⟩
      intro r hr
      cases hr
      exact ⟨le_refl i, by omega, hv, fun j h1 h2 => by omega⟩
    · rw [if_neg hv]
      obtain ⟨a1, a2⟩ := ih (i + 1) (by omega)
      constructor
      · intro r hr
        obtain ⟨b1, b2, b3, b4⟩ := a1 r hr
        refine ⟨by omega, b2, b3, ?_⟩
        intro j h1 h2
        by_cases e : j = i
        · rw [e]; exact hv
        · exact b4 j (by omega) h2
      · intro hn j h1 h2
        by_cases e : j = i
        · rw [e]; exact hv
        · exact a2 hn j (by omega) h2

/-- The walk of `find` over the nodes returns the position of the first item
equal to the value, counted from `index`, and -1 when there is none. -/
theorem find_walk_spec {T : Type} [DecidableEq T] (value : T) :
    ∀ (nodes : List (BNode T)) (index : Int),
      (value ∈ flattenNodes nodes →
        ∃ k : Nat, find.walk value nodes index = index + k ∧
          (flattenNodes nodes)[k]? = some value ∧
          ∀ j, j < k → (flattenNodes nodes)[j]? ≠ some value) ∧
      (value ∉ flattenNodes nodes → find.walk value nodes index = -1) := by
  intro nodes
  induction nodes with
  | nil =>
    intro index
    exact ⟨(fun h => by cases h), (fun _ => rfl)⟩
  | cons n rest ih =>
    intro index
    obtain ⟨a1, a2⟩ := find_scan_spec value n n.count 0 (by omega)
    unfold find.walk
    rw [flattenNodes_cons]
    cases hsc : find.scan value n n.count 0 with
    | some r =>
      obtain ⟨_, b2, b3, b4⟩ := a1 r hsc
      have hlen : r < n.items.length := by rw [length_items]; exact b2
      constructor
      · intro _
        refine ⟨r, rfl, ?_, ?_⟩
        · rw [List.getElem?_append_left hlen, getElem?_items n r b2, b3]
        · intro j hj
          rw [List.getElem?_append_left (by omega), getElem?_items n j (by omega)]
          intro e
          cases e
          exact b4 j (Nat.zero_le j) hj rfl
      · intro hnot
        exfalso
        apply hnot
        refine List.mem_append_left _ ?_
        rw [items_eq_segment]
        exact mem_segment.2 ⟨r, Nat.zero_le r, by omega, b3⟩
    | none =>
      have hno := a2 hsc
      have hni : value ∉ n.items := by
        intro hm
        rw [items_eq_segment] at hm
        obtain ⟨j, h1, h2, e⟩ := mem_segment.1 hm
        exact hno j h1 (by omega) e
      obtain ⟨c1, c2⟩ := ih (index + n.count)
      constructor
      · intro hm
        have hm' : value ∈ flattenNodes rest := by
          rcases List.mem_append.1 hm with e | e
          · exact absurd e hni
          · exact e
        obtain ⟨k, d1, d2, d3⟩ := c1 hm'
        refine ⟨n.count + k, ?_, ?_, ?_⟩
        · show find.walk value rest (index + n.count) = _
          rw [d1]
          push_cast
          omega
        · rw [List.getElem?_append_right (by rw [length_items]; omega), length_items,
            show n.count + k - n.count = k by omega]
          exact d2
        · intro j hj
          by_cases hjc : j < n.count
          · rw [List.getElem?_append_left (by rw [length_items]; exact hjc),
              getElem?_items n j hjc]
            intro e
            cases e
            exact hno j (Nat.zero_le j) hjc rfl
          · rw [List.getElem?_append_right (by rw [length_items]; omega), length_items]
            exact d3 (j - n.count) (by omega)
      · intro hnot
        show find.walk value rest (index + n.count) = _
        exact c2 (fun h => hnot (List.mem_append_right _ h))

/-- The walk of `operator[]` over the nodes returns the item at the position
`index`, counted from `currentIndex`, and runs off the chain when there are
not that many items. -/
theorem subscript_walk_spec {T : Type} (index : Int) :
    ∀ (nodes : List (BNode T)) (currentIndex : Int), currentIndex ≤ index →
      (index < currentIndex + (flattenNodes nodes).length →
        ∃ x, subscript.walk index nodes currentIndex = .ok x ∧
          (flattenNodes nodes)[(index - currentIndex).toNat]? = some x) ∧
      (currentIndex + (flattenNodes nodes).length ≤ index →
        subscript.walk index nodes currentIndex
          = .error { code := .E_BAD_INDEX, description := "Index computation failed" }) := by
  intro nodes
  induction nodes with
  | nil =>
    intro cur hc
    refine ⟨fun h => ?_, fun _ => rfl⟩
    simp only [flattenNodes, List.length_nil] at h
    omega
  | cons n rest ih =>
    intro cur hc
    unfold subscript.walk
    rw [flattenNodes_cons, List.length_append, length_items]
    by_cases hin : index < cur + n.count
    · rw [if_pos hin]
      constructor
      · intro _
        refine ⟨_, rfl, ?_⟩
        rw [List.getElem?_append_left (by rw [length_items]; omega),
          getElem?_items n _ (by omega)]
      · intro h
        push_cast at h
        omega
    · rw [if_neg hin]
      obtain ⟨c1, c2⟩ := ih (cur + n.count) (by omega)
      constructor
      · intro h
        obtain ⟨x, d1, d2⟩ := c1 (by push_cast at h; omega)
        refine ⟨x, d1, ?_⟩
        rw [List.getElem?_append_right (by rw [length_items]; omega), length_items,
          show (index - cur).toNat - n.count = (index - (cur + n.count)).toNat by omega]
        exact d2
      · intro h
        exact c2 (by push_cast at h; omega)

/-! ### Runs of insert -/

/-- A run of `insert` calls on a list whose nodes hold between 1 and `Size`
items and whose contents are sorted. -/
theorem insertAll_spec {T : Type} [LinearOrder T] [Inhabited T] :
    ∀ (values : List T) (b : BList T), 1 ≤ b.stats.ArraySize → b.Filled →
      b.flatten.Sorted (· ≤ ·) →
      ∃ b', insertAll b values = .ok b' ∧ b'.Filled ∧
        b'.stats.ArraySize = b.stats.ArraySize ∧ b'.flatten.Sorted (· ≤ ·) ∧
        b'.flatten.Perm (values ++ b.flatten) ∧
        b'.stats.ItemCount = b.stats.ItemCount + values.length := by
  intro values
  induction values with
  | nil =>
    intro b _ hf hs
    exact ⟨b, rfl, hf, rfl, hs, List.Perm.refl _, by simp⟩
  | cons v rest ih =>
    intro b hS hf hs
    obtain ⟨b1, l, r, h1, h2, h3, h4, h5, h6, h7, h8⟩ := insert_spec b v hS hf hs
    have hs1 : b1.flatten.Sorted (· ≤ ·) := by
      rw [h6]
      rw [h5] at hs
      exact sorted_middle hs h7 h8
    obtain ⟨b', i1, i2, i3, i4, i5, i6⟩ := ih b1 (by rw [h3]; exact hS) h2 hs1
    refine ⟨b', ?_, i2, i3.trans h3, i4, ?_, ?_⟩
    · unfold insertAll
      rw [h1]
      exact i1
    · refine i5.trans ?_
      rw [h6, h5]
      have : (l ++ v :: r).Perm (v :: (l ++ r)) := List.perm_middle
      refine (List.Perm.append_left rest this).trans ?_
      exact List.perm_middle
    · rw [i6, h4]
      simp only [List.length_cons]
      push_cast
      omega

/-! ### Removing by index -/

/-- What the loop that closes a gap leaves in each slot. -/
theorem shiftLeft_apply {T : Type} : ∀ (k : Nat) (f : Nat → T) (j x : Nat),
    shiftLeft f k j x = if j ≤ x ∧ x < j + k then f (x + 1) else f x := by
  intro k
  induction k with
  | zero =>
    intro f j x
    rw [if_neg (by omega)]
    rfl
  | succ k ih =>
    intro f j x
    simp only [shiftLeft]
    rw [ih]
    by_cases h1 : j + 1 ≤ x ∧ x < j + 1 + k
    · rw [if_pos h1, if_pos (by omega), Function.update_noteq (by omega)]
    · rw [if_neg h1]
      by_cases h2 : x = j
      · subst h2
        rw [Function.update_same, if_pos (by omega)]
      · rw [Function.update_noteq h2, if_neg (by omega)]

theorem eraseIdx_segment {T : Type} (f : Nat → T) (i c : Nat) (h : i < c) :
    (segment f 0 c).eraseIdx i = segment f 0 i ++ segment f (i + 1) (c - 1 - i) := by
  have e : c = i + ((c - 1 - i) + 1) := by omega
  rw [e, segment_append, segment_succ, Nat.zero_add]
  rw [List.eraseIdx_append_of_length_le (by rw [length_segment]), length_segment, Nat.sub_self]
  have e2 : i + (c - 1 - i + 1) - 1 - i = c - 1 - i := by omega
  rw [e2]
  rfl

/-- Taking the item at index `i` out of a node erases it from the items. -/
theorem items_removeAt {T : Type} (node : BNode T) (i : Nat) (h : i < node.count) :
    (removeAt node i).items = node.items.eraseIdx i ∧
    (removeAt node i).count = node.count - 1 := by
  refine ⟨?_, rfl⟩
  rw [items_eq_segment, items_eq_segment, eraseIdx_segment _ _ _ h]
  show segment (shiftLeft node.values (node.count - 1 - i) i) 0 (node.count - 1) = _
  have e : node.count - 1 = i + (node.count - 1 - i) := by omega
  rw [e, segment_append, Nat.zero_add]
  have e2 : i + (node.count - 1 - i) - i = node.count - 1 - i := by omega
  rw [e2]
  congr 1
  · apply segment_congr
    intro j _ hj
    rw [shiftLeft_apply, if_neg (by omega)]
  · symm
    apply segment_shift
    intro j hj1 hj2
    rw [shiftLeft_apply, if_pos ⟨hj1, hj2⟩]

/-- The loop over the items of a node stops at the index that is `index`
items further, if the node has that many. -/
theorem remove_scan_spec (index : Int) : ∀ (k i : Nat) (t : Int),
    (t ≤ index → index < t + k → remove.scan index k i t = .inl (i + (index - t).toNat)) ∧
    ((index < t ∨ t + k ≤ index) → remove.scan index k i t = .inr (t + k)) := by
  intro k
  induction k with
  | zero =>
    intro i t
    constructor
    · intro h1 h2
      omega
    · intro _
      simp [remove.scan]
  | succ k ih =>
    intro i t
    obtain ⟨ih1, ih2⟩ := ih (i + 1) (t + 1)
    constructor
    · intro h1 h2
      simp only [remove.scan]
      by_cases e : t = index
      · rw [if_pos e]
        congr 1
        omega
      · rw [if_neg e, ih1 (by omega) (by push_cast at h2 ⊢; omega)]
        congr 1
        omega
    · intro h
      simp only [remove.scan]
      rw [if_neg (by omega), ih2 (by push_cast at h ⊢; omega)]
      congr 1
      push_cast
      omega

/-- The walk of `remove` over the nodes: it takes out the item that is
`index - t` items into the chain, and runs off the chain when there is no such
item. -/
theorem remove_walk_spec {T : Type} (index : Int) : ∀ (nodes before : List (BNode T)) (t : Int),
    (t ≤ index → index < t + (flattenNodes nodes).length →
      ∃ l node r, nodes = l ++ node :: r ∧
        (flattenNodes l).length ≤ (index - t).toNat ∧
        (index - t).toNat < (flattenNodes l).length + node.count ∧
        ((node.count = 1 ∧
            remove.walk index before nodes t = some (before.reverse ++ l ++ r, true)) ∨
          (node.count ≠ 1 ∧ remove.walk index before nodes t
            = some (before.reverse ++ l ++
                removeAt node ((index - t).toNat - (flattenNodes l).length) :: r, false))) ∧
        flattenNodes (l ++ removeAt node ((index - t).toNat - (flattenNodes l).length) :: r)
          = (flattenNodes nodes).eraseIdx (index - t).toNat) ∧
    ((index < t ∨ t + (flattenNodes nodes).length ≤ index) →
      remove.walk index before nodes t = none) := by
  intro nodes
  induction nodes with
  | nil =>
    intro before t
    constructor
    · intro h1 h2
      simp [flattenNodes] at h2
      omega
    · intro _
      rfl
  | cons n rest ih =>
    intro before t
    obtain ⟨s1, s2⟩ := remove_scan_spec index n.count 0 t
    obtain ⟨ih1, ih2⟩ := ih (n :: before) (t + n.count)
    have hlen : (flattenNodes (n :: rest)).length = n.count + (flattenNodes rest).length := by
      rw [flattenNodes_cons, List.length_append, length_items]
    constructor
    · intro h1 h2
      rw [hlen] at h2
      by_cases hin : index < t + n.count
      · -- the item is in this node
        have hs := s1 h1 hin
        rw [Nat.zero_add] at hs
        have hi : (index - t).toNat < n.count := by omega
        obtain ⟨e1, e2⟩ := items_removeAt n (index - t).toNat hi
        refine ⟨[], n, rest, rfl, by simp [flattenNodes], by simp [flattenNodes]; omega, ?_, ?_⟩
        · simp only [remove.walk, hs, flattenNodes, List.length_nil, Nat.sub_zero,
            List.append_nil]
          by_cases hc : n.count = 1
          · left
            refine ⟨hc, ?_⟩
            rw [if_pos (by rw [e2]; omega)]
          · right
            refine ⟨hc, ?_⟩
            rw [if_neg (by rw [e2]; omega)]
        · simp only [flattenNodes, List.length_nil, Nat.sub_zero, List.nil_append]
          rw [e1, List.eraseIdx_append_of_lt_length (by rw [length_items]; exact hi)]
      · -- the item is further on
        have hs := s2 (Or.inr (by omega))
        obtain ⟨l, node, r, a1, a2, a3, a4, a5⟩ := ih1 (by omega) (by push_cast at h2 ⊢; omega)
        have et : (index - (t + n.count)).toNat = (index - t).toNat - n.count := by omega
        rw [et] at a2 a3 a4 a5
        have hl : (flattenNodes (n :: l)).length = n.count + (flattenNodes l).length := by
          rw [flattenNodes_cons, List.length_append, length_items]
        have ei : (index - t).toNat - n.count - (flattenNodes l).length
            = (index - t).toNat - (flattenNodes (n :: l)).length := by
          rw [hl]
          omega
        rw [ei] at a4 a5
        refine ⟨n :: l, node, r, by rw [a1]; rfl, by rw [hl]; omega, by rw [hl]; omega, ?_, ?_⟩
        · simp only [remove.walk, hs]
          simp only [List.reverse_cons, List.append_assoc, List.singleton_append,
            List.cons_append] at a4 ⊢
          exact a4
        · show n.items ++ flattenNodes (l ++ _ :: r) = _
          rw [a5, flattenNodes_cons,
            List.eraseIdx_append_of_length_le (by rw [length_items]; omega), length_items]
    · intro h
      rw [hlen] at h
      have hs := s2 (by omega)
      simp only [remove.walk, hs]
      exact ih2 (by push_cast at h ⊢; omega)

/-! ### The counters and the sizes of the nodes -/

theorem counted_mk {T : Type} {nodes : List (BNode T)} {stats : BListStats}
    (hf : ∀ node ∈ nodes, 1 ≤ node.count ∧ node.count ≤ stats.ArraySize)
    (hi : stats.ItemCount = ((nodes.map (fun node => node.count)).sum : Nat))
    (hn : stats.NodeCount = (nodes.length : Nat)) :
    ({ nodes := nodes, stats := stats } : BList T).Counted := ⟨hf, hi, hn⟩

/-- The sum of the counts of a chain with one node singled out. -/
theorem sum_counts_middle {T : Type} (l : List (BNode T)) (node : BNode T) (r : List (BNode T)) :
    ((l ++ node :: r).map (fun n => n.count)).sum
      = (l.map (fun n => n.count)).sum + node.count + (r.map (fun n => n.count)).sum := by
  simp [List.sum_append, Nat.add_assoc]

theorem mem_middle {T : Type} {l r : List (BNode T)} {node x : BNode T} :
    x ∈ l ++ node :: r ↔ x ∈ l ∨ x = node ∨ x ∈ r := by
  simp

theorem push_front_counts {T : Type} [Inhabited T] {b b' : BList T} {value : T} {host : Bool}
    (hS : 1 ≤ b.stats.ArraySize) (hg : b.Counted) (h : push_front b value host = .ok b') :
    b'.Counted ∧ b'.stats.ArraySize = b.stats.ArraySize := by
  obtain ⟨nodes, stats⟩ := b
  obtain ⟨hf, hi, hn⟩ := hg
  unfold BList.Filled at hf
  simp only at hS hf hi hn ⊢
  cases host with
  | false =>
    cases nodes with
    | nil => simp [push_front, CreateNewNode] at h
    | cons head rest =>
      by_cases hroom : head.count < stats.ArraySize
      · simp only [push_front, if_pos hroom] at h
        cases h
        refine ⟨counted_mk ?_ ?_ hn, rfl⟩
        · intro node hnode
          rcases List.mem_cons.1 hnode with e | e
          · rw [e]
            exact ⟨by show 1 ≤ head.count + 1; omega, by show head.count + 1 ≤ stats.ArraySize; omega⟩
          · exact hf node (List.mem_cons_of_mem _ e)
        · show stats.ItemCount + 1 = _
          rw [hi]
          simp [Increament]
          omega
      · simp [push_front, hroom, CreateNewNode] at h
  | true =>
    cases nodes with
    | nil =>
      simp only [push_front, CreateNewNode, if_true] at h
      cases h
      refine ⟨counted_mk ?_ ?_ ?_, rfl⟩
      · intro node hnode
        rw [List.mem_singleton.1 hnode]
        exact ⟨by show 1 ≤ 0 + 1; omega, by show 0 + 1 ≤ stats.ArraySize; omega⟩
      · show stats.ItemCount + 1 = _
        rw [hi]
        simp [Increament]
      · show stats.NodeCount + 1 = _
        rw [hn]
        simp
    | cons head rest =>
      by_cases hroom : head.count < stats.ArraySize
      · simp only [push_front, if_pos hroom] at h
        cases h
        refine ⟨counted_mk ?_ ?_ hn, rfl⟩
        · intro node hnode
          rcases List.mem_cons.1 hnode with e | e
          · rw [e]
            exact ⟨by show 1 ≤ head.count + 1; omega, by show head.count + 1 ≤ stats.ArraySize; omega⟩
          · exact hf node (List.mem_cons_of_mem _ e)
        · show stats.ItemCount + 1 = _
          rw [hi]
          simp [Increament]
          omega
      · simp only [push_front, if_neg hroom, CreateNewNode, if_true] at h
        cases h
        refine ⟨counted_mk ?_ ?_ ?_, rfl⟩
        · intro node hnode
          rcases List.mem_cons.1 hnode with e | e
          · rw [e]
            exact ⟨by show 1 ≤ 0 + 1; omega, by show 0 + 1 ≤ stats.ArraySize; omega⟩
          · exact hf node e
        · show stats.ItemCount + 1 = _
          rw [hi]
          simp [Increament]
          omega
        · show stats.NodeCount + 1 = _
          rw [hn]
          simp

theorem push_back_counts {T : Type} [Inhabited T] {b b' : BList T} {value : T} {host : Bool}
    (hS : 1 ≤ b.stats.ArraySize) (hg : b.Counted) (h : push_back b value host = .ok b') :
    b'.Counted ∧ b'.stats.ArraySize = b.stats.ArraySize := by
  obtain ⟨nodes, stats⟩ := b
  obtain ⟨hf, hi, hn⟩ := hg
  unfold BList.Filled at hf
  simp only at hS hf hi hn ⊢
  rcases List.eq_nil_or_concat nodes with e | ⟨init, tail, e⟩
  · subst e
    cases host with
    | false => simp [push_back, CreateNewNode] at h
    | true =>
      simp only [push_back, List.getLast?_nil, CreateNewNode, if_true] at h
      cases h
      refine ⟨counted_mk ?_ ?_ ?_, rfl⟩
      · intro node hnode
        rw [List.mem_singleton.1 hnode]
        exact ⟨by show 1 ≤ 0 + 1; omega, by show 0 + 1 ≤ stats.ArraySize; omega⟩
      · show stats.ItemCount + 1 = _
        rw [hi]
        simp [Increament]
      · show stats.NodeCount + 1 = _
        rw [hn]
        simp
  · rw [List.concat_eq_append] at e
    subst e
    have hlast : (init ++ [tail]).getLast? = some tail := by simp
    by_cases hroom : tail.count < stats.ArraySize
    · simp only [push_back, hlast, if_pos hroom, List.dropLast_concat] at h
      cases h
      refine ⟨counted_mk ?_ ?_ ?_, rfl⟩
      · intro node hnode
        rcases List.mem_append.1 hnode with e | e
        · exact hf node (List.mem_append_left _ e)
        · rw [List.mem_singleton.1 e]
          exact ⟨by show 1 ≤ tail.count + 1; omega,
            by show tail.count + 1 ≤ stats.ArraySize; omega⟩
      · show stats.ItemCount + 1 = _
        rw [hi]
        simp [List.sum_append]
        omega
      · show stats.NodeCount = _
        rw [hn]
        simp
    · cases host with
      | false => simp [push_back, hlast, hroom, CreateNewNode] at h
      | true =>
        simp only [push_back, hlast, if_neg hroom, CreateNewNode, if_true] at h
        cases h
        refine ⟨counted_mk ?_ ?_ ?_, rfl⟩
        · intro node hnode
          rcases List.mem_append.1 hnode with e | e
          · exact hf node e
          · rw [List.mem_singleton.1 e]
            exact ⟨by show 1 ≤ 0 + 1; omega, by show 0 + 1 ≤ stats.ArraySize; omega⟩
        · show stats.ItemCount + 1 = _
          rw [hi]
          simp [List.sum_append, Increament]
          omega
        · show stats.NodeCount + 1 = _
          rw [hn]
          simp
          omega

/-- What `Split` does to the counts: the full node becomes two nodes that hold
one item more between them, each with at least one item and no more than the
array has room for. -/
theorem Split_counts {T : Type} [LinearOrder T] [Inhabited T] {b b' : BList T}
    {before : List (BNode T)} {node : BNode T} {after : List (BNode T)} {value : T}
    {host : Bool} (hS : 1 ≤ b.stats.ArraySize) (hc : node.count = b.stats.ArraySize)
    (h : Split b before node after value host = .ok b') :
    ∃ n1 n2, b'.nodes = before ++ n1 :: n2 :: after ∧
      b'.stats = { b.stats with NodeCount := b.stats.NodeCount + 1,
                                ItemCount := b.stats.ItemCount + 1 } ∧
      (1 ≤ n1.count ∧ n1.count ≤ b.stats.ArraySize) ∧
      (1 ≤ n2.count ∧ n2.count ≤ b.stats.ArraySize) ∧
      n1.count + n2.count = node.count + 1 := by
  cases host with
  | false => simp [Split, CreateNewNode] at h
  | true =>
    unfold Split CreateNewNode at h
    simp only [if_true] at h
    by_cases h1 : b.stats.ArraySize = 1
    · rw [if_pos h1] at h
      by_cases hv : node.values 0 < value
      · rw [if_pos hv] at h
        cases h
        exact ⟨_, _, rfl, rfl, ⟨by omega, by omega⟩,
          ⟨by show 1 ≤ 0 + 1; omega, by show 0 + 1 ≤ b.stats.ArraySize; omega⟩,
          by show node.count + (0 + 1) = _; omega⟩
      · rw [if_neg hv] at h
        cases h
        exact ⟨_, _, rfl, rfl, ⟨by show 1 ≤ node.count; omega,
            by show node.count ≤ b.stats.ArraySize; omega⟩,
          ⟨by show 1 ≤ 0 + 1; omega, by show 0 + 1 ≤ b.stats.ArraySize; omega⟩,
          by show node.count + (0 + 1) = _; omega⟩
    · rw [if_neg h1] at h
      obtain ⟨c1, _, c2, _, _⟩ := move_spec (b.stats.ArraySize - b.stats.ArraySize / 2)
        (b.stats.ArraySize / 2) 0 node ({ count := 0, values := fun _ => default } : BNode T)
      generalize Split.move (b.stats.ArraySize - b.stats.ArraySize / 2) (b.stats.ArraySize / 2) 0
        node { count := 0, values := fun _ => default } = halves at h c1 c2
      have c2' : halves.2.count = b.stats.ArraySize - b.stats.ArraySize / 2 := by
        rw [c2]
        show 0 + _ = _
        omega
      by_cases hv : value < halves.2.values 0
      · rw [if_pos hv] at h
        cases h
        refine ⟨insertInNode halves.1 value, halves.2, rfl, rfl, ?_, ?_, ?_⟩
        · exact ⟨by show 1 ≤ halves.1.count + 1; omega,
            by show halves.1.count + 1 ≤ b.stats.ArraySize; omega⟩
        · exact ⟨by omega, by omega⟩
        · show halves.1.count + 1 + halves.2.count = _
          omega
      · rw [if_neg hv] at h
        cases h
        refine ⟨halves.1, insertInNode halves.2 value, rfl, rfl, ?_, ?_, ?_⟩
        · exact ⟨by omega, by omega⟩
        · exact ⟨by show 1 ≤ halves.2.count + 1; omega,
            by show halves.2.count + 1 ≤ b.stats.ArraySize; omega⟩
        · show halves.1.count + (halves.2.count + 1) = _
          omega

/-- A list stays counted when a full node is replaced by the two nodes of a
split. -/
theorem counted_split {T : Type} {b b' : BList T} {before after : List (BNode T)}
    {node n1 n2 : BNode T} (hg : b.Counted) (hb : b.nodes = before ++ node :: after)
    (h1 : b'.nodes = before ++ n1 :: n2 :: after)
    (h2 : b'.stats = { b.stats with NodeCount := b.stats.NodeCount + 1,
                                    ItemCount := b.stats.ItemCount + 1 })
    (c1 : 1 ≤ n1.count ∧ n1.count ≤ b.stats.ArraySize)
    (c2 : 1 ≤ n2.count ∧ n2.count ≤ b.stats.ArraySize)
    (c3 : n1.count + n2.count = node.count + 1) :
    b'.Counted ∧ b'.stats.ArraySize = b.stats.ArraySize := by
  obtain ⟨nodes, stats⟩ := b
  obtain ⟨nodes', stats'⟩ := b'
  obtain ⟨hf, hi, hn⟩ := hg
  unfold BList.Filled at hf
  simp only at hb h1 h2 c1 c2 hf hi hn ⊢
  subst hb h1 h2
  refine ⟨counted_mk ?_ ?_ ?_, rfl⟩
  · intro x hx
    simp only [List.mem_append, List.mem_cons] at hx
    rcases hx with e | e | e | e
    · exact hf x (List.mem_append_left _ e)
    · rw [e]; exact c1
    · rw [e]; exact c2
    · exact hf x (List.mem_append_right _ (List.mem_cons_of_mem _ e))
  · show stats.ItemCount + 1 = _
    rw [hi]
    simp [List.sum_append]
    omega
  · show stats.NodeCount + 1 = _
    rw [hn]
    simp
    omega

/-- A list stays counted when one item is added to a node that has room. -/
theorem counted_grow {T : Type} {b : BList T} {before after : List (BNode T)}
    {node : BNode T} (n1 : BNode T) (hg : b.Counted) (hb : b.nodes = before ++ node :: after)
    (hroom : node.count < b.stats.ArraySize) (c1 : n1.count = node.count + 1) :
    (b.countItem (before ++ n1 :: after)).Counted ∧
      (b.countItem (before ++ n1 :: after)).stats.ArraySize = b.stats.ArraySize := by
  obtain ⟨nodes, stats⟩ := b
  obtain ⟨hf, hi, hn⟩ := hg
  unfold BList.Filled at hf
  simp only at hb hroom hf hi hn ⊢
  subst hb
  refine ⟨counted_mk ?_ ?_ ?_, rfl⟩
  · intro x hx
    simp only [List.mem_append, List.mem_cons] at hx
    rcases hx with e | e | e
    · exact hf x (List.mem_append_left _ e)
    · rw [e]
      exact ⟨by omega, by show n1.count ≤ stats.ArraySize; omega⟩
    · exact hf x (List.mem_append_right _ (List.mem_cons_of_mem _ e))
  · show stats.ItemCount + 1 = _
    rw [hi]
    simp [List.sum_append]
    omega
  · show stats.NodeCount = _
    rw [hn]
    simp

theorem insert_counts {T : Type} [LinearOrder T] [Inhabited T] {b b' : BList T} {value : T}
    {host : Bool} (hS : 1 ≤ b.stats.ArraySize) (hg : b.Counted)
    (h : insert b value host = .ok b') :
    b'.Counted ∧ b'.stats.ArraySize = b.stats.ArraySize := by
  obtain ⟨nodes, stats⟩ := b
  cases nodes with
  | nil => exact push_front_counts hS hg h
  | cons head rest =>
    have hf := hg.1
    unfold BList.Filled at hf
    simp only at hS hf
    simp only [insert] at h
    rcases search_spec value (head :: rest) [] (fun n hn => by cases hn) with
      ⟨h1, _⟩ | ⟨bf, p, a, h1, h2, _, _⟩
    · rw [h1] at h
      simp only at h
      have hdec := List.dropLast_append_getLast (List.cons_ne_nil head rest)
      generalize (head :: rest).dropLast = init at h hdec
      generalize (head :: rest).getLast (List.cons_ne_nil head rest) = tail at h hdec
      have htm : tail ∈ head :: rest := by rw [← hdec]; simp
      by_cases hroom : tail.count < stats.ArraySize
      · rw [if_pos hroom] at h
        exact push_back_counts hS hg h
      · rw [if_neg hroom] at h
        have hcount : tail.count = stats.ArraySize := by
          have := (hf tail htm).2
          omega
        obtain ⟨n1, n2, e1, e2, c1, c2, c3⟩ := Split_counts hS hcount h
        exact counted_split hg hdec.symm e1 e2 c1 c2 c3
    · rw [h1] at h
      simp only at h
      have hdec : head :: rest = bf ++ p :: a := by simpa using h2
      have hpm : p ∈ head :: rest := by rw [hdec]; simp
      by_cases hfull : p.count ≥ stats.ArraySize
      · rw [if_pos hfull] at h
        have hcount : p.count = stats.ArraySize := by
          have := (hf p hpm).2
          omega
        have viaSplit : Split { nodes := head :: rest, stats := stats } bf p a value host
            = .ok b' → b'.Counted ∧ b'.stats.ArraySize = stats.ArraySize := by
          intro hs'
          obtain ⟨n1, n2, e1, e2, c1, c2, c3⟩ := Split_counts hS hcount hs'
          exact counted_split hg hdec e1 e2 c1 c2 c3
        cases a with
        | nil => exact viaSplit h
        | cons nextNode rest' =>
          simp only at h
          by_cases hnext : p.values (p.count - 1) < value ∧ nextNode.count < stats.ArraySize
          · rw [if_pos hnext] at h
            cases h
            have hdec' : ({ nodes := head :: rest, stats := stats } : BList T).nodes
                = (bf ++ [p]) ++ nextNode :: rest' := by
              rw [List.append_assoc]
              exact hdec
            have := counted_grow (Increament
              { nextNode with values := shiftRight nextNode.values 0 nextNode.count } value)
              hg hdec' hnext.2 rfl
            rw [List.append_assoc] at this
            exact this
          · rw [if_neg hnext] at h
            exact viaSplit h
      · rw [if_neg hfull] at h
        cases h
        exact counted_grow _ hg hdec (show p.count < stats.ArraySize by omega) rfl

theorem length_flattenNodes {T : Type} (nodes : List (BNode T)) :
    (flattenNodes nodes).length = (nodes.map (fun node => node.count)).sum := by
  induction nodes with
  | nil => rfl
  | cons node rest ih =>
    rw [flattenNodes_cons, List.length_append, length_items, ih]
    rfl

/-- A list stays counted when an item is taken out of one of its nodes and the
node, if it held no other item, is unlinked. -/
theorem counted_shrink {T : Type} {b : BList T} {l r nodes' : List (BNode T)}
    {node : BNode T} (n1 : BNode T) {deleted : Bool} (hg : b.Counted) (hb : b.nodes = l ++ node :: r)
    (c1 : n1.count = node.count - 1)
    (hres : (node.count = 1 ∧ nodes' = l ++ r ∧ deleted = true) ∨
      (node.count ≠ 1 ∧ nodes' = l ++ n1 :: r ∧ deleted = false)) :
    ({ nodes := nodes',
       stats := { b.stats with
         ItemCount := b.stats.ItemCount - 1,
         NodeCount := if deleted then b.stats.NodeCount - 1 else b.stats.NodeCount } } :
      BList T).Counted := by
  obtain ⟨nodes, stats⟩ := b
  obtain ⟨hf, hi, hn⟩ := hg
  unfold BList.Filled at hf
  simp only at hb hf hi hn ⊢
  subst hb
  have hnode := hf node (by simp)
  rcases hres with ⟨e1, e2, e3⟩ | ⟨e1, e2, e3⟩
  · subst e2 e3
    refine counted_mk ?_ ?_ ?_
    · intro x hx
      rcases List.mem_append.1 hx with e | e
      · exact hf x (List.mem_append_left _ e)
      · exact hf x (List.mem_append_right _ (List.mem_cons_of_mem _ e))
    · show stats.ItemCount - 1 = _
      rw [hi]
      simp [List.sum_append]
      omega
    · show (if true = true then stats.NodeCount - 1 else stats.NodeCount) = _
      rw [if_pos rfl, hn]
      simp
      omega
  · subst e2 e3
    refine counted_mk ?_ ?_ ?_
    · intro x hx
      simp only [List.mem_append, List.mem_cons] at hx
      rcases hx with e | e | e
      · exact hf x (List.mem_append_left _ e)
      · rw [e]
        exact ⟨by omega, by show n1.count ≤ stats.ArraySize; omega⟩
      · exact hf x (List.mem_append_right _ (List.mem_cons_of_mem _ e))
    · show stats.ItemCount - 1 = _
      rw [hi]
      simp [List.sum_append]
      omega
    · show (if false = true then stats.NodeCount - 1 else stats.NodeCount) = _
      rw [if_neg (by simp), hn]
      simp

theorem remove_counts {T : Type} {b : BList T} (index : Int) (hg : b.Counted) :
    (remove b index).Counted := by
  by_cases hin : 0 ≤ index ∧ index < (flattenNodes b.nodes).length
  · obtain ⟨l, node, r, e1, _, _, hw, _⟩ :=
      (remove_walk_spec index b.nodes [] 0).1 hin.1 (by simpa using hin.2)
    unfold remove
    rcases hw with ⟨hc, hw⟩ | ⟨hc, hw⟩
    · rw [hw]
      exact counted_shrink (removeAt node 0) hg e1 rfl
        (Or.inl ⟨hc, by simp, rfl⟩)
    · rw [hw]
      exact counted_shrink
        (removeAt node ((index - 0).toNat - (flattenNodes l).length)) hg e1 rfl
        (Or.inr ⟨hc, by simp, rfl⟩)
  · have hw := (remove_walk_spec index b.nodes [] 0).2 (by
      rcases not_and_or.1 hin with c | c
      · exact Or.inl (by omega)
      · exact Or.inr (by simpa using not_lt.1 c))
    unfold remove
    rw [hw]
    exact hg

theorem remove_by_value_scan_lt {T : Type} [DecidableEq T] (value : T) (node : BNode T) :
    ∀ (k i j : Nat), remove_by_value.scan value node k i = some j → i ≤ j ∧ j < i + k := by
  intro k
  induction k with
  | zero =>
    intro i j h
    cases h
  | succ k ih =>
    intro i j h
    unfold remove_by_value.scan at h
    split at h
    · cases h
      omega
    · have := ih (i + 1) j h
      omega

/-- The loop of `remove_by_value` over the nodes either runs off the chain or
takes one item out of one node. -/
theorem remove_by_value_walk_spec {T : Type} [DecidableEq T] (value : T) :
    ∀ (nodes before : List (BNode T)),
      remove_by_value.walk value before nodes = none ∨
      ∃ l node r i, nodes = l ++ node :: r ∧ i < node.count ∧
        ((node.count = 1 ∧
            remove_by_value.walk value before nodes = some (before.reverse ++ l ++ r, true)) ∨
          (node.count ≠ 1 ∧ remove_by_value.walk value before nodes
            = some (before.reverse ++ l ++ removeAt node i :: r, false))) := by
  intro nodes
  induction nodes with
  | nil =>
    intro before
    exact Or.inl rfl
  | cons p rest ih =>
    intro before
    unfold remove_by_value.walk
    cases hs : remove_by_value.scan value p p.count 0 with
    | none =>
      simp only
      rcases ih (p :: before) with c | ⟨l, node, r, i, e1, e2, e3⟩
      · exact Or.inl c
      · refine Or.inr ⟨p :: l, node, r, i, by rw [e1]; rfl, e2, ?_⟩
        simpa [List.reverse_cons, List.append_assoc] using e3
    | some j =>
      simp only
      have hj := remove_by_value_scan_lt value p _ _ _ hs
      refine Or.inr ⟨[], p, rest, j, rfl, by omega, ?_⟩
      have hcount : (removeAt p j).count = p.count - 1 := rfl
      by_cases h1 : p.count = 1
      · left
        refine ⟨h1, ?_⟩
        rw [if_pos (by rw [hcount]; omega)]
        simp
      · right
        refine ⟨h1, ?_⟩
        rw [if_neg (by rw [hcount]; omega)]
        simp

theorem remove_by_value_counts {T : Type} [DecidableEq T] {b : BList T} (value : T)
    (hg : b.Counted) : (remove_by_value b value).Counted := by
  unfold remove_by_value
  rcases remove_by_value_walk_spec value b.nodes [] with hw | ⟨l, node, r, i, e1, _, hw⟩
  · rw [hw]
    exact hg
  · rcases hw with ⟨hc, hw⟩ | ⟨hc, hw⟩
    · rw [hw]
      exact counted_shrink (removeAt node 0) hg e1 rfl (Or.inl ⟨hc, by simp, rfl⟩)
    · rw [hw]
      exact counted_shrink (removeAt node i) hg e1 rfl (Or.inr ⟨hc, by simp, rfl⟩)

/-- Every list a client can build is counted, and its `ArraySize` is `Size`. -/
theorem Built.counted {T : Type} [LinearOrder T] [Inhabited T] {Size nodeSize : Nat}
    (hS : 1 ≤ Size) {b : BList T} (h : Built Size nodeSize b) :
    b.Counted ∧ b.stats.ArraySize = Size := by
  induction h with
  | empty =>
    refine ⟨counted_mk ?_ rfl rfl, rfl⟩
    intro node hn
    cases hn
  | push_back b b' value host _ hop ih =>
    obtain ⟨r1, r2⟩ := push_back_counts (by rw [ih.2]; exact hS) ih.1 hop
    exact ⟨r1, r2.trans ih.2⟩
  | push_front b b' value host _ hop ih =>
    obtain ⟨r1, r2⟩ := push_front_counts (by rw [ih.2]; exact hS) ih.1 hop
    exact ⟨r1, r2.trans ih.2⟩
  | insert b b' value host _ hop ih =>
    obtain ⟨r1, r2⟩ := insert_counts (by rw [ih.2]; exact hS) ih.1 hop
    exact ⟨r1, r2.trans ih.2⟩
  | remove b index _ ih =>
    refine ⟨remove_counts index ih.1, ?_⟩
    rw [← ih.2]
    unfold BL.remove
    split <;> rfl
  | remove_by_value b value _ ih =>
    refine ⟨remove_by_value_counts value ih.1, ?_⟩
    rw [← ih.2]
    unfold BL.remove_by_value
    split <;> rfl

/-! ## The properties of BList -/

/-- C18: for a list whose nodes each hold between 1 and `Size` items and whose
flattened contents are sorted in non-decreasing order, `insert(value)` (the
host not out of memory) leaves a list of the same kind whose flattened
contents are sorted and are the old contents with one more occurrence of the
value; the same holds after any run of `insert` calls, so a list built from
the empty list by `insert` calls only is sorted. -/
theorem insert_keeps_sorted {T : Type} [LinearOrder T] [Inhabited T] (b : BList T)
    (value : T) (values : List T) (hS : 1 ≤ b.stats.ArraySize) (hf : b.Filled)
    (hs : b.flatten.Sorted (· ≤ ·)) :
    (∃ b', insert b value true = .ok b' ∧ b'.Filled ∧ b'.flatten.Sorted (· ≤ ·) ∧
      b'.flatten.Perm (value :: b.flatten)) ∧
    (∃ b', insertAll b values = .ok b' ∧ b'.Filled ∧ b'.flatten.Sorted (· ≤ ·) ∧
      b'.flatten.Perm (values ++ b.flatten)) := by
  constructor
  · obtain ⟨b1, l, r, h1, h2, _, _, h5, h6, h7, h8⟩ := insert_spec b value hS hf hs
    refine ⟨b1, h1, h2, ?_, ?_⟩
    · rw [h6]
      rw [h5] at hs
      exact sorted_middle hs h7 h8
    · rw [h6, h5]
      exact List.perm_middle
  · obtain ⟨b', i1, i2, _, i4, i5, _⟩ := insertAll_spec values b hS hf hs
    exact ⟨b', i1, i2, i4, i5⟩

theorem insert_keeps_sorted_witness :
    1 ≤ (BList.empty Nat 2 32).stats.ArraySize ∧ (BList.empty Nat 2 32).Filled ∧
    (BList.empty Nat 2 32).flatten.Sorted (· ≤ ·) ∧
    contents (insertAll (BList.empty Nat 2 32) [5, 1, 4, 1, 3, 9, 2]) = [1, 1, 2, 3, 4, 5, 9] ∧
    ((∃ b', insert (BList.empty Nat 2 32) 5 true = .ok b' ∧ b'.Filled ∧
        b'.flatten.Sorted (· ≤ ·) ∧ b'.flatten.Perm (5 :: (BList.empty Nat 2 32).flatten)) ∧
      (∃ b', insertAll (BList.empty Nat 2 32) [5, 1, 4, 1, 3, 9, 2] = .ok b' ∧ b'.Filled ∧
        b'.flatten.Sorted (· ≤ ·) ∧
        b'.flatten.Perm ([5, 1, 4, 1, 3, 9, 2] ++ (BList.empty Nat 2 32).flatten))) :=
  ⟨by decide, (fun node hn => by cases hn), List.sorted_nil, by decide,
    insert_keeps_sorted (BList.empty Nat 2 32) 5 [5, 1, 4, 1, 3, 9, 2] (by decide)
      (fun node hn => by cases hn) List.sorted_nil⟩

/-- C19: for a list whose `ItemCount` is the number of its items, and every
index, `operator[]` throws exactly when `index < 0` or `index >= ItemCount`,
and what it throws is the exception with code `E_BAD_INDEX` and the
description of its first `throw`; otherwise it returns the item at position
`index` of the flattened contents. The second `throw` is never reached. -/
theorem subscript_bad_index_iff {T : Type} (b : BList T) (index : Int)
    (hcount : b.stats.ItemCount = b.flatten.length) :
    ((∃ e, subscript b index = .error e) ↔ index < 0 ∨ index ≥ b.stats.ItemCount) ∧
    (∀ e, subscript b index = .error e →
      e = { code := .E_BAD_INDEX, description := "Index out of range" }) ∧
    (0 ≤ index → index < b.stats.ItemCount →
      ∃ x, subscript b index = .ok x ∧ b.flatten[index.toNat]? = some x) := by
  have hin : 0 ≤ index → index < b.stats.ItemCount →
      ∃ x, subscript b index = .ok x ∧ b.flatten[index.toNat]? = some x := by
    intro h0 h1
    unfold subscript
    rw [if_neg (by omega)]
    obtain ⟨c1, _⟩ := subscript_walk_spec index b.nodes 0 h0
    obtain ⟨x, d1, d2⟩ := c1 (by
      rw [hcount] at h1
      unfold BList.flatten at h1
      omega)
    refine ⟨x, d1, ?_⟩
    rw [Int.sub_zero] at d2
    exact d2
  have hout : index < 0 ∨ index ≥ b.stats.ItemCount →
      subscript b index = .error { code := .E_BAD_INDEX, description := "Index out of range" } := by
    intro h
    unfold subscript
    rw [if_pos h]
  refine ⟨⟨?_, fun h => ⟨_, hout h⟩⟩, ?_, hin⟩
  · rintro ⟨e, he⟩
    by_contra hc
    obtain ⟨x, hx, _⟩ := hin (by omega) (by omega)
    rw [hx] at he
    cases he
  · intro e he
    by_cases hc : index < 0 ∨ index ≥ b.stats.ItemCount
    · rw [hout hc] at he
      cases he
      rfl
    · obtain ⟨x, hx, _⟩ := hin (by omega) (by omega)
      rw [hx] at he
      cases he

theorem subscript_bad_index_iff_witness :
    exBList.stats.ItemCount = exBList.flatten.length ∧
    subscript exBList 3 = .ok 3 ∧ exBList.flatten = [1, 1, 2, 3, 4, 5, 9] ∧
    (((∃ e, subscript exBList 7 = .error e) ↔ (7 : Int) < 0 ∨ (7 : Int) ≥ exBList.stats.ItemCount) ∧
      (∀ e, subscript exBList 7 = .error e →
        e = { code := .E_BAD_INDEX, description := "Index out of range" }) ∧
      ((0 : Int) ≤ 7 → (7 : Int) < exBList.stats.ItemCount →
        ∃ x, subscript exBList 7 = .ok x ∧ exBList.flatten[(7 : Int).toNat]? = some x)) :=
  ⟨by decide, rfl, by decide, subscript_bad_index_iff exBList 7 (by decide)⟩

/-- C20: `find(value)` returns the smallest position of the flattened contents
that holds an item equal to the value (the position `operator[]` returns the
value at, when `ItemCount` is the number of items), and it returns -1 exactly
when no item equals the value. -/
theorem find_first_occurrence {T : Type} [DecidableEq T] (b : BList T) (value : T) :
    (value ∈ b.flatten →
      ∃ k : Nat, find b value = k ∧ b.flatten[k]? = some value ∧
        (∀ j, j < k → b.flatten[j]? ≠ some value) ∧
        (b.stats.ItemCount = b.flatten.length → subscript b k = .ok value)) ∧
    (find b value = -1 ↔ value ∉ b.flatten) := by
  obtain ⟨c1, c2⟩ := find_walk_spec value b.nodes 0
  have hfound : value ∈ b.flatten →
      ∃ k : Nat, find b value = k ∧ b.flatten[k]? = some value ∧
        (∀ j, j < k → b.flatten[j]? ≠ some value) := by
    intro hm
    obtain ⟨k, d1, d2, d3⟩ := c1 hm
    refine ⟨k, ?_, d2, d3⟩
    unfold find
    rw [d1, Int.zero_add]
  constructor
  · intro hm
    obtain ⟨k, d1, d2, d3⟩ := hfound hm
    refine ⟨k, d1, d2, d3, ?_⟩
    intro hcount
    have hlt : k < b.flatten.length := by
      obtain ⟨h, _⟩ := List.getElem?_eq_some.1 d2
      exact h
    unfold subscript
    rw [if_neg (by omega)]
    obtain ⟨e1, _⟩ := subscript_walk_spec (k : Int) b.nodes 0 (by omega)
    obtain ⟨x, f1, f2⟩ := e1 (by unfold BList.flatten at hlt; omega)
    rw [f1]
    rw [Int.sub_zero, Int.toNat_ofNat] at f2
    unfold BList.flatten at d2
    rw [d2] at f2
    cases f2
    rfl
  · constructor
    · intro h hm
      obtain ⟨k, d1, _⟩ := hfound hm
      omega
    · intro hn
      exact c2 hn

/-! ## The properties of BList, continued -/

/-- C21: for a list whose `ItemCount` is the number of its items and an index
with `0 <= index < ItemCount`, `remove(index)` leaves the flattened contents
with exactly the item at that position deleted, the others in their order, and
`ItemCount` one less; the node that held the item is unlinked, and `NodeCount`
is one less, when it held no other item, and keeps its other items and its
place otherwise. For an index outside that range the list and its statistics
are unchanged. -/
theorem remove_erases_index {T : Type} (b : BList T) (index : Int)
    (hcount : b.stats.ItemCount = b.flatten.length) :
    (0 ≤ index → index < b.stats.ItemCount →
      (remove b index).flatten = b.flatten.eraseIdx index.toNat ∧
      (remove b index).stats.ItemCount = b.stats.ItemCount - 1 ∧
      (remove b index).stats.ItemCount = (remove b index).flatten.length ∧
      (remove b index).stats.ArraySize = b.stats.ArraySize ∧
      ∃ l node r, b.nodes = l ++ node :: r ∧
        (flattenNodes l).length ≤ index.toNat ∧
        index.toNat < (flattenNodes l).length + node.count ∧
        ((node.count = 1 ∧ (remove b index).nodes = l ++ r ∧
            (remove b index).stats.NodeCount = b.stats.NodeCount - 1) ∨
          (node.count ≠ 1 ∧
            (remove b index).nodes
              = l ++ removeAt node (index.toNat - (flattenNodes l).length) :: r ∧
            (remove b index).stats.NodeCount = b.stats.NodeCount))) ∧
    ((index < 0 ∨ index ≥ b.stats.ItemCount) → remove b index = b) := by
  obtain ⟨w1, w2⟩ := remove_walk_spec index b.nodes [] 0
  constructor
  · intro h0 h1
    have hlt : index.toNat < b.flatten.length := by omega
    obtain ⟨l, node, r, a1, a2, a3, a4, a5⟩ := w1 h0 (by
      unfold BList.flatten at hcount
      omega)
    rw [Int.sub_zero] at a2 a3 a4 a5
    simp only [List.reverse_nil, List.nil_append] at a4
    have hflat : (remove b index).flatten = b.flatten.eraseIdx index.toNat := by
      rcases a4 with ⟨hc, hw⟩ | ⟨hc, hw⟩
      · unfold remove
        rw [hw]
        show flattenNodes (l ++ r) = (flattenNodes b.nodes).eraseIdx index.toNat
        rw [← a5, flattenNodes_append, flattenNodes_append, flattenNodes_cons]
        have e : (removeAt node (index.toNat - (flattenNodes l).length)).items = [] := by
          apply List.eq_nil_of_length_eq_zero
          rw [length_items]
          show node.count - 1 = 0
          omega
        rw [e, List.nil_append]
      · unfold remove
        rw [hw]
        exact a5
    have hitem : (remove b index).stats.ItemCount = b.stats.ItemCount - 1 := by
      unfold remove
      rcases a4 with ⟨_, hw⟩ | ⟨_, hw⟩ <;> rw [hw]
    have hsize : (remove b index).stats.ArraySize = b.stats.ArraySize := by
      unfold remove
      rcases a4 with ⟨_, hw⟩ | ⟨_, hw⟩ <;> rw [hw]
    refine ⟨hflat, hitem, ?_, hsize, l, node, r, a1, a2, a3, ?_⟩
    · rw [hitem, hflat, List.length_eraseIdx_of_lt hlt, hcount]
      omega
    · rcases a4 with ⟨hc, hw⟩ | ⟨hc, hw⟩
      · left
        refine ⟨hc, ?_, ?_⟩
        · unfold remove
          rw [hw]
        · unfold remove
          rw [hw]
          rfl
      · right
        refine ⟨hc, ?_, ?_⟩
        · unfold remove
          rw [hw]
        · unfold remove
          rw [hw]
          rfl
  · intro h
    unfold remove
    rw [w2 (by
      unfold BList.flatten at hcount
      omega)]

theorem remove_erases_index_witness :
    exBList.stats.ItemCount = exBList.flatten.length ∧
    exBList.flatten = [1, 1, 2, 3, 4, 5, 9] ∧ exBList.stats.NodeCount = 4 ∧
    (remove exBList 0).flatten = [1, 2, 3, 4, 5, 9] ∧ (remove exBList 0).stats.NodeCount = 3 ∧
    (remove exBList 4).flatten = [1, 1, 2, 3, 5, 9] ∧ (remove exBList 4).stats.NodeCount = 4 ∧
    (((0 : Int) ≤ 4 → (4 : Int) < exBList.stats.ItemCount →
      (remove exBList 4).flatten = exBList.flatten.eraseIdx (4 : Int).toNat ∧
      (remove exBList 4).stats.ItemCount = exBList.stats.ItemCount - 1 ∧
      (remove exBList 4).stats.ItemCount = (remove exBList 4).flatten.length ∧
      (remove exBList 4).stats.ArraySize = exBList.stats.ArraySize ∧
      ∃ l node r, exBList.nodes = l ++ node :: r ∧
        (flattenNodes l).length ≤ (4 : Int).toNat ∧
        (4 : Int).toNat < (flattenNodes l).length + node.count ∧
        ((node.count = 1 ∧ (remove exBList 4).nodes = l ++ r ∧
            (remove exBList 4).stats.NodeCount = exBList.stats.NodeCount - 1) ∨
          (node.count ≠ 1 ∧
            (remove exBList 4).nodes
              = l ++ removeAt node ((4 : Int).toNat - (flattenNodes l).length) :: r ∧
            (remove exBList 4).stats.NodeCount = exBList.stats.NodeCount))) ∧
    (((4 : Int) < 0 ∨ (4 : Int) ≥ exBList.stats.ItemCount) → remove exBList 4 = exBList)) :=
  ⟨by decide, by decide, by decide, by decide, by decide, by decide, by decide,
    remove_erases_index exBList 4 (by decide)⟩

/-! ### The example lists are built by calls -/

theorem exShrunk_built : Built 2 32 exShrunk :=
  Built.remove_by_value _ 5 (Built.remove _ 0 (Built.insert exFront exMixed 1 true
    (Built.push_front exPushed exFront 9 true
      (Built.push_back exPair exPushed 5 true
        (Built.push_back _ exPair 4 true (Built.push_back exEmpty _ 3 true Built.empty rfl) rfl)
        rfl) rfl) rfl))

/-- C39: for `Size >= 1`, after any sequence of `push_back`, `push_front`,
`insert`, `remove` and `remove_by_value` calls on the empty list, every node
holds between 1 and `Size` items, `ItemCount` is the sum of the counts of the
nodes, which is the number of items and what `size()` returns, and `NodeCount`
is the number of nodes of the chain. -/
theorem built_lists_counted {T : Type} [LinearOrder T] [Inhabited T] (Size nodeSize : Nat)
    (hS : 1 ≤ Size) {b : BList T} (h : Built Size nodeSize b) :
    (∀ node ∈ b.nodes, 1 ≤ node.count ∧ node.count ≤ Size) ∧
    b.stats.ItemCount = ((b.nodes.map (fun node => node.count)).sum : Nat) ∧
    b.stats.ItemCount = (b.flatten.length : Nat) ∧
    size b = b.stats.ItemCount ∧
    b.stats.NodeCount = (b.nodes.length : Nat) ∧
    b.stats.ArraySize = Size := by
  obtain ⟨⟨hf, hi, hn⟩, ha⟩ := h.counted hS
  refine ⟨?_, hi, ?_, rfl, hn, ha⟩
  · intro node hnode
    rw [← ha]
    exact hf node hnode
  · rw [hi]
    unfold BList.flatten
    rw [length_flattenNodes]

theorem built_lists_counted_witness :
    ((1 : Nat) ≤ 2 ∧ Built 2 32 exShrunk) ∧
    exShrunk.flatten = [9, 3, 4] ∧ exShrunk.nodes.map (fun node => node.count) = [1, 2] ∧
    exShrunk.stats = ⟨32, 2, 2, 3⟩ ∧
    ((∀ node ∈ exShrunk.nodes, 1 ≤ node.count ∧ node.count ≤ 2) ∧
    exShrunk.stats.ItemCount = ((exShrunk.nodes.map (fun node => node.count)).sum : Nat) ∧
    exShrunk.stats.ItemCount = (exShrunk.flatten.length : Nat) ∧
    size exShrunk = exShrunk.stats.ItemCount ∧
    exShrunk.stats.NodeCount = (exShrunk.nodes.length : Nat) ∧
    exShrunk.stats.ArraySize = 2) :=
  ⟨⟨by decide, exShrunk_built⟩, by decide, by decide, by decide,
    built_lists_counted 2 32 (by decide) exShrunk_built⟩

end BL

namespace ALG

/-! ### Adding edges -/

theorem insert_perm (info : AdjacencyInfo) :
    ∀ l : List AdjacencyInfo, (AddDEdge.insert info l).Perm (info :: l) := by
  intro l
  induction l with
  | nil => exact List.Perm.refl _
  | cons it rest ih =>
    simp only [AddDEdge.insert]
    split
    · exact List.Perm.refl _
    · exact (List.Perm.cons it ih).trans (List.Perm.swap info it rest)

theorem insert_sorted (info : AdjacencyInfo) :
    ∀ l : List AdjacencyInfo, l.Pairwise AdjacencyInfo.le →
      (AddDEdge.insert info l).Pairwise AdjacencyInfo.le := by
  intro l
  induction l with
  | nil =>
    intro _
    exact List.pairwise_singleton _ _
  | cons it rest ih =>
    intro hs
    obtain ⟨h1, h2⟩ := List.pairwise_cons.1 hs
    simp only [AddDEdge.insert]
    split
    · rename_i hc
      refine List.pairwise_cons.2 ⟨?_, hs⟩
      intro x hx
      rcases List.mem_cons.1 hx with e | e
      · subst e
        unfold AdjacencyInfo.le
        omega
      · have := h1 x e
        unfold AdjacencyInfo.le at this ⊢
        omega
    · rename_i hc
      refine List.pairwise_cons.2 ⟨?_, ih h2⟩
      intro x hx
      rcases List.mem_cons.1 ((insert_perm info rest).subset hx) with e | e
      · subst e
        unfold AdjacencyInfo.le
        omega
      · exact h1 x e

theorem edges_eq (g : ALGraph) {i : Nat} (h1 : 1 ≤ i) :
    g.edges i = (g.AdjacentList[i - 1]?).getD [] := by
  unfold ALGraph.edges
  rw [if_neg (by omega), List.getD_eq_getElem?_getD]

/-- `AddDEdge` with a source in `1..size` returns; it changes the adjacency
list of the source only, by one insertion. -/
theorem AddDEdge_spec (g : ALGraph) {source : Nat} (destination weight : Nat)
    (hsize : g.size < 2 ^ 32) (h1 : 1 ≤ source) (h2 : source ≤ g.size) :
    ∃ g', AddDEdge g source destination weight = .ok g' ∧ g'.size = g.size ∧
      ∀ i, 1 ≤ i →
        g'.edges i = if i = source
          then AddDEdge.insert { id := destination, weight := weight } (g.edges i)
          else g.edges i := by
  unfold ALGraph.size at hsize h2
  have hid : (source + 4294967295) % 4294967296 = source - 1 := by
    norm_num at hsize
    omega
  have hlt : source - 1 < g.AdjacentList.length := by omega
  unfold AddDEdge
  simp only [hid, List.getElem?_eq_getElem hlt]
  refine ⟨_, rfl, ?_, ?_⟩
  · unfold ALGraph.size
    simp
  · intro i hi
    rw [edges_eq _ hi, edges_eq _ hi]
    simp only [List.getElem?_set]
    by_cases e : i = source
    · subst e
      rw [if_pos rfl, if_pos rfl, if_pos hlt]
      simp [List.getElem?_eq_getElem hlt]
    · rw [if_neg (by omega), if_neg e]

/-- A run of calls whose sources lie in `1..size` returns; every adjacency
list stays sorted and gains exactly the entries added from its node. -/
theorem run_spec : ∀ (calls : List Call) (g : ALGraph), g.size < 2 ^ 32 →
    (∀ c ∈ calls, c.sourcesIn g.size) →
    ∃ g', run g calls = some g' ∧ g'.size = g.size ∧
      ∀ i, 1 ≤ i →
        ((g.edges i).Pairwise AdjacencyInfo.le → (g'.edges i).Pairwise AdjacencyInfo.le) ∧
        (g'.edges i).Perm (addedFrom i calls ++ g.edges i) := by
  intro calls
  induction calls with
  | nil =>
    intro g _ _
    exact ⟨g, rfl, rfl, fun i _ => ⟨fun h => h, List.Perm.refl _⟩⟩
  | cons c rest ih =>
    intro g hsize hsrc
    have hc := hsrc c (List.mem_cons_self _ _)
    have hrest : ∀ g1 : ALGraph, g1.size = g.size → ∀ c ∈ rest, c.sourcesIn g1.size := by
      intro g1 e c' hc'
      rw [e]
      exact hsrc c' (List.mem_cons_of_mem _ hc')
    cases c with
    | AddDEdge source destination weight =>
      obtain ⟨hs1, hs2⟩ := hc
      obtain ⟨g1, a1, a2, a3⟩ := AddDEdge_spec g destination weight hsize hs1 hs2
      obtain ⟨g', b1, b2, b3⟩ := ih g1 (by rw [a2]; exact hsize) (hrest g1 a2)
      refine ⟨g', ?_, b2.trans a2, ?_⟩
      · simp only [run, a1]
        exact b1
      · intro i hi
        obtain ⟨c1, c2⟩ := b3 i hi
        have e3 := a3 i hi
        by_cases e : i = source
        · rw [if_pos e] at e3
          refine ⟨fun h => c1 (by rw [e3]; exact insert_sorted _ _ h), ?_⟩
          refine c2.trans ?_
          rw [e3]
          simp only [addedFrom, Call.added, List.filter_cons, e, decide_True, if_true,
            List.filter_nil, List.map_cons, List.map_nil, List.singleton_append]
          refine (List.Perm.append_left _ (insert_perm _ _)).trans ?_
          rw [← e]
          exact List.perm_middle
        · rw [if_neg e] at e3
          refine ⟨fun h => c1 (by rw [e3]; exact h), ?_⟩
          refine c2.trans ?_
          rw [e3]
          have e' : ¬ source = i := fun h => e h.symm
          simp [addedFrom, Call.added, e']
    | AddUEdge node1 node2 weight =>
      obtain ⟨⟨hs1, hs2⟩, hs3, hs4⟩ := hc
      obtain ⟨g1, a1, a2, a3⟩ := AddDEdge_spec g node2 weight hsize hs1 hs2
      have hs4' : node2 ≤ g1.size := by rw [a2]; exact hs4
      obtain ⟨g2, d1, d2, d3⟩ := AddDEdge_spec g1 node1 weight (by rw [a2]; exact hsize)
        hs3 hs4'
      obtain ⟨g', b1, b2, b3⟩ := ih g2 (by rw [d2, a2]; exact hsize) (hrest g2 (d2.trans a2))
      refine ⟨g', ?_, b2.trans (d2.trans a2), ?_⟩
      · simp only [run, AddUEdge, a1, d1]
        exact b1
      · intro i hi
        obtain ⟨c1, c2⟩ := b3 i hi
        have e3 := a3 i hi
        have f3 := d3 i hi
        have hsorted : (g.edges i).Pairwise AdjacencyInfo.le →
            (g2.edges i).Pairwise AdjacencyInfo.le := by
          intro h
          have h1 : (g1.edges i).Pairwise AdjacencyInfo.le := by
            rw [e3]
            split
            · exact insert_sorted _ _ h
            · exact h
          rw [f3]
          split
          · exact insert_sorted _ _ h1
          · exact h1
        refine ⟨fun h => c1 (hsorted h), ?_⟩
        have key : (g2.edges i).Perm
            (addedFrom i [Call.AddUEdge node1 node2 weight] ++ g.edges i) := by
          rw [f3, e3]
          by_cases e1 : i = node1 <;> by_cases e2 : i = node2
          · subst e1
            subst e2
            simp only [if_true, addedFrom, Call.added, List.filter_cons, decide_True,
              List.filter_nil, List.map_cons, List.map_nil, List.append_nil, List.cons_append,
              List.nil_append]
            exact (insert_perm _ _).trans (List.Perm.cons _ (insert_perm _ _))
          · subst e1
            have e2' : ¬ node2 = i := fun h => e2 h.symm
            simp only [if_true, if_neg e2, addedFrom, Call.added, List.filter_cons, decide_True,
              e2', decide_False, List.filter_nil, List.map_cons, List.map_nil, List.append_nil,
              List.cons_append, List.nil_append, Bool.false_eq_true, if_false]
            exact insert_perm _ _
          · subst e2
            have e1' : ¬ node1 = i := fun h => e1 h.symm
            simp only [if_true, if_neg e1, addedFrom, Call.added, List.filter_cons, decide_True,
              e1', decide_False, List.filter_nil, List.map_cons, List.map_nil, List.append_nil,
              List.cons_append, List.nil_append, Bool.false_eq_true, if_false]
            exact insert_perm _ _
          · have e1' : ¬ node1 = i := fun h => e1 h.symm
            have e2' : ¬ node2 = i := fun h => e2 h.symm
            simp [if_neg e1, if_neg e2, addedFrom, Call.added, e1', e2']
        refine c2.trans ((List.Perm.append_left _ key).trans ?_)
        simp only [addedFrom, List.append_nil, List.append_assoc]
        exact List.perm_append_comm_assoc _ _ _

/-! ### Walks -/

theorem mem_edges {g : ALGraph} {v : Nat} {a : AdjacencyInfo} (h : a ∈ g.edges v) :
    1 ≤ v ∧ v ≤ g.size ∧ ∃ l, g.AdjacentList[v - 1]? = some l ∧ a ∈ l := by
  unfold ALGraph.edges at h
  by_cases h0 : v = 0
  · rw [if_pos h0] at h
    cases h
  · rw [if_neg h0, List.getD_eq_getElem?_getD] at h
    cases hl : g.AdjacentList[v - 1]? with
    | none =>
      rw [hl] at h
      cases h
    | some l =>
      rw [hl] at h
      have hlt := (List.getElem?_eq_some.1 hl).1
      unfold ALGraph.size
      exact ⟨by omega, by omega, l, rfl, h⟩

theorem edges_of_index {g : ALGraph} {m : Nat} {l : List AdjacencyInfo}
    (h : g.AdjacentList[m]? = some l) : g.edges (m + 1) = l := by
  unfold ALGraph.edges
  rw [if_neg (by omega), List.getD_eq_getElem?_getD, Nat.add_sub_cancel, h]
  rfl

/-- In a graph whose edges lead to nodes, an edge leads to a node. -/
theorem Closed.id_range {g : ALGraph} (hc : g.Closed) {v : Nat} {a : AdjacencyInfo}
    (h : a ∈ g.edges v) : 1 ≤ a.id ∧ a.id ≤ g.size := by
  obtain ⟨_, _, l, hl, ha⟩ := mem_edges h
  exact hc l (List.getElem?_mem hl) a ha

theorem Walk.range {g : ALGraph} {s v : Nat} {p : List Nat} {c : Nat} (hc : g.Closed)
    (h : Walk g s v p c) : 1 ≤ v ∧ v ≤ g.size := by
  cases h with
  | start h1 h2 => exact ⟨h1, h2⟩
  | step e _ he => exact Closed.id_range hc he

/-- The path of a walk ends in the node the walk ends in. -/
theorem Walk.path_eq {g : ALGraph} {s v : Nat} {p : List Nat} {c : Nat} (h : Walk g s v p c) :
    ∃ q, p = q ++ [v] := by
  cases h with
  | start _ _ => exact ⟨[], rfl⟩
  | step e _ _ => exact ⟨_, rfl⟩

/-- The path of a walk starts in the start node. -/
theorem Walk.head {g : ALGraph} {s v : Nat} {p : List Nat} {c : Nat} (h : Walk g s v p c) :
    p.head? = some s := by
  induction h with
  | start _ _ => rfl
  | @step v' p' c' e hw _ ih =>
    cases p' with
    | nil => cases ih
    | cons x xs => exact ih

theorem Walk.last {g : ALGraph} {s v : Nat} {p : List Nat} {c : Nat} (h : Walk g s v p c) :
    p.getLast? = some v := by
  obtain ⟨q, e⟩ := h.path_eq
  rw [e]
  simp

/-! ### The search for the unexplored node of least cost -/

theorem toInt_of_lt {j : Nat} (h : j < 2147483648) : toInt j = (j : Int) := by
  unfold toInt
  rw [Nat.mod_eq_of_lt (by omega), if_pos h]

theorem atInt_natCast {α : Type} (v : List α) (m : Nat) : atInt v (m : Int) = v[m]? := by
  unfold atInt
  rw [if_neg (by omega), Int.toNat_ofNat]

theorem not_explored_iff {graphNodes : List GNode} {j : Nat} {node : GNode}
    (h : graphNodes[j]? = some node) : ¬ Explored graphNodes j ↔ node.isExplored = false := by
  unfold Explored
  constructor
  · intro hn
    cases hb : node.isExplored with
    | false => rfl
    | true => exact absurd ⟨node, h, hb⟩ hn
  · rintro hb ⟨nd, h', hb'⟩
    rw [h] at h'
    cases h'
    rw [hb] at hb'
    cases hb'

/-- The search, run from index `j` on: it ends with -1 when no node is
unexplored, and otherwise with the index of an unexplored node whose cost is
least among the unexplored nodes. -/
theorem findMin_spec {info : List DijkstraInfo} {graphNodes : List GNode} {n : Nat}
    (hn : n < 2147483648) (hi : info.length = n) (hg : graphNodes.length = n) :
    ∀ (k j : Nat) (cur : Int), j + k = n →
      ((cur = -1 ∧ ∀ i, i < j → Explored graphNodes i) ∨
        (∃ m e, m < j ∧ cur = (m : Int) ∧ ¬ Explored graphNodes m ∧ info[m]? = some e ∧
          ∀ i e', i < j → ¬ Explored graphNodes i → info[i]? = some e' → e.cost ≤ e'.cost)) →
      ∃ r, Dijkstra.findMin info graphNodes k j cur = some r ∧
        ((r = -1 ∧ ∀ i, i < n → Explored graphNodes i) ∨
          (∃ m e, m < n ∧ r = (m : Int) ∧ ¬ Explored graphNodes m ∧ info[m]? = some e ∧
            ∀ i e', i < n → ¬ Explored graphNodes i → info[i]? = some e' →
              e.cost ≤ e'.cost)) := by
  intro k
  induction k with
  | zero =>
    intro j cur hjk h
    have : j = n := by omega
    subst this
    exact ⟨cur, rfl, h⟩
  | succ k ih =>
    intro j cur hjk h
    have hj : j < n := by omega
    obtain ⟨node, hgj⟩ : ∃ node, graphNodes[j]? = some node :=
      ⟨_, List.getElem?_eq_getElem (by omega)⟩
    obtain ⟨a, hij⟩ : ∃ a, info[j]? = some a := ⟨_, List.getElem?_eq_getElem (by omega)⟩
    simp only [Dijkstra.findMin, hgj]
    cases hb : node.isExplored with
    | true =>
      have hex : Explored graphNodes j := ⟨node, hgj, hb⟩
      simp only [if_true]
      apply ih (j + 1) cur (by omega)
      rcases h with ⟨h1, h2⟩ | ⟨m, e, h1, h2, h3, h4, h5⟩
      · left
        refine ⟨h1, ?_⟩
        intro i hi'
        rcases Nat.lt_succ_iff_lt_or_eq.1 hi' with c | c
        · exact h2 i c
        · rw [c]; exact hex
      · right
        refine ⟨m, e, by omega, h2, h3, h4, ?_⟩
        intro i e' hi' hne he'
        rcases Nat.lt_succ_iff_lt_or_eq.1 hi' with c | c
        · exact h5 i e' c hne he'
        · rw [c] at hne
          exact absurd hex hne
    | false =>
      have hnex : ¬ Explored graphNodes j := (not_explored_iff hgj).2 hb
      simp only [Bool.false_eq_true, if_false]
      rcases h with ⟨h1, h2⟩ | ⟨m, e, h1, h2, h3, h4, h5⟩
      · rw [if_pos h1]
        apply ih (j + 1) (toInt j) (by omega)
        right
        refine ⟨j, a, by omega, toInt_of_lt (by omega), hnex, hij, ?_⟩
        intro i e' hi' hne he'
        rcases Nat.lt_succ_iff_lt_or_eq.1 hi' with c | c
        · exact absurd (h2 i c) hne
        · rw [c, hij] at he'
          cases he'
          exact Nat.le_refl _
      · rw [if_neg (by omega), h2, atInt_natCast, hij, h4]
        simp only []
        by_cases hlt : a.cost < e.cost
        · rw [if_pos hlt]
          apply ih (j + 1) (toInt j) (by omega)
          right
          refine ⟨j, a, by omega, toInt_of_lt (by omega), hnex, hij, ?_⟩
          intro i e' hi' hne he'
          rcases Nat.lt_succ_iff_lt_or_eq.1 hi' with c | c
          · have := h5 i e' c hne he'
            omega
          · rw [c, hij] at he'
            cases he'
            exact Nat.le_refl _
        · rw [if_neg hlt]
          apply ih (j + 1) (m : Int) (by omega)
          right
          refine ⟨m, e, by omega, rfl, h3, h4, ?_⟩
          intro i e' hi' hne he'
          rcases Nat.lt_succ_iff_lt_or_eq.1 hi' with c | c
          · exact h5 i e' c hne he'
          · rw [c, hij] at he'
            cases he'
            omega

/-! ### Relaxing the edges of an explored node -/

theorem Lowered.same {g : ALGraph} {s : Nat} {graphNodes : List GNode}
    {info : List DijkstraInfo} (h : Core g s info graphNodes) :
    Lowered g s graphNodes info info :=
  ⟨h, fun _ _ _ he => he, fun _ e he => ⟨e, he, Nat.le_refl _⟩⟩

theorem Lowered.andThen {g : ALGraph} {s : Nat} {graphNodes : List GNode}
    {info info1 info2 : List DijkstraInfo} (h1 : Lowered g s graphNodes info info1)
    (h2 : Lowered g s graphNodes info1 info2) : Lowered g s graphNodes info info2 := by
  refine ⟨h2.core, fun j e hx he => h2.kept j e hx (h1.kept j e hx he), ?_⟩
  intro j e he
  obtain ⟨e1, a1, a2⟩ := h1.lower j e he
  obtain ⟨e2, b1, b2⟩ := h2.lower j e1 a1
  exact ⟨e2, b1, by omega⟩

/-- A relaxed edge of an explored node stays relaxed when costs are lowered. -/
theorem RelaxedEdge.lowered {g : ALGraph} {s : Nat} {graphNodes : List GNode}
    {info info' : List DijkstraInfo} {i : Nat} {a : AdjacencyInfo}
    (h : RelaxedEdge info i a) (hc : Core g s info graphNodes)
    (hl : Lowered g s graphNodes info info') (hx : Explored graphNodes i) :
    RelaxedEdge info' i a := by
  intro e e' he he'
  have hlen : info.length = info'.length := by rw [hc.lenInfo, hl.core.lenInfo]
  have hi : i < info.length := by
    rw [hlen]
    exact (List.getElem?_eq_some.1 he).1
  have ht : a.id - 1 < info.length := by
    rw [hlen]
    exact (List.getElem?_eq_some.1 he').1
  have h0 := hl.kept i _ hx (List.getElem?_eq_getElem hi)
  obtain ⟨e'', b1, b2⟩ := hl.lower (a.id - 1) _ (List.getElem?_eq_getElem ht)
  rw [he] at h0
  rw [he'] at b1
  cases h0
  cases b1
  have := h _ _ (List.getElem?_eq_getElem hi) (List.getElem?_eq_getElem ht)
  omega

/-- Every node on the path of an explored node is explored. -/
theorem Core.path_explored {g : ALGraph} {s : Nat} {info : List DijkstraInfo}
    {graphNodes : List GNode} (h : Core g s info graphNodes) {m : Nat} {cur : DijkstraInfo}
    (hcur : info[m]? = some cur) (hex : Explored graphNodes m) :
    ∀ x ∈ cur.path, 1 ≤ x ∧ Explored graphNodes (x - 1) := by
  obtain ⟨hfin, _⟩ := h.exact m cur hcur hex
  obtain ⟨hw, _, hp⟩ := h.sound m cur hcur hfin
  obtain ⟨q, hq⟩ := hw.path_eq
  intro x hx
  rw [hq] at hx hp
  rw [List.dropLast_concat] at hp
  rcases List.mem_append.1 hx with c | c
  · exact hp x c
  · have : x = m + 1 := by simpa using c
    subst this
    exact ⟨by omega, by rw [Nat.add_sub_cancel]; exact hex⟩

/-- One pass of the loop over the neighbours of the explored node at index
`m`: the sum does not wrap around, the entry of the neighbour exists, and
whether it is replaced or not the invariant is kept and the edge is relaxed. -/
theorem relax_step {g : ALGraph} {s : Nat} {info : List DijkstraInfo} {graphNodes : List GNode}
    {m : Nat} {cur : DijkstraInfo} {a : AdjacencyInfo} (hs : Sound g s)
    (h : Core g s info graphNodes) (hex : Explored graphNodes m) (hcur : info[m]? = some cur)
    (ha : a ∈ g.edges (m + 1)) :
    (a.id + 4294967295) % 4294967296 = a.id - 1 ∧
    (cur.cost + a.weight) % 4294967296 = cur.cost + a.weight ∧
    ∃ old, info[a.id - 1]? = some old ∧
      (cur.cost + a.weight < old.cost →
        Lowered g s graphNodes info
          (info.set (a.id - 1) { cost := cur.cost + a.weight, path := cur.path ++ [a.id] }) ∧
        RelaxedEdge
          (info.set (a.id - 1) { cost := cur.cost + a.weight, path := cur.path ++ [a.id] })
          m a) ∧
      (¬ cur.cost + a.weight < old.cost → RelaxedEdge info m a) := by
  obtain ⟨hid1, hid2⟩ := Closed.id_range hs.closed ha
  have hsz := hs.size
  obtain ⟨hfin, hmin⟩ := h.exact m cur hcur hex
  obtain ⟨hw, hnd, _⟩ := h.sound m cur hcur hfin
  have hall := h.path_explored hcur hex
  have hwalk : Walk g s a.id (cur.path ++ [a.id]) (cur.cost + a.weight) := Walk.step a hw ha
  have hlight := hs.light _ _ _ hwalk (by rw [List.dropLast_concat]; exact hnd)
  unfold INFINITY_ALGRAPH at hlight
  have ht : a.id - 1 < info.length := by rw [h.lenInfo]; omega
  obtain ⟨old, hold⟩ : ∃ old, info[a.id - 1]? = some old := ⟨_, List.getElem?_eq_getElem ht⟩
  refine ⟨by omega, by omega, old, hold, ?_, ?_⟩
  · intro hlt
    -- the neighbour is not explored
    have hnex : ¬ Explored graphNodes (a.id - 1) := by
      intro hx
      obtain ⟨_, hm⟩ := h.exact (a.id - 1) old hold hx
      have := hm _ _ (by rw [Nat.sub_add_cancel hid1]; exact hwalk)
      omega
    have hne : ∀ j, Explored graphNodes j → a.id - 1 ≠ j := by
      intro j hj e
      exact hnex (e ▸ hj)
    have hcur' : (info.set (a.id - 1) { cost := cur.cost + a.weight, path := cur.path ++ [a.id] })[m]? = some cur := by
      rw [List.getElem?_set_ne (hne m hex)]
      exact hcur
    have hcore : Core g s (info.set (a.id - 1) { cost := cur.cost + a.weight, path := cur.path ++ [a.id] }) graphNodes := by
      constructor
      · rw [List.length_set]; exact h.lenInfo
      · exact h.lenNodes
      · have : a.id - 1 ≠ s - 1 := by
          intro e
          have hst := h.start
          rw [← e, hold] at hst
          cases hst
          exact absurd hlt (Nat.not_lt_zero _)
        rw [List.getElem?_set_ne this]
        exact h.start
      · intro i e he
        by_cases c : a.id - 1 = i
        · subst c
          rw [List.getElem?_set_self ht] at he
          cases he
          have := h.bounded _ _ hold
          show cur.cost + a.weight ≤ _
          omega
        · rw [List.getElem?_set_ne c] at he
          exact h.bounded i e he
      · intro i e he hfe
        by_cases c : a.id - 1 = i
        · subst c
          rw [List.getElem?_set_self ht] at he
          cases he
          refine ⟨by rw [Nat.sub_add_cancel hid1]; exact hwalk, ?_, ?_⟩
          · refine List.Nodup.append hnd (List.nodup_singleton _) ?_
            intro x hx1 hx2
            have : x = a.id := by simpa using hx2
            subst this
            exact hnex (hall _ hx1).2
          · show ∀ x ∈ (cur.path ++ [a.id]).dropLast, _
            rw [List.dropLast_concat]
            exact hall
        · rw [List.getElem?_set_ne c] at he
          exact h.sound i e he hfe
      · intro i e he hx
        rw [List.getElem?_set_ne (hne i hx)] at he
        exact h.exact i e he hx
    refine ⟨⟨hcore, ?_, ?_⟩, ?_⟩
    · intro j e hx he
      rw [List.getElem?_set_ne (hne j hx)]
      exact he
    · intro j e he
      by_cases c : a.id - 1 = j
      · subst c
        rw [hold] at he
        cases he
        exact ⟨_, List.getElem?_set_self ht, by show cur.cost + a.weight ≤ _; omega⟩
      · exact ⟨e, by rw [List.getElem?_set_ne c]; exact he, Nat.le_refl _⟩
    · intro e e' he he'
      rw [hcur'] at he
      rw [List.getElem?_set_self ht] at he'
      cases he
      cases he'
      exact Nat.le_refl _
  · intro hlt e e' he he'
    rw [hcur] at he
    rw [hold] at he'
    cases he
    cases he'
    omega

/-- The loop over the neighbours of the explored node at index `m` returns;
it keeps the invariant and relaxes every edge it passes. -/
theorem relax_spec {g : ALGraph} {s : Nat} {graphNodes : List GNode} {m : Nat} (hs : Sound g s)
    (hex : Explored graphNodes m) :
    ∀ (todo : List AdjacencyInfo) (info : List DijkstraInfo), Core g s info graphNodes →
      (∀ a ∈ todo, a ∈ g.edges (m + 1)) →
      ∃ info', Dijkstra.relax m todo info = some info' ∧ Lowered g s graphNodes info info' ∧
        ∀ a ∈ todo, RelaxedEdge info' m a := by
  intro todo
  induction todo with
  | nil =>
    intro info h _
    exact ⟨info, rfl, Lowered.same h, fun a ha => by cases ha⟩
  | cons a rest ih =>
    intro info h hsub
    have hm : m < info.length := by
      obtain ⟨nd, hnd, _⟩ := hex
      rw [h.lenInfo, ← h.lenNodes]
      exact (List.getElem?_eq_some.1 hnd).1
    obtain ⟨cur, hcur⟩ : ∃ cur, info[m]? = some cur := ⟨_, List.getElem?_eq_getElem hm⟩
    obtain ⟨e1, e2, old, hold, c1, c2⟩ := relax_step hs h hex hcur
      (hsub a (List.mem_cons_self _ _))
    have hrest : ∀ b ∈ rest, b ∈ g.edges (m + 1) :=
      fun b hb => hsub b (List.mem_cons_of_mem _ hb)
    simp only [Dijkstra.relax, hcur, e1, e2, hold]
    by_cases hlt : cur.cost + a.weight < old.cost
    · rw [if_pos hlt]
      obtain ⟨hl1, hr1⟩ := c1 hlt
      obtain ⟨info', r1, r2, r3⟩ := ih _ hl1.core hrest
      refine ⟨info', r1, hl1.andThen r2, ?_⟩
      intro b hb
      rcases List.mem_cons.1 hb with c | c
      · rw [c]
        exact hr1.lowered hl1.core r2 hex
      · exact r3 b c
    · rw [if_neg hlt]
      obtain ⟨info', r1, r2, r3⟩ := ih _ h hrest
      refine ⟨info', r1, r2, ?_⟩
      intro b hb
      rcases List.mem_cons.1 hb with c | c
      · rw [c]
        exact (c2 hlt).lowered h r2 hex
      · exact r3 b c

/-! ### The outer loop -/

/-- A walk to a node that is not explored passes an unexplored node whose
entry is finite and weighs no more than the walk. -/
theorem Core.cut {g : ALGraph} {s : Nat} {info : List DijkstraInfo} {graphNodes : List GNode}
    (hs : Sound g s) (h : Core g s info graphNodes)
    (hr : ∀ i, Explored graphNodes i → ∀ a ∈ g.edges (i + 1), RelaxedEdge info i a)
    {v : Nat} {p : List Nat} {c : Nat} (hw : Walk g s v p c) :
    ¬ Explored graphNodes (v - 1) →
      ∃ j e, ¬ Explored graphNodes j ∧ info[j]? = some e ∧ e.cost ≤ c ∧
        e.cost < INFINITY_ALGRAPH := by
  induction hw with
  | start h1 h2 =>
    intro hn
    exact ⟨s - 1, _, hn, h.start, Nat.le_refl _, by unfold INFINITY_ALGRAPH; norm_num⟩
  | @step v' p' c' a hw' ha ih =>
    intro hn
    by_cases hx : Explored graphNodes (v' - 1)
    · obtain ⟨hv1, hv2⟩ := hw'.range hs.closed
      obtain ⟨hid1, hid2⟩ := Closed.id_range hs.closed ha
      have hv : v' - 1 + 1 = v' := Nat.sub_add_cancel hv1
      have hi : v' - 1 < info.length := by rw [h.lenInfo]; omega
      have ht : a.id - 1 < info.length := by rw [h.lenInfo]; omega
      obtain ⟨e1, he1⟩ : ∃ e1, info[v' - 1]? = some e1 := ⟨_, List.getElem?_eq_getElem hi⟩
      obtain ⟨e', he'⟩ : ∃ e', info[a.id - 1]? = some e' := ⟨_, List.getElem?_eq_getElem ht⟩
      obtain ⟨hfin, hmin⟩ := h.exact _ e1 he1 hx
      rw [hv] at hmin
      have hc := hmin _ _ hw'
      obtain ⟨hw1, hnd, _⟩ := h.sound _ e1 he1 hfin
      rw [hv] at hw1
      have hlight := hs.light _ _ _ (Walk.step a hw1 ha)
        (by rw [List.dropLast_concat]; exact hnd)
      have hrel := hr _ hx a (by rw [hv]; exact ha) e1 e' he1 he'
      exact ⟨a.id - 1, e', hn, he', by omega, by omega⟩
    · obtain ⟨j, e, a1, a2, a3, a4⟩ := ih hx
      exact ⟨j, e, a1, a2, by omega, a4⟩

/-- The explored nodes after one more node has been marked. -/
theorem explored_set {graphNodes : List GNode} {m : Nat} {node : GNode}
    (hm : graphNodes[m]? = some node) (j : Nat) :
    Explored (graphNodes.set m { node with isExplored := true }) j ↔
      Explored graphNodes j ∨ j = m := by
  have hlt := (List.getElem?_eq_some.1 hm).1
  unfold Explored
  by_cases e : m = j
  · subst e
    rw [List.getElem?_set_self hlt]
    constructor
    · intro _
      exact Or.inr rfl
    · intro _
      exact ⟨_, rfl, rfl⟩
  · rw [List.getElem?_set_ne e]
    constructor
    · exact Or.inl
    · rintro (c | c)
      · exact c
      · exact absurd c.symm e

/-- Marking an unexplored node leaves fewer unexplored nodes. -/
theorem unexplored_set : ∀ (graphNodes : List GNode) (m : Nat) (node : GNode),
    graphNodes[m]? = some node → node.isExplored = false →
    unexplored (graphNodes.set m { node with isExplored := true }) + 1
      = unexplored graphNodes := by
  intro graphNodes
  induction graphNodes with
  | nil =>
    intro m node h _
    cases h
  | cons y ys ih =>
    intro m node h hb
    cases m with
    | zero =>
      have e : y = node := by simpa using h
      subst e
      simp [unexplored, List.filter_cons, hb]
    | succ m' =>
      have h' : ys[m']? = some node := by simpa using h
      have := ih m' node h' hb
      unfold unexplored at this ⊢
      simp only [List.set_cons_succ, List.filter_cons]
      split
      · simp only [List.length_cons]
        omega
      · exact this

theorem explored_of_unexplored_zero {graphNodes : List GNode} (h : unexplored graphNodes = 0) :
    ∀ i, i < graphNodes.length → Explored graphNodes i := by
  intro i hi
  refine ⟨graphNodes[i], List.getElem?_eq_getElem hi, ?_⟩
  unfold unexplored at h
  have hnil := List.eq_nil_of_length_eq_zero h
  have hmem : graphNodes[i] ∈ graphNodes := List.getElem_mem hi
  cases hb : (graphNodes[i]).isExplored with
  | true => rfl
  | false =>
    have : graphNodes[i] ∈ graphNodes.filter (fun node => !node.isExplored) :=
      List.mem_filter.2 ⟨hmem, by simp [hb]⟩
    rw [hnil] at this
    cases this

/-- Marking the unexplored node of least cost keeps the invariant: its entry
is finite and no walk to it is lighter. -/
theorem Core.mark {g : ALGraph} {s : Nat} {info : List DijkstraInfo} {graphNodes : List GNode}
    (hs : Sound g s) (h : Core g s info graphNodes)
    (hr : ∀ i, Explored graphNodes i → ∀ a ∈ g.edges (i + 1), RelaxedEdge info i a)
    {m : Nat} {node : GNode} {e : DijkstraInfo} (hm : graphNodes[m]? = some node)
    (hne : ¬ Explored graphNodes m) (he : info[m]? = some e)
    (hmin : ∀ i e', i < g.size → ¬ Explored graphNodes i → info[i]? = some e' →
      e.cost ≤ e'.cost)
    (hreach : ∃ p c, Walk g s (m + 1) p c) :
    Core g s info (graphNodes.set m { node with isExplored := true }) := by
  have hmono : ∀ j, Explored graphNodes j →
      Explored (graphNodes.set m { node with isExplored := true }) j :=
    fun j hj => (explored_set hm j).2 (Or.inl hj)
  have hcut : ∀ p c, Walk g s (m + 1) p c → e.cost ≤ c ∧ e.cost < INFINITY_ALGRAPH := by
    intro p c hw
    obtain ⟨j, e', a1, a2, a3, a4⟩ := h.cut hs hr hw (by rw [Nat.add_sub_cancel]; exact hne)
    have hj : j < g.size := by
      rw [← h.lenInfo]
      exact (List.getElem?_eq_some.1 a2).1
    have := hmin j e' hj a1 a2
    exact ⟨by omega, by omega⟩
  constructor
  · exact h.lenInfo
  · rw [List.length_set]; exact h.lenNodes
  · exact h.start
  · exact h.bounded
  · intro i e' he' hfin
    obtain ⟨a1, a2, a3⟩ := h.sound i e' he' hfin
    exact ⟨a1, a2, fun x hx => ⟨(a3 x hx).1, hmono _ (a3 x hx).2⟩⟩
  · intro i e' he' hx
    rcases (explored_set hm i).1 hx with c | c
    · exact h.exact i e' he' c
    · subst c
      rw [he] at he'
      cases he'
      obtain ⟨p, c, hw⟩ := hreach
      exact ⟨(hcut p c hw).2, fun p' c' hw' => (hcut p' c' hw').1⟩

/-- The outer loop returns, with every node explored and the invariant
kept. -/
theorem loop_spec {g : ALGraph} {s : Nat} (hs : Sound g s)
    (hreach : ∀ i, 1 ≤ i → i ≤ g.size → ∃ p c, Walk g s i p c) :
    ∀ (k : Nat) (info : List DijkstraInfo) (graphNodes : List GNode),
      Core g s info graphNodes →
      (∀ i, Explored graphNodes i → ∀ a ∈ g.edges (i + 1), RelaxedEdge info i a) →
      unexplored graphNodes ≤ k →
      ∃ info' graphNodes', Dijkstra.loop g k info graphNodes = some info' ∧
        Core g s info' graphNodes' ∧ ∀ i, i < g.size → Explored graphNodes' i := by
  intro k
  induction k with
  | zero =>
    intro info graphNodes h _ hk
    refine ⟨info, graphNodes, rfl, h, ?_⟩
    intro i hi
    exact explored_of_unexplored_zero (by omega) i (by rw [h.lenNodes]; exact hi)
  | succ k ih =>
    intro info graphNodes h hr hk
    obtain ⟨r, hfind, hres⟩ := findMin_spec hs.size h.lenInfo h.lenNodes g.size 0 (-1)
      (by omega) (Or.inl ⟨rfl, fun i hi => by omega⟩)
    have hlen : g.AdjacentList.length = g.size := rfl
    simp only [Dijkstra.loop, hlen, hfind]
    rcases hres with ⟨hr1, hall⟩ | ⟨m, e, hm, hr1, hne, he, hmin⟩
    · rw [if_pos hr1]
      exact ⟨info, graphNodes, rfl, h, hall⟩
    · rw [if_neg (by omega), hr1, atInt_natCast, atInt_natCast, Int.toNat_ofNat]
      obtain ⟨node, hgm⟩ : ∃ node, graphNodes[m]? = some node :=
        ⟨_, List.getElem?_eq_getElem (show m < graphNodes.length by rw [h.lenNodes]; exact hm)⟩
      obtain ⟨neighbors, hadj⟩ : ∃ neighbors, g.AdjacentList[m]? = some neighbors :=
        ⟨_, List.getElem?_eq_getElem (show m < g.AdjacentList.length from hm)⟩
      simp only [hgm, hadj]
      have hb : node.isExplored = false := (not_explored_iff hgm).1 hne
      have hcore := h.mark hs hr hgm hne he hmin (hreach (m + 1) (by omega) (by omega))
      have hex : Explored (graphNodes.set m { node with isExplored := true }) m :=
        (explored_set hgm m).2 (Or.inr rfl)
      obtain ⟨info', r1, r2, r3⟩ := relax_spec hs hex neighbors info hcore
        (fun a ha => by rw [edges_of_index hadj]; exact ha)
      rw [r1]
      simp only []
      apply ih info' _ r2.core
      · intro i hx a ha
        rcases (explored_set hgm i).1 hx with c | c
        · exact (hr i c a ha).lowered hcore r2 hx
        · subst c
          exact r3 a (by rw [edges_of_index hadj] at ha; exact ha)
      · have := unexplored_set graphNodes m node hgm hb
        omega

/-! ### The whole of `Dijkstra` -/

theorem Walk.nodes_range {g : ALGraph} {s v : Nat} {p : List Nat} {c : Nat} (hc : g.Closed)
    (h : Walk g s v p c) : ∀ x ∈ p, 1 ≤ x ∧ x ≤ g.size := by
  induction h with
  | start h1 h2 =>
    intro x hx
    rw [List.mem_singleton] at hx
    subst hx
    exact ⟨h1, h2⟩
  | @step v' p' c' a _ ha ih =>
    intro x hx
    rcases List.mem_append.1 hx with c | c
    · exact ih x c
    · rw [List.mem_singleton] at c
      subst c
      exact Closed.id_range hc ha

/-- A walk weighs at most the number of its edges times the largest weight. -/
theorem Walk.weight_le {g : ALGraph} {s v : Nat} {p : List Nat} {c : Nat} {W : Nat}
    (hW : ∀ l ∈ g.AdjacentList, ∀ e ∈ l, e.weight ≤ W) (h : Walk g s v p c) :
    1 ≤ p.length ∧ c ≤ (p.length - 1) * W := by
  induction h with
  | start _ _ => exact ⟨Nat.le_refl _, Nat.zero_le _⟩
  | @step v' p' c' a _ ha ih =>
    obtain ⟨_, _, l, hl, hal⟩ := mem_edges ha
    have hw := hW l (List.getElem?_mem hl) a hal
    obtain ⟨h1, h2⟩ := ih
    rw [List.length_append, List.length_singleton, Nat.add_sub_cancel]
    have e : p'.length * W = (p'.length - 1) * W + W := by
      conv_lhs => rw [← Nat.sub_add_cancel h1]
      rw [Nat.succ_mul]
    exact ⟨by omega, by omega⟩

/-- A list of node ids without repetition is no longer than the number of
nodes. -/
theorem nodup_length_le {n : Nat} {l : List Nat} (hn : l.Nodup)
    (hr : ∀ x ∈ l, 1 ≤ x ∧ x ≤ n) : l.length ≤ n := by
  have hsub : l ⊆ List.range' 1 n := by
    intro x hx
    rw [List.mem_range'_1]
    have := hr x hx
    omega
  have := (List.subperm_of_subset hn hsub).length_le
  rwa [List.length_range'] at this

/-- A graph of fewer than `2^31` nodes whose edges lead to nodes and whose
weights are small meets what `Dijkstra` assumes. -/
theorem sound_of_bound (g : ALGraph) (s W : Nat) (hsize : g.size < 2147483648)
    (hclosed : g.Closed) (hW : ∀ l ∈ g.AdjacentList, ∀ e ∈ l, e.weight ≤ W)
    (hlt : g.size * W < INFINITY_ALGRAPH) : Sound g s := by
  refine ⟨hsize, hclosed, ?_⟩
  intro v p c hw hn
  obtain ⟨h1, h2⟩ := hw.weight_le hW
  have hlen := nodup_length_le hn
    (fun x hx => hw.nodes_range hclosed x (List.mem_of_mem_dropLast hx))
  rw [List.length_dropLast] at hlen
  have := Nat.mul_le_mul_right W hlen
  omega

theorem init_not_explored (n i : Nat) :
    ¬ Explored ((List.range n).map
      (fun i => ({ nodeID := (i + 1) % 4294967296, isExplored := false } : GNode))) i := by
  rintro ⟨node, h1, h2⟩
  rw [List.getElem?_map] at h1
  cases hr : (List.range n)[i]? with
  | none =>
    rw [hr] at h1
    cases h1
  | some x =>
    rw [hr] at h1
    simp only [Option.map_some', Option.some.injEq] at h1
    subst h1
    cases h2

theorem init_unexplored (n : Nat) :
    unexplored ((List.range n).map
      (fun i => ({ nodeID := (i + 1) % 4294967296, isExplored := false } : GNode))) = n := by
  unfold unexplored
  rw [List.filter_eq_self.2, List.length_map, List.length_range]
  intro a ha
  obtain ⟨x, _, hx⟩ := List.mem_map.1 ha
  subst hx
  rfl

/-- The invariant holds when the outer loop starts. -/
theorem init_core (g : ALGraph) (s : Nat) (h1 : 1 ≤ s) (h2 : s ≤ g.size) :
    Core g s
      ((List.replicate g.size ({ cost := INFINITY_ALGRAPH, path := [] } : DijkstraInfo)).set
        (s - 1) { cost := 0, path := [s] })
      ((List.range g.size).map
        (fun i => ({ nodeID := (i + 1) % 4294967296, isExplored := false } : GNode))) := by
  have hlt : s - 1 < (List.replicate g.size
      ({ cost := INFINITY_ALGRAPH, path := [] } : DijkstraInfo)).length := by
    rw [List.length_replicate]; omega
  have hrest : ∀ (i : Nat) (e : DijkstraInfo), s - 1 ≠ i →
      ((List.replicate g.size ({ cost := INFINITY_ALGRAPH, path := [] } : DijkstraInfo)).set
        (s - 1) { cost := 0, path := [s] })[i]? = some e → e.cost = INFINITY_ALGRAPH := by
    intro i e hne he
    rw [List.getElem?_set_ne hne, List.getElem?_replicate] at he
    split at he
    · cases he
      rfl
    · cases he
  constructor
  · rw [List.length_set, List.length_replicate]
  · rw [List.length_map, List.length_range]
  · exact List.getElem?_set_self hlt
  · intro i e he
    by_cases c : s - 1 = i
    · subst c
      rw [List.getElem?_set_self hlt] at he
      cases he
      exact Nat.zero_le _
    · rw [hrest i e c he]
  · intro i e he hfin
    by_cases c : s - 1 = i
    · subst c
      rw [List.getElem?_set_self hlt] at he
      cases he
      rw [Nat.sub_add_cancel h1]
      exact ⟨Walk.start h1 h2, List.nodup_singleton _, fun x hx => by cases hx⟩
    · rw [hrest i e c he] at hfin
      exact absurd hfin (Nat.lt_irrefl _)
  · intro i e _ hx
    exact absurd hx (init_not_explored _ _)

/-- On a graph that meets its assumptions and whose nodes can all be reached
from the start node, `Dijkstra` returns one entry for each node; the entry of
the start node is cost 0 and the path of that node alone; and the entry of a
node holds a walk from the start node to it that repeats no node, of the
weight the entry gives, than which no walk to the node is lighter. -/
theorem dijkstra_spec (g : ALGraph) (s : Nat) (hs : Sound g s) (h1 : 1 ≤ s) (h2 : s ≤ g.size)
    (hreach : ∀ i, 1 ≤ i → i ≤ g.size → ∃ p c, Walk g s i p c) :
    ∃ info, Dijkstra g s = some info ∧ info.length = g.size ∧
      info[s - 1]? = some { cost := 0, path := [s] } ∧
      ∀ i, 1 ≤ i → i ≤ g.size → ∃ e : DijkstraInfo, info[i - 1]? = some e ∧
        Walk g s i e.path e.cost ∧ e.path.Nodup ∧ ∀ p c, Walk g s i p c → e.cost ≤ c := by
  have hsz := hs.size
  have hidx : (s + 4294967295) % 4294967296 = s - 1 := by omega
  have hlen : g.AdjacentList.length = g.size := rfl
  obtain ⟨info, graphNodes, r1, r2, r3⟩ := loop_spec hs hreach g.size _ _ (init_core g s h1 h2)
    (fun i hx => absurd hx (init_not_explored _ _)) (by rw [init_unexplored])
  refine ⟨info, ?_, r2.lenInfo, r2.start, ?_⟩
  · simp only [Dijkstra, hlen, hidx]
    rw [List.getElem?_replicate, if_pos (by omega)]
    exact r1
  · intro i hi1 hi2
    have hlt : i - 1 < info.length := by rw [r2.lenInfo]; omega
    refine ⟨info[i - 1], List.getElem?_eq_getElem hlt, ?_⟩
    obtain ⟨hfin, hmin⟩ := r2.exact (i - 1) _ (List.getElem?_eq_getElem hlt)
      (r3 (i - 1) (by omega))
    obtain ⟨hw, hnd, _⟩ := r2.sound (i - 1) _ (List.getElem?_eq_getElem hlt) hfin
    rw [Nat.sub_add_cancel hi1] at hw hmin
    exact ⟨hw, hnd, hmin⟩

/-! ### The example graph -/

theorem exGraph_sound (s : Nat) : Sound exGraph s :=
  sound_of_bound exGraph s 7 (by decide) (by decide) (by decide) (by decide)

theorem exGraph_reach : ∀ i, 1 ≤ i → i ≤ exGraph.size → ∃ p c, Walk exGraph 1 i p c := by
  intro i h1 h2
  have h3 : i ≤ 3 := h2
  have w1 : Walk exGraph 1 1 [1] 0 := Walk.start (by decide) (by decide)
  have w3 : Walk exGraph 1 3 [1, 3] 2 := Walk.step ⟨3, 2⟩ w1 (by decide)
  have w2 : Walk exGraph 1 2 [1, 3, 2] 5 := Walk.step ⟨2, 3⟩ w3 (by decide)
  interval_cases i
  · exact ⟨_, _, w1⟩
  · exact ⟨_, _, w2⟩
  · exact ⟨_, _, w3⟩

/-! ## The properties of `ALGraph` -/

/-- Claim C22: a graph is made by the constructor and changed by `AddDEdge`
and `AddUEdge` only. When the source ids of the calls lie in `1..size`, every
call returns, and afterwards the adjacency list of every node is sorted by
weight, and by destination id among entries of the same weight, and it is a
rearrangement of the edges the calls added from that node, one entry for each
(`AddUEdge` adds one edge in each direction). -/
theorem adjacency_lists_sorted (size : Nat) (calls : List Call) (hsize : size < 2 ^ 32)
    (hsrc : ∀ c ∈ calls, c.sourcesIn size) :
    ∃ g, run (ALGraph.create size) calls = some g ∧ g.size = size ∧
      ∀ i, 1 ≤ i → i ≤ size →
        (g.edges i).Pairwise AdjacencyInfo.le ∧ (g.edges i).Perm (addedFrom i calls) := by
  have hcs : (ALGraph.create size).size = size := by
    unfold ALGraph.size ALGraph.create
    exact List.length_replicate _ _
  have hnil : ∀ i, (ALGraph.create size).edges i = [] := by
    intro i
    unfold ALGraph.edges ALGraph.create
    split
    · rfl
    · rw [List.getD_eq_getElem?_getD, List.getElem?_replicate]
      split <;> rfl
  obtain ⟨g, a1, a2, a3⟩ := run_spec calls (ALGraph.create size) (by rw [hcs]; exact hsize)
    (by rw [hcs]; exact hsrc)
  refine ⟨g, a1, a2.trans hcs, ?_⟩
  intro i h1 _
  obtain ⟨b1, b2⟩ := a3 i h1
  rw [hnil i] at b1 b2
  rw [List.append_nil] at b2
  exact ⟨b1 List.Pairwise.nil, b2⟩

theorem adjacency_lists_sorted_witness :
    (3 < 2 ^ 32 ∧ ∀ c ∈ [Call.AddDEdge 1 2 7, Call.AddUEdge 3 1 2, Call.AddDEdge 1 3 2],
      c.sourcesIn 3) ∧
    run (ALGraph.create 3) [Call.AddDEdge 1 2 7, Call.AddUEdge 3 1 2, Call.AddDEdge 1 3 2]
      = some { AdjacentList := [[⟨3, 2⟩, ⟨3, 2⟩, ⟨2, 7⟩], [], [⟨1, 2⟩]] } ∧
    addedFrom 1 [Call.AddDEdge 1 2 7, Call.AddUEdge 3 1 2, Call.AddDEdge 1 3 2]
      = [⟨2, 7⟩, ⟨3, 2⟩, ⟨3, 2⟩] ∧
    ∃ g, run (ALGraph.create 3) [Call.AddDEdge 1 2 7, Call.AddUEdge 3 1 2, Call.AddDEdge 1 3 2]
        = some g ∧ g.size = 3 ∧
      ∀ i, 1 ≤ i → i ≤ 3 →
        (g.edges i).Pairwise AdjacencyInfo.le ∧
        (g.edges i).Perm
          (addedFrom i [Call.AddDEdge 1 2 7, Call.AddUEdge 3 1 2, Call.AddDEdge 1 3 2]) :=
  ⟨⟨by decide, by decide⟩, by decide, by decide,
    adjacency_lists_sorted 3 [Call.AddDEdge 1 2 7, Call.AddUEdge 3 1 2, Call.AddDEdge 1 3 2]
      (by decide) (by decide)⟩

/-- In the graph `exWrap` a walk from the node 1 that repeats no node is one
of `1`, `1, 2` and `1, 2, 3`. -/
theorem exWrap_simple {v : Nat} {p : List Nat} {c : Nat} (w : Walk exWrap 1 v p c)
    (hn : p.Nodup) :
    (v = 1 ∧ p = [1] ∧ c = 0) ∨ (v = 2 ∧ p = [1, 2] ∧ c = 1) ∨
      (v = 3 ∧ p = [1, 2, 3] ∧ c = 4294967294) := by
  induction w with
  | start _ _ => exact Or.inl ⟨rfl, rfl, rfl⟩
  | step e w he ih =>
    have hp := hn.sublist (List.sublist_append_left _ _)
    rcases ih hp with ⟨a1, a2, a3⟩ | ⟨a1, a2, a3⟩ | ⟨a1, a2, a3⟩
    · subst a1 a2 a3
      have e1 : e = ⟨2, 1⟩ := by
        have : e ∈ [(⟨2, 1⟩ : AdjacencyInfo)] := he
        simpa using this
      subst e1
      exact Or.inr (Or.inl ⟨rfl, rfl, rfl⟩)
    · subst a1 a2 a3
      have e1 : e = ⟨3, 4294967293⟩ := by
        have : e ∈ [(⟨3, 4294967293⟩ : AdjacencyInfo)] := he
        simpa using this
      subst e1
      exact Or.inr (Or.inr ⟨rfl, rfl, rfl⟩)
    · subst a1 a2 a3
      have e1 : e = ⟨2, 2⟩ := by
        have : e ∈ [(⟨2, 2⟩ : AdjacencyInfo)] := he
        simpa using this
      subst e1
      exact absurd hn (by decide)

theorem exWrap_reach : ∀ i, 1 ≤ i → i ≤ exWrap.size → ∃ p c, Walk exWrap 1 i p c := by
  intro i h1 h2
  have h3 : i ≤ 3 := h2
  have w1 : Walk exWrap 1 1 [1] 0 := Walk.start (by decide) (by decide)
  have w2 : Walk exWrap 1 2 [1, 2] 1 := Walk.step ⟨2, 1⟩ w1 (by decide)
  have w3 : Walk exWrap 1 3 [1, 2, 3] 4294967294 := Walk.step ⟨3, 4294967293⟩ w2 (by decide)
  interval_cases i
  · exact ⟨_, _, w1⟩
  · exact ⟨_, _, w2⟩
  · exact ⟨_, _, w3⟩

/-- A counterexample to C23 as stated, a path being a sequence of edges that
repeats no node. In the graph `exWrap` every edge leads to a node of the graph,
every node can be reached from the node 1, and the paths from the node 1 are
`1`, `1, 2` and `1, 2, 3`, of weight 0, 1 and 4294967294: none reaches
`2^32 - 1`. The path `1, 2` to the node 2 weighs 1. But `Dijkstra(1)` returns
for the node 2 the cost 0 and the path `1, 2, 3, 2`: when the node 3 is
explored, the sum `4294967294 + 2` wraps to 0, which is less than 1. -/
theorem dijkstra_wraps_on_cycle :
    exWrap.AdjacentList = [[⟨2, 1⟩], [⟨3, 4294967293⟩], [⟨2, 2⟩]] ∧
    exWrap.Closed ∧
    (∀ i, 1 ≤ i → i ≤ exWrap.size → ∃ p c, Walk exWrap 1 i p c) ∧
    (∀ v p c, Walk exWrap 1 v p c → p.Nodup → c < INFINITY_ALGRAPH) ∧
    Walk exWrap 1 2 [1, 2] 1 ∧
    Dijkstra exWrap 1 = some [⟨0, [1]⟩, ⟨0, [1, 2, 3, 2]⟩, ⟨4294967294, [1, 2, 3]⟩] := by
  refine ⟨by decide, by decide, exWrap_reach, ?_, ?_, by decide⟩
  · intro v p c w hn
    rcases exWrap_simple w hn with ⟨_, _, a3⟩ | ⟨_, _, a3⟩ | ⟨_, _, a3⟩ <;> rw [a3] <;> decide
  · exact Walk.step ⟨2, 1⟩ (Walk.start (by decide) (by decide)) (by decide)

/-- Claim C23, amended: take a graph of fewer than `2^31` nodes whose edges all lead to
nodes `1..size`, a start node in `1..size` from which every node can be
reached, and let every walk from the start node that repeats no node before
its last one weigh less than `2^32 - 1`. Then `Dijkstra(start_node)` returns
one entry for each node. The entry of the start node is cost 0 and path
`[start_node]`. The path of the entry of node `i` starts with `start_node`,
ends with `i`, follows edges of the graph, repeats no node, and its weights
add up to the cost of the entry; and no sequence of edges from `start_node` to
`i` weighs less than that cost. -/
theorem dijkstra_shortest_paths (g : ALGraph) (start_node : Nat)
    (hsize : g.size < 2147483648) (h1 : 1 ≤ start_node) (h2 : start_node ≤ g.size)
    (hclosed : g.Closed)
    (hreach : ∀ i, 1 ≤ i → i ≤ g.size → ∃ p c, Walk g start_node i p c)
    (hlight : ∀ v p c, Walk g start_node v p c → p.dropLast.Nodup → c < INFINITY_ALGRAPH) :
    ∃ info, Dijkstra g start_node = some info ∧ info.length = g.size ∧
      info[start_node - 1]? = some { cost := 0, path := [start_node] } ∧
      ∀ i, 1 ≤ i → i ≤ g.size → ∃ e : DijkstraInfo, info[i - 1]? = some e ∧
        Walk g start_node i e.path e.cost ∧ e.path.head? = some start_node ∧
        e.path.getLast? = some i ∧ e.path.Nodup ∧
        ∀ p c, Walk g start_node i p c → e.cost ≤ c := by
  obtain ⟨info, a1, a2, a3, a4⟩ :=
    dijkstra_spec g start_node ⟨hsize, hclosed, hlight⟩ h1 h2 hreach
  refine ⟨info, a1, a2, a3, ?_⟩
  intro i hi1 hi2
  obtain ⟨e, b1, b2, b3, b4⟩ := a4 i hi1 hi2
  exact ⟨e, b1, b2, b2.head, b2.last, b3, b4⟩

theorem dijkstra_shortest_paths_witness :
    exGraph.AdjacentList = [[⟨3, 2⟩, ⟨2, 7⟩], [⟨1, 1⟩], [⟨2, 3⟩]] ∧
    Dijkstra exGraph 1 = some [⟨0, [1]⟩, ⟨5, [1, 3, 2]⟩, ⟨2, [1, 3]⟩] ∧
    ∃ info, Dijkstra exGraph 1 = some info ∧ info.length = exGraph.size ∧
      info[1 - 1]? = some { cost := 0, path := [1] } ∧
      ∀ i, 1 ≤ i → i ≤ exGraph.size → ∃ e : DijkstraInfo, info[i - 1]? = some e ∧
        Walk exGraph 1 i e.path e.cost ∧ e.path.head? = some 1 ∧
        e.path.getLast? = some i ∧ e.path.Nodup ∧
        ∀ p c, Walk exGraph 1 i p c → e.cost ≤ c :=
  ⟨by decide, by decide,
    dijkstra_shortest_paths exGraph 1 (by decide) (by decide) (by decide) (by decide)
      exGraph_reach (exGraph_sound 1).light⟩

/-! ### Nodes that cannot be reached -/

/-- The walks of `exUnreach` from the node 1: the node itself, and the edge to
the node 2. -/
theorem exUnreach_walks {v : Nat} {p : List Nat} {c : Nat} (h : Walk exUnreach 1 v p c) :
    (v = 1 ∧ c = 0) ∨ (v = 2 ∧ c = 5) := by
  induction h with
  | start _ _ => exact Or.inl ⟨rfl, rfl⟩
  | @step v' p' c' e _ he ih =>
    rcases ih with ⟨e1, e2⟩ | ⟨e1, _⟩
    · subst e1 e2
      have : exUnreach.edges 1 = [⟨2, 5⟩] := by decide
      rw [this, List.mem_singleton] at he
      subst he
      exact Or.inr ⟨rfl, rfl⟩
    · subst e1
      have : exUnreach.edges 2 = [] := by decide
      rw [this] at he
      cases he

/-- The only walk of `exIsolated` from the node 1 is the node itself. -/
theorem exIsolated_walks {v : Nat} {p : List Nat} {c : Nat} (h : Walk exIsolated 1 v p c) :
    v = 1 := by
  induction h with
  | start _ _ => rfl
  | @step v' p' c' e _ he ih =>
    subst ih
    have : exIsolated.edges 1 = [] := by decide
    rw [this] at he
    cases he

/-! ## The properties of `ALGraph`, continued -/

/-- C40, what the code does: the outer loop of `Dijkstra` also picks the nodes
whose cost is still the infinity value and relaxes their edges, and
`4294967295 + weight` wraps around to `weight - 1`. In `exUnreach` the node 3
cannot be reached from the node 1 and every walk from 1 to the node 2 weighs 5,
the cost `Dijkstra(1)` gives without the edge 3 -> 2; with that edge the node 2
gets cost 2 and the path `[2]`. In `exIsolated` the node 3 cannot be reached
from the node 1 and gets cost 2 and the path `[3]`. -/
theorem dijkstra_unreachable_wraps :
    Dijkstra exUnreach 1 = some [⟨0, [1]⟩, ⟨2, [2]⟩, ⟨4294967295, []⟩] ∧
    Dijkstra exUnreachBare 1 = some [⟨0, [1]⟩, ⟨5, [1, 2]⟩, ⟨4294967295, []⟩] ∧
    exUnreach.AdjacentList = [[⟨2, 5⟩], [], [⟨2, 3⟩]] ∧
    exUnreachBare.AdjacentList = [[⟨2, 5⟩], [], []] ∧
    (∀ p c, ¬ Walk exUnreach 1 3 p c) ∧
    (∀ p c, Walk exUnreach 1 2 p c → c = 5) ∧
    Dijkstra exIsolated 1 = some [⟨0, [1]⟩, ⟨4294967295, []⟩, ⟨2, [3]⟩] ∧
    exIsolated.AdjacentList = [[], [⟨3, 3⟩], []] ∧
    (∀ p c, ¬ Walk exIsolated 1 3 p c) := by
  refine ⟨by decide, by decide, by decide, by decide, ?_, ?_, by decide, by decide, ?_⟩
  · intro p c h
    rcases exUnreach_walks h with ⟨e, _⟩ | ⟨e, _⟩ <;> cases e
  · intro p c h
    rcases exUnreach_walks h with ⟨e, _⟩ | ⟨_, e⟩
    · cases e
    · exact e
  · intro p c h
    have := exIsolated_walks h
    cases this

end ALG
